import Mathlib

/-!
# MultiFieldMatrix (fvm/src/modules/fvmbase/MultiFieldMatrix.cpp)

A shallow embedding of the multi-field block matrix of the fvm repository and
of its algebraic operators, smoothers and coarsening steps.

Conventions of the embedding

* A C++ `Index` is the pointer pair `(const Field*, const StorageSite*)`.  Pointers
  are handles (`Nat`); the objects they point to are read through an explicit
  `sites : Nat → StorageSite` (the heap of partition descriptors).
* `std::map` members are association lists read with `Map.find` (the first match)
  and written with `Map.insert` (replace, or add when the key is new).
* Member functions that mutate their arguments return the new values.  Containers
  handed to one call (`x`, `b`, `temp`, `y`, `r`) are distinct objects.
* In the loops the result `none` stands for a run without a defined result: a C++
  exception, or the dereference of `end()` or of a null `shared_ptr`, which is
  undefined behaviour.  The access `getMatrix` keeps the two apart (`Outcome`); the loops
  read its value with `Outcome.toOption`.
* The `int` accumulated by `getSize` is an `Int` reduced to 32 bits at every addition
  (`wrapInt32`).
* Every per-block kernel call and every ghost synchronisation is appended to a
  log of `Event`s, so that statements about which calls happen, and in which
  order, can be made.
* The abstract classes `Matrix`, `ArrayBase` and `MultiField` are declared in headers
  that are not part of the sources at hand.  The virtual kernels of `Matrix` are a
  parameter (`Matrix M R`, a record of functions over a type `M` of block objects);
  `ArrayBase` and `MultiField` are modelled from the specification.
-/

namespace FVM

/-! ## Block identities and partition descriptors -/

/-- Block identity `Index = pair<const Field*, const StorageSite*>`: a field handle
and a partition handle, compared component-wise as the pointers are. -/
abbrev Index := Nat × Nat

/-- Key of one matrix block, `EntryIndex = pair<Index, Index>`: (row, column). -/
abbrev EntryIndex := Index × Index

/-- Modelled from the spec: the partition descriptor `StorageSite` (StorageSite.h),
which exposes a self-owned count, a total count including the ghost extent, and
the registry of neighbour partitions, each with its `toIndices` table. -/
structure StorageSite where
  selfCount : Nat
  count : Nat
  mappers : List (Nat × List Nat)
deriving DecidableEq, Repr

/-! ## `std::map` as an association list -/

namespace Map

variable {κ ν : Type} [DecidableEq κ]

/-- The lookup `m.find(k)`: the value stored under `k`, `none` for `end()`. -/
def find : List (κ × ν) → κ → Option ν
  | [], _ => none
  | (k', v) :: m, k => if k' = k then some v else find m k

/-- The assignment `m[k] = v`: replaces the value of an existing key, adds the
key otherwise. -/
def insert : List (κ × ν) → κ → ν → List (κ × ν)
  | [], k, v => [(k, v)]
  | (k', v') :: m, k, v => if k' = k then (k, v) :: m else (k', v') :: insert m k v

/-- The removal `m.erase(k)`. -/
def erase (m : List (κ × ν)) (k : κ) : List (κ × ν) :=
  m.filter (fun p => decide (p.1 ≠ k))

end Map

/-! ## Arrays and containers -/

namespace ArrayBase

variable {R : Type} [Zero R]

/-- Modelled from the spec: `ArrayBase::zero()` sets every entry to zero. -/
def zero (a : List R) : List R := a.map (fun _ => 0)

/-- Modelled from the spec: `ArrayBase::copyPartial(b, iBeg, iEnd)` overwrites the
entries `iBeg ≤ k < iEnd` with those of `b` and keeps the others. -/
def copyPartial (a b : List R) (iBeg iEnd : Nat) : List R :=
  a.mapIdx (fun k v => if iBeg ≤ k ∧ k < iEnd then b.getD k v else v)

/-- Modelled from the spec: `ArrayBase::zeroPartial(iBeg, iEnd)` zeroes the entries
`iBeg ≤ k < iEnd` and keeps the others. -/
def zeroPartial (a : List R) (iBeg iEnd : Nat) : List R :=
  a.mapIdx (fun k v => if iBeg ≤ k ∧ k < iEnd then 0 else v)

/-- Modelled from the spec: `ArrayBase::copyFrom(b)` takes the entire content of `b`. -/
def copyFrom (_a b : List R) : List R := b

end ArrayBase

/-- Modelled from the spec: the unknown container `MultiField` (MultiField.h), a
sequence of blocks enumerable in a stable order (`getLength`, `getArrayIndex`) with
indexed access by block identity (`operator[]`). -/
structure MultiField (α : Type) where
  arrays : List (Index × α)
deriving DecidableEq, Repr

namespace MultiField

variable {α : Type}

/-- The length query `getLength()`. -/
def getLength (f : MultiField α) : Nat := f.arrays.length

/-- The enumeration `getArrayIndex(0), …, getArrayIndex(getLength()-1)`. -/
def indices (f : MultiField α) : List Index := f.arrays.map Prod.fst

/-- The identity `getArrayIndex(i)` of the `i`-th block. -/
def getArrayIndex (f : MultiField α) (i : Nat) : Option Index := f.indices[i]?

/-- The access `f[i]`; `none` is the exception thrown for an identity that the
container does not hold. -/
def get (f : MultiField α) (i : Index) : Option α := Map.find f.arrays i

/-- The block `f[i]` after it was mutated in place to `a`. -/
def set (f : MultiField α) (i : Index) (a : α) : MultiField α :=
  ⟨f.arrays.map (fun p => if p.1 = i then (p.1, a) else p)⟩

/-- Modelled from the spec: the blocking ghost synchronisation `syncLocal(i)`, an
externally supplied halo exchange of block `i`; `sync i f` is the content of the
block after the exchange. -/
def syncLocal (sync : Index → MultiField α → α) (f : MultiField α) (i : Index) :
    MultiField α :=
  f.set i (sync i f)

end MultiField

/-! ## Logged calls -/

/-- One call that leaves the multi-field matrix: a per-block kernel of `Matrix`,
named with the entry it is called on, or a ghost synchronisation of a row. -/
inductive Event where
  | multiplyAndAdd (row col : Index)
  | forwardGS (row : Index)
  | reverseGS (row : Index)
  | solveBoundary (row : Index)
  | syncLocal (row : Index)
  | createCoarsening (row : Index)
  | createCoarseConnectivity (row col : Index)
  | createCoarseMatrix (row col : Index)
deriving DecidableEq, Repr

/-- The row identity an event belongs to. -/
def Event.row : Event → Index
  | .multiplyAndAdd row _ => row
  | .forwardGS row => row
  | .reverseGS row => row
  | .solveBoundary row => row
  | .syncLocal row => row
  | .createCoarsening row => row
  | .createCoarseConnectivity row _ => row
  | .createCoarseMatrix row _ => row

/-! ## The per-block kernels and the aggregate -/

/-- Modelled from the spec: the adjacency object `CRConnectivity` (CRConnectivity.h),
a CSR-style mapping between two partitions: `row` holds the offsets, `col` the
entries. -/
structure CRConnectivity where
  rowSite : Nat
  colSite : Nat
  row : List Nat
  col : List Nat
deriving DecidableEq, Repr

/-- The virtual interface of the abstract class `Matrix` (Matrix.h), over a type `M`
of block objects and a scalar type `R`.  Each kernel returns what it leaves in its
mutable arguments: `multiplyAndAdd m y x` is `y` after `m.multiplyAndAdd(y, x)`;
`forwardGS m x r` is `(x, r)` after `m.forwardGS(x, r, r)`, likewise `reverseGS` and
`solveBoundary`; `createCoarsening m c g w` is `c` after the call and the returned
count. -/
structure Matrix (M R : Type) where
  multiplyAndAdd : M → List R → List R → List R
  forwardGS : M → List R → List R → List R × List R
  reverseGS : M → List R → List R → List R × List R
  solveBoundary : M → List R → List R → List R × List R
  createCoarsening : M → List Int → Int → R → List Int × Int
  createCoarseConnectivity : M → List Int → CRConnectivity → Nat → Nat → CRConnectivity
  createCoarseMatrix : M → List Int → CRConnectivity → CRConnectivity → M

/-- What evaluating a C++ expression gives: a value; a failure that the code signals (an
exception thrown, a fatal error raised); or undefined behaviour, where the code makes no
test and signals nothing, as in a dereference of the iterator `end()`. -/
inductive Outcome (α : Type) where
  | value (a : α)
  | failure (msg : String)
  | undefined
deriving DecidableEq, Repr

/-- The value of an outcome; `none` where the evaluation gives no value. -/
def Outcome.toOption {α : Type} : Outcome α → Option α
  | Outcome.value a => some a
  | Outcome.failure _ => none
  | Outcome.undefined => none

/-- The value an `int` holds after an addition whose exact result is `z`: `z` reduced to
the range `-2^31, …, 2^31 - 1` of the 32-bit `int`.  (Signed overflow is formally
undefined in C++; on the two's-complement machines the code is built for, the addition
wraps around.) -/
def wrapInt32 (z : Int) : Int := (z + 2147483648) % 4294967296 - 2147483648

/-- The members of `MultiFieldMatrix`: the block map and the AMG metadata maps.
A `shared_ptr` value is the object it owns (`coarseSites` holds partition handles). -/
structure MultiFieldMatrix (M : Type) where
  matrices : List (EntryIndex × M)
  coarseSizes : List (Index × Int)
  coarseGhostSizes : List (Index × Int)
  coarseMappers : List (EntryIndex × (List Int × List Int))
  coarseSites : List (Index × Nat)
  coarseToFineMappings : List (Index × CRConnectivity)
  coarseConnectivities : List (EntryIndex × CRConnectivity)
  coarseMatrices : List (EntryIndex × M)
deriving DecidableEq, Repr

namespace MultiFieldMatrix

variable {M R : Type}

/-- The constructor `MultiFieldMatrix()`: every map is empty. -/
def empty : MultiFieldMatrix M := ⟨[], [], [], [], [], [], [], []⟩

/-- The test `hasMatrix(row, col)`: `_matrices.find(i) != _matrices.end()`. -/
def hasMatrix (A : MultiFieldMatrix M) (row col : Index) : Bool :=
  (Map.find A.matrices (row, col)).isSome

/-- The access `getMatrix(row, col)`: `*_matrices.find(i)->second`, with no test of the
iterator against `end()`.  The first component is the block the iterator points at;
when `find` yields `end()` the dereference is undefined behaviour and the code signals
no failure.  The second component is the aggregate after the call. -/
def getMatrix (A : MultiFieldMatrix M) (row col : Index) : Outcome M × MultiFieldMatrix M :=
  (match Map.find A.matrices (row, col) with
    | some m => Outcome.value m
    | none => Outcome.undefined,
   A)

/-- The removal `removeMatrix(row, col)`: `_matrices.erase(e)`. -/
def removeMatrix (A : MultiFieldMatrix M) (row col : Index) : MultiFieldMatrix M :=
  { A with matrices := Map.erase A.matrices (row, col) }

/-- The count `getSize()`: over all entries of `_matrices`, in the order of the map,
`size += k.first.second->getCount()` for the keys with `k.first == k.second`; `size` is
an `int`, so every addition is reduced to 32 bits. -/
def getSize (sites : Nat → StorageSite) (A : MultiFieldMatrix M) : Int :=
  A.matrices.foldl
    (fun size pos =>
      if pos.1.1 = pos.1.2 then wrapInt32 (size + ((sites pos.1.1.2).count : Int)) else size)
    0

end MultiFieldMatrix

/-! ## The multiply family -/

section Operators

variable {M R : Type} [Zero R]

/-- The inner loop of `multiply`, `multiplyAndAdd` and `computeResidual`:
`for j in [0, xLen)`, with `colIndex = x.getArrayIndex(j)`, when
`hasMatrix(rowIndex, colIndex)` call `mIJ.multiplyAndAdd(yI, x[colIndex])`. -/
def columnLoop (K : Matrix M R) (A : MultiFieldMatrix M) (x : MultiField (List R))
    (rowIndex : Index) (yI : List R) (log : List Event) : Option (List R × List Event) :=
  x.indices.foldlM
    (fun acc colIndex =>
      if A.hasMatrix rowIndex colIndex then do
        let mIJ ← (A.getMatrix rowIndex colIndex).1.toOption
        let xJ ← x.get colIndex
        pure (K.multiplyAndAdd mIJ acc.1 xJ, acc.2 ++ [Event.multiplyAndAdd rowIndex colIndex])
      else pure acc)
    (yI, log)

/-- The operator `multiply(y, x)`: for every row of `y`, `yI.zero()` and then the
column loop over `x`.  The result is `y` after the call and the log of kernel calls. -/
def multiply (K : Matrix M R) (A : MultiFieldMatrix M) (y x : MultiField (List R)) :
    Option (MultiField (List R) × List Event) :=
  y.indices.foldlM
    (fun st rowIndex => do
      let yI ← st.1.get rowIndex
      let res ← columnLoop K A x rowIndex (ArrayBase.zero yI) st.2
      pure (st.1.set rowIndex res.1, res.2))
    (y, [])

/-- The operator `multiplyAndAdd(y, x)`: for every row of `y` the column loop over
`x`, on `y[rowIndex]` as it stands. -/
def multiplyAndAdd (K : Matrix M R) (A : MultiFieldMatrix M) (y x : MultiField (List R)) :
    Option (MultiField (List R) × List Event) :=
  y.indices.foldlM
    (fun st rowIndex => do
      let yI ← st.1.get rowIndex
      let res ← columnLoop K A x rowIndex yI st.2
      pure (st.1.set rowIndex res.1, res.2))
    (y, [])

/-- The operator `computeResidual(x, b, r)`: for every row of `x` with a diagonal
entry, `rI.copyPartial(bI, 0, selfCount)`, `rI.zeroPartial(selfCount, count)` and
then the column loop over `x` on `rI`. -/
def computeResidual (K : Matrix M R) (A : MultiFieldMatrix M) (sites : Nat → StorageSite)
    (x b r : MultiField (List R)) : Option (MultiField (List R) × List Event) :=
  x.indices.foldlM
    (fun st rowIndex =>
      if A.hasMatrix rowIndex rowIndex then do
        let bI ← b.get rowIndex
        let rI ← st.1.get rowIndex
        let rI1 := ArrayBase.copyPartial rI bI 0 (sites rowIndex.2).selfCount
        let rI2 := ArrayBase.zeroPartial rI1 (sites rowIndex.2).selfCount (sites rowIndex.2).count
        let res ← columnLoop K A x rowIndex rI2 st.2
        pure (st.1.set rowIndex res.1, res.2)
      else pure st)
    (r, [])

/-! ## The block Gauss–Seidel sweeps -/

/-- The state of a sweep: the unknowns `x`, the scratch container `temp`, the log. -/
structure GSState (R : Type) where
  x : MultiField (List R)
  temp : MultiField (List R)
  log : List Event
deriving DecidableEq, Repr

/-- The inner loop of the sweeps: `for j in [0, xLen)`, when
`(rowIndex != colIndex) && hasMatrix(rowIndex, colIndex)` call
`mIJ.multiplyAndAdd(r, x[colIndex])`. -/
def offDiagonalLoop (K : Matrix M R) (A : MultiFieldMatrix M) (x : MultiField (List R))
    (rowIndex : Index) (r : List R) (log : List Event) : Option (List R × List Event) :=
  x.indices.foldlM
    (fun acc colIndex =>
      if rowIndex ≠ colIndex ∧ A.hasMatrix rowIndex colIndex = true then do
        let mIJ ← (A.getMatrix rowIndex colIndex).1.toOption
        let xJ ← x.get colIndex
        pure (K.multiplyAndAdd mIJ acc.1 xJ, acc.2 ++ [Event.multiplyAndAdd rowIndex colIndex])
      else pure acc)
    (r, log)

/-- The body of the row loop of `forwardGS` for one `rowIndex`. -/
def forwardGSRow (K : Matrix M R) (A : MultiFieldMatrix M) (sites : Nat → StorageSite)
    (sync : Index → MultiField (List R) → List R) (b : MultiField (List R))
    (s : GSState R) (rowIndex : Index) : Option (GSState R) :=
  if A.hasMatrix rowIndex rowIndex then do
    let bI ← b.get rowIndex
    let r ← s.temp.get rowIndex
    let r1 := ArrayBase.copyPartial r bI 0 (sites rowIndex.2).selfCount
    let res ← offDiagonalLoop K A s.x rowIndex r1 s.log
    let mII ← (A.getMatrix rowIndex rowIndex).1.toOption
    let x1 := s.x.syncLocal sync rowIndex
    let xI ← x1.get rowIndex
    let out := K.forwardGS mII xI res.1
    pure { x := x1.set rowIndex out.1, temp := s.temp.set rowIndex out.2,
           log := res.2 ++ [Event.syncLocal rowIndex, Event.forwardGS rowIndex] }
  else pure s

/-- The sweep `forwardGS(x, b, temp)`: rows `i = 0, …, xLen-1`. -/
def forwardGS (K : Matrix M R) (A : MultiFieldMatrix M) (sites : Nat → StorageSite)
    (sync : Index → MultiField (List R) → List R) (x b temp : MultiField (List R)) :
    Option (GSState R) :=
  x.indices.foldlM (forwardGSRow K A sites sync b) ⟨x, temp, []⟩

/-- The body of the row loop of `solveBoundary` for one `rowIndex`. -/
def solveBoundaryRow (K : Matrix M R) (A : MultiFieldMatrix M) (b : MultiField (List R))
    (s : GSState R) (rowIndex : Index) : Option (GSState R) :=
  if A.hasMatrix rowIndex rowIndex then do
    let bI ← b.get rowIndex
    let r ← s.temp.get rowIndex
    let r1 := ArrayBase.copyFrom r bI
    let res ← offDiagonalLoop K A s.x rowIndex r1 s.log
    let mII ← (A.getMatrix rowIndex rowIndex).1.toOption
    let xI ← s.x.get rowIndex
    let out := K.solveBoundary mII xI res.1
    pure { x := s.x.set rowIndex out.1, temp := s.temp.set rowIndex out.2,
           log := res.2 ++ [Event.solveBoundary rowIndex] }
  else pure s

/-- The operator `solveBoundary(x, b, temp)`: rows `i = 0, …, xLen-1`. -/
def solveBoundary (K : Matrix M R) (A : MultiFieldMatrix M)
    (x b temp : MultiField (List R)) : Option (GSState R) :=
  x.indices.foldlM (solveBoundaryRow K A b) ⟨x, temp, []⟩

/-- The body of the row loop of `reverseGS` for one `rowIndex`. -/
def reverseGSRow (K : Matrix M R) (A : MultiFieldMatrix M) (sites : Nat → StorageSite)
    (sync : Index → MultiField (List R) → List R) (b : MultiField (List R))
    (s : GSState R) (rowIndex : Index) : Option (GSState R) :=
  if A.hasMatrix rowIndex rowIndex then do
    let bI ← b.get rowIndex
    let r ← s.temp.get rowIndex
    let r1 := ArrayBase.copyPartial r bI 0 (sites rowIndex.2).selfCount
    let res ← offDiagonalLoop K A s.x rowIndex r1 s.log
    let mII ← (A.getMatrix rowIndex rowIndex).1.toOption
    let x1 := s.x.syncLocal sync rowIndex
    let xI ← x1.get rowIndex
    let out := K.reverseGS mII xI res.1
    pure { x := x1.set rowIndex out.1, temp := s.temp.set rowIndex out.2,
           log := res.2 ++ [Event.syncLocal rowIndex, Event.reverseGS rowIndex] }
  else pure s

/-- The sweep `reverseGS(x, b, temp)`: rows `i = xLen-1, …, 0`. -/
def reverseGS (K : Matrix M R) (A : MultiFieldMatrix M) (sites : Nat → StorageSite)
    (sync : Index → MultiField (List R) → List R) (x b temp : MultiField (List R)) :
    Option (GSState R) :=
  x.indices.reverse.foldlM (reverseGSRow K A sites sync b) ⟨x, temp, []⟩

end Operators

/-! ## The coarsening steps -/

section Coarsening

variable {M R : Type}

/-- The state threaded through `createCoarsening`: the aggregate, the coarse-index
container and the log. -/
structure CoarseningState (M : Type) where
  matrix : MultiFieldMatrix M
  coarseIndex : MultiField (List Int)
  log : List Event

/-- The body of the row loop of `createCoarsening` for one `rowIndex`: when the row has
a diagonal entry, `_coarseSizes[rowIndex]` is assigned what
`mII.createCoarsening(coarseIndex[rowIndex], groupSize, weightRatioThreshold)`
returns. -/
def createCoarseningRow (K : Matrix M R) (groupSize : Int) (weightRatioThreshold : R)
    (st : CoarseningState M) (rowIndex : Index) : Option (CoarseningState M) :=
  if st.matrix.hasMatrix rowIndex rowIndex then do
    let mII ← (st.matrix.getMatrix rowIndex rowIndex).1.toOption
    let cI ← st.coarseIndex.get rowIndex
    let out := K.createCoarsening mII cI groupSize weightRatioThreshold
    pure { matrix := { st.matrix with
             coarseSizes := Map.insert st.matrix.coarseSizes rowIndex out.2 },
           coarseIndex := st.coarseIndex.set rowIndex out.1,
           log := st.log ++ [Event.createCoarsening rowIndex] }
  else pure st

/-- The step `createCoarsening(coarseIndex, groupSize, weightRatioThreshold)`: the rows
`i = 0, …, xLen-1` of `coarseIndex`. -/
def createCoarsening (K : Matrix M R) (A : MultiFieldMatrix M)
    (coarseIndex : MultiField (List Int)) (groupSize : Int) (weightRatioThreshold : R) :
    Option (CoarseningState M) :=
  coarseIndex.indices.foldlM (createCoarseningRow K groupSize weightRatioThreshold)
    ⟨A, coarseIndex, []⟩

/-- The body of the column loop of `createCoarseConnectivity` for one `colIndex`: when
`hasMatrix(rowIndex, colIndex)`, the connectivity that `mIJ.createCoarseConnectivity`
returns is stored in `_coarseConnectivities[e]`. -/
def createCoarseConnectivityEntry (K : Matrix M R) (coarseIndex : MultiField (List Int))
    (rowIndex : Index) (coarseRowSite : Nat) (coarseToFine : CRConnectivity)
    (st : MultiFieldMatrix M × List Event) (colIndex : Index) :
    Option (MultiFieldMatrix M × List Event) :=
  if st.1.hasMatrix rowIndex colIndex then do
    let mIJ ← (st.1.getMatrix rowIndex colIndex).1.toOption
    let coarseColSite ← Map.find st.1.coarseSites colIndex
    let cI ← coarseIndex.get rowIndex
    let coarseConnectivity :=
      K.createCoarseConnectivity mIJ cI coarseToFine coarseRowSite coarseColSite
    pure ({ st.1 with
            coarseConnectivities :=
              Map.insert st.1.coarseConnectivities (rowIndex, colIndex) coarseConnectivity },
          st.2 ++ [Event.createCoarseConnectivity rowIndex colIndex])
  else pure st

/-- The body of the row loop of `createCoarseConnectivity` for one `rowIndex`:
`*_coarseSites[rowIndex]` and `*_coarseToFineMappings[rowIndex]` are read, then the
columns `j = 0, …, xLen-1` are visited. -/
def createCoarseConnectivityRow (K : Matrix M R) (coarseIndex : MultiField (List Int))
    (st : MultiFieldMatrix M × List Event) (rowIndex : Index) :
    Option (MultiFieldMatrix M × List Event) := do
  let coarseRowSite ← Map.find st.1.coarseSites rowIndex
  let coarseToFine ← Map.find st.1.coarseToFineMappings rowIndex
  coarseIndex.indices.foldlM
    (createCoarseConnectivityEntry K coarseIndex rowIndex coarseRowSite coarseToFine) st

/-- The step `createCoarseConnectivity(coarseIndex)`: the rows `i = 0, …, xLen-1` of
`coarseIndex`. -/
def createCoarseConnectivity (K : Matrix M R) (A : MultiFieldMatrix M)
    (coarseIndex : MultiField (List Int)) : Option (MultiFieldMatrix M × List Event) :=
  coarseIndex.indices.foldlM (createCoarseConnectivityRow K coarseIndex) (A, [])

/-- The body of the column loop of `createCoarseMatrices` for one `colIndex`: when
`hasMatrix(rowIndex, colIndex)`, the block that `mIJ.createCoarseMatrix` returns from
`*_coarseConnectivities[e]` is stored in `_coarseMatrices[e]`. -/
def createCoarseMatricesEntry (K : Matrix M R) (coarseIndex : MultiField (List Int))
    (rowIndex : Index) (coarseToFine : CRConnectivity)
    (st : MultiFieldMatrix M × List Event) (colIndex : Index) :
    Option (MultiFieldMatrix M × List Event) :=
  if st.1.hasMatrix rowIndex colIndex then do
    let mIJ ← (st.1.getMatrix rowIndex colIndex).1.toOption
    let coarseConnectivity ← Map.find st.1.coarseConnectivities (rowIndex, colIndex)
    let cI ← coarseIndex.get rowIndex
    let coarseMatrix := K.createCoarseMatrix mIJ cI coarseToFine coarseConnectivity
    pure ({ st.1 with
            coarseMatrices :=
              Map.insert st.1.coarseMatrices (rowIndex, colIndex) coarseMatrix },
          st.2 ++ [Event.createCoarseMatrix rowIndex colIndex])
  else pure st

/-- The body of the row loop of `createCoarseMatrices` for one `rowIndex`:
`*_coarseToFineMappings[rowIndex]` is read, then the columns `j = 0, …, xLen-1` are
visited. -/
def createCoarseMatricesRow (K : Matrix M R) (coarseIndex : MultiField (List Int))
    (st : MultiFieldMatrix M × List Event) (rowIndex : Index) :
    Option (MultiFieldMatrix M × List Event) := do
  let coarseToFine ← Map.find st.1.coarseToFineMappings rowIndex
  coarseIndex.indices.foldlM
    (createCoarseMatricesEntry K coarseIndex rowIndex coarseToFine) st

/-- The step `createCoarseMatrices(coarseIndex)`: the rows `i = 0, …, xLen-1` of
`coarseIndex`. -/
def createCoarseMatrices (K : Matrix M R) (A : MultiFieldMatrix M)
    (coarseIndex : MultiField (List Int)) : Option (MultiFieldMatrix M × List Event) :=
  coarseIndex.indices.foldlM (createCoarseMatricesRow K coarseIndex) (A, [])

end Coarsening

/-! ## Reference quantities used in the statements -/

section Reference

variable {M R : Type}

/-- The columns the inner loop of the multiply family acts on for `row`: the
identities enumerated by `x` for which an entry `(row, col)` exists. -/
def couplings (A : MultiFieldMatrix M) (x : MultiField (List R)) (row : Index) : List Index :=
  x.indices.filter (fun col => A.hasMatrix row col)

/-- The columns the inner loop of the sweeps acts on for `row`: the identities
enumerated by `x`, other than `row`, for which an entry `(row, col)` exists. -/
def offDiagonalCouplings (A : MultiFieldMatrix M) (x : MultiField (List R)) (row : Index) :
    List Index :=
  x.indices.filter (fun col => decide (row ≠ col ∧ A.hasMatrix row col = true))

/-- The block `yI` after the kernels of the entries `(row, col)`, `col` in `cols`, were
applied to it in turn, each with the block `x[col]`. -/
def accumulate (K : Matrix M R) (A : MultiFieldMatrix M) (x : MultiField (List R))
    (row : Index) (cols : List Index) (yI : List R) : List R :=
  cols.foldl
    (fun acc col =>
      match (A.getMatrix row col).1.toOption, x.get col with
      | some mIJ, some xJ => K.multiplyAndAdd mIJ acc xJ
      | _, _ => acc)
    yI

/-- Component `k` of the product `A[row,col]·x[col]`, where `act m v k` is component
`k` of the product of block `m` with `v`; zero when the entry or the block is absent. -/
def blockTerm [Zero R] (act : M → List R → Nat → R) (A : MultiFieldMatrix M)
    (x : MultiField (List R)) (row col : Index) (k : Nat) : R :=
  match (A.getMatrix row col).1.toOption, x.get col with
  | some mIJ, some xJ => act mIJ xJ k
  | _, _ => 0

/-- Component `k` of the sum of the products `A[row,col]·x[col]` over `col` in `cols`. -/
def blockSum [AddMonoid R] (act : M → List R → Nat → R) (A : MultiFieldMatrix M)
    (x : MultiField (List R)) (row : Index) (cols : List Index) (k : Nat) : R :=
  (cols.map (fun col => blockTerm act A x row col k)).sum

/-- A kernel `multiplyAndAdd` that adds the product to its first argument: the
result has the length of `yI` and component `k` is `yI[k] + (m·xJ)[k]`. -/
def Additive [Add R] (K : Matrix M R) (act : M → List R → Nat → R) : Prop :=
  ∀ (m : M) (yI xJ : List R) (k : Nat),
    (K.multiplyAndAdd m yI xJ)[k]? = (yI[k]?).map (fun v => v + act m xJ k)

/-- The container with every block set to zero. -/
def MultiField.zeroAll [Zero R] (y : MultiField (List R)) : MultiField (List R) :=
  ⟨y.arrays.map (fun p => (p.1, ArrayBase.zero p.2))⟩

/-- The container with block `i` replaced by `F i (f[i])`, for every `i`. -/
def MultiField.mapBlocks {α : Type} (F : Index → α → α) (f : MultiField α) : MultiField α :=
  ⟨f.arrays.map (fun p => (p.1, F p.1 p.2))⟩

/-- The container with block `i` replaced by `F i (f[i])` for the rows `i` selected by
`P`; the other blocks are kept. -/
def MultiField.mapOn {α : Type} (P : Index → Bool) (F : Index → α → α) (f : MultiField α) :
    MultiField α :=
  ⟨f.arrays.map (fun p => if P p.1 = true then (p.1, F p.1 p.2) else p)⟩

/-- The block that `computeResidual` leaves for a row with a diagonal entry, from the
block `rI` it finds and the right-hand side `b`. -/
def residualBlock [Zero R] (K : Matrix M R) (A : MultiFieldMatrix M) (sites : Nat → StorageSite)
    (x b : MultiField (List R)) (i : Index) (rI : List R) : List R :=
  match b.get i with
  | some bI =>
    accumulate K A x i (couplings A x i)
      (ArrayBase.zeroPartial (ArrayBase.copyPartial rI bI 0 (sites i.2).selfCount)
        (sites i.2).selfCount (sites i.2).count)
  | none => rI

/-- The state `t` of a coarsening step continues the state `s`: the block map, the
coarse partitions and the coarse-to-fine adjacencies are those of `s`, and every key of
`coarseConnectivities` and of `coarseMatrices` and every logged call of `s` is kept. -/
def Continues (s t : MultiFieldMatrix M × List Event) : Prop :=
  t.1.matrices = s.1.matrices ∧ t.1.coarseSites = s.1.coarseSites ∧
    t.1.coarseToFineMappings = s.1.coarseToFineMappings ∧
    (∀ e, (Map.find s.1.coarseConnectivities e).isSome = true →
      (Map.find t.1.coarseConnectivities e).isSome = true) ∧
    (∀ e, (Map.find s.1.coarseMatrices e).isSome = true →
      (Map.find t.1.coarseMatrices e).isSome = true) ∧
    (∀ ev ∈ s.2, ev ∈ t.2)

/-- The row `row` is out of reach of `createCoarsening` in state `st`: the block map is
that of `A`, the entry of `coarseSizes` and the block of `coarseIndex` for `row` are the
initial ones, no logged call belongs to `row`, and the enumeration is the initial one. -/
def NotAggregated (row : Index) (A : MultiFieldMatrix M) (coarseIndex : MultiField (List Int))
    (st : CoarseningState M) : Prop :=
  st.matrix.matrices = A.matrices ∧
    Map.find st.matrix.coarseSizes row = Map.find A.coarseSizes row ∧
    st.coarseIndex.get row = coarseIndex.get row ∧ (∀ e ∈ st.log, e.row ≠ row) ∧
    st.coarseIndex.indices = coarseIndex.indices

/-- The row `row` is out of a sweep's reach in state `s`: its blocks of `x` and `temp`
are the initial ones, no logged call belongs to it, and the enumerations are the
initial ones. -/
def Untouched (row : Index) (x temp : MultiField (List R)) (s : GSState R) : Prop :=
  s.x.get row = x.get row ∧ s.temp.get row = temp.get row ∧ (∀ e ∈ s.log, e.row ≠ row) ∧
    s.x.indices = x.indices ∧ s.temp.indices = temp.indices

end Reference

/-! ## Concrete kernels and systems -/

section Examples

/-- A kernel over the integers for blocks `m·I`, scalar multiples of the identity:
`multiplyAndAdd` adds `m·x` to `y`, the relaxations solve `m·x + r = 0` for `x` and leave
`r` as it is, the aggregation groups `groupSize` consecutive rows. -/
def scalarKernel : Matrix Int Int where
  multiplyAndAdd m y x := y.mapIdx (fun k v => v + m * x.getD k 0)
  forwardGS m x r := (x.mapIdx (fun k _ => -(r.getD k 0) / m), r)
  reverseGS m x r := (x.mapIdx (fun k _ => -(r.getD k 0) / m), r)
  solveBoundary m x r := (x.mapIdx (fun k _ => -(r.getD k 0) / m), r)
  createCoarsening _ c g _ := (c.mapIdx (fun k _ => (k : Int) / g), ((c.length : Int) + g - 1) / g)
  createCoarseConnectivity _ _ c2f rs cs := ⟨rs, cs, c2f.row, c2f.col⟩
  createCoarseMatrix m _ _ _ := m

/-- Component `k` of the product of the block `m·I` with `x`. -/
def scalarAct (m : Int) (x : List Int) (k : Nat) : Int := m * x.getD k 0

/-- A halo exchange with no neighbour: the block is left as it is. -/
def keepBlock {α : Type} (i : Index) (f : MultiField (List α)) : List α := (f.get i).getD []

/-- Two block identities of one field, on the partitions `0` and `1`. -/
def row0 : Index := (0, 0)

/-- The second block identity. -/
def row1 : Index := (0, 1)

/-- Partitions with two self-owned entries and one ghost entry, without neighbours. -/
def exampleSites : Nat → StorageSite := fun _ => ⟨2, 3, []⟩

/-- Partitions with `2^30` self-owned entries and no ghost entry, without neighbours. -/
def hugeSites : Nat → StorageSite := fun _ => ⟨1073741824, 1073741824, []⟩

/-- A matrix with the diagonal blocks `2·I` and `I` and the coupling `3·I` of row `row0`
to `row1`. -/
def exampleMatrix : MultiFieldMatrix Int :=
  { MultiFieldMatrix.empty with
    matrices := [((row0, row0), 2), ((row0, row1), 3), ((row1, row1), 1)] }

/-- The identity matrix on the two block identities. -/
def identityMatrix : MultiFieldMatrix Int :=
  { MultiFieldMatrix.empty with matrices := [((row0, row0), 1), ((row1, row1), 1)] }

/-- A matrix in which `row1` has the off-diagonal coupling `(row1, row0)` and no
diagonal entry; coarse partitions are registered for both rows, and a
coarse-to-fine adjacency for both. -/
def offDiagonalOnlyMatrix : MultiFieldMatrix Int :=
  { MultiFieldMatrix.empty with
    matrices := [((row0, row0), 1), ((row1, row0), 3)]
    coarseSites := [(row0, 10), (row1, 11)]
    coarseToFineMappings := [(row0, ⟨10, 0, [0, 2, 3], [0, 1, 2]⟩),
                             (row1, ⟨11, 1, [0, 2, 3], [0, 1, 2]⟩)] }

/-- Unknowns for the two rows. -/
def exampleX : MultiField (List Int) := ⟨[(row0, [1, 1, 1]), (row1, [1, 2, 3])]⟩

/-- Right-hand sides for the two rows. -/
def exampleB : MultiField (List Int) := ⟨[(row0, [5, 5, 5]), (row1, [4, 4, 4])]⟩

/-- A result or scratch container for the two rows, with arbitrary content. -/
def exampleY : MultiField (List Int) := ⟨[(row0, [9, 9, 9]), (row1, [7, 7, 7])]⟩

/-- A coarse-index container for the two rows. -/
def exampleCoarseIndex : MultiField (List Int) := ⟨[(row0, [0, 0, 0]), (row1, [0, 0, 0])]⟩

end Examples

/-! ## Reference quantities for the reverse sweep and the call logs -/

section SweepReference

variable {M R : Type}

/-- The kernels of `K` with the reverse relaxation in the place of the forward one. -/
def Matrix.reverseAsForward (K : Matrix M R) : Matrix M R :=
  { K with forwardGS := K.reverseGS }

/-- The call `e` with a forward relaxation named as the reverse relaxation of the same
row; every other call is kept. -/
def Event.asReverse : Event → Event
  | .forwardGS row => .reverseGS row
  | e => e

/-- The sweep state with every logged call renamed by `g`. -/
def GSState.mapLog (g : Event → Event) (s : GSState R) : GSState R :=
  { s with log := s.log.map g }

/-- The calls a forward sweep makes for the row `i` of `x`: the kernels of the
off-diagonal couplings, then the ghost synchronisation, then the forward relaxation
of the diagonal block. -/
def forwardCalls (A : MultiFieldMatrix M) (x : MultiField (List R)) (i : Index) : List Event :=
  (offDiagonalCouplings A x i).map (Event.multiplyAndAdd i) ++
    [Event.syncLocal i, Event.forwardGS i]

/-- The calls a reverse sweep makes for the row `i` of `x`. -/
def reverseCalls (A : MultiFieldMatrix M) (x : MultiField (List R)) (i : Index) : List Event :=
  (offDiagonalCouplings A x i).map (Event.multiplyAndAdd i) ++
    [Event.syncLocal i, Event.reverseGS i]

/-- The rows of `x` with a diagonal entry, in the order of the enumeration. -/
def solvableRows (A : MultiFieldMatrix M) (x : MultiField (List R)) : List Index :=
  x.indices.filter (fun i => A.hasMatrix i i)

end SweepReference

/-- The call `e` is a ghost synchronisation. -/
def Event.isSyncLocal : Event → Bool
  | .syncLocal _ => true
  | _ => false

/-! ## Ghost reconciliation and the coarse-to-fine adjacency -/

section GhostCoarsening

variable {M : Type}

/-- The assignment `m[k] = v` on a `std::map<int, int>`, kept in the increasing order of
the keys in which the iteration of the map visits them. -/
def Map.insertSorted {ν : Type} : List (Int × ν) → Int → ν → List (Int × ν)
  | [], k, v => [(k, v)]
  | (k', v') :: m, k, v =>
    if k < k' then (k, v) :: (k', v') :: m
    else if k = k' then (k, v) :: m
    else (k', v') :: Map.insertSorted m k v

/-- The variables of the loop over the ghost rows of one neighbour in
`syncGhostCoarsening`: the array `coarseIndex` of the row, the counter
`coarseGhostSize` and the map `otherToMyMapping`. -/
structure GhostState where
  coarseIndex : List Int
  coarseGhostSize : Int
  otherToMyMapping : List (Int × Int)
deriving DecidableEq, Repr

/-- The body of the loop over the ghost rows for one `fineIndex = toIndices[ng]`: the
coarse id found at `fineIndex` is replaced by the id `otherToMyMapping` holds for it,
or by the fresh id `coarseGhostSize + coarseSize`, which is then recorded. -/
def syncGhostRow (coarseSize : Int) (g : GhostState) (fineIndex : Nat) : Option GhostState := do
  let coarseOtherIndex ← g.coarseIndex[fineIndex]?
  match Map.find g.otherToMyMapping coarseOtherIndex with
  | some mine => pure { g with coarseIndex := g.coarseIndex.set fineIndex mine }
  | none =>
    pure { coarseIndex := g.coarseIndex.set fineIndex (g.coarseGhostSize + coarseSize),
           coarseGhostSize := g.coarseGhostSize + 1,
           otherToMyMapping :=
             Map.insertSorted g.otherToMyMapping coarseOtherIndex
               (g.coarseGhostSize + coarseSize) }

/-- The variables of the loop over the neighbours of one row in `syncGhostCoarsening`:
the array `coarseIndex` of the row, the counter `coarseGhostSize` and the member
`_coarseMappers`. -/
structure NeighbourState where
  coarseIndex : List Int
  coarseGhostSize : Int
  coarseMappers : List (EntryIndex × (List Int × List Int))
deriving DecidableEq, Repr

/-- The body of the loop over the neighbours for one entry `pos = (oSite, toIndices)` of
the mappers of the site: the ghost rows are renumbered from an empty
`otherToMyMapping`, and `OneToOneIndexMap(coarseFromIndices, coarseToIndices)`, the keys
and the values of the map in the order of its iteration, is stored in
`_coarseMappers[e]` for `e = (rowIndex, (rowIndex.first, oSite))`. -/
def syncNeighbour (rowIndex : Index) (coarseSize : Int) (n : NeighbourState)
    (pos : Nat × List Nat) : Option NeighbourState := do
  let g ← pos.2.foldlM (syncGhostRow coarseSize) ⟨n.coarseIndex, n.coarseGhostSize, []⟩
  let coarseToIndices := g.otherToMyMapping.map Prod.snd
  let coarseFromIndices := g.otherToMyMapping.map Prod.fst
  pure { coarseIndex := g.coarseIndex,
         coarseGhostSize := g.coarseGhostSize,
         coarseMappers :=
           Map.insert n.coarseMappers (rowIndex, (rowIndex.1, pos.1))
             (coarseFromIndices, coarseToIndices) }

/-- The body of the row loop of `syncGhostCoarsening` for one `rowIndex`:
`coarseIndexField[rowIndex]` and `_coarseSizes.find(rowIndex)->second` are read, the
neighbours of the site are visited from `coarseGhostSize = 0`, and
`_coarseGhostSizes[rowIndex]` is assigned the counter. -/
def syncGhostCoarseningRow (sites : Nat → StorageSite)
    (st : MultiFieldMatrix M × MultiField (List Int)) (rowIndex : Index) :
    Option (MultiFieldMatrix M × MultiField (List Int)) := do
  let coarseIndex ← st.2.get rowIndex
  let coarseSize ← Map.find st.1.coarseSizes rowIndex
  let n ← (sites rowIndex.2).mappers.foldlM (syncNeighbour rowIndex coarseSize)
    ⟨coarseIndex, 0, st.1.coarseMappers⟩
  pure ({ st.1 with
          coarseMappers := n.coarseMappers
          coarseGhostSizes := Map.insert st.1.coarseGhostSizes rowIndex n.coarseGhostSize },
        st.2.set rowIndex n.coarseIndex)

/-- The step `syncGhostCoarsening(coarseIndexField)`: the rows `i = 0, …, xLen-1`. -/
def syncGhostCoarsening (A : MultiFieldMatrix M) (sites : Nat → StorageSite)
    (coarseIndexField : MultiField (List Int)) :
    Option (MultiFieldMatrix M × MultiField (List Int)) :=
  coarseIndexField.indices.foldlM (syncGhostCoarseningRow sites) (A, coarseIndexField)

/-- Modelled from the spec: a `CRConnectivity` under incremental construction
(CRConnectivity.h): counts are declared for the `rowDim` rows, the counting is
finalised, entries are added to the rows, and the adding is finalised. -/
structure CRBuilder where
  rowSite : Nat
  colSite : Nat
  counts : List Nat
  rows : List (List Nat)
deriving DecidableEq, Repr

/-- Modelled from the spec: `new CRConnectivity(rowSite, colSite)` followed by
`initCount()`; every one of the `rowDim` rows has the count zero. -/
def CRBuilder.initCount (rowSite colSite rowDim : Nat) : CRBuilder :=
  ⟨rowSite, colSite, List.replicate rowDim 0, []⟩

/-- Modelled from the spec: `addCount(index, count)` declares `count` more entries for
the row `index`; `none` for a row beyond `rowDim`. -/
def CRBuilder.addCount (b : CRBuilder) (index count : Nat) : Option CRBuilder :=
  if index < b.counts.length then
    some { b with counts := b.counts.set index (b.counts.getD index 0 + count) }
  else none

/-- Modelled from the spec: `finishCount()` lays out one empty row of the declared
capacity for each of the rows. -/
def CRBuilder.finishCount (b : CRBuilder) : CRBuilder :=
  { b with rows := List.replicate b.counts.length [] }

/-- Modelled from the spec: `add(index, val)` appends the entry `val` to the row `index`;
`none` for a row beyond `rowDim` and for a row that already holds its declared count. -/
def CRBuilder.add (b : CRBuilder) (index val : Nat) : Option CRBuilder :=
  if index < b.rows.length ∧ (b.rows.getD index []).length < b.counts.getD index 0 then
    some { b with rows := b.rows.set index (b.rows.getD index [] ++ [val]) }
  else none

/-- Modelled from the spec: `finishAdd()` yields the CSR-style mapping: `row` holds the
offset of every row and the total, `col` the entries of the rows one after another. -/
def CRBuilder.finishAdd (b : CRBuilder) : CRConnectivity :=
  { rowSite := b.rowSite
    colSite := b.colSite
    row := (List.range (b.rows.length + 1)).map
      (fun i => ((b.rows.map List.length).take i).sum)
    col := b.rows.flatten }

/-- The entries listed under the row `i` of a CSR-style mapping:
`col[row[i]], …, col[row[i+1]-1]`. -/
def CRConnectivity.getRow (c : CRConnectivity) (i : Nat) : List Nat :=
  (c.col.take (c.row.getD (i + 1) 0)).drop (c.row.getD i 0)

/-- The first loop over the fine rows in `createCoarseToFineMapping`: for `nr` with
`coarseIndex[nr] >= 0`, `addCount(coarseIndex[nr], 1)`. -/
def countFineRow (coarseIndex : List Int) (b : CRBuilder) (nr : Nat) : Option CRBuilder := do
  let c ← coarseIndex[nr]?
  if 0 ≤ c then b.addCount c.toNat 1 else pure b

/-- The second loop over the fine rows in `createCoarseToFineMapping`: for `nr` with
`coarseIndex[nr] >= 0`, `add(coarseIndex[nr], nr)`. -/
def addFineRow (coarseIndex : List Int) (b : CRBuilder) (nr : Nat) : Option CRBuilder := do
  let c ← coarseIndex[nr]?
  if 0 ≤ c then b.add c.toNat nr else pure b

/-- The adjacency that `createCoarseToFineMapping` builds for one row from the coarse
partition `coarseSite`, the fine partition `fineSite` and the array `coarseIndex`. -/
def buildCoarseToFine (sites : Nat → StorageSite) (coarseSite fineSite : Nat)
    (coarseIndex : List Int) : Option CRConnectivity := do
  let nFineRows := (sites fineSite).count
  let b0 := CRBuilder.initCount coarseSite fineSite (sites coarseSite).count
  let b1 ← (List.range nFineRows).foldlM (countFineRow coarseIndex) b0
  let b2 := b1.finishCount
  let b3 ← (List.range nFineRows).foldlM (addFineRow coarseIndex) b2
  pure b3.finishAdd

/-- The body of the row loop of `createCoarseToFineMapping` for one `rowIndex`:
`*_coarseSites[rowIndex]` and `coarseIndexField[rowIndex]` are read, the adjacency is
built and stored in `_coarseToFineMappings[rowIndex]`. -/
def createCoarseToFineMappingRow (sites : Nat → StorageSite)
    (coarseIndexField : MultiField (List Int)) (A : MultiFieldMatrix M) (rowIndex : Index) :
    Option (MultiFieldMatrix M) := do
  let coarseSite ← Map.find A.coarseSites rowIndex
  let coarseIndex ← coarseIndexField.get rowIndex
  let coarseToFine ← buildCoarseToFine sites coarseSite rowIndex.2 coarseIndex
  pure { A with
         coarseToFineMappings := Map.insert A.coarseToFineMappings rowIndex coarseToFine }

/-- The step `createCoarseToFineMapping(coarseIndexField)`: the rows `i = 0, …, xLen-1`. -/
def createCoarseToFineMapping (A : MultiFieldMatrix M) (sites : Nat → StorageSite)
    (coarseIndexField : MultiField (List Int)) : Option (MultiFieldMatrix M) :=
  coarseIndexField.indices.foldlM (createCoarseToFineMappingRow sites coarseIndexField) A

end GhostCoarsening

/-! ## Reachable states and the values the coarsening steps store -/

section ReachableStates

variable {M R : Type}

/-- Modelled from the spec: block insertion (MultiFieldMatrix.h), by which the block
matrices are added during assembly: the block `m` is stored under `(row, col)`. -/
def MultiFieldMatrix.addMatrix (A : MultiFieldMatrix M) (row col : Index) (m : M) :
    MultiFieldMatrix M :=
  { A with matrices := Map.insert A.matrices (row, col) m }

/-- Modelled from the spec: the registration of the coarse partition of `row` in
`coarseSites`, which the driver of the coarsening makes; no member function of the
class at hand assigns `_coarseSites`. -/
def MultiFieldMatrix.setCoarseSite (A : MultiFieldMatrix M) (row : Index) (site : Nat) :
    MultiFieldMatrix M :=
  { A with coarseSites := Map.insert A.coarseSites row site }

/-- Invariant I3: every key of `coarseConnectivities` and of `coarseMatrices` is a key of
`matrices`. -/
def InvariantI3 (A : MultiFieldMatrix M) : Prop :=
  (∀ e, (Map.find A.coarseConnectivities e).isSome = true →
    (Map.find A.matrices e).isSome = true) ∧
  (∀ e, (Map.find A.coarseMatrices e).isSome = true → (Map.find A.matrices e).isSome = true)

/-- The states of the aggregate reachable by construction, block insertion,
`removeMatrix`, the registration of coarse partitions and the steps of the coarsening
pipeline, in any interleaving and with any arguments.  With `anyRemoval = false` an
entry is removed only when neither coarse map holds its key. -/
inductive Reachable (K : Matrix M R) (sites : Nat → StorageSite) (anyRemoval : Bool) :
    MultiFieldMatrix M → Prop where
  | construct : Reachable K sites anyRemoval MultiFieldMatrix.empty
  | addMatrix {A : MultiFieldMatrix M} (row col : Index) (m : M) :
      Reachable K sites anyRemoval A → Reachable K sites anyRemoval (A.addMatrix row col m)
  | removeMatrix {A : MultiFieldMatrix M} (row col : Index) :
      Reachable K sites anyRemoval A →
      (anyRemoval = true ∨
        (Map.find A.coarseConnectivities (row, col) = none ∧
          Map.find A.coarseMatrices (row, col) = none)) →
      Reachable K sites anyRemoval (A.removeMatrix row col)
  | setCoarseSite {A : MultiFieldMatrix M} (row : Index) (site : Nat) :
      Reachable K sites anyRemoval A → Reachable K sites anyRemoval (A.setCoarseSite row site)
  | createCoarsening {A : MultiFieldMatrix M} (coarseIndex : MultiField (List Int))
      (groupSize : Int) (w : R) (st : CoarseningState M) :
      Reachable K sites anyRemoval A →
      createCoarsening K A coarseIndex groupSize w = some st →
      Reachable K sites anyRemoval st.matrix
  | syncGhostCoarsening {A : MultiFieldMatrix M} (coarseIndex : MultiField (List Int))
      (res : MultiFieldMatrix M × MultiField (List Int)) :
      Reachable K sites anyRemoval A →
      syncGhostCoarsening A sites coarseIndex = some res →
      Reachable K sites anyRemoval res.1
  | createCoarseToFineMapping {A : MultiFieldMatrix M} (coarseIndex : MultiField (List Int))
      (A' : MultiFieldMatrix M) :
      Reachable K sites anyRemoval A →
      createCoarseToFineMapping A sites coarseIndex = some A' →
      Reachable K sites anyRemoval A'
  | createCoarseConnectivity {A : MultiFieldMatrix M} (coarseIndex : MultiField (List Int))
      (res : MultiFieldMatrix M × List Event) :
      Reachable K sites anyRemoval A →
      createCoarseConnectivity K A coarseIndex = some res →
      Reachable K sites anyRemoval res.1
  | createCoarseMatrices {A : MultiFieldMatrix M} (coarseIndex : MultiField (List Int))
      (res : MultiFieldMatrix M × List Event) :
      Reachable K sites anyRemoval A →
      createCoarseMatrices K A coarseIndex = some res →
      Reachable K sites anyRemoval res.1

/-- The connectivity that `createCoarseConnectivity` stores under `e = (row, col)`: what
the kernel of the fine block `(row, col)` returns from `coarseIndex[row]`, the
coarse-to-fine adjacency of the row and the coarse partitions of row and column. -/
def expectedConnectivity (K : Matrix M R) (A : MultiFieldMatrix M)
    (coarseIndex : MultiField (List Int)) (e : EntryIndex) : Option CRConnectivity := do
  let mIJ ← (A.getMatrix e.1 e.2).1.toOption
  let coarseColSite ← Map.find A.coarseSites e.2
  let cI ← coarseIndex.get e.1
  let coarseRowSite ← Map.find A.coarseSites e.1
  let coarseToFine ← Map.find A.coarseToFineMappings e.1
  pure (K.createCoarseConnectivity mIJ cI coarseToFine coarseRowSite coarseColSite)

/-- The block that `createCoarseMatrices` stores under `e = (row, col)`: what the kernel
of the fine block `(row, col)` returns from `coarseIndex[row]`, the coarse-to-fine
adjacency of the row and the coarse connectivity stored under `e`. -/
def expectedCoarseMatrix (K : Matrix M R) (A : MultiFieldMatrix M)
    (coarseIndex : MultiField (List Int)) (e : EntryIndex) : Option M := do
  let mIJ ← (A.getMatrix e.1 e.2).1.toOption
  let coarseConnectivity ← Map.find A.coarseConnectivities e
  let cI ← coarseIndex.get e.1
  let coarseToFine ← Map.find A.coarseToFineMappings e.1
  pure (K.createCoarseMatrix mIJ cI coarseToFine coarseConnectivity)

/-- The state `t` follows the state `s` in `createCoarseConnectivity`: all members but
`coarseConnectivities` are those of `s`, and under every key `coarseConnectivities`
holds what it held in `s` or the connectivity expected for the key. -/
def ConnectivityStep (K : Matrix M R) (coarseIndex : MultiField (List Int))
    (s t : MultiFieldMatrix M × List Event) : Prop :=
  t.1.matrices = s.1.matrices ∧ t.1.coarseSites = s.1.coarseSites ∧
    t.1.coarseToFineMappings = s.1.coarseToFineMappings ∧
    t.1.coarseMatrices = s.1.coarseMatrices ∧
    ∀ e, Map.find t.1.coarseConnectivities e = Map.find s.1.coarseConnectivities e ∨
      ∃ cc, expectedConnectivity K s.1 coarseIndex e = some cc ∧
        Map.find t.1.coarseConnectivities e = some cc

/-- The state `t` follows the state `s` in `createCoarseMatrices`: all members but
`coarseMatrices` are those of `s`, and under every key `coarseMatrices` holds what it
held in `s` or the block expected for the key. -/
def MatricesStep (K : Matrix M R) (coarseIndex : MultiField (List Int))
    (s t : MultiFieldMatrix M × List Event) : Prop :=
  t.1.matrices = s.1.matrices ∧ t.1.coarseSites = s.1.coarseSites ∧
    t.1.coarseToFineMappings = s.1.coarseToFineMappings ∧
    t.1.coarseConnectivities = s.1.coarseConnectivities ∧
    ∀ e, Map.find t.1.coarseMatrices e = Map.find s.1.coarseMatrices e ∨
      ∃ cm, expectedCoarseMatrix K s.1 coarseIndex e = some cm ∧
        Map.find t.1.coarseMatrices e = some cm

end ReachableStates

/-! ## Reference quantities for the ghost reconciliation -/

section GhostReference

/-- The ghost fine rows of a row: the entries of the `toIndices` of its neighbours. -/
def ghostRows (nbrs : List (Nat × List Nat)) : List Nat := (nbrs.map Prod.snd).flatten

/-- What the loop over the ghost rows `q` of one neighbour has established in the state
`g`, from the array `ci0` and the counter `gs0` it started with: the rows outside `q`
are untouched, every row of `q` holds the id that `otherToMyMapping` gives for the id
it carried, the keys of the map are the ids the rows of `q` carried, and its values
are, without repetition, the ids `cs + gs0, …, cs + coarseGhostSize - 1`. -/
def GhostInv (cs gs0 : Int) (ci0 : List Int) (q : List Nat) (g : GhostState) : Prop :=
  g.coarseIndex.length = ci0.length ∧
  (∀ f, f ∉ q → g.coarseIndex[f]? = ci0[f]?) ∧
  (∀ f ∈ q, ∃ old new, ci0[f]? = some old ∧ Map.find g.otherToMyMapping old = some new ∧
    g.coarseIndex[f]? = some new) ∧
  (∀ k, (Map.find g.otherToMyMapping k).isSome = true → ∃ f ∈ q, ci0[f]? = some k) ∧
  (g.otherToMyMapping.map Prod.fst).Nodup ∧
  g.coarseGhostSize = gs0 + (g.otherToMyMapping.length : Int) ∧
  (∀ k v, Map.find g.otherToMyMapping k = some v →
    cs + gs0 ≤ v ∧ v < cs + g.coarseGhostSize) ∧
  (∀ k1 k2 v, Map.find g.otherToMyMapping k1 = some v →
    Map.find g.otherToMyMapping k2 = some v → k1 = k2) ∧
  (∀ v, cs + gs0 ≤ v → v < cs + g.coarseGhostSize →
    ∃ k, Map.find g.otherToMyMapping k = some v)

/-- What `syncGhostCoarsening` has established for one row after the neighbours `nbrs`:
`ci0` is the array of the row before, `ci` the array after, `cs` its entry of
`coarseSizes`, `gs` the counter of ghost ids and `look n` the map stored in
`coarseMappers` for the neighbour `n`.
* The array keeps its length and its entries outside the ghost rows.
* The ids held by the ghost rows are exactly `cs, …, cs + gs - 1`.
* Two ghost rows of one neighbour hold the same id iff they carried the same id.
* The map of a neighbour is a pair of arrays of equal length without repetition; the
  first holds the ids the ghost rows of the neighbour carried, the second, position
  by position, the id these rows hold now.
* `gs` is the sum of the lengths of the maps of the neighbours. -/
def RowPost (cs : Int) (ci0 : List Int) (nbrs : List (Nat × List Nat)) (ci : List Int)
    (gs : Int) (look : Nat → Option (List Int × List Int)) : Prop :=
  ci.length = ci0.length ∧
  (∀ f, f ∉ ghostRows nbrs → ci[f]? = ci0[f]?) ∧
  (∀ v, (∃ f ∈ ghostRows nbrs, ci[f]? = some v) ↔ (cs ≤ v ∧ v < cs + gs)) ∧
  (∀ p ∈ nbrs, ∀ f1 ∈ p.2, ∀ f2 ∈ p.2, (ci[f1]? = ci[f2]? ↔ ci0[f1]? = ci0[f2]?)) ∧
  (∀ p ∈ nbrs, ∃ fr tos, look p.1 = some (fr, tos) ∧ fr.length = tos.length ∧ fr.Nodup ∧
    tos.Nodup ∧ (∀ k, k ∈ fr ↔ ∃ f ∈ p.2, ci0[f]? = some k) ∧
    (∀ kv ∈ fr.zip tos, ∀ f ∈ p.2, ci0[f]? = some kv.1 → ci[f]? = some kv.2)) ∧
  gs = ((nbrs.map (fun p => ((look p.1).map (fun m => m.1.length)).getD 0)).sum : Nat)

/-- The neighbours of a row are well formed for the array `ci0` of the row: the
neighbour partitions are distinct (they are the keys of a `std::map`), every ghost fine
row is listed once over all neighbours, and every listed row is an index of `ci0`. -/
def NeighboursWellFormed (nbrs : List (Nat × List Nat)) (ci0 : List Int) : Prop :=
  (nbrs.map Prod.fst).Nodup ∧ (ghostRows nbrs).Nodup ∧ ∀ f ∈ ghostRows nbrs, f < ci0.length

end GhostReference

/-! ## Concrete partitions with ghost rows -/

section GhostExamples

/-- Partitions for the ghost reconciliation: partition `0` has six self-owned and two
ghost rows, the rows `6` and `7` received from partition `1`; the other partitions have
four rows and no neighbour. -/
def ghostSites : Nat → StorageSite :=
  fun h => if h = 0 then ⟨6, 8, [(1, [6, 7])]⟩ else ⟨4, 4, []⟩

/-- Partitions in which the ghost row `2` of partition `0` is listed by two
neighbours. -/
def overlapSites : Nat → StorageSite :=
  fun h => if h = 0 then ⟨2, 4, [(1, [2]), (2, [2, 3])]⟩ else ⟨2, 3, []⟩

/-- An aggregate with a diagonal block for `row0`, aggregated into three coarse rows,
with the coarse partition `10` registered for it. -/
def aggregatedMatrix : MultiFieldMatrix Int :=
  { MultiFieldMatrix.empty with
    matrices := [((row0, row0), 1)]
    coarseSizes := [(row0, 3)]
    coarseSites := [(row0, 10)] }

/-- Coarse ids of the eight rows of partition `0`: the ghost rows `6` and `7` carry the
id `7` of the neighbour. -/
def ghostCoarseIndex : MultiField (List Int) := ⟨[(row0, [0, 0, 1, 1, 2, 2, 7, 7])]⟩

/-- An aggregate with one coarse row for `row0`. -/
def overlapMatrix : MultiFieldMatrix Int :=
  { MultiFieldMatrix.empty with
    matrices := [((row0, row0), 1)]
    coarseSizes := [(row0, 1)] }

/-- Coarse ids of the four rows of partition `0` of `overlapSites`: the ghost rows `2` and
`3` carry the id `5`. -/
def overlapCoarseIndex : MultiField (List Int) := ⟨[(row0, [0, 0, 5, 5])]⟩

/-- Coarse ids of eight fine rows, two for each of four coarse rows. -/
def pairedCoarseIndex : MultiField (List Int) := ⟨[(row0, [0, 0, 1, 1, 2, 2, 3, 3])]⟩

end GhostExamples

/-! ## Reference quantity for the restriction adjacency -/

section CoarseToFineReference

/-- The fine rows `nr = 0, …, nFineRows-1` with `coarseIndex[nr] = c`, in increasing
order. -/
def fineRowsOf (coarseIndex : List Int) (nFineRows : Nat) (c : Nat) : List Nat :=
  (List.range nFineRows).filter (fun nr => decide (coarseIndex[nr]? = some (c : Int)))

end CoarseToFineReference

/-! ## A removal after the coarsening pipeline -/

section RemovalExample

/-- The aggregate after the calls: construction, insertion of the block `1` under
`(row0, row0)`, registration of the coarse partition `10` for `row0`,
`createCoarseToFineMapping` and `createCoarseConnectivity` on `pairedCoarseIndex`. -/
def coarsenedAggregate : Option (MultiFieldMatrix Int) := do
  let A1 := ((MultiFieldMatrix.empty : MultiFieldMatrix Int).addMatrix row0 row0 1).setCoarseSite
    row0 10
  let A2 ← createCoarseToFineMapping A1 ghostSites pairedCoarseIndex
  let res ← createCoarseConnectivity scalarKernel A2 pairedCoarseIndex
  pure res.1

/-- The aggregate `coarsenedAggregate` after `removeMatrix(row0, row0)`. -/
def coarsenedThenRemoved : Option (MultiFieldMatrix Int) :=
  coarsenedAggregate.map (fun A => A.removeMatrix row0 row0)

end RemovalExample

/-! ## Reference quantities for the repeated pass and the visited entries -/

section VisitedReference

variable {M : Type}

/-- The keys `(row, col)` that the loops of `createCoarseConnectivity` and of
`createCoarseMatrices` process, in the order of the loops: row and column enumerated by the
container and `hasMatrix(row, col)`. -/
def visitedEntries (A : MultiFieldMatrix M) (coarseIndex : MultiField (List Int)) :
    List EntryIndex :=
  coarseIndex.indices.flatMap (fun row =>
    (coarseIndex.indices.filter (fun col => A.hasMatrix row col)).map (fun col => (row, col)))

end VisitedReference

/-! ## The stages of one coarsening pass on a concrete aggregate -/

section PassExample

/-- An aggregate with the block `1` under `(row0, row0)` and the coarse partition `10`
registered for `row0`. -/
def registeredAggregate : MultiFieldMatrix Int :=
  ((MultiFieldMatrix.empty : MultiFieldMatrix Int).addMatrix row0 row0 1).setCoarseSite row0 10

/-- The aggregate `registeredAggregate` after `createCoarseToFineMapping` on
`pairedCoarseIndex` (the empty aggregate if the step did not return). -/
def mappedAggregate : MultiFieldMatrix Int :=
  (createCoarseToFineMapping registeredAggregate ghostSites pairedCoarseIndex).getD
    MultiFieldMatrix.empty

/-- The aggregate `mappedAggregate` and the call log after `createCoarseConnectivity` on
`pairedCoarseIndex` (the empty aggregate if the step did not return). -/
def connectedAggregate : MultiFieldMatrix Int × List Event :=
  (createCoarseConnectivity scalarKernel mappedAggregate pairedCoarseIndex).getD
    (MultiFieldMatrix.empty, [])

end PassExample

/-! ## A coarsening pass and a repeated pass -/

section RepeatedPass

variable {M R : Type}

/-- Modelled from the spec: one pass of the coarsening pipeline in its fixed order
(section 4.4, steps 1 to 5), each step on the container the step before has left; the
driver that makes the calls is not among the sources.  The result is the aggregate and
the coarse-index container after the pass. -/
def coarseningPass (K : Matrix M R) (sites : Nat → StorageSite) (A : MultiFieldMatrix M)
    (coarseIndex : MultiField (List Int)) (groupSize : Int) (weightRatioThreshold : R) :
    Option (MultiFieldMatrix M × MultiField (List Int)) := do
  let st ← createCoarsening K A coarseIndex groupSize weightRatioThreshold
  let res ← syncGhostCoarsening st.matrix sites st.coarseIndex
  let A3 ← createCoarseToFineMapping res.1 sites res.2
  let r4 ← createCoarseConnectivity K A3 res.2
  let r5 ← createCoarseMatrices K r4.1 res.2
  pure (r5.1, res.2)

/-- The aggregate with the six metadata maps that a pass writes emptied; the block map
and the registered coarse partitions are kept. -/
def MultiFieldMatrix.clearMetadata (A : MultiFieldMatrix M) : MultiFieldMatrix M :=
  { A with
    coarseSizes := []
    coarseGhostSizes := []
    coarseMappers := []
    coarseToFineMappings := []
    coarseConnectivities := []
    coarseMatrices := [] }

/-- The lookup of `k` in the map `t` laid over the map `old`: the entry of `t` when `t`
has the key, the entry of `old` otherwise. -/
def Map.overlay {κ ν : Type} [DecidableEq κ] (t old : List (κ × ν)) (k : κ) : Option ν :=
  match Map.find t k with
  | some v => some v
  | none => Map.find old k

/-- The aggregate `S` is the aggregate `T` laid over the metadata of `A`: the block map
and the coarse partitions are those of `T`, and every lookup in one of the six metadata
maps of `S` yields the entry of `T` when `T` has the key and the entry of `A` otherwise. -/
def Overlay (A S T : MultiFieldMatrix M) : Prop :=
  S.matrices = T.matrices ∧ S.coarseSites = T.coarseSites ∧
  (∀ k, Map.find S.coarseSizes k = Map.overlay T.coarseSizes A.coarseSizes k) ∧
  (∀ k, Map.find S.coarseGhostSizes k =
    Map.overlay T.coarseGhostSizes A.coarseGhostSizes k) ∧
  (∀ k, Map.find S.coarseMappers k = Map.overlay T.coarseMappers A.coarseMappers k) ∧
  (∀ k, Map.find S.coarseToFineMappings k =
    Map.overlay T.coarseToFineMappings A.coarseToFineMappings k) ∧
  (∀ k, Map.find S.coarseConnectivities k =
    Map.overlay T.coarseConnectivities A.coarseConnectivities k) ∧
  (∀ k, Map.find S.coarseMatrices k = Map.overlay T.coarseMatrices A.coarseMatrices k)

/-- The matrix `exampleMatrix` with the coarse partitions `10` and `11` registered for
its two rows. -/
def passMatrix : MultiFieldMatrix Int :=
  (exampleMatrix.setCoarseSite row0 10).setCoarseSite row1 11

/-- The aggregate after a first pass on `passMatrix` with `groupSize = 2` (the empty
aggregate if the pass did not return). -/
def afterFirstPass : MultiFieldMatrix Int :=
  ((coarseningPass scalarKernel exampleSites passMatrix exampleCoarseIndex 2 0).map
    Prod.fst).getD MultiFieldMatrix.empty

/-- The aggregate on which the second pass runs: `afterFirstPass` with the coupling
`(row0, row1)` removed. -/
def beforeSecondPass : MultiFieldMatrix Int := afterFirstPass.removeMatrix row0 row1

end RepeatedPass

/-! ## The second pass on cleared metadata -/

section SecondPassExample

/-- The result of the second pass on `beforeSecondPass` with its metadata cleared (the
empty aggregate and container if the pass did not return). -/
def freshSecondPass : MultiFieldMatrix Int × MultiField (List Int) :=
  (coarseningPass scalarKernel exampleSites beforeSecondPass.clearMetadata exampleCoarseIndex
    2 0).getD (MultiFieldMatrix.empty, ⟨[]⟩)

/-- The result of the second pass on `beforeSecondPass` as the first pass has left it (the
empty aggregate and container if the pass did not return). -/
def repeatedSecondPass : MultiFieldMatrix Int × MultiField (List Int) :=
  (coarseningPass scalarKernel exampleSites beforeSecondPass exampleCoarseIndex 2 0).getD
    (MultiFieldMatrix.empty, ⟨[]⟩)

end SecondPassExample

/-! ## Ghost rows that carry the unaggregated marker -/

section NegativeGhostExample

/-- Coarse ids of the eight rows of partition `0` of `ghostSites`: the ghost rows `6` and
`7` carry the negative id `-1`. -/
def negativeGhostIndex : MultiField (List Int) := ⟨[(row0, [0, 0, 1, 1, 2, 2, -1, -1])]⟩

/-- Coarse ids of the eight rows of partition `0` of `ghostSites`: the ghost rows `6` and
`7` carry the different negative ids `-1` and `-2`. -/
def mixedNegativeIndex : MultiField (List Int) := ⟨[(row0, [0, 0, 1, 1, 2, 2, -1, -2])]⟩

/-- Coarse ids of the four rows of partition `0` of `overlapSites`: the ghost rows `2` and
`3` carry the negative id `-1`. -/
def overlapNegativeIndex : MultiField (List Int) := ⟨[(row0, [0, 0, -1, -1])]⟩

end NegativeGhostExample

/-! ## The contract of the aggregation kernel -/

section AggregationContract

/-- Modelled from the spec: what `Matrix::createCoarsening`, the aggregation kernel of a
block whose implementations are not among the sources, returns for the array `cI` (P4 and
step 1 of section 4.4): an array `out.1` of the length of `cI`, each entry a
non-negative coarse id or negative, and the count `out.2` of distinct non-negative ids
in it. -/
def IsAggregation (cI : List Int) (out : List Int × Int) : Prop :=
  out.1.length = cI.length ∧
    (((out.1.filter (fun v => decide (0 ≤ v))).dedup.length : Nat) : Int) = out.2

end AggregationContract

/-! ## Restriction and prolongation between the levels -/

section Transfer

variable {M R : Type}

/-- The two transfer kernels of `ArrayBase`, virtual functions whose implementations are
not among the sources, as functions of the content of the blocks they are called with.
`inject fineResidual coarseB fineToCoarse length` is the content of `coarseB` after
`fineResidual.inject(coarseB, fineToCoarse, length)`, and
`correct fineSolution coarse coarseIndex length` the content of `fineSolution` after
`fineSolution.correct(coarse, coarseIndex, length)`; `none` is a failed call. -/
structure Transfer (R : Type) where
  inject : List R → List R → List Int → Nat → Option (List R)
  correct : List R → List R → List Int → Nat → Option (List R)

/-- One call of a transfer kernel: the fine row, the coarse block identity and the extent
handed to the kernel. -/
inductive TransferEvent where
  | inject (row coarseRow : Index) (length : Nat)
  | correct (row coarseRow : Index) (length : Nat)
deriving DecidableEq, Repr

/-- The body of the row loop of `injectResidual` for one `rowIndex`: with
`coarseRowIndex = (rowIndex.first, &*_coarseSites[rowIndex])`,
`fineResidualField[rowIndex].inject(coarseBField[coarseRowIndex], coarseIndex[rowIndex],
rowIndex.second->getSelfCount())`.  The state is the container `coarseBField` and the
log of kernel calls. -/
def injectResidualRow (T : Transfer R) (A : MultiFieldMatrix M) (sites : Nat → StorageSite)
    (coarseIndex : MultiField (List Int)) (fineResidualField : MultiField (List R))
    (st : MultiField (List R) × List TransferEvent) (rowIndex : Index) :
    Option (MultiField (List R) × List TransferEvent) := do
  let coarseRowSite ← Map.find A.coarseSites rowIndex
  let coarseRowIndex : Index := (rowIndex.1, coarseRowSite)
  let fineResidual ← fineResidualField.get rowIndex
  let fineToCoarse ← coarseIndex.get rowIndex
  let coarseB ← st.1.get coarseRowIndex
  let coarseB' ← T.inject fineResidual coarseB fineToCoarse (sites rowIndex.2).selfCount
  pure (st.1.set coarseRowIndex coarseB',
    st.2 ++ [TransferEvent.inject rowIndex coarseRowIndex (sites rowIndex.2).selfCount])

/-- The operation `injectResidual(coarseIndex, fineResidualField, coarseBField)`: the rows
`i = 0, …, xLen-1` of `fineResidualField`. -/
def injectResidual (T : Transfer R) (A : MultiFieldMatrix M) (sites : Nat → StorageSite)
    (coarseIndex : MultiField (List Int)) (fineResidualField coarseBField : MultiField (List R)) :
    Option (MultiField (List R) × List TransferEvent) :=
  fineResidualField.indices.foldlM
    (injectResidualRow T A sites coarseIndex fineResidualField) (coarseBField, [])

/-- The body of the row loop of `correctSolution` for one `rowIndex`:
`fineSolutionField[rowIndex].correct(coarseSolutionField[coarseRowIndex],
coarseIndex[rowIndex], rowIndex.second->getSelfCount())`.  The state is the container
`fineSolutionField` and the log of kernel calls. -/
def correctSolutionRow (T : Transfer R) (A : MultiFieldMatrix M) (sites : Nat → StorageSite)
    (coarseIndex : MultiField (List Int)) (coarseSolutionField : MultiField (List R))
    (st : MultiField (List R) × List TransferEvent) (rowIndex : Index) :
    Option (MultiField (List R) × List TransferEvent) := do
  let coarseRowSite ← Map.find A.coarseSites rowIndex
  let coarseRowIndex : Index := (rowIndex.1, coarseRowSite)
  let fineSolution ← st.1.get rowIndex
  let coarse ← coarseSolutionField.get coarseRowIndex
  let cI ← coarseIndex.get rowIndex
  let fineSolution' ← T.correct fineSolution coarse cI (sites rowIndex.2).selfCount
  pure (st.1.set rowIndex fineSolution',
    st.2 ++ [TransferEvent.correct rowIndex coarseRowIndex (sites rowIndex.2).selfCount])

/-- The operation `correctSolution(coarseIndex, fineSolutionField, coarseSolutionField)`:
the rows `i = 0, …, xLen-1` of `fineSolutionField`. -/
def correctSolution (T : Transfer R) (A : MultiFieldMatrix M) (sites : Nat → StorageSite)
    (coarseIndex : MultiField (List Int))
    (fineSolutionField coarseSolutionField : MultiField (List R)) :
    Option (MultiField (List R) × List TransferEvent) :=
  fineSolutionField.indices.foldlM
    (correctSolutionRow T A sites coarseIndex coarseSolutionField) (fineSolutionField, [])

/-- Modelled from the spec: one step of `ArrayBase::inject` (section 4.4, step 6, and
Invariant I2): the fine row `i` adds its value onto the coarse entry of its aggregate; a
fine row with a negative coarse id is excluded. -/
def ArrayBase.injectStep [Add R] (fine : List R) (coarseIndex : List Int) (coarse : List R)
    (i : Nat) : Option (List R) := do
  let v ← fine[i]?
  let c ← coarseIndex[i]?
  if 0 ≤ c then do
    let old ← coarse[c.toNat]?
    pure (coarse.set c.toNat (old + v))
  else pure coarse

/-- Modelled from the spec: `ArrayBase::inject(coarse, coarseIndex, length)`: each coarse
entry accumulates the sum of the fine values of its aggregated members among the fine
rows `0, …, length-1`. -/
def ArrayBase.inject [Add R] (fine coarse : List R) (coarseIndex : List Int) (length : Nat) :
    Option (List R) :=
  (List.range length).foldlM (ArrayBase.injectStep fine coarseIndex) coarse

/-- Modelled from the spec: one step of `ArrayBase::correct` (section 4.4, step 7, and
Invariant I2): the coarse value of its aggregate is added onto the fine row `i`; a fine
row with a negative coarse id is excluded. -/
def ArrayBase.correctStep [Add R] (coarse : List R) (coarseIndex : List Int) (fine : List R)
    (i : Nat) : Option (List R) := do
  let v ← fine[i]?
  let c ← coarseIndex[i]?
  if 0 ≤ c then do
    let corr ← coarse[c.toNat]?
    pure (fine.set i (v + corr))
  else pure fine

/-- Modelled from the spec: `ArrayBase::correct(coarse, coarseIndex, length)`: each coarse
value is added onto the fine rows `0, …, length-1` aggregated into it. -/
def ArrayBase.correct [Add R] (fine coarse : List R) (coarseIndex : List Int) (length : Nat) :
    Option (List R) :=
  (List.range length).foldlM (ArrayBase.correctStep coarse coarseIndex) fine

/-- The transfer kernels of arrays of numbers. -/
def arrayTransfer [Add R] : Transfer R where
  inject := ArrayBase.inject
  correct := ArrayBase.correct

/-- The number of fine rows among `0, …, length-1` aggregated into the coarse id of the
fine row `i`. -/
def aggregateSize (coarseIndex : List Int) (length : Nat) (i : Nat) : Nat :=
  ((List.range length).filter (fun k => decide (coarseIndex[k]? = coarseIndex[i]?))).length

/-- A fine container of one row of partition `0` with the constant value `1` on its two
self-owned rows and its ghost row. -/
def constantFine : MultiField (List Int) := ⟨[(row0, [1, 1, 1])]⟩

/-- A coarse container with one block of one entry, zero, on the coarse partition `10`. -/
def zeroCoarse : MultiField (List Int) := ⟨[((0, 10), [0])]⟩

/-- Coarse ids that put the rows of partition `0` into the one aggregate `0`. -/
def oneAggregate : MultiField (List Int) := ⟨[(row0, [0, 0, 0])]⟩

end Transfer

/-! ## Reference value of the prolongation -/

section TransferReference

variable {R : Type}

/-- The value of the fine row `i` after `ArrayBase.correct`: the coarse value of its
aggregate added onto it, the value itself for a row with a negative coarse id. -/
def correctedValue [Add R] (fine coarse : List R) (coarseIndex : List Int) (i : Nat) :
    Option R := do
  let v ← fine[i]?
  let c ← coarseIndex[i]?
  if 0 ≤ c then (coarse[c.toNat]?).map (fun corr => v + corr) else pure v

end TransferReference

/-! ## The calls of the transfer kernels -/

section TransferCalls

variable {M : Type}

/-- The kernel calls of `injectResidual` for the rows `rows`: one for each row, with the
coarse block identity `(row.first, coarseSites[row])` and the self-owned count of the
partition of the row. -/
def injectCalls (A : MultiFieldMatrix M) (sites : Nat → StorageSite) (rows : List Index) :
    List TransferEvent :=
  rows.filterMap (fun r => (Map.find A.coarseSites r).map
    (fun s => TransferEvent.inject r (r.1, s) (sites r.2).selfCount))

/-- The kernel calls of `correctSolution` for the rows `rows`. -/
def correctCalls (A : MultiFieldMatrix M) (sites : Nat → StorageSite) (rows : List Index) :
    List TransferEvent :=
  rows.filterMap (fun r => (Map.find A.coarseSites r).map
    (fun s => TransferEvent.correct r (r.1, s) (sites r.2).selfCount))

end TransferCalls

/-! ## Containers that enumerate their blocks in another order -/

section PermutedExamples

/-- The container `exampleX` with its two blocks enumerated in the other order. -/
def swappedX : MultiField (List Int) := ⟨[(row1, [1, 2, 3]), (row0, [1, 1, 1])]⟩

/-- The container `exampleY` with its two blocks enumerated in the other order. -/
def swappedY : MultiField (List Int) := ⟨[(row1, [7, 7, 7]), (row0, [9, 9, 9])]⟩

end PermutedExamples

/-! ## The chain of four cells -/

section ChainScenario

variable {M R : Type}

/-- Component `k` of the product of the dense block `m` with `x`. -/
def denseProduct (m : List (List ℚ)) (x : List ℚ) (k : Nat) : ℚ :=
  ((List.range x.length).map (fun j => (m.getD k []).getD j 0 * x.getD j 0)).sum

/-- Modelled from the spec: the relaxation of one row `i` of a block by its own
relaxation kernel (Gauss–Seidel): `x[i]` becomes the solution of row `i` of `m·x = r`
with the other entries of `x` as they stand. -/
def relaxRow (m : List (List ℚ)) (r x : List ℚ) (i : Nat) : List ℚ :=
  x.set i ((r.getD i 0 -
      (((List.range x.length).filter (fun j => decide (j ≠ i))).map
        (fun j => (m.getD i []).getD j 0 * x.getD j 0)).sum) /
    (m.getD i []).getD i 1)

/-- Modelled from the spec: the kernels of a dense block over the rationals; the
implementations of `Matrix` are not among the sources.  `multiplyAndAdd` adds the
product, `forwardGS` relaxes the rows `0, …, n-1` in turn and `reverseGS` the rows
`n-1, …, 0`; the kernels that the scenario does not call leave their arguments as they
are. -/
def denseKernel : Matrix (List (List ℚ)) ℚ where
  multiplyAndAdd m y x := y.mapIdx (fun k v => v + denseProduct m x k)
  forwardGS m x r := ((List.range x.length).foldl (relaxRow m r) x, r)
  reverseGS m x r := ((List.range x.length).reverse.foldl (relaxRow m r) x, r)
  solveBoundary _ x r := (x, r)
  createCoarsening _ c _ _ := (c, 0)
  createCoarseConnectivity _ _ c2f _ _ := c2f
  createCoarseMatrix m _ _ _ := m

/-- The operator `forwardGS` called `n` times in succession on the same right-hand side;
each sweep starts from the unknowns and the scratch container the sweep before has
left. -/
def forwardSweeps [Zero R] (K : Matrix M R) (A : MultiFieldMatrix M) (sites : Nat → StorageSite)
    (sync : Index → MultiField (List R) → List R) (b : MultiField (List R)) :
    Nat → GSState R → Option (GSState R)
  | 0, s => some s
  | n + 1, s => (forwardSweeps K A sites sync b n s).bind
      (fun t => forwardGS K A sites sync t.x b t.temp)

/-- The square of the 2-norm of `b - m·x`. -/
def residualNormSq (m : List (List ℚ)) (b x : List ℚ) : ℚ :=
  ((List.range b.length).map (fun i => (b.getD i 0 - denseProduct m x i) ^ 2)).sum

/-- The tridiagonal block of the chain: `2` on the diagonal, `-1` next to it. -/
def chainBlock : List (List ℚ) :=
  [[2, -1, 0, 0], [-1, 2, -1, 0], [0, -1, 2, -1], [0, 0, -1, 2]]

/-- The system of the chain: one field on one partition, with the one block
`chainBlock` on the diagonal. -/
def chainMatrix : MultiFieldMatrix (List (List ℚ)) :=
  { MultiFieldMatrix.empty with matrices := [((row0, row0), chainBlock)] }

/-- One partition of four self-owned cells without ghost cells and without neighbours. -/
def chainSites : Nat → StorageSite := fun _ => ⟨4, 4, []⟩

/-- The right-hand side `b = [1, 0, 0, 1]`. -/
def chainB : MultiField (List ℚ) := ⟨[(row0, [1, 0, 0, 1])]⟩

/-- The start `x = 0`, also the initial scratch container. -/
def chainZero : MultiField (List ℚ) := ⟨[(row0, [0, 0, 0, 0])]⟩

/-- The square of the residual norm `‖b - A·x‖` of the chain after `n` sweeps of
`forwardGS` from `x = 0`. -/
def chainResidualSq (n : Nat) : Option ℚ :=
  (forwardSweeps denseKernel chainMatrix chainSites keepBlock chainB n
    ⟨chainZero, chainZero, []⟩).bind
    (fun s => (s.x.get row0).map (residualNormSq chainBlock [1, 0, 0, 1]))

end ChainScenario

/-! ## The immersed-boundary manager -/

section IBManager

/-- The values of the constants `Mesh::IBTYPE_FLUID`, `Mesh::IBTYPE_BOUNDARY`,
`Mesh::IBTYPE_SOLID` and `Mesh::IBTYPE_UNKNOWN`, declared in `Mesh.h`, which is not among
the sources: a parameter of the embedding. -/
structure IBTypes where
  fluid : Int
  boundary : Int
  solid : Int
  unknown : Int
deriving DecidableEq, Repr

/-- Modelled from the spec: `CRConnectivity::getCount(i)`, the number of entries listed
under the row `i`. -/
def CRConnectivity.getCount (c : CRConnectivity) (i : Nat) : Nat := (c.getRow i).length

/-- Modelled from the spec: `CRConnectivity::operator()(i, j)`, the `j`-th entry listed
under the row `i`; `none` beyond the row. -/
def CRConnectivity.at (c : CRConnectivity) (i j : Nat) : Option Nat := (c.getRow i)[j]?

/-- The state of the loops of `markFluid`: the array `cellIBType`, the counter `nFound`
and the stack `cellsToCheck` (top first). -/
structure FloodState where
  cellIBType : List Int
  nFound : Nat
  cellsToCheck : List Nat
deriving DecidableEq, Repr

/-- The body of the loop over the neighbours `nn` of `c_nb` in `markFluid`, for the
neighbour `neighbor = cellCells(c_nb, nn)`: an `UNKNOWN` neighbour becomes `FLUID`, is
counted and pushed; `none` for a neighbour that is no index of `cellIBType`. -/
def markNeighbour (T : IBTypes) (st : FloodState) (neighbor : Nat) : Option FloodState := do
  let t ← st.cellIBType[neighbor]?
  if t = T.unknown then
    pure { cellIBType := st.cellIBType.set neighbor T.fluid
           nFound := st.nFound + 1
           cellsToCheck := neighbor :: st.cellsToCheck }
  else pure st

/-- The loop `while (!cellsToCheck.empty())` of `markFluid`, with `fuel` bounding the
number of iterations: the top of the stack is popped and its neighbours are visited;
`none` when the fuel runs out before the stack is empty. -/
def floodLoop (T : IBTypes) (cellCells : CRConnectivity) : Nat → FloodState → Option FloodState
  | _, ⟨types, n, []⟩ => some ⟨types, n, []⟩
  | 0, ⟨_, _, _ :: _⟩ => none
  | fuel + 1, ⟨types, n, c_nb :: rest⟩ =>
    ((cellCells.getRow c_nb).foldlM (markNeighbour T) ⟨types, n, rest⟩).bind
      (floodLoop T cellCells fuel)

/-- The body of the loop over the cells `c` of `markFluid`: from a `FLUID` cell the
`UNKNOWN` cells that can be reached are marked. -/
def markFluidCell (T : IBTypes) (cellCells : CRConnectivity) (fuel : Nat)
    (st : List Int × Nat) (c : Nat) : Option (List Int × Nat) := do
  let t ← st.1[c]?
  if t = T.fluid then do
    let r ← floodLoop T cellCells fuel ⟨st.1, st.2, [c]⟩
    pure (r.cellIBType, r.nFound)
  else pure st

/-- The function `IBManager::markFluid` on the array `cellIBType` of a mesh with
`nCellsTotal` cells and the adjacency `cellCells`; `fuel` bounds the iterations of each
`while` loop.  The result is the array after the call and the returned `nFound`. -/
def markFluid (T : IBTypes) (cellCells : CRConnectivity) (nCellsTotal fuel : Nat)
    (cellIBType : List Int) : Option (List Int × Nat) :=
  (List.range nCellsTotal).foldlM (markFluidCell T cellCells fuel) (cellIBType, 0)

/-- The cell types `(ibType0, ibType1)` of the two cells `faceCells(f, 0)` and
`faceCells(f, 1)` of the face `f`; `none` when the face has no two cells or a cell is
no index of `cellIBType`. -/
def faceTypes (faceCells : CRConnectivity) (cellIBType : List Int) (f : Nat) :
    Option (Int × Int) := do
  let c0 ← faceCells.at f 0
  let c1 ← faceCells.at f 1
  let ibType0 ← cellIBType[c0]?
  let ibType1 ← cellIBType[c1]?
  pure (ibType0, ibType1)

/-- The test of `createIBFaces` for an immersed-boundary face: one cell `FLUID`, the
other `BOUNDARY`. -/
def isIBFace (T : IBTypes) (t : Int × Int) : Bool :=
  (decide (t.1 = T.fluid) && decide (t.2 = T.boundary)) ||
    (decide (t.2 = T.fluid) && decide (t.1 = T.boundary))

/-- The test of `createIBFaces` for a face between a `FLUID` and a `SOLID` cell. -/
def isFluidSolidFace (T : IBTypes) (t : Int × Int) : Bool :=
  (decide (t.1 = T.fluid) && decide (t.2 = T.solid)) ||
    (decide (t.2 = T.fluid) && decide (t.1 = T.solid))

/-- The first loop of `createIBFaces` over the faces `faces`, with the counter
`nIBFaces`: the outer `none` is an invalid read, `Except.error` the exception thrown at a
face between a fluid and a solid cell. -/
def countIBFaces (T : IBTypes) (faceCells : CRConnectivity) (cellIBType : List Int) :
    List Nat → Nat → Option (Except String Nat)
  | [], nIBFaces => some (Except.ok nIBFaces)
  | f :: faces, nIBFaces =>
    match faceTypes faceCells cellIBType f with
    | none => none
    | some t =>
      let nIBFaces1 := if isIBFace T t then nIBFaces + 1 else nIBFaces
      if isFluidSolidFace T t then
        some (Except.error "found face between solid and fluid cells")
      else countIBFaces T faceCells cellIBType faces nIBFaces1

/-- The second loop of `createIBFaces`: `ibFaceList[nIBFaces++] = f` for the
immersed-boundary faces; the state is the array `ibFaceList` and the counter. -/
def fillIBFace (T : IBTypes) (faceCells : CRConnectivity) (cellIBType : List Int)
    (st : List Nat × Nat) (f : Nat) : Option (List Nat × Nat) := do
  let t ← faceTypes faceCells cellIBType f
  if isIBFace T t then
    if st.2 < st.1.length then pure (st.1.set st.2 f, st.2 + 1) else none
  else pure st

/-- The function `IBManager::createIBFaces` on a mesh with `nFaces` faces: the result is
the count set on the site `ibFaces` and the installed list `ibFaceList` (allocated with
`nIBFaces` entries, here zeros, and then filled). -/
def createIBFaces (T : IBTypes) (faceCells : CRConnectivity) (nFaces : Nat)
    (cellIBType : List Int) : Option (Except String (Nat × List Nat)) :=
  match countIBFaces T faceCells cellIBType (List.range nFaces) 0 with
  | none => none
  | some (Except.error e) => some (Except.error e)
  | some (Except.ok nIBFaces) =>
    match (List.range nFaces).foldlM (fillIBFace T faceCells cellIBType)
        (List.replicate nIBFaces 0, 0) with
    | none => none
    | some st => some (Except.ok (nIBFaces, st.1))

/-- Codes for the four cell types. -/
def exampleTypes : IBTypes := ⟨1, 2, 3, 0⟩

/-- A chain of four cells `0 - 1 - 2 - 3`: the neighbours of every cell. -/
def chainCells : CRConnectivity := ⟨0, 0, [0, 1, 3, 5, 6], [1, 0, 2, 1, 3, 2]⟩

/-- The three faces of the chain of four cells: the two cells of every face. -/
def chainFaces : CRConnectivity := ⟨0, 0, [0, 2, 4, 6], [0, 1, 1, 2, 2, 3]⟩

end IBManager

section IBManagerInvariants

/-- The number of `UNKNOWN` cells of an array of cell types. -/
def unknownCount (T : IBTypes) (types : List Int) : Nat :=
  types.countP (fun t => decide (t = T.unknown))

/-- The number of cells whose type differs between two arrays of cell types. -/
def changedCount (types types1 : List Int) : Nat :=
  (List.zip types types1).countP (fun p => decide (p.1 ≠ p.2))

/-- A cell's type `b` after marking, against its type `a` before: unchanged, or `UNKNOWN`
turned `FLUID`. -/
def MarkStep (T : IBTypes) (a b : Int) : Prop := b = a ∨ (a = T.unknown ∧ b = T.fluid)

/-- The array `types1` arises from `types` by turning `UNKNOWN` cells `FLUID`. -/
def Marked (T : IBTypes) (types types1 : List Int) : Prop :=
  List.Forall₂ (MarkStep T) types types1

/-- Every `FLUID` cell among `cells` that is not on the stack has no `UNKNOWN`
neighbour. -/
def ClosedOn (T : IBTypes) (cellCells : CRConnectivity) (types : List Int)
    (cells stack : List Nat) : Prop :=
  ∀ x ∈ cells, x ∉ stack → types[x]? = some T.fluid →
    ∀ nb ∈ cellCells.getRow x, types[nb]? ≠ some T.unknown

/-- The invariant of the loops of `markFluid` on a mesh of `n` cells, against the array
`types0` at the start of the call: only `UNKNOWN` cells were turned `FLUID`, `nFound`
counts them, the stack holds cells of the mesh, and the `FLUID` cells among `cells` that
are neither on the stack nor in `current` (the cell just popped) have no `UNKNOWN`
neighbour. -/
structure FloodInv (T : IBTypes) (cellCells : CRConnectivity) (n : Nat) (types0 : List Int)
    (cells current : List Nat) (st : FloodState) : Prop where
  marked : Marked T types0 st.cellIBType
  found : st.nFound + unknownCount T st.cellIBType = unknownCount T types0
  inMesh : ∀ x ∈ st.cellsToCheck, x < n
  closed : ClosedOn T cellCells st.cellIBType cells (current ++ st.cellsToCheck)

end IBManagerInvariants

/-! ## Lemmas on maps and containers -/

namespace Map

variable {κ ν : Type} [DecidableEq κ]

theorem find_cons (k' : κ) (v : ν) (m : List (κ × ν)) (k : κ) :
    find ((k', v) :: m) k = if k' = k then some v else find m k := rfl

theorem find_insert_self (m : List (κ × ν)) (k : κ) (v : ν) :
    find (insert m k v) k = some v := by
  induction m with
  | nil => simp [insert, find]
  | cons p m ih =>
    obtain ⟨k', v'⟩ := p
    by_cases h : k' = k
    · simp [insert, find, h]
    · simp [insert, find, h, ih]

theorem find_insert_ne (m : List (κ × ν)) (k k' : κ) (v : ν) (h : k' ≠ k) :
    find (insert m k v) k' = find m k' := by
  induction m with
  | nil => simp [insert, find, Ne.symm h]
  | cons p m ih =>
    obtain ⟨k₁, v₁⟩ := p
    by_cases h₁ : k₁ = k
    · subst h₁
      simp [insert, find, Ne.symm h]
    · by_cases h₂ : k₁ = k'
      · subst h₂
        simp [insert, find, h₁]
      · simp [insert, find, h₁, h₂, ih]

theorem find_erase_self (m : List (κ × ν)) (k : κ) : find (erase m k) k = none := by
  induction m with
  | nil => simp [erase, find]
  | cons p m ih =>
    obtain ⟨k', v'⟩ := p
    by_cases h : k' = k
    · simpa [erase, List.filter_cons, h] using ih
    · simpa [erase, List.filter_cons, h, find] using ih

theorem find_erase_ne (m : List (κ × ν)) (k k' : κ) (h : k' ≠ k) :
    find (erase m k) k' = find m k' := by
  induction m with
  | nil => simp [erase, find]
  | cons p m ih =>
    obtain ⟨k₁, v₁⟩ := p
    by_cases h₁ : k₁ = k
    · subst h₁
      simpa [erase, List.filter_cons, find, Ne.symm h] using ih
    · by_cases h₂ : k₁ = k'
      · subst h₂
        simp [erase, List.filter_cons, h₁, find]
      · simpa [erase, List.filter_cons, h₁, find, h₂] using ih

theorem erase_of_find_none (m : List (κ × ν)) (k : κ) (h : find m k = none) :
    erase m k = m := by
  induction m with
  | nil => simp [erase]
  | cons p m ih =>
    obtain ⟨k', v'⟩ := p
    by_cases h₁ : k' = k
    · simp [find, h₁] at h
    · simp only [find, h₁, if_false] at h
      have := ih h
      simp only [erase] at this ⊢
      rw [List.filter_cons]
      simp only [ne_eq, h₁, not_false_eq_true, decide_True, if_true]
      rw [this]

theorem find_isSome_iff (m : List (κ × ν)) (k : κ) :
    (find m k).isSome = true ↔ k ∈ m.map Prod.fst := by
  induction m with
  | nil => simp [find]
  | cons p m ih =>
    obtain ⟨k', v'⟩ := p
    by_cases h : k' = k
    · simp [find, h]
    · simp only [find, h, if_false, List.map_cons, List.mem_cons, ih]
      constructor
      · intro hm
        exact Or.inr hm
      · rintro (e | hm)
        · exact absurd e.symm h
        · exact hm

theorem find_of_mem_nodup (m : List (κ × ν)) (k : κ) (v : ν)
    (hnd : (m.map Prod.fst).Nodup) (hmem : (k, v) ∈ m) : find m k = some v := by
  induction m with
  | nil => simp at hmem
  | cons p m ih =>
    obtain ⟨k', v'⟩ := p
    simp only [List.map_cons, List.nodup_cons] at hnd
    rcases List.mem_cons.mp hmem with e | hm
    · cases e
      simp [find]
    · have hne : k' ≠ k := by
        rintro rfl
        exact hnd.1 (List.mem_map.mpr ⟨(k', v), hm, rfl⟩)
      simp only [find, hne, if_false]
      exact ih hnd.2 hm

end Map

namespace MultiField

variable {α : Type}

theorem indices_set (f : MultiField α) (i : Index) (a : α) :
    (f.set i a).indices = f.indices := by
  simp only [indices, set, List.map_map]
  apply List.map_congr_left
  intro p _
  by_cases h : p.1 = i <;> simp [h]

theorem get_isSome_iff (f : MultiField α) (i : Index) :
    (f.get i).isSome = true ↔ i ∈ f.indices :=
  Map.find_isSome_iff f.arrays i

theorem get_of_mem (f : MultiField α) (i : Index) (h : i ∈ f.indices) :
    ∃ a, f.get i = some a :=
  Option.isSome_iff_exists.mp ((get_isSome_iff f i).mpr h)

theorem set_cons (k : Index) (v : α) (l : List (Index × α)) (i : Index) (a : α) :
    (MultiField.mk ((k, v) :: l)).set i a =
      ⟨(if k = i then (k, a) else (k, v)) :: ((MultiField.mk l).set i a).arrays⟩ := rfl

theorem get_cons (k : Index) (v : α) (l : List (Index × α)) (j : Index) :
    (MultiField.mk ((k, v) :: l)).get j = if k = j then some v else (MultiField.mk l).get j :=
  rfl

theorem get_set_ne (f : MultiField α) (i j : Index) (a : α) (h : j ≠ i) :
    (f.set i a).get j = f.get j := by
  obtain ⟨l⟩ := f
  induction l with
  | nil => rfl
  | cons p l ih =>
    obtain ⟨k, v⟩ := p
    rw [set_cons, get_cons]
    by_cases h₁ : k = i
    · subst h₁
      rw [if_pos rfl, get_cons, if_neg (Ne.symm h), if_neg (Ne.symm h)]
      exact ih
    · rw [if_neg h₁, get_cons]
      by_cases h₂ : k = j
      · rw [if_pos h₂, if_pos h₂]
      · rw [if_neg h₂, if_neg h₂]
        exact ih

theorem get_set_self (f : MultiField α) (i : Index) (a : α) :
    (f.set i a).get i = (f.get i).map (fun _ => a) := by
  obtain ⟨l⟩ := f
  induction l with
  | nil => rfl
  | cons p l ih =>
    obtain ⟨k, v⟩ := p
    rw [set_cons, get_cons]
    by_cases h₁ : k = i
    · subst h₁
      rw [if_pos rfl, get_cons, if_pos rfl, if_pos rfl]
      rfl
    · rw [if_neg h₁, get_cons, if_neg h₁, if_neg h₁]
      exact ih

theorem get_set_self_of_mem (f : MultiField α) (i : Index) (a : α) (h : i ∈ f.indices) :
    (f.set i a).get i = some a := by
  obtain ⟨v, hv⟩ := get_of_mem f i h
  rw [get_set_self, hv]
  rfl

theorem indices_mapBlocks (F : Index → α → α) (f : MultiField α) :
    (f.mapBlocks F).indices = f.indices := by
  simp [indices, mapBlocks, List.map_map, Function.comp_def]

theorem get_mapBlocks (F : Index → α → α) (f : MultiField α) (i : Index) :
    (f.mapBlocks F).get i = (f.get i).map (F i) := by
  obtain ⟨l⟩ := f
  simp only [get, mapBlocks]
  induction l with
  | nil => simp [Map.find]
  | cons p l ih =>
    obtain ⟨k, v⟩ := p
    by_cases h₁ : k = i
    · subst h₁
      simp [Map.find]
    · simpa [Map.find, h₁] using ih

theorem indices_syncLocal (sync : Index → MultiField α → α) (f : MultiField α) (i : Index) :
    (f.syncLocal sync i).indices = f.indices :=
  indices_set f i _

theorem get_syncLocal_ne (sync : Index → MultiField α → α) (f : MultiField α)
    (i j : Index) (h : j ≠ i) : (f.syncLocal sync i).get j = f.get j :=
  get_set_ne f i j _ h

end MultiField

/-! ## Loops in the option monad -/

section Loops

variable {σ β : Type}

/-- A loop whose body succeeds and keeps an invariant on every element succeeds and
ends in a state with the invariant. -/
theorem foldlM_some_of_invariant (f : σ → β → Option σ) (P : σ → Prop) :
    ∀ (l : List β) (s : σ), P s →
      (∀ a ∈ l, ∀ t, P t → ∃ t', f t a = some t' ∧ P t') →
      ∃ r, l.foldlM f s = some r ∧ P r := by
  intro l
  induction l with
  | nil =>
    intro s hs _
    exact ⟨s, rfl, hs⟩
  | cons a l ih =>
    intro s hs hstep
    obtain ⟨t', ht', hP⟩ := hstep a (List.mem_cons_self a l) s hs
    obtain ⟨r, hr, hPr⟩ := ih t' hP (fun b hb t ht => hstep b (List.mem_cons_of_mem a hb) t ht)
    refine ⟨r, ?_, hPr⟩
    simp [List.foldlM_cons, ht', hr]

/-- Two loop bodies that agree on the elements of the list give the same loop. -/
theorem foldlM_congr_mem (f g : σ → β → Option σ) :
    ∀ (l : List β) (s : σ), (∀ a ∈ l, ∀ t, f t a = g t a) →
      l.foldlM f s = l.foldlM g s := by
  intro l
  induction l with
  | nil => intro s _; rfl
  | cons a l ih =>
    intro s h
    simp only [List.foldlM_cons, h a (List.mem_cons_self a l) s]
    cases g s a with
    | none => rfl
    | some t => exact ih t (fun b hb u => h b (List.mem_cons_of_mem a hb) u)

end Loops

/-! ## The inner loops in closed form -/

section InnerLoops

variable {M R : Type}

theorem MultiFieldMatrix.getMatrix_toOption (A : MultiFieldMatrix M) (row col : Index) :
    (A.getMatrix row col).1.toOption = Map.find A.matrices (row, col) := by
  simp only [MultiFieldMatrix.getMatrix]
  cases Map.find A.matrices (row, col) <;> rfl

theorem getMatrix_of_hasMatrix (A : MultiFieldMatrix M) (row col : Index)
    (h : A.hasMatrix row col = true) : ∃ m, (A.getMatrix row col).1.toOption = some m := by
  rw [MultiFieldMatrix.getMatrix_toOption]
  exact Option.isSome_iff_exists.mp h

theorem getMatrix_of_not_hasMatrix (A : MultiFieldMatrix M) (row col : Index)
    (h : A.hasMatrix row col = false) : (A.getMatrix row col).1.toOption = none := by
  simpa [MultiFieldMatrix.hasMatrix, MultiFieldMatrix.getMatrix_toOption] using h

/-- The column loop always succeeds: it applies the kernels of the couplings of the
row, in the order of the enumeration of `x`, and logs one call for each. -/
theorem columnLoop_eq (K : Matrix M R) (A : MultiFieldMatrix M) (x : MultiField (List R))
    (row : Index) (yI : List R) (log : List Event) :
    columnLoop K A x row yI log =
      some (accumulate K A x row (couplings A x row) yI,
            log ++ (couplings A x row).map (Event.multiplyAndAdd row)) := by
  have hx : ∀ c ∈ x.indices, ∃ a, x.get c = some a := fun c hc => x.get_of_mem c hc
  unfold columnLoop couplings accumulate
  simp only [Option.bind_eq_bind, Option.pure_def]
  revert hx
  generalize x.indices = l
  intro hx
  induction l generalizing yI log with
  | nil => simp
  | cons c l ih =>
    have hl : ∀ c ∈ l, ∃ a, x.get c = some a := fun d hd => hx d (List.mem_cons_of_mem c hd)
    obtain ⟨xJ, hxJ⟩ := hx c (List.mem_cons_self c l)
    by_cases hc : A.hasMatrix row c = true
    · obtain ⟨m, hm⟩ := getMatrix_of_hasMatrix A row c hc
      simp only [List.foldlM_cons, hc, if_true, hm, hxJ, Option.bind_eq_bind, Option.some_bind,
        Option.pure_def, List.filter_cons, List.foldl_cons, List.map_cons]
      rw [ih _ _ hl]
      simp
    · simp only [Bool.not_eq_true] at hc
      simp only [List.foldlM_cons, hc, Bool.false_eq_true, if_false, Option.pure_def,
        Option.bind_eq_bind, Option.some_bind, List.filter_cons]
      exact ih _ _ hl

/-- The off-diagonal loop always succeeds: it applies the kernels of the off-diagonal
couplings of the row, in the order of the enumeration of `x`, and logs one call for
each. -/
theorem offDiagonalLoop_eq (K : Matrix M R) (A : MultiFieldMatrix M)
    (x : MultiField (List R)) (row : Index) (r : List R) (log : List Event) :
    offDiagonalLoop K A x row r log =
      some (accumulate K A x row (offDiagonalCouplings A x row) r,
            log ++ (offDiagonalCouplings A x row).map (Event.multiplyAndAdd row)) := by
  have hx : ∀ c ∈ x.indices, ∃ a, x.get c = some a := fun c hc => x.get_of_mem c hc
  unfold offDiagonalLoop offDiagonalCouplings accumulate
  simp only [Option.bind_eq_bind, Option.pure_def]
  revert hx
  generalize x.indices = l
  intro hx
  induction l generalizing r log with
  | nil => simp
  | cons c l ih =>
    have hl : ∀ c ∈ l, ∃ a, x.get c = some a := fun d hd => hx d (List.mem_cons_of_mem c hd)
    obtain ⟨xJ, hxJ⟩ := hx c (List.mem_cons_self c l)
    by_cases hc : row ≠ c ∧ A.hasMatrix row c = true
    · obtain ⟨m, hm⟩ := getMatrix_of_hasMatrix A row c hc.2
      simp only [List.foldlM_cons, hc, if_true, hm, hxJ, Option.bind_eq_bind, Option.some_bind,
        Option.pure_def, List.filter_cons, List.foldl_cons, List.map_cons, decide_True,
        and_self, ne_eq, not_false_eq_true]
      rw [ih _ _ hl]
      simp
    · simp only [List.foldlM_cons, hc, if_false, Option.pure_def,
        Option.bind_eq_bind, Option.some_bind, List.filter_cons, decide_False]
      exact ih _ _ hl

/-- With an additive kernel, component `k` of the accumulated block is the component
of the start block plus the sum of the products over the columns. -/
theorem accumulate_getElem? [AddMonoid R] (K : Matrix M R) (act : M → List R → Nat → R)
    (hK : Additive K act) (A : MultiFieldMatrix M) (x : MultiField (List R)) (row : Index)
    (cols : List Index) (yI : List R) (k : Nat) :
    (accumulate K A x row cols yI)[k]? =
      (yI[k]?).map (fun v => v + blockSum act A x row cols k) := by
  unfold accumulate blockSum
  induction cols generalizing yI with
  | nil => simp
  | cons c cols ih =>
    simp only [List.foldl_cons, List.map_cons, List.sum_cons]
    rw [ih]
    unfold blockTerm
    cases hm : (A.getMatrix row c).1.toOption with
    | none => simp
    | some m =>
      cases hxc : x.get c with
      | none => simp
      | some xJ =>
        simp only [hK m yI xJ k, Option.map_map]
        congr 1
        funext v
        simp [add_assoc]

theorem accumulate_length [AddMonoid R] (K : Matrix M R) (act : M → List R → Nat → R)
    (hK : Additive K act) (A : MultiFieldMatrix M) (x : MultiField (List R)) (row : Index)
    (cols : List Index) (yI : List R) :
    (accumulate K A x row cols yI).length = yI.length := by
  apply Nat.le_antisymm
  · by_contra h
    have h1 : yI.length < (accumulate K A x row cols yI).length := Nat.lt_of_not_le h
    have h2 := accumulate_getElem? K act hK A x row cols yI yI.length
    rw [List.getElem?_eq_getElem h1] at h2
    simp at h2
  · by_contra h
    have h1 : (accumulate K A x row cols yI).length < yI.length := Nat.lt_of_not_le h
    have h2 := accumulate_getElem? K act hK A x row cols yI (accumulate K A x row cols yI).length
    rw [List.getElem?_eq_getElem h1] at h2
    simp at h2

end InnerLoops

/-! ## Row loops that update one block per row -/

section RowLoops

variable {α : Type}

theorem MultiField.indices_mapOn (P : Index → Bool) (F : Index → α → α) (f : MultiField α) :
    (f.mapOn P F).indices = f.indices := by
  simp only [MultiField.indices, MultiField.mapOn, List.map_map]
  apply List.map_congr_left
  intro p _
  by_cases h : P p.1 = true <;> simp [h]

theorem MultiField.get_mapOn (P : Index → Bool) (F : Index → α → α) (f : MultiField α)
    (i : Index) :
    (f.mapOn P F).get i = if P i = true then (f.get i).map (F i) else f.get i := by
  obtain ⟨l⟩ := f
  simp only [MultiField.mapOn, MultiField.get]
  induction l with
  | nil =>
    by_cases h : P i = true <;> simp [h, Map.find]
  | cons p l ih =>
    obtain ⟨k, v⟩ := p
    have hcons : List.map (fun p : Index × α => if P p.1 = true then (p.1, F p.1 p.2) else p)
        ((k, v) :: l) = (if P k = true then (k, F k v) else (k, v)) ::
          List.map (fun p : Index × α => if P p.1 = true then (p.1, F p.1 p.2) else p) l := rfl
    rw [hcons]
    by_cases hk : k = i
    · subst hk
      by_cases hP : P k = true
      · rw [if_pos hP, if_pos hP, Map.find_cons, Map.find_cons, if_pos rfl, if_pos rfl]
        rfl
      · rw [if_neg hP, if_neg hP, Map.find_cons, Map.find_cons, if_pos rfl, if_pos rfl]
    · have e : Map.find ((if P k = true then (k, F k v) else (k, v)) ::
          List.map (fun p : Index × α => if P p.1 = true then (p.1, F p.1 p.2) else p) l) i =
          Map.find (List.map
            (fun p : Index × α => if P p.1 = true then (p.1, F p.1 p.2) else p) l) i := by
        by_cases hP : P k = true
        · rw [if_pos hP, Map.find_cons, if_neg hk]
        · rw [if_neg hP, Map.find_cons, if_neg hk]
      rw [e, ih, Map.find_cons, if_neg hk]

theorem MultiField.mapOn_congr (P Q : Index → Bool) (F : Index → α → α) (f : MultiField α)
    (h : ∀ i ∈ f.indices, P i = Q i) : f.mapOn P F = f.mapOn Q F := by
  simp only [MultiField.mapOn]
  congr 1
  apply List.map_congr_left
  intro p hp
  rw [h p.1 (List.mem_map.mpr ⟨p, hp, rfl⟩)]

theorem MultiField.mapOn_true (F : Index → α → α) (f : MultiField α) :
    f.mapOn (fun _ => true) F = f.mapBlocks F := by
  simp [MultiField.mapOn, MultiField.mapBlocks]

/-- The block for `i` in a container with distinct identities: every stored pair
with identity `i` carries the block that `get` returns. -/
theorem MultiField.snd_eq_of_get (f : MultiField α) (hnd : f.indices.Nodup)
    (p : Index × α) (hp : p ∈ f.arrays) (a : α) (ha : f.get p.1 = some a) : p.2 = a := by
  have := Map.find_of_mem_nodup f.arrays p.1 p.2 hnd hp
  have e : f.get p.1 = some p.2 := this
  rw [e] at ha
  exact Option.some.inj ha

/-- A row loop that, for every selected row, replaces the block of the row by a
function of the row and of the block, and appends the calls of the row to the log:
in closed form, provided the identities of the container are distinct, the rows are
distinct and the container holds every selected row. -/
theorem rowLoop_closed (sel : Index → Bool) (F : Index → α → α) (E : Index → List Event) :
    ∀ (rows : List Index) (y : MultiField α) (log : List Event),
      rows.Nodup → y.indices.Nodup →
      (∀ i ∈ rows, sel i = true → i ∈ y.indices) →
      rows.foldlM
          (fun (st : MultiField α × List Event) i =>
            if sel i = true then
              (st.1.get i).bind (fun yI => some (st.1.set i (F i yI), st.2 ++ E i))
            else some st)
          (y, log) =
        some (y.mapOn (fun i => decide (i ∈ rows) && sel i) F,
              log ++ (rows.filter sel).flatMap E) := by
  intro rows
  induction rows with
  | nil =>
    intro y log _ _ _
    have h0 : y.mapOn (fun i => decide (i ∈ ([] : List Index)) && sel i) F = y := by
      obtain ⟨l⟩ := y
      simp [MultiField.mapOn]
    rw [h0]
    simp
  | cons i rest ih =>
    intro y log hrows hy hmem
    have hi : i ∉ rest := (List.nodup_cons.mp hrows).1
    have hrest : rest.Nodup := (List.nodup_cons.mp hrows).2
    by_cases hs : sel i = true
    · obtain ⟨yI, hyI⟩ := y.get_of_mem i (hmem i (List.mem_cons_self i rest) hs)
      have hy1 : (y.set i (F i yI)).indices.Nodup := by
        rw [MultiField.indices_set]; exact hy
      have hmem1 : ∀ j ∈ rest, sel j = true → j ∈ (y.set i (F i yI)).indices := by
        intro j hj hsj
        rw [MultiField.indices_set]
        exact hmem j (List.mem_cons_of_mem i hj) hsj
      simp only [List.foldlM_cons, hs, if_true, hyI, Option.bind_eq_bind, Option.some_bind]
      rw [ih (y.set i (F i yI)) (log ++ E i) hrest hy1 hmem1]
      have e : (y.set i (F i yI)).mapOn (fun j => decide (j ∈ rest) && sel j) F =
          y.mapOn (fun j => decide (j ∈ i :: rest) && sel j) F := by
        simp only [MultiField.mapOn, MultiField.set, List.map_map]
        congr 1
        apply List.map_congr_left
        intro p hp
        by_cases hpi : p.1 = i
        · have hp2 : p.2 = yI := MultiField.snd_eq_of_get y hy p hp yI (hpi ▸ hyI)
          obtain ⟨k, v⟩ := p
          simp only at hpi hp2
          subst hpi
          subst hp2
          simp [hi, hs]
        · have hne : ¬ (p.1 = i) := hpi
          simp [hne]
      rw [e]
      simp [List.filter_cons, hs, List.flatMap_cons, List.append_assoc]
    · have hs' : sel i = false := by simpa using hs
      have hmem1 : ∀ j ∈ rest, sel j = true → j ∈ y.indices :=
        fun j hj hsj => hmem j (List.mem_cons_of_mem i hj) hsj
      simp only [List.foldlM_cons, hs', Bool.false_eq_true, if_false, Option.bind_eq_bind,
        Option.some_bind]
      rw [ih y log hrest hy hmem1]
      have e : y.mapOn (fun j => decide (j ∈ rest) && sel j) F =
          y.mapOn (fun j => decide (j ∈ i :: rest) && sel j) F := by
        apply MultiField.mapOn_congr
        intro j _
        by_cases hji : j = i
        · subst hji
          simp [hs']
        · simp [hji]
      rw [e]
      simp [List.filter_cons, hs']

end RowLoops

/-! ## The multiply family in closed form -/

section MultiplyFamily

variable {M R : Type}

theorem MultiField.mapOn_indices_eq_mapBlocks {α : Type} (sel : Index → Bool)
    (F : Index → α → α) (f : MultiField α) (hsel : ∀ i ∈ f.indices, sel i = true) :
    f.mapOn (fun i => decide (i ∈ f.indices) && sel i) F = f.mapBlocks F := by
  rw [← MultiField.mapOn_true]
  apply MultiField.mapOn_congr
  intro i hi
  simp [hi, hsel i hi]

/-- The result of `multiply` in closed form: every block is zeroed and then
accumulated over the couplings of its row; the log lists the couplings row by row. -/
theorem multiply_closed [Zero R] (K : Matrix M R) (A : MultiFieldMatrix M) (y x : MultiField (List R))
    (hy : y.indices.Nodup) :
    multiply K A y x =
      some (y.mapBlocks (fun i yI => accumulate K A x i (couplings A x i) (ArrayBase.zero yI)),
            y.indices.flatMap (fun i => (couplings A x i).map (Event.multiplyAndAdd i))) := by
  have h := rowLoop_closed (fun _ => true)
    (fun i yI => accumulate K A x i (couplings A x i) (ArrayBase.zero yI))
    (fun i => (couplings A x i).map (Event.multiplyAndAdd i)) y.indices y [] hy hy
    (fun i hi _ => hi)
  rw [MultiField.mapOn_indices_eq_mapBlocks (fun _ => true) _ y (fun _ _ => rfl)] at h
  simp only [if_true, List.filter_true, List.nil_append] at h
  rw [← h]
  unfold multiply
  simp only [columnLoop_eq, Option.bind_eq_bind, Option.pure_def, Option.some_bind]

/-- The result of `multiplyAndAdd` in closed form: every block is accumulated over the
couplings of its row; the log lists the couplings row by row. -/
theorem multiplyAndAdd_closed (K : Matrix M R) (A : MultiFieldMatrix M)
    (y x : MultiField (List R)) (hy : y.indices.Nodup) :
    multiplyAndAdd K A y x =
      some (y.mapBlocks (fun i yI => accumulate K A x i (couplings A x i) yI),
            y.indices.flatMap (fun i => (couplings A x i).map (Event.multiplyAndAdd i))) := by
  have h := rowLoop_closed (fun _ => true)
    (fun i yI => accumulate K A x i (couplings A x i) yI)
    (fun i => (couplings A x i).map (Event.multiplyAndAdd i)) y.indices y [] hy hy
    (fun i hi _ => hi)
  rw [MultiField.mapOn_indices_eq_mapBlocks (fun _ => true) _ y (fun _ _ => rfl)] at h
  simp only [if_true, List.filter_true, List.nil_append] at h
  rw [← h]
  unfold multiplyAndAdd
  simp only [columnLoop_eq, Option.bind_eq_bind, Option.pure_def, Option.some_bind]

/-- The result of `computeResidual` in closed form, when `b` and `r` hold every row of
`x` that has a diagonal entry. -/
theorem computeResidual_closed [Zero R] (K : Matrix M R) (A : MultiFieldMatrix M)
    (sites : Nat → StorageSite) (x b r : MultiField (List R))
    (hx : x.indices.Nodup) (hr : r.indices.Nodup)
    (hb : ∀ i ∈ x.indices, A.hasMatrix i i = true → i ∈ b.indices)
    (hrm : ∀ i ∈ x.indices, A.hasMatrix i i = true → i ∈ r.indices) :
    computeResidual K A sites x b r =
      some (r.mapOn (fun i => decide (i ∈ x.indices) && A.hasMatrix i i)
              (residualBlock K A sites x b),
            (x.indices.filter (fun i => A.hasMatrix i i)).flatMap
              (fun i => (couplings A x i).map (Event.multiplyAndAdd i))) := by
  have h := rowLoop_closed (fun i => A.hasMatrix i i) (residualBlock K A sites x b)
    (fun i => (couplings A x i).map (Event.multiplyAndAdd i)) x.indices r [] hx hr hrm
  simp only [List.nil_append] at h
  rw [← h]
  unfold computeResidual
  apply foldlM_congr_mem
  intro i hi st
  by_cases hs : A.hasMatrix i i = true
  · obtain ⟨bI, hbI⟩ := b.get_of_mem i (hb i hi hs)
    simp only [hs, if_true, hbI, columnLoop_eq, Option.bind_eq_bind, Option.pure_def,
      Option.some_bind, residualBlock]
  · simp only [Bool.not_eq_true] at hs
    simp only [hs, Bool.false_eq_true, if_false, Option.pure_def]

end MultiplyFamily

/-! ## Facts on the concrete kernel and on lists -/

section Auxiliary

variable {R : Type}

theorem scalarKernel_additive : Additive scalarKernel scalarAct := by
  intro m yI xJ k
  simp [scalarKernel, scalarAct, List.getElem?_mapIdx]

theorem zero_getElem? [Zero R] (a : List R) (k : Nat) :
    (ArrayBase.zero a)[k]? = (a[k]?).map (fun _ => (0 : R)) := by
  simp only [ArrayBase.zero, List.getElem?_map]

theorem zero_eq_replicate [Zero R] (a : List R) :
    ArrayBase.zero a = List.replicate a.length 0 := by
  induction a with
  | nil => rfl
  | cons v a ih =>
    simp only [ArrayBase.zero, List.map_cons, List.length_cons, List.replicate_succ] at ih ⊢
    rw [ih]

theorem zipWith_zero_add [AddMonoid R] :
    ∀ (a b : List R), a.length = b.length →
      List.zipWith (fun u v => u + v) (ArrayBase.zero a) b = b := by
  intro a
  induction a with
  | nil =>
    intro b h
    cases b with
    | nil => rfl
    | cons _ _ => simp at h
  | cons u a ih =>
    intro b h
    cases b with
    | nil => simp at h
    | cons v b =>
      simp only [List.length_cons, Nat.add_right_cancel_iff] at h
      have := ih b h
      simp only [ArrayBase.zero] at this
      simp only [ArrayBase.zero, List.map_cons, List.zipWith_cons_cons, zero_add, this]

theorem scalarKernel_one (yI xJ : List Int) (h : yI.length = xJ.length) :
    scalarKernel.multiplyAndAdd 1 yI xJ = List.zipWith (fun u v => u + v) yI xJ := by
  apply List.ext_getElem?
  intro k
  simp only [scalarKernel, List.getElem?_mapIdx, List.getElem?_zipWith, one_mul]
  by_cases hk : k < yI.length
  · have hk' : k < xJ.length := h ▸ hk
    simp [List.getElem?_eq_getElem hk, List.getElem?_eq_getElem hk', List.getD_eq_getElem?_getD]
  · have hk' : ¬ k < xJ.length := h ▸ hk
    simp [List.getElem?_eq_none (Nat.le_of_not_lt hk)]

theorem filter_eq_singleton {β : Type} (p : β → Bool) (a : β) :
    ∀ (l : List β), l.Nodup → a ∈ l → (∀ c ∈ l, p c = true ↔ c = a) → l.filter p = [a] := by
  intro l
  induction l with
  | nil => intro _ h _; simp at h
  | cons c l ih =>
    intro hnd hmem hp
    have hc : c ∉ l := (List.nodup_cons.mp hnd).1
    have hl : l.Nodup := (List.nodup_cons.mp hnd).2
    by_cases hca : c = a
    · subst hca
      have h1 : p c = true := (hp c (List.mem_cons_self c l)).mpr rfl
      have h2 : l.filter p = [] := by
        apply List.filter_eq_nil_iff.mpr
        intro d hd hpd
        have := (hp d (List.mem_cons_of_mem c hd)).mp hpd
        exact hc (this ▸ hd)
      simp [List.filter_cons, h1, h2]
    · have h1 : ¬ p c = true := fun h => hca ((hp c (List.mem_cons_self c l)).mp h)
      have hmem' : a ∈ l := by
        rcases List.mem_cons.mp hmem with e | h
        · exact absurd e.symm hca
        · exact h
      have := ih hl hmem' (fun d hd => hp d (List.mem_cons_of_mem c hd))
      simp [List.filter_cons, h1, this]

theorem MultiField.get_eq_none_of_not_mem {α : Type} (f : MultiField α) (i : Index)
    (h : i ∉ f.indices) : f.get i = none := by
  cases hg : f.get i with
  | none => rfl
  | some a =>
    exact absurd ((MultiField.get_isSome_iff f i).mp (by simp [hg])) h

theorem MultiField.indices_zeroAll [Zero R] (y : MultiField (List R)) :
    y.zeroAll.indices = y.indices := by
  simp [MultiField.indices, MultiField.zeroAll, List.map_map, Function.comp_def]

end Auxiliary

/-! ## The multiply family: statements -/

section MultiplyClaims

variable {M R : Type}

/-- C1. For every result container `y` (with distinct block identities) and input
container `x`, `multiply(y, x)` returns, keeps the enumeration of `y`, and leaves in
each block `y[i]` the kernels of the couplings `(i, j)`, `j` enumerated by `x` with an
existing entry, accumulated from the zeroed block.  For kernels that add the product
`A[i,j]·x[j]` to their first argument, component `k` of the block is the sum of the
components `k` of these products; a row with no existing coupling ends as zeros. -/
theorem multiply_rows [AddMonoid R] (K : Matrix M R) (act : M → List R → Nat → R)
    (A : MultiFieldMatrix M) (y x : MultiField (List R))
    (hK : Additive K act) (hy : y.indices.Nodup) :
    ∃ y' log, multiply K A y x = some (y', log) ∧ y'.indices = y.indices ∧
      ∀ i yI, y.get i = some yI →
        ∃ yI', y'.get i = some yI' ∧
          yI' = accumulate K A x i (couplings A x i) (ArrayBase.zero yI) ∧
          yI'.length = yI.length ∧
          (∀ k, k < yI.length → yI'[k]? = some (blockSum act A x i (couplings A x i) k)) ∧
          (couplings A x i = [] → yI' = List.replicate yI.length 0) := by
  refine ⟨_, _, multiply_closed K A y x hy, MultiField.indices_mapBlocks _ y, ?_⟩
  intro i yI hyI
  refine ⟨accumulate K A x i (couplings A x i) (ArrayBase.zero yI), ?_, rfl, ?_, ?_, ?_⟩
  · rw [MultiField.get_mapBlocks, hyI]
    rfl
  · rw [accumulate_length K act hK]
    simp [ArrayBase.zero]
  · intro k hk
    rw [accumulate_getElem? K act hK, zero_getElem?, List.getElem?_eq_getElem hk]
    simp
  · intro hc
    rw [hc]
    exact zero_eq_replicate yI

/-- Witness of C1 on the two-row system: the kernel of scalar blocks is additive,
the identities of the result container are distinct, and row `row0` ends
as `2·x[row0] + 3·x[row1]`. -/
theorem multiply_rows_witness :
    Additive scalarKernel scalarAct ∧ exampleY.indices.Nodup ∧
      ∃ y' log, multiply scalarKernel exampleMatrix exampleY exampleX = some (y', log) ∧
        y'.get row0 = some [5, 8, 11] :=
  ⟨scalarKernel_additive, by decide,
    (multiply_rows scalarKernel scalarAct exampleMatrix exampleY exampleX
      scalarKernel_additive (by decide)).elim
      (fun y' h => h.elim (fun log h' => ⟨y', log, h'.1, by
        have e : multiply scalarKernel exampleMatrix exampleY exampleX =
            some (⟨[(row0, [5, 8, 11]), (row1, [1, 2, 3])]⟩,
              [Event.multiplyAndAdd row0 row0, Event.multiplyAndAdd row0 row1,
               Event.multiplyAndAdd row1 row1]) := by decide
        rw [e] at h'
        have h1 := h'.1
        simp only [Option.some.injEq, Prod.mk.injEq] at h1
        rw [← h1.1]
        decide⟩))⟩

/-- C7. `multiplyAndAdd` is `multiply` without the zeroing step: for every `y` (with
distinct block identities) and `x`, `multiply(y, x)` returns, and it returns the
container and the log of calls that `multiplyAndAdd(y0, x)` returns, where `y0` is `y`
with every block set to zero; on `y` itself `multiplyAndAdd` makes the same calls in
the same order as `multiply`. -/
theorem multiply_eq_multiplyAndAdd_zeroAll [Zero R] (K : Matrix M R) (A : MultiFieldMatrix M)
    (y x : MultiField (List R)) (hy : y.indices.Nodup) :
    (∃ res, multiply K A y x = some res) ∧
      multiply K A y x = multiplyAndAdd K A y.zeroAll x ∧
      (multiplyAndAdd K A y x).map Prod.snd = (multiply K A y x).map Prod.snd := by
  have hy0 : y.zeroAll.indices.Nodup := by
    rw [MultiField.indices_zeroAll]; exact hy
  refine ⟨⟨_, multiply_closed K A y x hy⟩, ?_, ?_⟩
  · rw [multiply_closed K A y x hy, multiplyAndAdd_closed K A y.zeroAll x hy0,
      MultiField.indices_zeroAll]
    simp [MultiField.mapBlocks, MultiField.zeroAll, List.map_map, Function.comp_def]
  · rw [multiply_closed K A y x hy, multiplyAndAdd_closed K A y x hy]
    rfl

/-- Witness of C7 on the two-row system. -/
theorem multiply_eq_multiplyAndAdd_zeroAll_witness :
    exampleY.indices.Nodup ∧
      multiply scalarKernel exampleMatrix exampleY exampleX =
        multiplyAndAdd scalarKernel exampleMatrix exampleY.zeroAll exampleX :=
  ⟨by decide,
    (multiply_eq_multiplyAndAdd_zeroAll scalarKernel exampleMatrix exampleY exampleX
      (by decide)).2.1⟩

/-- C8. For a matrix whose only entries are diagonal blocks, one for each enumerated
identity and each acting as the identity (`multiplyAndAdd` adds `x` to `y`), and
containers `x` and `y` that enumerate the same identities with blocks of equal
length, `multiply(y, x)` returns and leaves `y[i] = x[i]` for every identity `i`,
whatever `y` held. -/
theorem multiply_identity [AddMonoid R] (K : Matrix M R) (A : MultiFieldMatrix M)
    (y x : MultiField (List R))
    (hy : y.indices.Nodup) (hx : x.indices.Nodup)
    (hsame : ∀ i, i ∈ y.indices ↔ i ∈ x.indices)
    (hlen : ∀ i yI xI, y.get i = some yI → x.get i = some xI → yI.length = xI.length)
    (hdiag : ∀ row col, A.hasMatrix row col = true → row = col)
    (hid : ∀ i ∈ x.indices, ∃ m, (A.getMatrix i i).1.toOption = some m ∧
      ∀ yI xJ : List R, yI.length = xJ.length →
        K.multiplyAndAdd m yI xJ = List.zipWith (fun u v => u + v) yI xJ) :
    ∃ y' log, multiply K A y x = some (y', log) ∧ y'.indices = y.indices ∧
      ∀ i, y'.get i = x.get i := by
  refine ⟨_, _, multiply_closed K A y x hy, MultiField.indices_mapBlocks _ y, ?_⟩
  intro i
  rw [MultiField.get_mapBlocks]
  by_cases hi : i ∈ y.indices
  · have hix : i ∈ x.indices := (hsame i).mp hi
    obtain ⟨yI, hyI⟩ := y.get_of_mem i hi
    obtain ⟨xI, hxI⟩ := x.get_of_mem i hix
    obtain ⟨m, hm, hmul⟩ := hid i hix
    have hc : couplings A x i = [i] := by
      apply filter_eq_singleton _ i x.indices hx hix
      intro c _
      constructor
      · intro h
        exact (hdiag i c h).symm
      · rintro rfl
        simp [MultiFieldMatrix.hasMatrix, MultiFieldMatrix.getMatrix_toOption] at hm ⊢
        simp [hm]
    have hl : (ArrayBase.zero yI).length = xI.length := by
      simp only [ArrayBase.zero, List.length_map]
      exact hlen i yI xI hyI hxI
    rw [hyI, hxI, hc]
    simp only [Option.map_some', accumulate, List.foldl_cons, List.foldl_nil, hm, hxI]
    rw [hmul _ _ hl, zipWith_zero_add yI xI (hlen i yI xI hyI hxI)]
  · have hix : i ∉ x.indices := fun h => hi ((hsame i).mpr h)
    rw [MultiField.get_eq_none_of_not_mem y i hi, MultiField.get_eq_none_of_not_mem x i hix]
    rfl

/-- Witness of C8 on the two-row identity matrix. -/
theorem multiply_identity_witness :
    exampleY.indices.Nodup ∧ exampleX.indices.Nodup ∧
      ∃ y' log, multiply scalarKernel identityMatrix exampleY exampleX = some (y', log) ∧
        ∀ i, y'.get i = exampleX.get i :=
  ⟨by decide, by decide,
    (multiply_identity scalarKernel identityMatrix exampleY exampleX (by decide) (by decide)
      (by intro i; rfl)
      (by
        intro i yI xI h1 h2
        have hy : ∀ j a, exampleY.get j = some a → a.length = 3 := by
          intro j a h
          simp only [exampleY, MultiField.get, Map.find] at h
          split_ifs at h <;> simp at h <;> subst h <;> rfl
        have hx : ∀ j a, exampleX.get j = some a → a.length = 3 := by
          intro j a h
          simp only [exampleX, MultiField.get, Map.find] at h
          split_ifs at h <;> simp at h <;> subst h <;> rfl
        rw [hy i yI h1, hx i xI h2])
      (by
        intro row col h
        simp only [identityMatrix, MultiFieldMatrix.hasMatrix, MultiFieldMatrix.empty,
          Map.find] at h
        split_ifs at h with h1 h2
        · exact (Prod.mk.inj h1).1.symm.trans (Prod.mk.inj h1).2
        · exact (Prod.mk.inj h2).1.symm.trans (Prod.mk.inj h2).2
        · simp at h)
      (by
        intro i hi
        refine ⟨1, ?_, scalarKernel_one⟩
        have : i = row0 ∨ i = row1 := by
          simpa [exampleX, MultiField.indices] using hi
        rcases this with rfl | rfl <;> decide)).elim
      (fun y' h => h.elim (fun log h' => ⟨y', log, h'.1, h'.2.2⟩))⟩

end MultiplyClaims

/-! ## The matrix map: statements -/

section MatrixMap

variable {M : Type}

theorem Map.mem_of_find {κ ν : Type} [DecidableEq κ] (m : List (κ × ν)) (k : κ) (v : ν)
    (h : Map.find m k = some v) : (k, v) ∈ m := by
  induction m with
  | nil => simp [Map.find] at h
  | cons p m ih =>
    obtain ⟨k', v'⟩ := p
    rw [Map.find_cons] at h
    by_cases hk : k' = k
    · rw [if_pos hk] at h
      cases h
      subst hk
      exact List.mem_cons_self _ _
    · rw [if_neg hk] at h
      exact List.mem_cons_of_mem _ (ih h)

theorem wrapInt32_add (a b : Int) : wrapInt32 (wrapInt32 a + b) = wrapInt32 (a + b) := by
  unfold wrapInt32
  omega

theorem wrapInt32_of_range (z : Int) (h0 : -2147483648 ≤ z) (h1 : z < 2147483648) :
    wrapInt32 z = z := by
  unfold wrapInt32
  omega

theorem getSize_foldl (sites : Nat → StorageSite) (l : List (EntryIndex × M)) (n : Int) :
    l.foldl
        (fun size pos =>
          if pos.1.1 = pos.1.2 then wrapInt32 (size + ((sites pos.1.1.2).count : Int))
          else size) (wrapInt32 n) =
      wrapInt32 (n + ((l.filter (fun pos => decide (pos.1.1 = pos.1.2))).map
        (fun pos => ((sites pos.1.1.2).count : Int))).sum) := by
  induction l generalizing n with
  | nil => simp
  | cons p l ih =>
    by_cases h : p.1.1 = p.1.2
    · simp only [List.foldl_cons, h, if_true, List.filter_cons, decide_True, List.map_cons,
        List.sum_cons]
      rw [wrapInt32_add, ih, Int.add_assoc]
    · simp only [List.foldl_cons, h, if_false, List.filter_cons, decide_False]
      rw [ih]
      simp

theorem sum_counts_nonneg (sites : Nat → StorageSite) (l : List (EntryIndex × M)) :
    0 ≤ (l.map (fun pos => ((sites pos.1.1.2).count : Int))).sum := by
  apply List.sum_nonneg
  intro x hx
  obtain ⟨pos, _, e⟩ := List.mem_map.mp hx
  rw [← e]
  exact Int.ofNat_nonneg _

/-- C4, as the code has it. For every matrix map, `getSize()` is the sum, over all
diagonal entries `(row, row)` present in `matrices`, of the total count (`getCount()`:
self-owned and ghost extent) of the row's partition, reduced to the range of the 32-bit
`int` it is accumulated in; while that sum stays below `2^31`, `getSize()` equals the
sum.  Off-diagonal entries contribute nothing. -/
theorem getSize_eq_sum_count (sites : Nat → StorageSite) (A : MultiFieldMatrix M) :
    A.getSize sites =
        wrapInt32 ((A.matrices.filter (fun pos => decide (pos.1.1 = pos.1.2))).map
          (fun pos => ((sites pos.1.1.2).count : Int))).sum ∧
    (((A.matrices.filter (fun pos => decide (pos.1.1 = pos.1.2))).map
        (fun pos => ((sites pos.1.1.2).count : Int))).sum < 2147483648 →
      A.getSize sites =
        ((A.matrices.filter (fun pos => decide (pos.1.1 = pos.1.2))).map
          (fun pos => ((sites pos.1.1.2).count : Int))).sum) := by
  have h : A.getSize sites =
      wrapInt32 ((A.matrices.filter (fun pos => decide (pos.1.1 = pos.1.2))).map
        (fun pos => ((sites pos.1.1.2).count : Int))).sum := by
    have h0 := getSize_foldl sites A.matrices 0
    rw [Int.zero_add] at h0
    exact h0
  refine ⟨h, ?_⟩
  intro hlt
  rw [h]
  apply wrapInt32_of_range _ _ hlt
  have h1 := sum_counts_nonneg sites
    (A.matrices.filter (fun pos => decide (pos.1.1 = pos.1.2)))
  omega

/-- Witness of C4: on the two-row system the total counts of the two diagonal entries sum
to `6`, below `2^31`, and `getSize()` is `6`. -/
theorem getSize_eq_sum_count_witness :
    ((exampleMatrix.matrices.filter (fun pos => decide (pos.1.1 = pos.1.2))).map
        (fun pos => ((exampleSites pos.1.1.2).count : Int))).sum < 2147483648 ∧
    exampleMatrix.getSize exampleSites =
      ((exampleMatrix.matrices.filter (fun pos => decide (pos.1.1 = pos.1.2))).map
        (fun pos => ((exampleSites pos.1.1.2).count : Int))).sum :=
  ⟨by decide, (getSize_eq_sum_count exampleSites exampleMatrix).2 (by decide)⟩

/-- C4 as stated fails: on the two-row system, whose partitions have two self-owned
entries and one ghost entry, `getSize()` is `6`, the sum of the total counts, while
the self-owned counts of the two diagonal entries sum to `4`; and on partitions of `2^30`
self-owned entries the self-owned counts of the two diagonal entries sum to `2^31`,
while `getSize()`, accumulated in an `int`, is `-2^31`. -/
theorem getSize_counts_ghosts :
    exampleMatrix.getSize exampleSites = 6 ∧
      ((exampleMatrix.matrices.filter (fun pos => decide (pos.1.1 = pos.1.2))).map
        (fun pos => ((exampleSites pos.1.1.2).selfCount : Int))).sum = 4 ∧
      exampleMatrix.getSize exampleSites ≠
        ((exampleMatrix.matrices.filter (fun pos => decide (pos.1.1 = pos.1.2))).map
          (fun pos => ((exampleSites pos.1.1.2).selfCount : Int))).sum ∧
      exampleMatrix.getSize hugeSites = -2147483648 ∧
      ((exampleMatrix.matrices.filter (fun pos => decide (pos.1.1 = pos.1.2))).map
        (fun pos => ((hugeSites pos.1.1.2).selfCount : Int))).sum = 2147483648 ∧
      exampleMatrix.getSize hugeSites ≠
        ((exampleMatrix.matrices.filter (fun pos => decide (pos.1.1 = pos.1.2))).map
          (fun pos => ((hugeSites pos.1.1.2).selfCount : Int))).sum := by
  decide

/-- C5, as the code has it. `getMatrix(row, col)` returns the stored block when the
entry exists; when no entry `(row, col)` exists it signals no failure: the iterator
`end()` is dereferenced, which is undefined behaviour.  The lookup leaves the aggregate,
and so the set of entries of `matrices`, as it is. -/
theorem getMatrix_spec (A : MultiFieldMatrix M) (row col : Index) :
    (A.hasMatrix row col = true →
      ∃ m, (A.getMatrix row col).1 = Outcome.value m ∧ ((row, col), m) ∈ A.matrices) ∧
    (A.hasMatrix row col = false → (A.getMatrix row col).1 = Outcome.undefined) ∧
    (A.getMatrix row col).2 = A := by
  refine ⟨?_, ?_, rfl⟩
  · intro h
    obtain ⟨m, hm⟩ := Option.isSome_iff_exists.mp h
    refine ⟨m, ?_, Map.mem_of_find A.matrices (row, col) m hm⟩
    simp only [MultiFieldMatrix.getMatrix, hm]
  · intro h
    have hnone : Map.find A.matrices (row, col) = none := by
      simpa [MultiFieldMatrix.hasMatrix] using h
    simp only [MultiFieldMatrix.getMatrix, hnone]

/-- Witness of C5: the entry `(row0, row1)` of the two-row system exists and is
returned; the entry `(row1, row0)` does not exist and the access is undefined. -/
theorem getMatrix_spec_witness :
    exampleMatrix.hasMatrix row0 row1 = true ∧
      (∃ m, (exampleMatrix.getMatrix row0 row1).1 = Outcome.value m ∧
        ((row0, row1), m) ∈ exampleMatrix.matrices) ∧
      exampleMatrix.hasMatrix row1 row0 = false ∧
      (exampleMatrix.getMatrix row1 row0).1 = Outcome.undefined :=
  ⟨by decide, (getMatrix_spec exampleMatrix row0 row1).1 (by decide), by decide,
    (getMatrix_spec exampleMatrix row1 row0).2.1 (by decide)⟩

/-- C5 as stated fails: the two-row system has no entry `(row1, row0)`, and
`getMatrix(row1, row0)` does not fail: its outcome is no failure signalled by the code,
with whatever message, but the undefined dereference of `end()`. -/
theorem getMatrix_absent_is_no_failure :
    exampleMatrix.hasMatrix row1 row0 = false ∧
      (exampleMatrix.getMatrix row1 row0).1 = Outcome.undefined ∧
      ¬ ∃ msg, (exampleMatrix.getMatrix row1 row0).1 = Outcome.failure msg := by
  refine ⟨by decide, rfl, ?_⟩
  rintro ⟨msg, h⟩
  have h2 : (Outcome.undefined : Outcome Int) = Outcome.failure msg := h
  cases h2

/-- C6. After `removeMatrix(row, col)`, `hasMatrix(r, c)` is true iff it was true before
and `(r, c) ≠ (row, col)`; every remaining entry keeps its block; the other members
of the aggregate are unchanged; removing an absent entry changes nothing. -/
theorem removeMatrix_spec (A : MultiFieldMatrix M) (row col : Index) :
    (∀ r c, (A.removeMatrix row col).hasMatrix r c = true ↔
      (A.hasMatrix r c = true ∧ (r, c) ≠ (row, col))) ∧
    (∀ r c, (r, c) ≠ (row, col) →
      ((A.removeMatrix row col).getMatrix r c).1.toOption = (A.getMatrix r c).1.toOption) ∧
    { A.removeMatrix row col with matrices := A.matrices } = A ∧
    (A.hasMatrix row col = false → A.removeMatrix row col = A) := by
  refine ⟨?_, ?_, rfl, ?_⟩
  · intro r c
    simp only [MultiFieldMatrix.hasMatrix, MultiFieldMatrix.removeMatrix]
    by_cases h : (r, c) = (row, col)
    · rw [h, Map.find_erase_self]
      simp
    · rw [Map.find_erase_ne _ _ _ h]
      simp [h]
  · intro r c h
    simp only [MultiFieldMatrix.getMatrix_toOption, MultiFieldMatrix.removeMatrix]
    exact Map.find_erase_ne _ _ _ h
  · intro h
    have hnone : Map.find A.matrices (row, col) = none := by
      simpa [MultiFieldMatrix.hasMatrix] using h
    simp only [MultiFieldMatrix.removeMatrix, Map.erase_of_find_none _ _ hnone]

/-- Witness of C6: removing the coupling `(row0, row1)` of the two-row system keeps the
diagonal block of `row0`, and removing the absent entry `(row1, row0)` changes
nothing. -/
theorem removeMatrix_spec_witness :
    (row0, row0) ≠ (row0, row1) ∧
      ((exampleMatrix.removeMatrix row0 row1).getMatrix row0 row0).1.toOption =
        (exampleMatrix.getMatrix row0 row0).1.toOption ∧
      exampleMatrix.hasMatrix row1 row0 = false ∧
      exampleMatrix.removeMatrix row1 row0 = exampleMatrix :=
  ⟨by decide, (removeMatrix_spec exampleMatrix row0 row1).2.1 row0 row0 (by decide),
    by decide, (removeMatrix_spec exampleMatrix row1 row0).2.2.2 (by decide)⟩

end MatrixMap

/-! ## The residual: statements -/

section Residual

variable {M R : Type}

theorem copyPartial_getElem? [Zero R] (a b : List R) (iBeg iEnd k : Nat) :
    (ArrayBase.copyPartial a b iBeg iEnd)[k]? =
      (a[k]?).map (fun v => if iBeg ≤ k ∧ k < iEnd then b.getD k v else v) := by
  simp only [ArrayBase.copyPartial, List.getElem?_mapIdx]

theorem zeroPartial_getElem? [Zero R] (a : List R) (iBeg iEnd k : Nat) :
    (ArrayBase.zeroPartial a iBeg iEnd)[k]? =
      (a[k]?).map (fun v => if iBeg ≤ k ∧ k < iEnd then 0 else v) := by
  simp only [ArrayBase.zeroPartial, List.getElem?_mapIdx]

/-- C2, as the code has it. For every `x` (with distinct identities), `b` and `r` (with
distinct identities) that hold the rows of `x` with a diagonal entry, and kernels that
add the product `A[i,j]·x[j]` to their first argument, `computeResidual(x, b, r)`
returns and every such row `i` satisfies `r[i] = b[i]` plus the sum over every
existing coupling `(i, j)` of `A[i,j]·x[j]` on its self-owned extent,
i.e. `r = b + A·x` there. -/
theorem computeResidual_rows [AddMonoid R] (K : Matrix M R) (act : M → List R → Nat → R)
    (A : MultiFieldMatrix M) (sites : Nat → StorageSite) (x b r : MultiField (List R))
    (hK : Additive K act) (hx : x.indices.Nodup) (hr : r.indices.Nodup)
    (hb : ∀ i ∈ x.indices, A.hasMatrix i i = true → i ∈ b.indices)
    (hrm : ∀ i ∈ x.indices, A.hasMatrix i i = true → i ∈ r.indices) :
    ∃ r' log, computeResidual K A sites x b r = some (r', log) ∧
      ∀ i ∈ x.indices, A.hasMatrix i i = true →
        ∀ bI rI, b.get i = some bI → r.get i = some rI →
          ∃ rI', r'.get i = some rI' ∧ rI'.length = rI.length ∧
            ∀ k bk, k < (sites i.2).selfCount → k < rI.length → bI[k]? = some bk →
              rI'[k]? = some (bk + blockSum act A x i (couplings A x i) k) := by
  refine ⟨_, _, computeResidual_closed K A sites x b r hx hr hb hrm, ?_⟩
  intro i hi hs bI rI hbI hrI
  refine ⟨residualBlock K A sites x b i rI, ?_, ?_, ?_⟩
  · rw [MultiField.get_mapOn, hrI]
    simp [hi, hs]
  · simp only [residualBlock, hbI]
    rw [accumulate_length K act hK]
    simp [ArrayBase.zeroPartial, ArrayBase.copyPartial]
  · intro k bk hk hkr hbk
    simp only [residualBlock, hbI]
    rw [accumulate_getElem? K act hK, zeroPartial_getElem?, copyPartial_getElem?,
      List.getElem?_eq_getElem hkr]
    have h1 : ¬ ((sites i.2).selfCount ≤ k ∧ k < (sites i.2).count) := by omega
    have h2 : bI.getD k rI[k] = bk := by
      rw [List.getD_eq_getElem?_getD, hbk]
      rfl
    simp only [Option.map_some', Nat.zero_le, true_and, hk, if_true, h1, if_false, h2]

/-- Witness of C2, as the code has it, on the two-row system. -/
theorem computeResidual_rows_witness :
    Additive scalarKernel scalarAct ∧ exampleX.indices.Nodup ∧ exampleY.indices.Nodup ∧
      ∃ r' log,
        computeResidual scalarKernel exampleMatrix exampleSites exampleX exampleB exampleY =
          some (r', log) :=
  ⟨scalarKernel_additive, by decide, by decide,
    (computeResidual_rows scalarKernel scalarAct exampleMatrix exampleSites exampleX exampleB
      exampleY scalarKernel_additive (by decide) (by decide)
      (by intro i _ _; simpa [exampleB, exampleX, MultiField.indices] using ‹i ∈ exampleX.indices›)
      (by intro i _ _; simpa [exampleY, exampleX, MultiField.indices] using ‹i ∈ exampleX.indices›)).elim
      (fun r' h => h.elim (fun log h' => ⟨r', log, h'.1⟩))⟩

/-- C2 as stated fails: on the two-row system, with `b[row0] = [5, 5, 5]` and
`(A·x)[row0] = 2·1 + 3·1 = 5` in component `0`, `computeResidual` leaves `10 = 5 + 5` in
component `0` of `r[row0]`, so that `r + A·x = 15` there and not `b = 5`. -/
theorem computeResidual_adds_product :
    computeResidual scalarKernel exampleMatrix exampleSites exampleX exampleB exampleY =
        some (⟨[(row0, [10, 13, 11]), (row1, [5, 6, 3])]⟩,
          [Event.multiplyAndAdd row0 row0, Event.multiplyAndAdd row0 row1,
           Event.multiplyAndAdd row1 row1]) ∧
      exampleB.get row0 = some [5, 5, 5] ∧
      blockSum scalarAct exampleMatrix exampleX row0 (couplings exampleMatrix exampleX row0) 0
        = 5 ∧
      (10 : Int) + 5 ≠ 5 := by
  decide

end Residual

/-! ## The forward sweep: statements -/

section ForwardSweep

variable {M R : Type}

theorem forwardGSRow_skip [Zero R] (K : Matrix M R) (A : MultiFieldMatrix M)
    (sites : Nat → StorageSite) (sync : Index → MultiField (List R) → List R)
    (b : MultiField (List R)) (s : GSState R) (i : Index) (h : A.hasMatrix i i = false) :
    forwardGSRow K A sites sync b s i = some s := by
  simp [forwardGSRow, h]

theorem forwardGSRow_eq [Zero R] (K : Matrix M R) (A : MultiFieldMatrix M)
    (sites : Nat → StorageSite) (sync : Index → MultiField (List R) → List R)
    (b : MultiField (List R)) (s : GSState R) (i : Index) (mII : M) (bI tI xI : List R)
    (hm : (A.getMatrix i i).1.toOption = some mII) (hb : b.get i = some bI)
    (ht : s.temp.get i = some tI) (hxI : (s.x.syncLocal sync i).get i = some xI) :
    forwardGSRow K A sites sync b s i =
      some
        { x := (s.x.syncLocal sync i).set i
            (K.forwardGS mII xI
              (accumulate K A s.x i (offDiagonalCouplings A s.x i)
                (ArrayBase.copyPartial tI bI 0 (sites i.2).selfCount))).1,
          temp := s.temp.set i
            (K.forwardGS mII xI
              (accumulate K A s.x i (offDiagonalCouplings A s.x i)
                (ArrayBase.copyPartial tI bI 0 (sites i.2).selfCount))).2,
          log := s.log ++ (offDiagonalCouplings A s.x i).map (Event.multiplyAndAdd i) ++
            [Event.syncLocal i, Event.forwardGS i] } := by
  have hs : A.hasMatrix i i = true := by
    simp only [MultiFieldMatrix.hasMatrix]
    simp only [MultiFieldMatrix.getMatrix_toOption] at hm
    rw [hm]
    rfl
  simp only [forwardGSRow, hs, if_true, hb, ht, offDiagonalLoop_eq, hm, hxI,
    Option.bind_eq_bind, Option.some_bind, Option.pure_def]

/-- C3, as the code has it. `forwardGS` visits the rows `i = 0, …, L-1` in order.  A row
without a diagonal entry is skipped.  For a row with a diagonal entry, `temp[i]` is set
to `b[i]` over the self-owned extent, then the kernels of the existing off-diagonal
couplings `(i, j)`, `j ≠ i`, are applied to it with the current `x[j]`: for kernels that
add the product, `A[i,j]·x[j]` is added to `temp[i]` (not subtracted), so that on the
self-owned extent it holds `b[i]` plus the sum of the products.  Then the ghost
synchronisation of `x[i]` is made and the forward kernel of the diagonal block is
called with `(x[i], temp[i], temp[i])`; what it leaves is stored in `x[i]` and `temp[i]`. -/
theorem forwardGS_row_steps [AddMonoid R] (K : Matrix M R) (act : M → List R → Nat → R)
    (A : MultiFieldMatrix M) (sites : Nat → StorageSite)
    (sync : Index → MultiField (List R) → List R) (x b temp : MultiField (List R))
    (hK : Additive K act) :
    forwardGS K A sites sync x b temp =
        x.indices.foldlM (forwardGSRow K A sites sync b) ⟨x, temp, []⟩ ∧
      (∀ s i, A.hasMatrix i i = false → forwardGSRow K A sites sync b s i = some s) ∧
      (∀ s i mII bI tI xI, (A.getMatrix i i).1.toOption = some mII → b.get i = some bI →
        s.temp.get i = some tI → (s.x.syncLocal sync i).get i = some xI →
        ∃ r, r = accumulate K A s.x i (offDiagonalCouplings A s.x i)
                (ArrayBase.copyPartial tI bI 0 (sites i.2).selfCount) ∧
          r.length = tI.length ∧
          (∀ k bk, k < (sites i.2).selfCount → k < tI.length → bI[k]? = some bk →
            r[k]? = some (bk + blockSum act A s.x i (offDiagonalCouplings A s.x i) k)) ∧
          forwardGSRow K A sites sync b s i =
            some
              { x := (s.x.syncLocal sync i).set i (K.forwardGS mII xI r).1,
                temp := s.temp.set i (K.forwardGS mII xI r).2,
                log := s.log ++ (offDiagonalCouplings A s.x i).map (Event.multiplyAndAdd i) ++
                  [Event.syncLocal i, Event.forwardGS i] }) := by
  refine ⟨rfl, fun s i h => forwardGSRow_skip K A sites sync b s i h, ?_⟩
  intro s i mII bI tI xI hm hb ht hxI
  refine ⟨_, rfl, ?_, ?_, forwardGSRow_eq K A sites sync b s i mII bI tI xI hm hb ht hxI⟩
  · rw [accumulate_length K act hK]
    simp [ArrayBase.copyPartial]
  · intro k bk hk hkt hbk
    rw [accumulate_getElem? K act hK, copyPartial_getElem?, List.getElem?_eq_getElem hkt]
    have h2 : bI.getD k tI[k] = bk := by
      rw [List.getD_eq_getElem?_getD, hbk]
      rfl
    simp only [Option.map_some', Nat.zero_le, true_and, hk, if_true, h2]

/-- Witness of C3, as the code has it: the step of row `row0` of the two-row system. -/
theorem forwardGS_row_steps_witness :
    Additive scalarKernel scalarAct ∧ (exampleMatrix.getMatrix row0 row0).1.toOption = some 2 ∧
      exampleB.get row0 = some [5, 5, 5] ∧ exampleY.get row0 = some [9, 9, 9] ∧
      (exampleX.syncLocal keepBlock row0).get row0 = some [1, 1, 1] ∧
      ∃ r : List Int,
        r = accumulate scalarKernel exampleMatrix exampleX row0
              (offDiagonalCouplings exampleMatrix exampleX row0)
              (ArrayBase.copyPartial [9, 9, 9] [5, 5, 5] 0 (exampleSites row0.2).selfCount) ∧
          r.length = 3 :=
  ⟨scalarKernel_additive, by decide, by decide, by decide, by decide,
    ((forwardGS_row_steps scalarKernel scalarAct exampleMatrix exampleSites keepBlock exampleX
      exampleB exampleY scalarKernel_additive).2.2 ⟨exampleX, exampleY, []⟩ row0 2 [5, 5, 5]
      [9, 9, 9] [1, 1, 1] (by decide) (by decide) (by decide) (by decide)).elim
      (fun r h => ⟨r, h.1, h.2.1⟩)⟩

/-- C3 as stated fails: on the two-row system, with `b[row0] = [5, 5, 5]` and the
off-diagonal product `(A[row0,row1]·x[row1]) = 3·1 = 3` in component `0`, the sweep hands
the diagonal kernel of `row0` a `temp[row0]` whose component `0` is `8 = 5 + 3`, not
`2 = 5 - 3` (the relaxation kernel of the example leaves `temp` as it receives it). -/
theorem forwardGS_adds_product :
    forwardGS scalarKernel exampleMatrix exampleSites keepBlock exampleX exampleB exampleY =
        some
          { x := ⟨[(row0, [-4, -6, -9]), (row1, [-4, -4, -7])]⟩,
            temp := ⟨[(row0, [8, 11, 18]), (row1, [4, 4, 7])]⟩,
            log := [Event.multiplyAndAdd row0 row1, Event.syncLocal row0, Event.forwardGS row0,
                    Event.syncLocal row1, Event.forwardGS row1] } ∧
      exampleB.get row0 = some [5, 5, 5] ∧
      blockSum scalarAct exampleMatrix exampleX row0
        (offDiagonalCouplings exampleMatrix exampleX row0) 0 = 3 ∧
      (8 : Int) ≠ 5 - 3 := by
  decide

end ForwardSweep

/-! ## Rows without a diagonal entry: the sweeps and the residual -/

section NoDiagonal

variable {M R : Type}

theorem hasMatrix_of_getMatrix (A : MultiFieldMatrix M) (row col : Index) (m : M)
    (h : (A.getMatrix row col).1.toOption = some m) : A.hasMatrix row col = true := by
  simp only [MultiFieldMatrix.hasMatrix]
  simp only [MultiFieldMatrix.getMatrix_toOption] at h
  rw [h]
  rfl

theorem reverseGSRow_skip [Zero R] (K : Matrix M R) (A : MultiFieldMatrix M)
    (sites : Nat → StorageSite) (sync : Index → MultiField (List R) → List R)
    (b : MultiField (List R)) (s : GSState R) (i : Index) (h : A.hasMatrix i i = false) :
    reverseGSRow K A sites sync b s i = some s := by
  simp [reverseGSRow, h]

theorem reverseGSRow_eq [Zero R] (K : Matrix M R) (A : MultiFieldMatrix M)
    (sites : Nat → StorageSite) (sync : Index → MultiField (List R) → List R)
    (b : MultiField (List R)) (s : GSState R) (i : Index) (mII : M) (bI tI xI : List R)
    (hm : (A.getMatrix i i).1.toOption = some mII) (hb : b.get i = some bI)
    (ht : s.temp.get i = some tI) (hxI : (s.x.syncLocal sync i).get i = some xI) :
    reverseGSRow K A sites sync b s i =
      some
        { x := (s.x.syncLocal sync i).set i
            (K.reverseGS mII xI
              (accumulate K A s.x i (offDiagonalCouplings A s.x i)
                (ArrayBase.copyPartial tI bI 0 (sites i.2).selfCount))).1,
          temp := s.temp.set i
            (K.reverseGS mII xI
              (accumulate K A s.x i (offDiagonalCouplings A s.x i)
                (ArrayBase.copyPartial tI bI 0 (sites i.2).selfCount))).2,
          log := s.log ++ (offDiagonalCouplings A s.x i).map (Event.multiplyAndAdd i) ++
            [Event.syncLocal i, Event.reverseGS i] } := by
  have hs : A.hasMatrix i i = true := hasMatrix_of_getMatrix A i i mII hm
  simp only [reverseGSRow, hs, if_true, hb, ht, offDiagonalLoop_eq, hm, hxI,
    Option.bind_eq_bind, Option.some_bind, Option.pure_def]

theorem solveBoundaryRow_skip [Zero R] (K : Matrix M R) (A : MultiFieldMatrix M)
    (b : MultiField (List R)) (s : GSState R) (i : Index) (h : A.hasMatrix i i = false) :
    solveBoundaryRow K A b s i = some s := by
  simp [solveBoundaryRow, h]

theorem solveBoundaryRow_eq [Zero R] (K : Matrix M R) (A : MultiFieldMatrix M)
    (b : MultiField (List R)) (s : GSState R) (i : Index) (mII : M) (bI tI xI : List R)
    (hm : (A.getMatrix i i).1.toOption = some mII) (hb : b.get i = some bI)
    (ht : s.temp.get i = some tI) (hxI : s.x.get i = some xI) :
    solveBoundaryRow K A b s i =
      some
        { x := s.x.set i
            (K.solveBoundary mII xI
              (accumulate K A s.x i (offDiagonalCouplings A s.x i)
                (ArrayBase.copyFrom tI bI))).1,
          temp := s.temp.set i
            (K.solveBoundary mII xI
              (accumulate K A s.x i (offDiagonalCouplings A s.x i)
                (ArrayBase.copyFrom tI bI))).2,
          log := s.log ++ (offDiagonalCouplings A s.x i).map (Event.multiplyAndAdd i) ++
            [Event.solveBoundary i] } := by
  have hs : A.hasMatrix i i = true := hasMatrix_of_getMatrix A i i mII hm
  simp only [solveBoundaryRow, hs, if_true, hb, ht, offDiagonalLoop_eq, hm, hxI,
    Option.bind_eq_bind, Option.some_bind, Option.pure_def]

theorem Untouched.init (row : Index) (x temp : MultiField (List R)) :
    Untouched row x temp ⟨x, temp, []⟩ :=
  ⟨rfl, rfl, fun _ h => absurd h (List.not_mem_nil _), rfl, rfl⟩

/-- A row step on `i ≠ row` that writes the blocks `i` of `x` and `temp` and logs calls of
row `i` keeps `row` out of reach. -/
theorem Untouched.step (row i : Index) (hne : i ≠ row) (x temp : MultiField (List R))
    (s : GSState R) (x1 : MultiField (List R)) (hx1g : x1.get row = s.x.get row)
    (hx1i : x1.indices = s.x.indices) (a t : List R) (evs : List Event)
    (hev : ∀ e ∈ evs, e.row = i) (hU : Untouched row x temp s) :
    Untouched row x temp { x := x1.set i a, temp := s.temp.set i t, log := s.log ++ evs } := by
  obtain ⟨h1, h2, h3, h4, h5⟩ := hU
  refine ⟨?_, ?_, ?_, ?_, ?_⟩
  · show (x1.set i a).get row = x.get row
    rw [MultiField.get_set_ne _ _ _ _ (Ne.symm hne), hx1g, h1]
  · show (s.temp.set i t).get row = temp.get row
    rw [MultiField.get_set_ne _ _ _ _ (Ne.symm hne), h2]
  · intro e he
    rcases List.mem_append.mp he with h | h
    · exact h3 e h
    · rw [hev e h]
      exact hne
  · show (x1.set i a).indices = x.indices
    rw [MultiField.indices_set, hx1i, h4]
  · show (s.temp.set i t).indices = temp.indices
    rw [MultiField.indices_set, h5]

theorem offDiagonal_events_row (A : MultiFieldMatrix M) (x : MultiField (List R)) (i : Index)
    (tail : List Event) (htail : ∀ e ∈ tail, e.row = i) :
    ∀ e ∈ (offDiagonalCouplings A x i).map (Event.multiplyAndAdd i) ++ tail, e.row = i := by
  intro e he
  rcases List.mem_append.mp he with h | h
  · obtain ⟨c, _, hc⟩ := List.mem_map.mp h
    rw [← hc]
    rfl
  · exact htail e h

theorem forwardGS_untouched [Zero R] (K : Matrix M R) (A : MultiFieldMatrix M)
    (sites : Nat → StorageSite) (sync : Index → MultiField (List R) → List R)
    (x b temp : MultiField (List R)) (row : Index) (hrow : A.hasMatrix row row = false)
    (hb : ∀ i ∈ x.indices, A.hasMatrix i i = true → i ∈ b.indices)
    (ht : ∀ i ∈ x.indices, A.hasMatrix i i = true → i ∈ temp.indices) :
    ∃ s, forwardGS K A sites sync x b temp = some s ∧ Untouched row x temp s := by
  apply foldlM_some_of_invariant _ (Untouched row x temp) _ _ (Untouched.init row x temp)
  intro i hi s hU
  by_cases hs : A.hasMatrix i i = true
  · have hne : i ≠ row := by
      rintro rfl
      rw [hrow] at hs
      exact Bool.false_ne_true hs
    obtain ⟨mII, hm⟩ := getMatrix_of_hasMatrix A i i hs
    obtain ⟨bI, hbI⟩ := b.get_of_mem i (hb i hi hs)
    obtain ⟨tI, htI⟩ := s.temp.get_of_mem i (hU.2.2.2.2 ▸ ht i hi hs)
    have hix : i ∈ s.x.indices := hU.2.2.2.1 ▸ hi
    have hxI : (s.x.syncLocal sync i).get i = some (sync i s.x) :=
      MultiField.get_set_self_of_mem s.x i _ hix
    refine ⟨_, forwardGSRow_eq K A sites sync b s i mII bI tI _ hm hbI htI hxI, ?_⟩
    rw [List.append_assoc]
    apply Untouched.step row i hne x temp s _
      (MultiField.get_syncLocal_ne sync s.x i row (Ne.symm hne))
      (MultiField.indices_syncLocal sync s.x i) _ _ _ _ hU
    apply offDiagonal_events_row
    intro e he
    simp only [List.mem_cons, List.mem_singleton, List.not_mem_nil, or_false] at he
    rcases he with rfl | rfl <;> rfl
  · simp only [Bool.not_eq_true] at hs
    exact ⟨s, forwardGSRow_skip K A sites sync b s i hs, hU⟩

theorem reverseGS_untouched [Zero R] (K : Matrix M R) (A : MultiFieldMatrix M)
    (sites : Nat → StorageSite) (sync : Index → MultiField (List R) → List R)
    (x b temp : MultiField (List R)) (row : Index) (hrow : A.hasMatrix row row = false)
    (hb : ∀ i ∈ x.indices, A.hasMatrix i i = true → i ∈ b.indices)
    (ht : ∀ i ∈ x.indices, A.hasMatrix i i = true → i ∈ temp.indices) :
    ∃ s, reverseGS K A sites sync x b temp = some s ∧ Untouched row x temp s := by
  apply foldlM_some_of_invariant _ (Untouched row x temp) _ _ (Untouched.init row x temp)
  intro i hi' s hU
  have hi : i ∈ x.indices := List.mem_reverse.mp hi'
  by_cases hs : A.hasMatrix i i = true
  · have hne : i ≠ row := by
      rintro rfl
      rw [hrow] at hs
      exact Bool.false_ne_true hs
    obtain ⟨mII, hm⟩ := getMatrix_of_hasMatrix A i i hs
    obtain ⟨bI, hbI⟩ := b.get_of_mem i (hb i hi hs)
    obtain ⟨tI, htI⟩ := s.temp.get_of_mem i (hU.2.2.2.2 ▸ ht i hi hs)
    have hix : i ∈ s.x.indices := hU.2.2.2.1 ▸ hi
    have hxI : (s.x.syncLocal sync i).get i = some (sync i s.x) :=
      MultiField.get_set_self_of_mem s.x i _ hix
    refine ⟨_, reverseGSRow_eq K A sites sync b s i mII bI tI _ hm hbI htI hxI, ?_⟩
    rw [List.append_assoc]
    apply Untouched.step row i hne x temp s _
      (MultiField.get_syncLocal_ne sync s.x i row (Ne.symm hne))
      (MultiField.indices_syncLocal sync s.x i) _ _ _ _ hU
    apply offDiagonal_events_row
    intro e he
    simp only [List.mem_cons, List.mem_singleton, List.not_mem_nil, or_false] at he
    rcases he with rfl | rfl <;> rfl
  · simp only [Bool.not_eq_true] at hs
    exact ⟨s, reverseGSRow_skip K A sites sync b s i hs, hU⟩

theorem solveBoundary_untouched [Zero R] (K : Matrix M R) (A : MultiFieldMatrix M)
    (x b temp : MultiField (List R)) (row : Index) (hrow : A.hasMatrix row row = false)
    (hb : ∀ i ∈ x.indices, A.hasMatrix i i = true → i ∈ b.indices)
    (ht : ∀ i ∈ x.indices, A.hasMatrix i i = true → i ∈ temp.indices) :
    ∃ s, solveBoundary K A x b temp = some s ∧ Untouched row x temp s := by
  apply foldlM_some_of_invariant _ (Untouched row x temp) _ _ (Untouched.init row x temp)
  intro i hi s hU
  by_cases hs : A.hasMatrix i i = true
  · have hne : i ≠ row := by
      rintro rfl
      rw [hrow] at hs
      exact Bool.false_ne_true hs
    obtain ⟨mII, hm⟩ := getMatrix_of_hasMatrix A i i hs
    obtain ⟨bI, hbI⟩ := b.get_of_mem i (hb i hi hs)
    obtain ⟨tI, htI⟩ := s.temp.get_of_mem i (hU.2.2.2.2 ▸ ht i hi hs)
    obtain ⟨xI, hxI⟩ := s.x.get_of_mem i (hU.2.2.2.1 ▸ hi)
    refine ⟨_, solveBoundaryRow_eq K A b s i mII bI tI xI hm hbI htI hxI, ?_⟩
    rw [List.append_assoc]
    apply Untouched.step row i hne x temp s s.x rfl rfl _ _ _ _ hU
    apply offDiagonal_events_row
    intro e he
    simp only [List.mem_singleton] at he
    rw [he]
    rfl
  · simp only [Bool.not_eq_true] at hs
    exact ⟨s, solveBoundaryRow_skip K A b s i hs, hU⟩

theorem computeResidual_untouched [Zero R] (K : Matrix M R) (A : MultiFieldMatrix M)
    (sites : Nat → StorageSite) (x b r : MultiField (List R)) (row : Index)
    (hrow : A.hasMatrix row row = false)
    (hb : ∀ i ∈ x.indices, A.hasMatrix i i = true → i ∈ b.indices)
    (hr : ∀ i ∈ x.indices, A.hasMatrix i i = true → i ∈ r.indices) :
    ∃ res, computeResidual K A sites x b r = some res ∧
      res.1.get row = r.get row ∧ (∀ e ∈ res.2, e.row ≠ row) ∧ res.1.indices = r.indices := by
  apply foldlM_some_of_invariant _
    (fun st : MultiField (List R) × List Event =>
      st.1.get row = r.get row ∧ (∀ e ∈ st.2, e.row ≠ row) ∧ st.1.indices = r.indices)
    _ _ ⟨rfl, fun _ h => absurd h (List.not_mem_nil _), rfl⟩
  intro i hi st hP
  obtain ⟨h1, h2, h3⟩ := hP
  by_cases hs : A.hasMatrix i i = true
  · have hne : i ≠ row := by
      rintro rfl
      rw [hrow] at hs
      exact Bool.false_ne_true hs
    obtain ⟨bI, hbI⟩ := b.get_of_mem i (hb i hi hs)
    obtain ⟨rI, hrI⟩ := st.1.get_of_mem i (h3 ▸ hr i hi hs)
    refine ⟨(st.1.set i (accumulate K A x i (couplings A x i)
        (ArrayBase.zeroPartial (ArrayBase.copyPartial rI bI 0 (sites i.2).selfCount)
          (sites i.2).selfCount (sites i.2).count)),
        st.2 ++ (couplings A x i).map (Event.multiplyAndAdd i)), ?_, ?_, ?_, ?_⟩
    · simp only [hs, if_true, hbI, hrI, columnLoop_eq, Option.bind_eq_bind, Option.some_bind,
        Option.pure_def]
    · show (st.1.set i _).get row = r.get row
      rw [MultiField.get_set_ne _ _ _ _ (Ne.symm hne), h1]
    · intro e he
      rcases List.mem_append.mp he with h | h
      · exact h2 e h
      · obtain ⟨c, _, hc⟩ := List.mem_map.mp h
        rw [← hc]
        exact hne
    · show (st.1.set i _).indices = r.indices
      rw [MultiField.indices_set, h3]
  · simp only [Bool.not_eq_true] at hs
    refine ⟨st, by simp only [hs, Bool.false_eq_true, if_false, Option.pure_def], h1, h2, h3⟩

/-- C9. For every row identity that has no diagonal entry `(row, row)`, whatever
off-diagonal couplings `(row, col)` exist, and containers `b`, `temp`, `r` that hold the
rows of `x` with a diagonal entry: `forwardGS`, `reverseGS` and `solveBoundary` return and
leave `x[row]` and `temp[row]` unchanged, `computeResidual` returns and leaves `r[row]`
unchanged, and none of them logs a block kernel or a ghost synchronisation for that
row. -/
theorem rows_without_diagonal_untouched [Zero R] (K : Matrix M R) (A : MultiFieldMatrix M)
    (sites : Nat → StorageSite) (sync : Index → MultiField (List R) → List R)
    (x b temp r : MultiField (List R)) (row : Index)
    (hrow : A.hasMatrix row row = false)
    (hb : ∀ i ∈ x.indices, A.hasMatrix i i = true → i ∈ b.indices)
    (ht : ∀ i ∈ x.indices, A.hasMatrix i i = true → i ∈ temp.indices)
    (hr : ∀ i ∈ x.indices, A.hasMatrix i i = true → i ∈ r.indices) :
    (∃ s, forwardGS K A sites sync x b temp = some s ∧
      s.x.get row = x.get row ∧ s.temp.get row = temp.get row ∧ ∀ e ∈ s.log, e.row ≠ row) ∧
    (∃ s, reverseGS K A sites sync x b temp = some s ∧
      s.x.get row = x.get row ∧ s.temp.get row = temp.get row ∧ ∀ e ∈ s.log, e.row ≠ row) ∧
    (∃ s, solveBoundary K A x b temp = some s ∧
      s.x.get row = x.get row ∧ s.temp.get row = temp.get row ∧ ∀ e ∈ s.log, e.row ≠ row) ∧
    (∃ r' log, computeResidual K A sites x b r = some (r', log) ∧
      r'.get row = r.get row ∧ ∀ e ∈ log, e.row ≠ row) := by
  refine ⟨?_, ?_, ?_, ?_⟩
  · obtain ⟨s, hs, hU⟩ := forwardGS_untouched K A sites sync x b temp row hrow hb ht
    exact ⟨s, hs, hU.1, hU.2.1, hU.2.2.1⟩
  · obtain ⟨s, hs, hU⟩ := reverseGS_untouched K A sites sync x b temp row hrow hb ht
    exact ⟨s, hs, hU.1, hU.2.1, hU.2.2.1⟩
  · obtain ⟨s, hs, hU⟩ := solveBoundary_untouched K A x b temp row hrow hb ht
    exact ⟨s, hs, hU.1, hU.2.1, hU.2.2.1⟩
  · obtain ⟨res, hres, h1, h2, _⟩ := computeResidual_untouched K A sites x b r row hrow hb hr
    exact ⟨res.1, res.2, hres, h1, h2⟩

/-- Witness of C9: in `offDiagonalOnlyMatrix` the row `row1` has the coupling
`(row1, row0)` and no diagonal entry; the forward sweep leaves `x[row1]` as it was. -/
theorem rows_without_diagonal_untouched_witness :
    offDiagonalOnlyMatrix.hasMatrix row1 row1 = false ∧
      offDiagonalOnlyMatrix.hasMatrix row1 row0 = true ∧
      ∃ s, forwardGS scalarKernel offDiagonalOnlyMatrix exampleSites keepBlock exampleX exampleB
          exampleY = some s ∧ s.x.get row1 = some [1, 2, 3] :=
  ⟨by decide, by decide,
    (rows_without_diagonal_untouched scalarKernel offDiagonalOnlyMatrix exampleSites keepBlock
      exampleX exampleB exampleY exampleY row1 (by decide)
      (by intro i hi _; simpa [exampleB, exampleX, MultiField.indices] using hi)
      (by intro i hi _; simpa [exampleY, exampleX, MultiField.indices] using hi)
      (by intro i hi _; simpa [exampleY, exampleX, MultiField.indices] using hi)).1.elim
      (fun s h => ⟨s, h.1, h.2.1.trans (by decide)⟩)⟩

end NoDiagonal

/-! ## Rows without a diagonal entry: the coarsening steps -/

section CoarseningRows

variable {M R : Type} {σ β : Type}

/-- A loop that returns has passed through every element of its list. -/
theorem foldlM_split (f : σ → β → Option σ) (a : β) :
    ∀ (l : List β) (s r : σ), a ∈ l → l.foldlM f s = some r →
      ∃ t t' l1 l2, l = l1 ++ a :: l2 ∧ l1.foldlM f s = some t ∧ f t a = some t' ∧
        l2.foldlM f t' = some r := by
  intro l
  induction l with
  | nil => intro s r h _; simp at h
  | cons b l ih =>
    intro s r hmem h
    rw [List.foldlM_cons] at h
    cases hb : f s b with
    | none => rw [hb] at h; simp at h
    | some u =>
      rw [hb] at h
      simp only [Option.bind_eq_bind, Option.some_bind] at h
      by_cases hab : a = b
      · subst hab
        exact ⟨s, u, [], l, rfl, rfl, hb, h⟩
      · have hmem' : a ∈ l := by
          rcases List.mem_cons.mp hmem with e | h'
          · exact absurd e hab
          · exact h'
        obtain ⟨t, t', l1, l2, hl, h1, h2, h3⟩ := ih u r hmem' h
        refine ⟨t, t', b :: l1, l2, by rw [hl]; rfl, ?_, h2, h3⟩
        rw [List.foldlM_cons, hb]
        simpa using h1

/-- A loop whose steps are related by a reflexive and transitive relation relates
its start to its result. -/
theorem foldlM_rel (f : σ → β → Option σ) (Rel : σ → σ → Prop)
    (hrefl : ∀ s, Rel s s) (htrans : ∀ s t u, Rel s t → Rel t u → Rel s u) :
    ∀ (l : List β) (s r : σ), (∀ b ∈ l, ∀ t t', f t b = some t' → Rel t t') →
      l.foldlM f s = some r → Rel s r := by
  intro l
  induction l with
  | nil =>
    intro s r _ h
    simp only [List.foldlM_nil, Option.pure_def, Option.some.injEq] at h
    rw [← h]
    exact hrefl s
  | cons b l ih =>
    intro s r hstep h
    rw [List.foldlM_cons] at h
    cases hb : f s b with
    | none => rw [hb] at h; simp at h
    | some u =>
      rw [hb] at h
      simp only [Option.bind_eq_bind, Option.some_bind] at h
      exact htrans s u r (hstep b (List.mem_cons_self b l) s u hb)
        (ih u r (fun c hc t t' => hstep c (List.mem_cons_of_mem b hc) t t') h)

theorem Continues.refl (s : MultiFieldMatrix M × List Event) : Continues s s :=
  ⟨rfl, rfl, rfl, fun _ h => h, fun _ h => h, fun _ h => h⟩

theorem Continues.trans (s t u : MultiFieldMatrix M × List Event) (h1 : Continues s t)
    (h2 : Continues t u) : Continues s u :=
  ⟨h2.1.trans h1.1, h2.2.1.trans h1.2.1, h2.2.2.1.trans h1.2.2.1,
    fun e h => h2.2.2.2.1 e (h1.2.2.2.1 e h), fun e h => h2.2.2.2.2.1 e (h1.2.2.2.2.1 e h),
    fun ev h => h2.2.2.2.2.2 ev (h1.2.2.2.2.2 ev h)⟩

theorem hasMatrix_congr (A B : MultiFieldMatrix M) (h : B.matrices = A.matrices)
    (row col : Index) : B.hasMatrix row col = A.hasMatrix row col := by
  simp only [MultiFieldMatrix.hasMatrix, h]

theorem Map.find_insert_isSome {κ ν : Type} [DecidableEq κ] (m : List (κ × ν)) (k k' : κ)
    (v : ν) (h : (Map.find m k').isSome = true) :
    (Map.find (Map.insert m k v) k').isSome = true := by
  by_cases hk : k' = k
  · subst hk
    rw [Map.find_insert_self]
    rfl
  · rw [Map.find_insert_ne _ _ _ _ hk]
    exact h

/-- One column step of `createCoarseConnectivity`: the state is continued, and when
the entry exists its key is written and its kernel call is logged. -/
theorem createCoarseConnectivityEntry_spec (K : Matrix M R)
    (coarseIndex : MultiField (List Int)) (row : Index) (rs : Nat) (c2f : CRConnectivity)
    (st st' : MultiFieldMatrix M × List Event) (col : Index)
    (h : createCoarseConnectivityEntry K coarseIndex row rs c2f st col = some st') :
    Continues st st' ∧
      (st.1.hasMatrix row col = true →
        (Map.find st'.1.coarseConnectivities (row, col)).isSome = true ∧
          Event.createCoarseConnectivity row col ∈ st'.2) := by
  unfold createCoarseConnectivityEntry at h
  by_cases hs : st.1.hasMatrix row col = true
  · simp only [hs, if_true, Option.bind_eq_bind, Option.pure_def] at h
    obtain ⟨m, _, h⟩ := Option.bind_eq_some.mp h
    obtain ⟨cs, _, h⟩ := Option.bind_eq_some.mp h
    obtain ⟨cI, _, h⟩ := Option.bind_eq_some.mp h
    simp only [Option.some.injEq] at h
    subst h
    refine ⟨⟨rfl, rfl, rfl, ?_, fun _ h => h, ?_⟩, fun _ => ⟨?_, ?_⟩⟩
    · intro e he
      exact Map.find_insert_isSome _ _ _ _ he
    · intro ev hev
      exact List.mem_append_left _ hev
    · show (Map.find (Map.insert _ _ _) (row, col)).isSome = true
      rw [Map.find_insert_self]
      rfl
    · exact List.mem_append_right _ (List.mem_singleton.mpr rfl)
  · simp only [hs, Bool.false_eq_true, if_false, Option.pure_def, Option.some.injEq] at h
    subst h
    exact ⟨Continues.refl st, fun h' => absurd h' hs⟩

/-- One column step of `createCoarseMatrices`: the state is continued, and when the
entry exists its key is written and its kernel call is logged. -/
theorem createCoarseMatricesEntry_spec (K : Matrix M R)
    (coarseIndex : MultiField (List Int)) (row : Index) (c2f : CRConnectivity)
    (st st' : MultiFieldMatrix M × List Event) (col : Index)
    (h : createCoarseMatricesEntry K coarseIndex row c2f st col = some st') :
    Continues st st' ∧
      (st.1.hasMatrix row col = true →
        (Map.find st'.1.coarseMatrices (row, col)).isSome = true ∧
          Event.createCoarseMatrix row col ∈ st'.2) := by
  unfold createCoarseMatricesEntry at h
  by_cases hs : st.1.hasMatrix row col = true
  · simp only [hs, if_true, Option.bind_eq_bind, Option.pure_def] at h
    obtain ⟨m, _, h⟩ := Option.bind_eq_some.mp h
    obtain ⟨cc, _, h⟩ := Option.bind_eq_some.mp h
    obtain ⟨cI, _, h⟩ := Option.bind_eq_some.mp h
    simp only [Option.some.injEq] at h
    subst h
    refine ⟨⟨rfl, rfl, rfl, fun _ h => h, ?_, ?_⟩, fun _ => ⟨?_, ?_⟩⟩
    · intro e he
      exact Map.find_insert_isSome _ _ _ _ he
    · intro ev hev
      exact List.mem_append_left _ hev
    · show (Map.find (Map.insert _ _ _) (row, col)).isSome = true
      rw [Map.find_insert_self]
      rfl
    · exact List.mem_append_right _ (List.mem_singleton.mpr rfl)
  · simp only [hs, Bool.false_eq_true, if_false, Option.pure_def, Option.some.injEq] at h
    subst h
    exact ⟨Continues.refl st, fun h' => absurd h' hs⟩

/-- One row step of `createCoarseConnectivity`: the state is continued, and the key of
every existing entry of the row with an enumerated column is written and logged. -/
theorem createCoarseConnectivityRow_spec (K : Matrix M R)
    (coarseIndex : MultiField (List Int)) (st st' : MultiFieldMatrix M × List Event)
    (row : Index) (h : createCoarseConnectivityRow K coarseIndex st row = some st') :
    Continues st st' ∧
      ∀ col ∈ coarseIndex.indices, st.1.hasMatrix row col = true →
        (Map.find st'.1.coarseConnectivities (row, col)).isSome = true ∧
          Event.createCoarseConnectivity row col ∈ st'.2 := by
  unfold createCoarseConnectivityRow at h
  simp only [Option.bind_eq_bind] at h
  obtain ⟨rs, _, h⟩ := Option.bind_eq_some.mp h
  obtain ⟨c2f, _, h⟩ := Option.bind_eq_some.mp h
  have hstep : ∀ b ∈ coarseIndex.indices, ∀ t t',
      createCoarseConnectivityEntry K coarseIndex row rs c2f t b = some t' → Continues t t' :=
    fun b _ t t' hb => (createCoarseConnectivityEntry_spec K coarseIndex row rs c2f t t' b hb).1
  refine ⟨foldlM_rel _ Continues Continues.refl Continues.trans _ _ _ hstep h, ?_⟩
  intro col hcol hs
  obtain ⟨t, t', l1, l2, hl, h1, h2, h3⟩ := foldlM_split _ col _ _ _ hcol h
  have hsub1 : ∀ b ∈ l1, b ∈ coarseIndex.indices := fun b hb => by
    rw [hl]; exact List.mem_append_left _ hb
  have hsub2 : ∀ b ∈ l2, b ∈ coarseIndex.indices := fun b hb => by
    rw [hl]; exact List.mem_append_right _ (List.mem_cons_of_mem _ hb)
  have c1 : Continues st t := foldlM_rel _ Continues Continues.refl Continues.trans _ _ _
    (fun b hb => hstep b (hsub1 b hb)) h1
  have c2 : Continues t' st' := foldlM_rel _ Continues Continues.refl Continues.trans _ _ _
    (fun b hb => hstep b (hsub2 b hb)) h3
  have hs' : t.1.hasMatrix row col = true := by
    rw [hasMatrix_congr st.1 t.1 c1.1]; exact hs
  obtain ⟨hk, hev⟩ := (createCoarseConnectivityEntry_spec K coarseIndex row rs c2f t t' col h2).2 hs'
  exact ⟨c2.2.2.2.1 _ hk, c2.2.2.2.2.2 _ hev⟩

/-- One row step of `createCoarseMatrices`: the state is continued, and the key of every
existing entry of the row with an enumerated column is written and logged. -/
theorem createCoarseMatricesRow_spec (K : Matrix M R)
    (coarseIndex : MultiField (List Int)) (st st' : MultiFieldMatrix M × List Event)
    (row : Index) (h : createCoarseMatricesRow K coarseIndex st row = some st') :
    Continues st st' ∧
      ∀ col ∈ coarseIndex.indices, st.1.hasMatrix row col = true →
        (Map.find st'.1.coarseMatrices (row, col)).isSome = true ∧
          Event.createCoarseMatrix row col ∈ st'.2 := by
  unfold createCoarseMatricesRow at h
  simp only [Option.bind_eq_bind] at h
  obtain ⟨c2f, _, h⟩ := Option.bind_eq_some.mp h
  have hstep : ∀ b ∈ coarseIndex.indices, ∀ t t',
      createCoarseMatricesEntry K coarseIndex row c2f t b = some t' → Continues t t' :=
    fun b _ t t' hb => (createCoarseMatricesEntry_spec K coarseIndex row c2f t t' b hb).1
  refine ⟨foldlM_rel _ Continues Continues.refl Continues.trans _ _ _ hstep h, ?_⟩
  intro col hcol hs
  obtain ⟨t, t', l1, l2, hl, h1, h2, h3⟩ := foldlM_split _ col _ _ _ hcol h
  have hsub1 : ∀ b ∈ l1, b ∈ coarseIndex.indices := fun b hb => by
    rw [hl]; exact List.mem_append_left _ hb
  have hsub2 : ∀ b ∈ l2, b ∈ coarseIndex.indices := fun b hb => by
    rw [hl]; exact List.mem_append_right _ (List.mem_cons_of_mem _ hb)
  have c1 : Continues st t := foldlM_rel _ Continues Continues.refl Continues.trans _ _ _
    (fun b hb => hstep b (hsub1 b hb)) h1
  have c2 : Continues t' st' := foldlM_rel _ Continues Continues.refl Continues.trans _ _ _
    (fun b hb => hstep b (hsub2 b hb)) h3
  have hs' : t.1.hasMatrix row col = true := by
    rw [hasMatrix_congr st.1 t.1 c1.1]; exact hs
  obtain ⟨hk, hev⟩ := (createCoarseMatricesEntry_spec K coarseIndex row c2f t t' col h2).2 hs'
  exact ⟨c2.2.2.2.2.1 _ hk, c2.2.2.2.2.2 _ hev⟩

/-- The step `createCoarseConnectivity`, when it returns, continues the initial state
and has written and logged the key of every existing entry with enumerated row and
column. -/
theorem createCoarseConnectivity_writes (K : Matrix M R) (A : MultiFieldMatrix M)
    (coarseIndex : MultiField (List Int)) (res : MultiFieldMatrix M × List Event)
    (h : createCoarseConnectivity K A coarseIndex = some res) :
    Continues (A, []) res ∧
      ∀ row ∈ coarseIndex.indices, ∀ col ∈ coarseIndex.indices, A.hasMatrix row col = true →
        (Map.find res.1.coarseConnectivities (row, col)).isSome = true ∧
          Event.createCoarseConnectivity row col ∈ res.2 := by
  unfold createCoarseConnectivity at h
  have hstep : ∀ b ∈ coarseIndex.indices, ∀ t t',
      createCoarseConnectivityRow K coarseIndex t b = some t' → Continues t t' :=
    fun b _ t t' hb => (createCoarseConnectivityRow_spec K coarseIndex t t' b hb).1
  refine ⟨foldlM_rel _ Continues Continues.refl Continues.trans _ _ _ hstep h, ?_⟩
  intro row hrow col hcol hs
  obtain ⟨t, t', l1, l2, hl, h1, h2, h3⟩ := foldlM_split _ row _ _ _ hrow h
  have hsub1 : ∀ b ∈ l1, b ∈ coarseIndex.indices := fun b hb => by
    rw [hl]; exact List.mem_append_left _ hb
  have hsub2 : ∀ b ∈ l2, b ∈ coarseIndex.indices := fun b hb => by
    rw [hl]; exact List.mem_append_right _ (List.mem_cons_of_mem _ hb)
  have c1 : Continues (A, []) t := foldlM_rel _ Continues Continues.refl Continues.trans _ _ _
    (fun b hb => hstep b (hsub1 b hb)) h1
  have c2 : Continues t' res := foldlM_rel _ Continues Continues.refl Continues.trans _ _ _
    (fun b hb => hstep b (hsub2 b hb)) h3
  have hs' : t.1.hasMatrix row col = true := by
    rw [hasMatrix_congr A t.1 c1.1]; exact hs
  obtain ⟨hk, hev⟩ := (createCoarseConnectivityRow_spec K coarseIndex t t' row h2).2 col hcol hs'
  exact ⟨c2.2.2.2.1 _ hk, c2.2.2.2.2.2 _ hev⟩

/-- The step `createCoarseMatrices`, when it returns, continues the initial state and
has written and logged the key of every existing entry with enumerated row and
column. -/
theorem createCoarseMatrices_writes (K : Matrix M R) (A : MultiFieldMatrix M)
    (coarseIndex : MultiField (List Int)) (res : MultiFieldMatrix M × List Event)
    (h : createCoarseMatrices K A coarseIndex = some res) :
    Continues (A, []) res ∧
      ∀ row ∈ coarseIndex.indices, ∀ col ∈ coarseIndex.indices, A.hasMatrix row col = true →
        (Map.find res.1.coarseMatrices (row, col)).isSome = true ∧
          Event.createCoarseMatrix row col ∈ res.2 := by
  unfold createCoarseMatrices at h
  have hstep : ∀ b ∈ coarseIndex.indices, ∀ t t',
      createCoarseMatricesRow K coarseIndex t b = some t' → Continues t t' :=
    fun b _ t t' hb => (createCoarseMatricesRow_spec K coarseIndex t t' b hb).1
  refine ⟨foldlM_rel _ Continues Continues.refl Continues.trans _ _ _ hstep h, ?_⟩
  intro row hrow col hcol hs
  obtain ⟨t, t', l1, l2, hl, h1, h2, h3⟩ := foldlM_split _ row _ _ _ hrow h
  have hsub1 : ∀ b ∈ l1, b ∈ coarseIndex.indices := fun b hb => by
    rw [hl]; exact List.mem_append_left _ hb
  have hsub2 : ∀ b ∈ l2, b ∈ coarseIndex.indices := fun b hb => by
    rw [hl]; exact List.mem_append_right _ (List.mem_cons_of_mem _ hb)
  have c1 : Continues (A, []) t := foldlM_rel _ Continues Continues.refl Continues.trans _ _ _
    (fun b hb => hstep b (hsub1 b hb)) h1
  have c2 : Continues t' res := foldlM_rel _ Continues Continues.refl Continues.trans _ _ _
    (fun b hb => hstep b (hsub2 b hb)) h3
  have hs' : t.1.hasMatrix row col = true := by
    rw [hasMatrix_congr A t.1 c1.1]; exact hs
  obtain ⟨hk, hev⟩ := (createCoarseMatricesRow_spec K coarseIndex t t' row h2).2 col hcol hs'
  exact ⟨c2.2.2.2.2.1 _ hk, c2.2.2.2.2.2 _ hev⟩

/-- The step `createCoarseConnectivity` returns when a coarse partition and a
coarse-to-fine adjacency are registered for every enumerated row. -/
theorem createCoarseConnectivity_returns (K : Matrix M R) (A : MultiFieldMatrix M)
    (coarseIndex : MultiField (List Int))
    (hreg : ∀ i ∈ coarseIndex.indices, (Map.find A.coarseSites i).isSome = true ∧
      (Map.find A.coarseToFineMappings i).isSome = true) :
    ∃ res, createCoarseConnectivity K A coarseIndex = some res := by
  obtain ⟨res, hres, _⟩ := foldlM_some_of_invariant (createCoarseConnectivityRow K coarseIndex)
    (Continues (A, [])) coarseIndex.indices (A, []) (Continues.refl _) (by
      intro a ha t hT
      obtain ⟨rs, hrs⟩ := Option.isSome_iff_exists.mp (hreg a ha).1
      obtain ⟨c2f, hc2f⟩ := Option.isSome_iff_exists.mp (hreg a ha).2
      have hrs' : Map.find t.1.coarseSites a = some rs := by rw [hT.2.1]; exact hrs
      have hc2f' : Map.find t.1.coarseToFineMappings a = some c2f := by
        rw [hT.2.2.1]; exact hc2f
      obtain ⟨cI, hcI⟩ := coarseIndex.get_of_mem a ha
      have hinner := foldlM_some_of_invariant
        (createCoarseConnectivityEntry K coarseIndex a rs c2f) (Continues (A, []))
        coarseIndex.indices t hT (by
          intro b hb u hU
          have hex : ∃ u', createCoarseConnectivityEntry K coarseIndex a rs c2f u b = some u' := by
            unfold createCoarseConnectivityEntry
            by_cases hs : u.1.hasMatrix a b = true
            · obtain ⟨m, hm⟩ := getMatrix_of_hasMatrix u.1 a b hs
              obtain ⟨cs, hcs⟩ := Option.isSome_iff_exists.mp (hreg b hb).1
              have hcs' : Map.find u.1.coarseSites b = some cs := by rw [hU.2.1]; exact hcs
              simp only [hs, if_true, hm, hcs', hcI, Option.bind_eq_bind, Option.some_bind,
                Option.pure_def]
              exact ⟨_, rfl⟩
            · simp only [Bool.not_eq_true] at hs
              simp only [hs, Bool.false_eq_true, if_false, Option.pure_def]
              exact ⟨_, rfl⟩
          obtain ⟨u', hu'⟩ := hex
          exact ⟨u', hu', Continues.trans _ _ _ hU
            (createCoarseConnectivityEntry_spec K coarseIndex a rs c2f u u' b hu').1⟩)
      obtain ⟨t', ht', hT'⟩ := hinner
      refine ⟨t', ?_, hT'⟩
      unfold createCoarseConnectivityRow
      simp only [hrs', hc2f', Option.bind_eq_bind, Option.some_bind]
      exact ht')
  exact ⟨res, hres⟩

/-- The step `createCoarseMatrices` returns when a coarse-to-fine adjacency is
registered for every enumerated row and a coarse connectivity for every existing
entry with enumerated row and column. -/
theorem createCoarseMatrices_returns (K : Matrix M R) (A : MultiFieldMatrix M)
    (coarseIndex : MultiField (List Int))
    (hreg : ∀ i ∈ coarseIndex.indices, (Map.find A.coarseToFineMappings i).isSome = true)
    (hcc : ∀ i ∈ coarseIndex.indices, ∀ j ∈ coarseIndex.indices, A.hasMatrix i j = true →
      (Map.find A.coarseConnectivities (i, j)).isSome = true) :
    ∃ res, createCoarseMatrices K A coarseIndex = some res := by
  obtain ⟨res, hres, _⟩ := foldlM_some_of_invariant (createCoarseMatricesRow K coarseIndex)
    (Continues (A, [])) coarseIndex.indices (A, []) (Continues.refl _) (by
      intro a ha t hT
      obtain ⟨c2f, hc2f⟩ := Option.isSome_iff_exists.mp (hreg a ha)
      have hc2f' : Map.find t.1.coarseToFineMappings a = some c2f := by
        rw [hT.2.2.1]; exact hc2f
      obtain ⟨cI, hcI⟩ := coarseIndex.get_of_mem a ha
      have hinner := foldlM_some_of_invariant
        (createCoarseMatricesEntry K coarseIndex a c2f) (Continues (A, []))
        coarseIndex.indices t hT (by
          intro b hb u hU
          have hex : ∃ u', createCoarseMatricesEntry K coarseIndex a c2f u b = some u' := by
            unfold createCoarseMatricesEntry
            by_cases hs : u.1.hasMatrix a b = true
            · obtain ⟨m, hm⟩ := getMatrix_of_hasMatrix u.1 a b hs
              have hsA : A.hasMatrix a b = true := by
                rw [← hasMatrix_congr A u.1 hU.1]; exact hs
              obtain ⟨cc, hcc'⟩ := Option.isSome_iff_exists.mp
                (hU.2.2.2.1 _ (hcc a ha b hb hsA))
              simp only [hs, if_true, hm, hcc', hcI, Option.bind_eq_bind, Option.some_bind,
                Option.pure_def]
              exact ⟨_, rfl⟩
            · simp only [Bool.not_eq_true] at hs
              simp only [hs, Bool.false_eq_true, if_false, Option.pure_def]
              exact ⟨_, rfl⟩
          obtain ⟨u', hu'⟩ := hex
          exact ⟨u', hu', Continues.trans _ _ _ hU
            (createCoarseMatricesEntry_spec K coarseIndex a c2f u u' b hu').1⟩)
      obtain ⟨t', ht', hT'⟩ := hinner
      refine ⟨t', ?_, hT'⟩
      unfold createCoarseMatricesRow
      simp only [hc2f', Option.bind_eq_bind, Option.some_bind]
      exact ht')
  exact ⟨res, hres⟩

/-- The step `createCoarsening` always returns and keeps a row without a diagonal entry
out of reach. -/
theorem createCoarsening_notAggregated (K : Matrix M R) (A : MultiFieldMatrix M)
    (coarseIndex : MultiField (List Int)) (groupSize : Int) (w : R) (row : Index)
    (hrow : A.hasMatrix row row = false) :
    ∃ st, createCoarsening K A coarseIndex groupSize w = some st ∧
      NotAggregated row A coarseIndex st := by
  apply foldlM_some_of_invariant _ (NotAggregated row A coarseIndex) _ _
    ⟨rfl, rfl, rfl, fun _ h => absurd h (List.not_mem_nil _), rfl⟩
  intro a ha st hN
  obtain ⟨h1, h2, h3, h4, h5⟩ := hN
  unfold createCoarseningRow
  by_cases hs : st.matrix.hasMatrix a a = true
  · have hsA : A.hasMatrix a a = true := by
      rw [← hasMatrix_congr A st.matrix h1]; exact hs
    have hne : a ≠ row := by
      rintro rfl
      rw [hrow] at hsA
      exact Bool.false_ne_true hsA
    obtain ⟨m, hm⟩ := getMatrix_of_hasMatrix st.matrix a a hs
    obtain ⟨cI, hcI⟩ := st.coarseIndex.get_of_mem a (h5 ▸ ha)
    simp only [hs, if_true, hm, hcI, Option.bind_eq_bind, Option.some_bind, Option.pure_def]
    refine ⟨_, rfl, h1, ?_, ?_, ?_, ?_⟩
    · show Map.find (Map.insert _ _ _) row = _
      rw [Map.find_insert_ne _ _ _ _ (Ne.symm hne), h2]
    · show (st.coarseIndex.set a _).get row = _
      rw [MultiField.get_set_ne _ _ _ _ (Ne.symm hne), h3]
    · intro e he
      rcases List.mem_append.mp he with h | h
      · exact h4 e h
      · rw [List.mem_singleton.mp h]
        exact hne
    · show (st.coarseIndex.set a _).indices = _
      rw [MultiField.indices_set, h5]
  · simp only [Bool.not_eq_true] at hs
    simp only [hs, Bool.false_eq_true, if_false, Option.pure_def]
    exact ⟨st, rfl, h1, h2, h3, h4, h5⟩

/-- C10, as the code has it. For a row without a diagonal entry, `createCoarsening`
returns, calls no aggregation kernel for the row, leaves `coarseIndex[row]` as it was
and writes no entry of `coarseSizes` for it.  The steps `createCoarseConnectivity` and
`createCoarseMatrices` make no test of the diagonal: when the metadata they read is
registered they return, and they call the kernel and write the key `(row, col)` for
every existing entry `(row, col)` whose row and column the container enumerates, so
that a row with only off-diagonal couplings is a row identity in
`coarseConnectivities` and in `coarseMatrices`. -/
theorem coarsening_rows_without_diagonal (K : Matrix M R) (A : MultiFieldMatrix M)
    (coarseIndex : MultiField (List Int)) (groupSize : Int) (w : R) (row : Index)
    (hrow : A.hasMatrix row row = false) :
    (∃ st, createCoarsening K A coarseIndex groupSize w = some st ∧
      Map.find st.matrix.coarseSizes row = Map.find A.coarseSizes row ∧
      st.coarseIndex.get row = coarseIndex.get row ∧ ∀ e ∈ st.log, e.row ≠ row) ∧
    ((∀ i ∈ coarseIndex.indices, (Map.find A.coarseSites i).isSome = true ∧
        (Map.find A.coarseToFineMappings i).isSome = true) →
      ∃ A1 log1, createCoarseConnectivity K A coarseIndex = some (A1, log1) ∧
        ∀ col ∈ coarseIndex.indices, row ∈ coarseIndex.indices → A.hasMatrix row col = true →
          (Map.find A1.coarseConnectivities (row, col)).isSome = true ∧
            Event.createCoarseConnectivity row col ∈ log1) ∧
    ((∀ i ∈ coarseIndex.indices, (Map.find A.coarseToFineMappings i).isSome = true) →
      (∀ i ∈ coarseIndex.indices, ∀ j ∈ coarseIndex.indices, A.hasMatrix i j = true →
        (Map.find A.coarseConnectivities (i, j)).isSome = true) →
      ∃ A2 log2, createCoarseMatrices K A coarseIndex = some (A2, log2) ∧
        ∀ col ∈ coarseIndex.indices, row ∈ coarseIndex.indices → A.hasMatrix row col = true →
          (Map.find A2.coarseMatrices (row, col)).isSome = true ∧
            Event.createCoarseMatrix row col ∈ log2) := by
  refine ⟨?_, ?_, ?_⟩
  · obtain ⟨st, hst, hN⟩ := createCoarsening_notAggregated K A coarseIndex groupSize w row hrow
    exact ⟨st, hst, hN.2.1, hN.2.2.1, hN.2.2.2.1⟩
  · intro hreg
    obtain ⟨res, hres⟩ := createCoarseConnectivity_returns K A coarseIndex hreg
    refine ⟨res.1, res.2, hres, ?_⟩
    intro col hcol hr hs
    exact (createCoarseConnectivity_writes K A coarseIndex res hres).2 row hr col hcol hs
  · intro hreg hcc
    obtain ⟨res, hres⟩ := createCoarseMatrices_returns K A coarseIndex hreg hcc
    refine ⟨res.1, res.2, hres, ?_⟩
    intro col hcol hr hs
    exact (createCoarseMatrices_writes K A coarseIndex res hres).2 row hr col hcol hs

/-- Witness of C10, as the code has it: in `offDiagonalOnlyMatrix` the row `row1` has no
diagonal entry and the coupling `(row1, row0)`; `createCoarseConnectivity` writes the
key `(row1, row0)`. -/
theorem coarsening_rows_without_diagonal_witness :
    offDiagonalOnlyMatrix.hasMatrix row1 row1 = false ∧
      (∀ i ∈ exampleCoarseIndex.indices,
        (Map.find offDiagonalOnlyMatrix.coarseSites i).isSome = true ∧
          (Map.find offDiagonalOnlyMatrix.coarseToFineMappings i).isSome = true) ∧
      ∃ A1 log1,
        createCoarseConnectivity scalarKernel offDiagonalOnlyMatrix exampleCoarseIndex =
          some (A1, log1) ∧
        (Map.find A1.coarseConnectivities (row1, row0)).isSome = true :=
  have hreg : ∀ i ∈ exampleCoarseIndex.indices,
      (Map.find offDiagonalOnlyMatrix.coarseSites i).isSome = true ∧
        (Map.find offDiagonalOnlyMatrix.coarseToFineMappings i).isSome = true := by
    intro i hi
    have : i = row0 ∨ i = row1 := by
      simpa [exampleCoarseIndex, MultiField.indices] using hi
    rcases this with rfl | rfl <;> decide
  ⟨by decide, hreg,
    ((coarsening_rows_without_diagonal scalarKernel offDiagonalOnlyMatrix exampleCoarseIndex 2
      (0 : Int) row1 (by decide)).2.1 hreg).elim
      (fun A1 h => h.elim (fun log1 h' =>
        ⟨A1, log1, h'.1, (h'.2 row0 (by decide) (by decide) (by decide)).1⟩))⟩

/-- C10 as stated fails: in `offDiagonalOnlyMatrix` the row `row1` has no diagonal entry,
yet `createCoarseConnectivity` followed by `createCoarseMatrices` calls the kernels of
the entry `(row1, row0)` and leaves the key `(row1, row0)`, whose row identity is `row1`,
in `coarseConnectivities` and in `coarseMatrices`. -/
theorem coarsening_reaches_row_without_diagonal :
    offDiagonalOnlyMatrix.hasMatrix row1 row1 = false ∧
      ((createCoarseConnectivity scalarKernel offDiagonalOnlyMatrix exampleCoarseIndex).bind
        (fun r1 => (createCoarseMatrices scalarKernel r1.1 exampleCoarseIndex).map
          (fun r2 => (r2.1.coarseConnectivities.map Prod.fst,
            r2.1.coarseMatrices.map Prod.fst, r1.2 ++ r2.2)))) =
        some ([(row0, row0), (row1, row0)], [(row0, row0), (row1, row0)],
          [Event.createCoarseConnectivity row0 row0, Event.createCoarseConnectivity row1 row0,
           Event.createCoarseMatrix row0 row0, Event.createCoarseMatrix row1 row0]) := by
  decide

end CoarseningRows

/-! ## The reverse sweep and the boundary solve: statements -/

section ReverseSweep

variable {M R : Type}

theorem accumulate_reverseAsForward (K : Matrix M R) (A : MultiFieldMatrix M)
    (x : MultiField (List R)) (row : Index) (cols : List Index) (yI : List R) :
    accumulate K.reverseAsForward A x row cols yI = accumulate K A x row cols yI := rfl

/-- One row of the reverse sweep is the row body of the forward sweep run with the
reverse kernel, up to the name of the logged relaxation. -/
theorem reverseGSRow_eq_forwardGSRow [Zero R] (K : Matrix M R) (A : MultiFieldMatrix M)
    (sites : Nat → StorageSite) (sync : Index → MultiField (List R) → List R)
    (b : MultiField (List R)) (s : GSState R) (i : Index) :
    reverseGSRow K A sites sync b (s.mapLog Event.asReverse) i =
      (forwardGSRow K.reverseAsForward A sites sync b s i).map
        (GSState.mapLog Event.asReverse) := by
  unfold reverseGSRow forwardGSRow
  by_cases hs : A.hasMatrix i i = true
  · simp only [hs, if_true, Option.bind_eq_bind, Option.pure_def, offDiagonalLoop_eq,
      Option.some_bind, accumulate_reverseAsForward]
    cases hb : b.get i with
    | none => rfl
    | some bI =>
      have ht : (s.mapLog Event.asReverse).temp = s.temp := rfl
      have hx : (s.mapLog Event.asReverse).x = s.x := rfl
      rw [ht, hx]
      cases htI : s.temp.get i with
      | none => rfl
      | some tI =>
        cases hm : (A.getMatrix i i).1.toOption with
        | none => rfl
        | some mII =>
          cases hxI : (s.x.syncLocal sync i).get i with
          | none => rfl
          | some xI =>
            simp only [Option.some_bind, Option.map_some', GSState.mapLog, List.map_append,
              List.map_map, Option.some.injEq]
            have he : (Event.asReverse ∘ Event.multiplyAndAdd i) = Event.multiplyAndAdd i := by
              funext c
              rfl
            rw [he]
            rfl
  · simp only [Bool.not_eq_true] at hs
    simp only [hs, Bool.false_eq_true, if_false, Option.pure_def, Option.map_some']

/-- A loop run from a renamed state follows the loop run from the state itself. -/
theorem foldlM_map_state {σ β : Type} (f f' : σ → β → Option σ) (g : σ → σ)
    (h : ∀ s a, f (g s) a = (f' s a).map g) :
    ∀ (l : List β) (s : σ), l.foldlM f (g s) = (l.foldlM f' s).map g := by
  intro l
  induction l with
  | nil => intro s; rfl
  | cons a l ih =>
    intro s
    rw [List.foldlM_cons, List.foldlM_cons, h s a]
    cases f' s a with
    | none => rfl
    | some t => exact ih t

/-- C11. `reverseGS` is `forwardGS` with the row order reversed and the reverse kernel
substituted: for every `x`, `b`, `temp`, `reverseGS` over a container enumerated as the
rows `0, …, L-1` runs, for the rows `L-1` down to `0`, the row body of `forwardGS` (partial
copy of `b`, off-diagonal accumulation, ghost synchronisation, diagonal relaxation)
with the reverse kernel of the diagonal block in the place of the forward one; it
returns the same `x` and `temp`, and the same log with the relaxations named reverse. -/
theorem reverseGS_eq_forward_rows_reversed [Zero R] (K : Matrix M R) (A : MultiFieldMatrix M)
    (sites : Nat → StorageSite) (sync : Index → MultiField (List R) → List R)
    (x b temp : MultiField (List R)) :
    forwardGS K A sites sync x b temp =
        x.indices.foldlM (forwardGSRow K A sites sync b) ⟨x, temp, []⟩ ∧
      reverseGS K A sites sync x b temp =
        (x.indices.reverse.foldlM (forwardGSRow K.reverseAsForward A sites sync b)
          ⟨x, temp, []⟩).map (GSState.mapLog Event.asReverse) := by
  refine ⟨rfl, ?_⟩
  have h := foldlM_map_state (reverseGSRow K A sites sync b)
    (forwardGSRow K.reverseAsForward A sites sync b) (GSState.mapLog Event.asReverse)
    (reverseGSRow_eq_forwardGSRow K A sites sync b) x.indices.reverse ⟨x, temp, []⟩
  exact h

end ReverseSweep

/-! ## The boundary solve: statement -/

section BoundarySolve

variable {M R : Type}

/-- C12. `solveBoundary` visits the rows `i = 0, …, L-1` in order and skips a row without a
diagonal entry.  For a row with a diagonal entry it makes the steps of `forwardGS` with
three differences: `temp[i]` is set to the entire `b[i]` (self-owned and ghost extent)
before the kernels of the off-diagonal couplings are applied to it, so that with
kernels that add the product every component holds `b[i]` plus the sum of the
products; no ghost synchronisation is made, `x[i]` is handed over as it stands; and the
`solveBoundary` kernel of the diagonal block is called with `(x[i], temp[i], temp[i])`. -/
theorem solveBoundary_row_steps [AddMonoid R] (K : Matrix M R) (act : M → List R → Nat → R)
    (A : MultiFieldMatrix M) (sites : Nat → StorageSite)
    (sync : Index → MultiField (List R) → List R) (x b temp : MultiField (List R))
    (hK : Additive K act) :
    solveBoundary K A x b temp = x.indices.foldlM (solveBoundaryRow K A b) ⟨x, temp, []⟩ ∧
      (∀ s i, A.hasMatrix i i = false → solveBoundaryRow K A b s i = some s) ∧
      (∀ s i mII bI tI xI, (A.getMatrix i i).1.toOption = some mII → b.get i = some bI →
        s.temp.get i = some tI → s.x.get i = some xI →
        ∃ r, r = accumulate K A s.x i (offDiagonalCouplings A s.x i) bI ∧
          r.length = bI.length ∧
          (∀ k bk, bI[k]? = some bk →
            r[k]? = some (bk + blockSum act A s.x i (offDiagonalCouplings A s.x i) k)) ∧
          solveBoundaryRow K A b s i =
            some
              { x := s.x.set i (K.solveBoundary mII xI r).1,
                temp := s.temp.set i (K.solveBoundary mII xI r).2,
                log := s.log ++ (offDiagonalCouplings A s.x i).map (Event.multiplyAndAdd i) ++
                  [Event.solveBoundary i] } ∧
          ∀ xS, (s.x.syncLocal sync i).get i = some xS →
            forwardGSRow K A sites sync b s i =
              some
                { x := (s.x.syncLocal sync i).set i
                    (K.forwardGS mII xS
                      (accumulate K A s.x i (offDiagonalCouplings A s.x i)
                        (ArrayBase.copyPartial tI bI 0 (sites i.2).selfCount))).1,
                  temp := s.temp.set i
                    (K.forwardGS mII xS
                      (accumulate K A s.x i (offDiagonalCouplings A s.x i)
                        (ArrayBase.copyPartial tI bI 0 (sites i.2).selfCount))).2,
                  log := s.log ++
                    (offDiagonalCouplings A s.x i).map (Event.multiplyAndAdd i) ++
                    [Event.syncLocal i, Event.forwardGS i] }) := by
  refine ⟨rfl, fun s i h => solveBoundaryRow_skip K A b s i h, ?_⟩
  intro s i mII bI tI xI hm hb ht hxI
  refine ⟨_, rfl, ?_, ?_, ?_, ?_⟩
  · rw [accumulate_length K act hK]
  · intro k bk hbk
    rw [accumulate_getElem? K act hK, hbk]
    rfl
  · exact solveBoundaryRow_eq K A b s i mII bI tI xI hm hb ht hxI
  · intro xS hxS
    exact forwardGSRow_eq K A sites sync b s i mII bI tI xS hm hb ht hxS

/-- Witness of C12: the step of row `row0` of the two-row system. -/
theorem solveBoundary_row_steps_witness :
    Additive scalarKernel scalarAct ∧ (exampleMatrix.getMatrix row0 row0).1.toOption = some 2 ∧
      exampleB.get row0 = some [5, 5, 5] ∧ exampleY.get row0 = some [9, 9, 9] ∧
      exampleX.get row0 = some [1, 1, 1] ∧
      ∃ r : List Int,
        r = accumulate scalarKernel exampleMatrix exampleX row0
              (offDiagonalCouplings exampleMatrix exampleX row0) [5, 5, 5] ∧
          r.length = 3 :=
  ⟨scalarKernel_additive, by decide, by decide, by decide, by decide,
    ((solveBoundary_row_steps scalarKernel scalarAct exampleMatrix exampleSites keepBlock
      exampleX exampleB exampleY scalarKernel_additive).2.2 ⟨exampleX, exampleY, []⟩ row0 2
      [5, 5, 5] [9, 9, 9] [1, 1, 1] (by decide) (by decide) (by decide) (by decide)).elim
      (fun r h => ⟨r, h.1, h.2.1⟩)⟩

end BoundarySolve

/-! ## The points of ghost synchronisation: statement -/

section SyncPoints

variable {M R : Type} {σ β : Type}

/-- A loop whose body succeeds on every element and carries an invariant of the
processed prefix succeeds and ends with the invariant of the whole list. -/
theorem foldlM_prefix_invariant (f : σ → β → Option σ) (P : List β → σ → Prop)
    (l0 : List β) (s0 : σ) (h0 : P [] s0)
    (hstep : ∀ q a rest t, l0 = q ++ a :: rest → P q t →
      ∃ t', f t a = some t' ∧ P (q ++ [a]) t') :
    ∃ r, l0.foldlM f s0 = some r ∧ P l0 r := by
  have aux : ∀ (l q : List β) (s : σ), l0 = q ++ l → P q s →
      ∃ r, l.foldlM f s = some r ∧ P l0 r := by
    intro l
    induction l with
    | nil =>
      intro q s hl hP
      rw [List.append_nil] at hl
      rw [hl]
      exact ⟨s, rfl, hP⟩
    | cons a l ih =>
      intro q s hl hP
      obtain ⟨t', ht', hP'⟩ := hstep q a l s hl hP
      obtain ⟨r, hr, hPr⟩ := ih (q ++ [a]) t' (by rw [hl]; simp) hP'
      refine ⟨r, ?_, hPr⟩
      rw [List.foldlM_cons, ht']
      exact hr
  exact aux l0 [] s0 rfl h0

theorem offDiagonalCouplings_congr (A : MultiFieldMatrix M) (x x' : MultiField (List R))
    (i : Index) (h : x'.indices = x.indices) :
    offDiagonalCouplings A x' i = offDiagonalCouplings A x i := by
  simp only [offDiagonalCouplings, h]

theorem count_syncLocal_map_multiplyAndAdd (i j : Index) (cols : List Index) :
    ((cols.map (Event.multiplyAndAdd j)).count (Event.syncLocal i)) = 0 := by
  apply List.count_eq_zero.mpr
  intro h
  obtain ⟨c, _, hc⟩ := List.mem_map.mp h
  cases hc

theorem count_syncLocal_forwardCalls (A : MultiFieldMatrix M) (x : MultiField (List R))
    (i : Index) (l : List Index) :
    (l.flatMap (forwardCalls A x)).count (Event.syncLocal i) = l.count i := by
  induction l with
  | nil => rfl
  | cons j l ih =>
    rw [List.flatMap_cons, List.count_append, ih, forwardCalls, List.count_append,
      count_syncLocal_map_multiplyAndAdd, List.count_cons, List.count_cons, List.count_nil,
      List.count_cons]
    by_cases hji : j = i
    · subst hji
      simp
      omega
    · have h1 : (Event.syncLocal j == Event.syncLocal i) = false := by
        simp [hji]
      have h2 : (Event.forwardGS j == Event.syncLocal i) = false := by
        rfl
      have h3 : (j == i) = false := by simp [hji]
      simp [h1, h2, h3]

theorem count_syncLocal_reverseCalls (A : MultiFieldMatrix M) (x : MultiField (List R))
    (i : Index) (l : List Index) :
    (l.flatMap (reverseCalls A x)).count (Event.syncLocal i) = l.count i := by
  induction l with
  | nil => rfl
  | cons j l ih =>
    rw [List.flatMap_cons, List.count_append, ih, reverseCalls, List.count_append,
      count_syncLocal_map_multiplyAndAdd, List.count_cons, List.count_cons, List.count_nil,
      List.count_cons]
    by_cases hji : j = i
    · subst hji
      simp
      omega
    · have h1 : (Event.syncLocal j == Event.syncLocal i) = false := by
        simp [hji]
      have h2 : (Event.reverseGS j == Event.syncLocal i) = false := by
        rfl
      have h3 : (j == i) = false := by simp [hji]
      simp [h1, h2, h3]

theorem count_of_nodup (l : List Index) (hnd : l.Nodup) (i : Index) :
    l.count i = if i ∈ l then 1 else 0 := by
  induction l with
  | nil => rfl
  | cons j l ih =>
    have hj : j ∉ l := (List.nodup_cons.mp hnd).1
    rw [List.count_cons, ih (List.nodup_cons.mp hnd).2]
    by_cases hji : j = i
    · subst hji
      simp [hj]
    · have h3 : (j == i) = false := by simp [hji]
      have h4 : (i ∈ j :: l) ↔ i ∈ l := by
        simp [Ne.symm hji]
      simp only [h3, h4]
      simp

theorem count_solvableRows (A : MultiFieldMatrix M) (x : MultiField (List R))
    (hx : x.indices.Nodup) (i : Index) :
    (solvableRows A x).count i = if i ∈ x.indices ∧ A.hasMatrix i i = true then 1 else 0 := by
  have hnd : (solvableRows A x).Nodup := hx.filter _
  rw [count_of_nodup _ hnd]
  simp only [solvableRows, List.mem_filter]

end SyncPoints

section SyncPointsClaims

variable {M R : Type}

/-- The log of a forward sweep that finds every solvable row in `b` and `temp`: the
calls of the solvable rows, row after row. -/
theorem forwardGS_log [Zero R] (K : Matrix M R) (A : MultiFieldMatrix M)
    (sites : Nat → StorageSite) (sync : Index → MultiField (List R) → List R)
    (x b temp : MultiField (List R))
    (hb : ∀ i ∈ x.indices, A.hasMatrix i i = true → i ∈ b.indices)
    (ht : ∀ i ∈ x.indices, A.hasMatrix i i = true → i ∈ temp.indices) :
    ∃ s, forwardGS K A sites sync x b temp = some s ∧
      s.log = (solvableRows A x).flatMap (forwardCalls A x) := by
  obtain ⟨s, hs, _, _, hlog⟩ := foldlM_prefix_invariant (forwardGSRow K A sites sync b)
    (fun q s => s.x.indices = x.indices ∧ s.temp.indices = temp.indices ∧
      s.log = (q.filter (fun i => A.hasMatrix i i)).flatMap (forwardCalls A x))
    x.indices ⟨x, temp, []⟩ ⟨rfl, rfl, rfl⟩ (by
      intro q i rest s hl hP
      obtain ⟨h1, h2, h3⟩ := hP
      have hi : i ∈ x.indices := by rw [hl]; simp
      by_cases hsol : A.hasMatrix i i = true
      · obtain ⟨mII, hm⟩ := getMatrix_of_hasMatrix A i i hsol
        obtain ⟨bI, hbI⟩ := b.get_of_mem i (hb i hi hsol)
        obtain ⟨tI, htI⟩ := s.temp.get_of_mem i (h2 ▸ ht i hi hsol)
        have hxI : (s.x.syncLocal sync i).get i = some (sync i s.x) :=
          MultiField.get_set_self_of_mem s.x i _ (h1 ▸ hi)
        refine ⟨_, forwardGSRow_eq K A sites sync b s i mII bI tI _ hm hbI htI hxI, ?_, ?_, ?_⟩
        · show ((s.x.syncLocal sync i).set i _).indices = x.indices
          rw [MultiField.indices_set, MultiField.indices_syncLocal, h1]
        · show (s.temp.set i _).indices = temp.indices
          rw [MultiField.indices_set, h2]
        · show s.log ++ _ ++ _ = _
          rw [h3, offDiagonalCouplings_congr A x s.x i h1, List.filter_append,
            List.flatMap_append, List.append_assoc]
          simp [List.filter_cons, hsol, forwardCalls]
      · simp only [Bool.not_eq_true] at hsol
        refine ⟨s, forwardGSRow_skip K A sites sync b s i hsol, h1, h2, ?_⟩
        rw [h3, List.filter_append]
        simp [List.filter_cons, hsol])
  exact ⟨s, hs, hlog⟩

/-- The log of a reverse sweep that finds every solvable row in `b` and `temp`: the
calls of the solvable rows, from the last row to the first. -/
theorem reverseGS_log [Zero R] (K : Matrix M R) (A : MultiFieldMatrix M)
    (sites : Nat → StorageSite) (sync : Index → MultiField (List R) → List R)
    (x b temp : MultiField (List R))
    (hb : ∀ i ∈ x.indices, A.hasMatrix i i = true → i ∈ b.indices)
    (ht : ∀ i ∈ x.indices, A.hasMatrix i i = true → i ∈ temp.indices) :
    ∃ s, reverseGS K A sites sync x b temp = some s ∧
      s.log = (solvableRows A x).reverse.flatMap (reverseCalls A x) := by
  obtain ⟨s, hs, _, _, hlog⟩ := foldlM_prefix_invariant (reverseGSRow K A sites sync b)
    (fun q s => s.x.indices = x.indices ∧ s.temp.indices = temp.indices ∧
      s.log = (q.filter (fun i => A.hasMatrix i i)).flatMap (reverseCalls A x))
    x.indices.reverse ⟨x, temp, []⟩ ⟨rfl, rfl, rfl⟩ (by
      intro q i rest s hl hP
      obtain ⟨h1, h2, h3⟩ := hP
      have hi : i ∈ x.indices := by
        apply List.mem_reverse.mp
        rw [hl]; simp
      by_cases hsol : A.hasMatrix i i = true
      · obtain ⟨mII, hm⟩ := getMatrix_of_hasMatrix A i i hsol
        obtain ⟨bI, hbI⟩ := b.get_of_mem i (hb i hi hsol)
        obtain ⟨tI, htI⟩ := s.temp.get_of_mem i (h2 ▸ ht i hi hsol)
        have hxI : (s.x.syncLocal sync i).get i = some (sync i s.x) :=
          MultiField.get_set_self_of_mem s.x i _ (h1 ▸ hi)
        refine ⟨_, reverseGSRow_eq K A sites sync b s i mII bI tI _ hm hbI htI hxI, ?_, ?_, ?_⟩
        · show ((s.x.syncLocal sync i).set i _).indices = x.indices
          rw [MultiField.indices_set, MultiField.indices_syncLocal, h1]
        · show (s.temp.set i _).indices = temp.indices
          rw [MultiField.indices_set, h2]
        · show s.log ++ _ ++ _ = _
          rw [h3, offDiagonalCouplings_congr A x s.x i h1, List.filter_append,
            List.flatMap_append, List.append_assoc]
          simp [List.filter_cons, hsol, reverseCalls]
      · simp only [Bool.not_eq_true] at hsol
        refine ⟨s, reverseGSRow_skip K A sites sync b s i hsol, h1, h2, ?_⟩
        rw [h3, List.filter_append]
        simp [List.filter_cons, hsol])
  refine ⟨s, hs, ?_⟩
  rw [hlog, solvableRows, List.filter_reverse]

theorem columnLoop_log_noSync (A : MultiFieldMatrix M)
    (x : MultiField (List R)) (row : Index) (log : List Event)
    (h : ∀ e ∈ log, e.isSyncLocal = false) :
    ∀ e ∈ log ++ (couplings A x row).map (Event.multiplyAndAdd row), e.isSyncLocal = false := by
  intro e he
  rcases List.mem_append.mp he with h1 | h1
  · exact h e h1
  · obtain ⟨c, _, hc⟩ := List.mem_map.mp h1
    rw [← hc]
    rfl

theorem multiply_noSync [Zero R] (K : Matrix M R) (A : MultiFieldMatrix M)
    (y x : MultiField (List R)) (res : MultiField (List R) × List Event)
    (h : multiply K A y x = some res) : ∀ e ∈ res.2, e.isSyncLocal = false := by
  have := foldlM_rel _
    (fun (s t : MultiField (List R) × List Event) =>
      (∀ e ∈ s.2, e.isSyncLocal = false) → ∀ e ∈ t.2, e.isSyncLocal = false)
    (fun _ h => h) (fun _ _ _ h1 h2 h => h2 (h1 h)) y.indices (y, []) res
    (by
      intro i _ t t' ht hlog
      simp only [columnLoop_eq, Option.bind_eq_bind, Option.pure_def] at ht
      obtain ⟨yI, _, ht⟩ := Option.bind_eq_some.mp ht
      simp only [Option.some_bind, Option.some.injEq] at ht
      rw [← ht]
      exact columnLoop_log_noSync A x i t.2 hlog) h
  exact this (fun _ he => absurd he (List.not_mem_nil _))

theorem multiplyAndAdd_noSync (K : Matrix M R) (A : MultiFieldMatrix M)
    (y x : MultiField (List R)) (res : MultiField (List R) × List Event)
    (h : multiplyAndAdd K A y x = some res) : ∀ e ∈ res.2, e.isSyncLocal = false := by
  have := foldlM_rel _
    (fun (s t : MultiField (List R) × List Event) =>
      (∀ e ∈ s.2, e.isSyncLocal = false) → ∀ e ∈ t.2, e.isSyncLocal = false)
    (fun _ h => h) (fun _ _ _ h1 h2 h => h2 (h1 h)) y.indices (y, []) res
    (by
      intro i _ t t' ht hlog
      simp only [columnLoop_eq, Option.bind_eq_bind, Option.pure_def] at ht
      obtain ⟨yI, _, ht⟩ := Option.bind_eq_some.mp ht
      simp only [Option.some_bind, Option.some.injEq] at ht
      rw [← ht]
      intro e he
      rcases List.mem_append.mp he with h1 | h1
      · exact hlog e h1
      · obtain ⟨c, _, hc⟩ := List.mem_map.mp h1
        rw [← hc]
        rfl) h
  exact this (fun _ he => absurd he (List.not_mem_nil _))

theorem computeResidual_noSync [Zero R] (K : Matrix M R) (A : MultiFieldMatrix M)
    (sites : Nat → StorageSite) (x b r : MultiField (List R))
    (res : MultiField (List R) × List Event)
    (h : computeResidual K A sites x b r = some res) : ∀ e ∈ res.2, e.isSyncLocal = false := by
  have := foldlM_rel _
    (fun (s t : MultiField (List R) × List Event) =>
      (∀ e ∈ s.2, e.isSyncLocal = false) → ∀ e ∈ t.2, e.isSyncLocal = false)
    (fun _ h => h) (fun _ _ _ h1 h2 h => h2 (h1 h)) x.indices (r, []) res
    (by
      intro i _ t t' ht hlog
      by_cases hs : A.hasMatrix i i = true
      · simp only [hs, if_true, columnLoop_eq, Option.bind_eq_bind, Option.pure_def] at ht
        obtain ⟨bI, _, ht⟩ := Option.bind_eq_some.mp ht
        obtain ⟨rI, _, ht⟩ := Option.bind_eq_some.mp ht
        simp only [Option.some_bind, Option.some.injEq] at ht
        rw [← ht]
        exact columnLoop_log_noSync A x i t.2 hlog
      · simp only [Bool.not_eq_true] at hs
        simp only [hs, Bool.false_eq_true, if_false, Option.pure_def, Option.some.injEq] at ht
        rw [← ht]
        exact hlog) h
  exact this (fun _ he => absurd he (List.not_mem_nil _))

theorem solveBoundary_noSync [Zero R] (K : Matrix M R) (A : MultiFieldMatrix M)
    (x b temp : MultiField (List R)) (s : GSState R)
    (h : solveBoundary K A x b temp = some s) : ∀ e ∈ s.log, e.isSyncLocal = false := by
  have := foldlM_rel (solveBoundaryRow K A b)
    (fun (s t : GSState R) =>
      (∀ e ∈ s.log, e.isSyncLocal = false) → ∀ e ∈ t.log, e.isSyncLocal = false)
    (fun _ h => h) (fun _ _ _ h1 h2 h => h2 (h1 h)) x.indices ⟨x, temp, []⟩ s
    (by
      intro i _ t t' ht hlog
      unfold solveBoundaryRow at ht
      by_cases hs : A.hasMatrix i i = true
      · simp only [hs, if_true, offDiagonalLoop_eq, Option.bind_eq_bind, Option.pure_def] at ht
        obtain ⟨bI, _, ht⟩ := Option.bind_eq_some.mp ht
        obtain ⟨tI, _, ht⟩ := Option.bind_eq_some.mp ht
        simp only [Option.some_bind] at ht
        obtain ⟨mII, _, ht⟩ := Option.bind_eq_some.mp ht
        obtain ⟨xI, _, ht⟩ := Option.bind_eq_some.mp ht
        simp only [Option.some.injEq] at ht
        rw [← ht]
        intro e he
        rcases List.mem_append.mp he with h1 | h1
        · rcases List.mem_append.mp h1 with h2 | h2
          · exact hlog e h2
          · obtain ⟨c, _, hc⟩ := List.mem_map.mp h2
            rw [← hc]
            rfl
        · rw [List.mem_singleton.mp h1]
          rfl
      · simp only [Bool.not_eq_true] at hs
        simp only [hs, Bool.false_eq_true, if_false, Option.pure_def, Option.some.injEq] at ht
        rw [← ht]
        exact hlog) h
  exact this (fun _ he => absurd he (List.not_mem_nil _))

/-- C13. In every run of `forwardGS` or `reverseGS` on containers `b`, `temp` that hold
the solvable rows of `x`, the log is, solvable row after solvable row (from the last
to the first for `reverseGS`), the kernel calls of the off-diagonal couplings of the
row, then `syncLocal(row)`, then the relaxation kernel of the diagonal block: the ghost
synchronisation is requested after all off-diagonal accumulations of the row,
immediately before its relaxation, and at no other point, and exactly once for each
solvable row of a container with distinct identities.  No run of `multiply`,
`multiplyAndAdd`, `computeResidual` or `solveBoundary` requests it. -/
theorem syncLocal_call_points [Zero R] (K : Matrix M R) (A : MultiFieldMatrix M)
    (sites : Nat → StorageSite) (sync : Index → MultiField (List R) → List R)
    (x b temp y r : MultiField (List R))
    (hb : ∀ i ∈ x.indices, A.hasMatrix i i = true → i ∈ b.indices)
    (ht : ∀ i ∈ x.indices, A.hasMatrix i i = true → i ∈ temp.indices) :
    (∃ s, forwardGS K A sites sync x b temp = some s ∧
      s.log = (solvableRows A x).flatMap (fun i =>
        (offDiagonalCouplings A x i).map (Event.multiplyAndAdd i) ++
          [Event.syncLocal i, Event.forwardGS i]) ∧
      (x.indices.Nodup → ∀ i, s.log.count (Event.syncLocal i) =
        if i ∈ x.indices ∧ A.hasMatrix i i = true then 1 else 0)) ∧
    (∃ s, reverseGS K A sites sync x b temp = some s ∧
      s.log = (solvableRows A x).reverse.flatMap (fun i =>
        (offDiagonalCouplings A x i).map (Event.multiplyAndAdd i) ++
          [Event.syncLocal i, Event.reverseGS i]) ∧
      (x.indices.Nodup → ∀ i, s.log.count (Event.syncLocal i) =
        if i ∈ x.indices ∧ A.hasMatrix i i = true then 1 else 0)) ∧
    (∀ res, multiply K A y x = some res → ∀ e ∈ res.2, e.isSyncLocal = false) ∧
    (∀ res, multiplyAndAdd K A y x = some res → ∀ e ∈ res.2, e.isSyncLocal = false) ∧
    (∀ res, computeResidual K A sites x b r = some res →
      ∀ e ∈ res.2, e.isSyncLocal = false) ∧
    (∀ s, solveBoundary K A x b temp = some s → ∀ e ∈ s.log, e.isSyncLocal = false) := by
  refine ⟨?_, ?_, multiply_noSync K A y x, multiplyAndAdd_noSync K A y x,
    computeResidual_noSync K A sites x b r, solveBoundary_noSync K A x b temp⟩
  · obtain ⟨s, hs, hlog⟩ := forwardGS_log K A sites sync x b temp hb ht
    refine ⟨s, hs, hlog, ?_⟩
    intro hx i
    rw [hlog, count_syncLocal_forwardCalls, count_solvableRows A x hx]
  · obtain ⟨s, hs, hlog⟩ := reverseGS_log K A sites sync x b temp hb ht
    refine ⟨s, hs, hlog, ?_⟩
    intro hx i
    rw [hlog, count_syncLocal_reverseCalls, List.count_reverse, count_solvableRows A x hx]

/-- Witness of C13 on the two-row system: the forward sweep synchronises `row0` once. -/
theorem syncLocal_call_points_witness :
    exampleX.indices.Nodup ∧
      ∃ s, forwardGS scalarKernel exampleMatrix exampleSites keepBlock exampleX exampleB
          exampleY = some s ∧ s.log.count (Event.syncLocal row0) = 1 :=
  ⟨by decide,
    (syncLocal_call_points scalarKernel exampleMatrix exampleSites keepBlock exampleX exampleB
      exampleY exampleY exampleY
      (by intro i hi _; simpa [exampleB, exampleX, MultiField.indices] using hi)
      (by intro i hi _; simpa [exampleY, exampleX, MultiField.indices] using hi)).1.elim
      (fun s h => ⟨s, h.1, (h.2.2 (by decide) row0).trans (by decide)⟩)⟩

end SyncPointsClaims

/-! ## The values stored by `createCoarseConnectivity` and `createCoarseMatrices` -/

section CoarseValues

variable {M R : Type}

theorem expectedConnectivity_congr (K : Matrix M R) (A B : MultiFieldMatrix M)
    (coarseIndex : MultiField (List Int)) (e : EntryIndex)
    (h1 : B.matrices = A.matrices) (h2 : B.coarseSites = A.coarseSites)
    (h3 : B.coarseToFineMappings = A.coarseToFineMappings) :
    expectedConnectivity K B coarseIndex e = expectedConnectivity K A coarseIndex e := by
  simp only [expectedConnectivity, MultiFieldMatrix.getMatrix_toOption, h1, h2, h3]

theorem expectedCoarseMatrix_congr (K : Matrix M R) (A B : MultiFieldMatrix M)
    (coarseIndex : MultiField (List Int)) (e : EntryIndex)
    (h1 : B.matrices = A.matrices) (h2 : B.coarseConnectivities = A.coarseConnectivities)
    (h3 : B.coarseToFineMappings = A.coarseToFineMappings) :
    expectedCoarseMatrix K B coarseIndex e = expectedCoarseMatrix K A coarseIndex e := by
  simp only [expectedCoarseMatrix, MultiFieldMatrix.getMatrix_toOption, h1, h2, h3]

theorem connectivityStep_refl (K : Matrix M R) (coarseIndex : MultiField (List Int))
    (s : MultiFieldMatrix M × List Event) : ConnectivityStep K coarseIndex s s :=
  ⟨rfl, rfl, rfl, rfl, fun _ => Or.inl rfl⟩

theorem connectivityStep_trans (K : Matrix M R) (coarseIndex : MultiField (List Int))
    (s t u : MultiFieldMatrix M × List Event) (h1 : ConnectivityStep K coarseIndex s t)
    (h2 : ConnectivityStep K coarseIndex t u) : ConnectivityStep K coarseIndex s u := by
  refine ⟨h2.1.trans h1.1, h2.2.1.trans h1.2.1, h2.2.2.1.trans h1.2.2.1,
    h2.2.2.2.1.trans h1.2.2.2.1, ?_⟩
  intro e
  rcases h2.2.2.2.2 e with h | ⟨cc, hcc, hf⟩
  · rw [h]
    exact h1.2.2.2.2 e
  · rw [expectedConnectivity_congr K s.1 t.1 coarseIndex e h1.1 h1.2.1 h1.2.2.1] at hcc
    exact Or.inr ⟨cc, hcc, hf⟩

theorem matricesStep_refl (K : Matrix M R) (coarseIndex : MultiField (List Int))
    (s : MultiFieldMatrix M × List Event) : MatricesStep K coarseIndex s s :=
  ⟨rfl, rfl, rfl, rfl, fun _ => Or.inl rfl⟩

theorem matricesStep_trans (K : Matrix M R) (coarseIndex : MultiField (List Int))
    (s t u : MultiFieldMatrix M × List Event) (h1 : MatricesStep K coarseIndex s t)
    (h2 : MatricesStep K coarseIndex t u) : MatricesStep K coarseIndex s u := by
  refine ⟨h2.1.trans h1.1, h2.2.1.trans h1.2.1, h2.2.2.1.trans h1.2.2.1,
    h2.2.2.2.1.trans h1.2.2.2.1, ?_⟩
  intro e
  rcases h2.2.2.2.2 e with h | ⟨cm, hcm, hf⟩
  · rw [h]
    exact h1.2.2.2.2 e
  · rw [expectedCoarseMatrix_congr K s.1 t.1 coarseIndex e h1.1 h1.2.2.2.1 h1.2.2.1] at hcm
    exact Or.inr ⟨cm, hcm, hf⟩

/-- A value that is the expected one stays under its key. -/
theorem connectivityStep_stable (K : Matrix M R) (coarseIndex : MultiField (List Int))
    (s t : MultiFieldMatrix M × List Event) (h : ConnectivityStep K coarseIndex s t)
    (e : EntryIndex) (cc : CRConnectivity)
    (hexp : expectedConnectivity K s.1 coarseIndex e = some cc)
    (hs : Map.find s.1.coarseConnectivities e = some cc) :
    Map.find t.1.coarseConnectivities e = some cc := by
  rcases h.2.2.2.2 e with h1 | ⟨cc', hcc', hf⟩
  · rw [h1, hs]
  · rw [hexp] at hcc'
    rw [hf, ← Option.some.inj hcc']

theorem matricesStep_stable (K : Matrix M R) (coarseIndex : MultiField (List Int))
    (s t : MultiFieldMatrix M × List Event) (h : MatricesStep K coarseIndex s t)
    (e : EntryIndex) (cm : M)
    (hexp : expectedCoarseMatrix K s.1 coarseIndex e = some cm)
    (hs : Map.find s.1.coarseMatrices e = some cm) :
    Map.find t.1.coarseMatrices e = some cm := by
  rcases h.2.2.2.2 e with h1 | ⟨cm', hcm', hf⟩
  · rw [h1, hs]
  · rw [hexp] at hcm'
    rw [hf, ← Option.some.inj hcm']

/-- One column step of `createCoarseConnectivity` stores under the key of an existing
entry the connectivity expected for it, and changes nothing else. -/
theorem createCoarseConnectivityEntry_value (K : Matrix M R)
    (coarseIndex : MultiField (List Int)) (row : Index) (rs : Nat) (c2f : CRConnectivity)
    (t t' : MultiFieldMatrix M × List Event) (col : Index)
    (hrs : Map.find t.1.coarseSites row = some rs)
    (hc2f : Map.find t.1.coarseToFineMappings row = some c2f)
    (h : createCoarseConnectivityEntry K coarseIndex row rs c2f t col = some t') :
    ConnectivityStep K coarseIndex t t' ∧
      (t.1.hasMatrix row col = true →
        ∃ cc, expectedConnectivity K t.1 coarseIndex (row, col) = some cc ∧
          Map.find t'.1.coarseConnectivities (row, col) = some cc) := by
  unfold createCoarseConnectivityEntry at h
  by_cases hs : t.1.hasMatrix row col = true
  · simp only [hs, if_true, Option.bind_eq_bind, Option.pure_def] at h
    obtain ⟨m, hm, h⟩ := Option.bind_eq_some.mp h
    obtain ⟨cs, hcs, h⟩ := Option.bind_eq_some.mp h
    obtain ⟨cI, hcI, h⟩ := Option.bind_eq_some.mp h
    simp only [Option.some.injEq] at h
    subst h
    have hexp : expectedConnectivity K t.1 coarseIndex (row, col) =
        some (K.createCoarseConnectivity m cI c2f rs cs) := by
      simp only [expectedConnectivity, hm, hcs, hcI, hrs, hc2f, Option.bind_eq_bind,
        Option.some_bind, Option.pure_def]
    have hfind : Map.find (Map.insert t.1.coarseConnectivities (row, col)
        (K.createCoarseConnectivity m cI c2f rs cs)) (row, col) =
        some (K.createCoarseConnectivity m cI c2f rs cs) := Map.find_insert_self _ _ _
    refine ⟨⟨rfl, rfl, rfl, rfl, ?_⟩, fun _ => ⟨_, hexp, hfind⟩⟩
    intro e
    by_cases he : e = (row, col)
    · subst he
      exact Or.inr ⟨_, hexp, hfind⟩
    · exact Or.inl (Map.find_insert_ne _ _ _ _ he)
  · simp only [hs, Bool.false_eq_true, if_false, Option.pure_def, Option.some.injEq] at h
    subst h
    exact ⟨connectivityStep_refl K coarseIndex t, fun h' => absurd h' hs⟩

/-- One column step of `createCoarseMatrices` stores under the key of an existing entry
the block expected for it, and changes nothing else. -/
theorem createCoarseMatricesEntry_value (K : Matrix M R)
    (coarseIndex : MultiField (List Int)) (row : Index) (c2f : CRConnectivity)
    (t t' : MultiFieldMatrix M × List Event) (col : Index)
    (hc2f : Map.find t.1.coarseToFineMappings row = some c2f)
    (h : createCoarseMatricesEntry K coarseIndex row c2f t col = some t') :
    MatricesStep K coarseIndex t t' ∧
      (t.1.hasMatrix row col = true →
        ∃ cm, expectedCoarseMatrix K t.1 coarseIndex (row, col) = some cm ∧
          Map.find t'.1.coarseMatrices (row, col) = some cm) := by
  unfold createCoarseMatricesEntry at h
  by_cases hs : t.1.hasMatrix row col = true
  · simp only [hs, if_true, Option.bind_eq_bind, Option.pure_def] at h
    obtain ⟨m, hm, h⟩ := Option.bind_eq_some.mp h
    obtain ⟨cc, hcc, h⟩ := Option.bind_eq_some.mp h
    obtain ⟨cI, hcI, h⟩ := Option.bind_eq_some.mp h
    simp only [Option.some.injEq] at h
    subst h
    have hexp : expectedCoarseMatrix K t.1 coarseIndex (row, col) =
        some (K.createCoarseMatrix m cI c2f cc) := by
      simp only [expectedCoarseMatrix, hm, hcc, hcI, hc2f, Option.bind_eq_bind,
        Option.some_bind, Option.pure_def]
    have hfind : Map.find (Map.insert t.1.coarseMatrices (row, col)
        (K.createCoarseMatrix m cI c2f cc)) (row, col) =
        some (K.createCoarseMatrix m cI c2f cc) := Map.find_insert_self _ _ _
    refine ⟨⟨rfl, rfl, rfl, rfl, ?_⟩, fun _ => ⟨_, hexp, hfind⟩⟩
    intro e
    by_cases he : e = (row, col)
    · subst he
      exact Or.inr ⟨_, hexp, hfind⟩
    · exact Or.inl (Map.find_insert_ne _ _ _ _ he)
  · simp only [hs, Bool.false_eq_true, if_false, Option.pure_def, Option.some.injEq] at h
    subst h
    exact ⟨matricesStep_refl K coarseIndex t, fun h' => absurd h' hs⟩

end CoarseValues

section CoarseValuesLoops

variable {M R : Type}

/-- One row step of `createCoarseConnectivity` stores the expected connectivity under the
key of every existing entry of the row with an enumerated column. -/
theorem createCoarseConnectivityRow_value (K : Matrix M R)
    (coarseIndex : MultiField (List Int)) (st st' : MultiFieldMatrix M × List Event)
    (row : Index) (h : createCoarseConnectivityRow K coarseIndex st row = some st') :
    ConnectivityStep K coarseIndex st st' ∧
      ∀ col ∈ coarseIndex.indices, st.1.hasMatrix row col = true →
        ∃ cc, expectedConnectivity K st.1 coarseIndex (row, col) = some cc ∧
          Map.find st'.1.coarseConnectivities (row, col) = some cc := by
  unfold createCoarseConnectivityRow at h
  simp only [Option.bind_eq_bind] at h
  obtain ⟨rs, hrs, h⟩ := Option.bind_eq_some.mp h
  obtain ⟨c2f, hc2f, h⟩ := Option.bind_eq_some.mp h
  have hrel : ∀ (l : List Index) (s r : MultiFieldMatrix M × List Event),
      l.foldlM (createCoarseConnectivityEntry K coarseIndex row rs c2f) s = some r →
      Map.find s.1.coarseSites row = some rs →
      Map.find s.1.coarseToFineMappings row = some c2f →
      ConnectivityStep K coarseIndex s r := by
    intro l s r hl
    exact foldlM_rel (createCoarseConnectivityEntry K coarseIndex row rs c2f)
      (fun s t => Map.find s.1.coarseSites row = some rs →
        Map.find s.1.coarseToFineMappings row = some c2f → ConnectivityStep K coarseIndex s t)
      (fun s _ _ => connectivityStep_refl K coarseIndex s)
      (fun s t u h1 h2 a b =>
        have hst := h1 a b
        connectivityStep_trans K coarseIndex s t u hst
          (h2 (by rw [hst.2.1]; exact a) (by rw [hst.2.2.1]; exact b)))
      l s r
      (fun b _ t t' hb a c =>
        (createCoarseConnectivityEntry_value K coarseIndex row rs c2f t t' b a c hb).1) hl
  refine ⟨hrel _ _ _ h hrs hc2f, ?_⟩
  intro col hcol hs
  obtain ⟨t, t', l1, l2, _, h1, h2, h3⟩ := foldlM_split _ col _ _ _ hcol h
  have c1 := hrel l1 st t h1 hrs hc2f
  have hrs1 : Map.find t.1.coarseSites row = some rs := by rw [c1.2.1]; exact hrs
  have hc2f1 : Map.find t.1.coarseToFineMappings row = some c2f := by rw [c1.2.2.1]; exact hc2f
  obtain ⟨c2, hv⟩ := createCoarseConnectivityEntry_value K coarseIndex row rs c2f t t' col
    hrs1 hc2f1 h2
  have hs' : t.1.hasMatrix row col = true := by
    rw [hasMatrix_congr st.1 t.1 c1.1]; exact hs
  obtain ⟨cc, hexp, hf⟩ := hv hs'
  have hrs2 : Map.find t'.1.coarseSites row = some rs := by rw [c2.2.1]; exact hrs1
  have hc2f2 : Map.find t'.1.coarseToFineMappings row = some c2f := by
    rw [c2.2.2.1]; exact hc2f1
  have c3 := hrel l2 t' st' h3 hrs2 hc2f2
  have hexp' : expectedConnectivity K t'.1 coarseIndex (row, col) = some cc := by
    rw [expectedConnectivity_congr K t.1 t'.1 coarseIndex _ c2.1 c2.2.1 c2.2.2.1]; exact hexp
  refine ⟨cc, ?_, connectivityStep_stable K coarseIndex t' st' c3 _ cc hexp' hf⟩
  rw [← expectedConnectivity_congr K st.1 t.1 coarseIndex _ c1.1 c1.2.1 c1.2.2.1]
  exact hexp

/-- One row step of `createCoarseMatrices` stores the expected block under the key of
every existing entry of the row with an enumerated column. -/
theorem createCoarseMatricesRow_value (K : Matrix M R)
    (coarseIndex : MultiField (List Int)) (st st' : MultiFieldMatrix M × List Event)
    (row : Index) (h : createCoarseMatricesRow K coarseIndex st row = some st') :
    MatricesStep K coarseIndex st st' ∧
      ∀ col ∈ coarseIndex.indices, st.1.hasMatrix row col = true →
        ∃ cm, expectedCoarseMatrix K st.1 coarseIndex (row, col) = some cm ∧
          Map.find st'.1.coarseMatrices (row, col) = some cm := by
  unfold createCoarseMatricesRow at h
  simp only [Option.bind_eq_bind] at h
  obtain ⟨c2f, hc2f, h⟩ := Option.bind_eq_some.mp h
  have hrel : ∀ (l : List Index) (s r : MultiFieldMatrix M × List Event),
      l.foldlM (createCoarseMatricesEntry K coarseIndex row c2f) s = some r →
      Map.find s.1.coarseToFineMappings row = some c2f →
      MatricesStep K coarseIndex s r := by
    intro l s r hl
    exact foldlM_rel (createCoarseMatricesEntry K coarseIndex row c2f)
      (fun s t => Map.find s.1.coarseToFineMappings row = some c2f →
        MatricesStep K coarseIndex s t)
      (fun s _ => matricesStep_refl K coarseIndex s)
      (fun s t u h1 h2 b =>
        have hst := h1 b
        matricesStep_trans K coarseIndex s t u hst (h2 (by rw [hst.2.2.1]; exact b)))
      l s r
      (fun b _ t t' hb c =>
        (createCoarseMatricesEntry_value K coarseIndex row c2f t t' b c hb).1) hl
  refine ⟨hrel _ _ _ h hc2f, ?_⟩
  intro col hcol hs
  obtain ⟨t, t', l1, l2, _, h1, h2, h3⟩ := foldlM_split _ col _ _ _ hcol h
  have c1 := hrel l1 st t h1 hc2f
  have hc2f1 : Map.find t.1.coarseToFineMappings row = some c2f := by rw [c1.2.2.1]; exact hc2f
  obtain ⟨c2, hv⟩ := createCoarseMatricesEntry_value K coarseIndex row c2f t t' col hc2f1 h2
  have hs' : t.1.hasMatrix row col = true := by
    rw [hasMatrix_congr st.1 t.1 c1.1]; exact hs
  obtain ⟨cm, hexp, hf⟩ := hv hs'
  have hc2f2 : Map.find t'.1.coarseToFineMappings row = some c2f := by
    rw [c2.2.2.1]; exact hc2f1
  have c3 := hrel l2 t' st' h3 hc2f2
  have hexp' : expectedCoarseMatrix K t'.1 coarseIndex (row, col) = some cm := by
    rw [expectedCoarseMatrix_congr K t.1 t'.1 coarseIndex _ c2.1 c2.2.2.2.1 c2.2.2.1]
    exact hexp
  refine ⟨cm, ?_, matricesStep_stable K coarseIndex t' st' c3 _ cm hexp' hf⟩
  rw [← expectedCoarseMatrix_congr K st.1 t.1 coarseIndex _ c1.1 c1.2.2.2.1 c1.2.2.1]
  exact hexp

/-- The step `createCoarseConnectivity`, when it returns, has stored the expected
connectivity under the key of every existing entry with enumerated row and column. -/
theorem createCoarseConnectivity_value (K : Matrix M R) (A : MultiFieldMatrix M)
    (coarseIndex : MultiField (List Int)) (res : MultiFieldMatrix M × List Event)
    (h : createCoarseConnectivity K A coarseIndex = some res) :
    ConnectivityStep K coarseIndex (A, []) res ∧
      ∀ row ∈ coarseIndex.indices, ∀ col ∈ coarseIndex.indices, A.hasMatrix row col = true →
        ∃ cc, expectedConnectivity K A coarseIndex (row, col) = some cc ∧
          Map.find res.1.coarseConnectivities (row, col) = some cc := by
  unfold createCoarseConnectivity at h
  have hrel : ∀ (l : List Index) (s r : MultiFieldMatrix M × List Event),
      l.foldlM (createCoarseConnectivityRow K coarseIndex) s = some r →
      ConnectivityStep K coarseIndex s r := fun l s r hl =>
    foldlM_rel _ (ConnectivityStep K coarseIndex) (connectivityStep_refl K coarseIndex)
      (connectivityStep_trans K coarseIndex) l s r
      (fun b _ t t' hb => (createCoarseConnectivityRow_value K coarseIndex t t' b hb).1) hl
  refine ⟨hrel _ _ _ h, ?_⟩
  intro row hrow col hcol hs
  obtain ⟨t, t', l1, l2, _, h1, h2, h3⟩ := foldlM_split _ row _ _ _ hrow h
  have c1 := hrel l1 (A, []) t h1
  obtain ⟨c2, hv⟩ := createCoarseConnectivityRow_value K coarseIndex t t' row h2
  have hs' : t.1.hasMatrix row col = true := by
    rw [hasMatrix_congr A t.1 c1.1]; exact hs
  obtain ⟨cc, hexp, hf⟩ := hv col hcol hs'
  have c3 := hrel l2 t' res h3
  have hexp' : expectedConnectivity K t'.1 coarseIndex (row, col) = some cc := by
    rw [expectedConnectivity_congr K t.1 t'.1 coarseIndex _ c2.1 c2.2.1 c2.2.2.1]; exact hexp
  refine ⟨cc, ?_, connectivityStep_stable K coarseIndex t' res c3 _ cc hexp' hf⟩
  rw [← expectedConnectivity_congr K A t.1 coarseIndex _ c1.1 c1.2.1 c1.2.2.1]
  exact hexp

/-- The step `createCoarseMatrices`, when it returns, has stored the expected block
under the key of every existing entry with enumerated row and column. -/
theorem createCoarseMatrices_value (K : Matrix M R) (A : MultiFieldMatrix M)
    (coarseIndex : MultiField (List Int)) (res : MultiFieldMatrix M × List Event)
    (h : createCoarseMatrices K A coarseIndex = some res) :
    MatricesStep K coarseIndex (A, []) res ∧
      ∀ row ∈ coarseIndex.indices, ∀ col ∈ coarseIndex.indices, A.hasMatrix row col = true →
        ∃ cm, expectedCoarseMatrix K A coarseIndex (row, col) = some cm ∧
          Map.find res.1.coarseMatrices (row, col) = some cm := by
  unfold createCoarseMatrices at h
  have hrel : ∀ (l : List Index) (s r : MultiFieldMatrix M × List Event),
      l.foldlM (createCoarseMatricesRow K coarseIndex) s = some r →
      MatricesStep K coarseIndex s r := fun l s r hl =>
    foldlM_rel _ (MatricesStep K coarseIndex) (matricesStep_refl K coarseIndex)
      (matricesStep_trans K coarseIndex) l s r
      (fun b _ t t' hb => (createCoarseMatricesRow_value K coarseIndex t t' b hb).1) hl
  refine ⟨hrel _ _ _ h, ?_⟩
  intro row hrow col hcol hs
  obtain ⟨t, t', l1, l2, _, h1, h2, h3⟩ := foldlM_split _ row _ _ _ hrow h
  have c1 := hrel l1 (A, []) t h1
  obtain ⟨c2, hv⟩ := createCoarseMatricesRow_value K coarseIndex t t' row h2
  have hs' : t.1.hasMatrix row col = true := by
    rw [hasMatrix_congr A t.1 c1.1]; exact hs
  obtain ⟨cm, hexp, hf⟩ := hv col hcol hs'
  have c3 := hrel l2 t' res h3
  have hexp' : expectedCoarseMatrix K t'.1 coarseIndex (row, col) = some cm := by
    rw [expectedCoarseMatrix_congr K t.1 t'.1 coarseIndex _ c2.1 c2.2.2.2.1 c2.2.2.1]
    exact hexp
  refine ⟨cm, ?_, matricesStep_stable K coarseIndex t' res c3 _ cm hexp' hf⟩
  rw [← expectedCoarseMatrix_congr K A t.1 coarseIndex _ c1.1 c1.2.2.2.1 c1.2.2.1]
  exact hexp

end CoarseValuesLoops

section CoarseValuesClaim

variable {M R : Type}

/-- C20. When a coarse partition and a coarse-to-fine adjacency are registered for every
row the container enumerates, `createCoarseConnectivity(coarseIndex)` followed by
`createCoarseMatrices(coarseIndex)` return, leave `matrices` as it was, and for every
existing fine entry `(row, col)` with row and column enumerated by the container
`coarseConnectivities` holds under `(row, col)` the connectivity that the fine block
`(row, col)` derives from `coarseIndex[row]`, the adjacency of the row and the coarse
partitions of row and column, and `coarseMatrices` holds under `(row, col)` the block
that the fine block `(row, col)` produces from `coarseIndex[row]`, the adjacency of the
row and the coarse connectivity stored under the same key. -/
theorem coarse_connectivity_then_matrices (K : Matrix M R) (A : MultiFieldMatrix M)
    (coarseIndex : MultiField (List Int))
    (hreg : ∀ i ∈ coarseIndex.indices, (Map.find A.coarseSites i).isSome = true ∧
      (Map.find A.coarseToFineMappings i).isSome = true) :
    ∃ A1 log1 A2 log2, createCoarseConnectivity K A coarseIndex = some (A1, log1) ∧
      createCoarseMatrices K A1 coarseIndex = some (A2, log2) ∧
      A2.matrices = A.matrices ∧
      ∀ row ∈ coarseIndex.indices, ∀ col ∈ coarseIndex.indices,
        ∀ m, (A.getMatrix row col).1.toOption = some m →
          ∃ cI c2f rs cs, coarseIndex.get row = some cI ∧
            Map.find A.coarseToFineMappings row = some c2f ∧
            Map.find A.coarseSites row = some rs ∧ Map.find A.coarseSites col = some cs ∧
            Map.find A2.coarseConnectivities (row, col) =
              some (K.createCoarseConnectivity m cI c2f rs cs) ∧
            Map.find A2.coarseMatrices (row, col) =
              some (K.createCoarseMatrix m cI c2f
                (K.createCoarseConnectivity m cI c2f rs cs)) := by
  obtain ⟨res1, hres1⟩ := createCoarseConnectivity_returns K A coarseIndex hreg
  obtain ⟨s1, v1⟩ := createCoarseConnectivity_value K A coarseIndex res1 hres1
  have hreg1 : ∀ i ∈ coarseIndex.indices,
      (Map.find res1.1.coarseToFineMappings i).isSome = true := by
    intro i hi
    rw [s1.2.2.1]
    exact (hreg i hi).2
  have hcc1 : ∀ i ∈ coarseIndex.indices, ∀ j ∈ coarseIndex.indices,
      res1.1.hasMatrix i j = true →
        (Map.find res1.1.coarseConnectivities (i, j)).isSome = true := by
    intro i hi j hj hs
    rw [hasMatrix_congr A res1.1 s1.1] at hs
    obtain ⟨cc, _, hf⟩ := v1 i hi j hj hs
    rw [hf]
    rfl
  obtain ⟨res2, hres2⟩ := createCoarseMatrices_returns K res1.1 coarseIndex hreg1 hcc1
  obtain ⟨s2, v2⟩ := createCoarseMatrices_value K res1.1 coarseIndex res2 hres2
  refine ⟨res1.1, res1.2, res2.1, res2.2, hres1, hres2, s2.1.trans s1.1, ?_⟩
  intro row hrow col hcol m hm
  have hs : A.hasMatrix row col = true := hasMatrix_of_getMatrix A row col m hm
  obtain ⟨cI, hcI⟩ := coarseIndex.get_of_mem row hrow
  obtain ⟨c2f, hc2f⟩ := Option.isSome_iff_exists.mp (hreg row hrow).2
  obtain ⟨rs, hrs⟩ := Option.isSome_iff_exists.mp (hreg row hrow).1
  obtain ⟨cs, hcs⟩ := Option.isSome_iff_exists.mp (hreg col hcol).1
  obtain ⟨cc, hexp, hf⟩ := v1 row hrow col hcol hs
  have hcc : cc = K.createCoarseConnectivity m cI c2f rs cs := by
    simp only [expectedConnectivity, hm, hcs, hcI, hrs, hc2f, Option.bind_eq_bind,
      Option.some_bind, Option.pure_def, Option.some.injEq] at hexp
    exact hexp.symm
  have hs1 : res1.1.hasMatrix row col = true := by
    rw [hasMatrix_congr A res1.1 s1.1]; exact hs
  obtain ⟨cm, hexpm, hfm⟩ := v2 row hrow col hcol hs1
  have hm1 : (res1.1.getMatrix row col).1.toOption = some m := by
    simp only [MultiFieldMatrix.getMatrix_toOption, s1.1]
    rw [← MultiFieldMatrix.getMatrix_toOption]
    exact hm
  have hc2f1 : Map.find res1.1.coarseToFineMappings row = some c2f := by
    rw [s1.2.2.1]; exact hc2f
  have hcm : cm = K.createCoarseMatrix m cI c2f cc := by
    simp only [expectedCoarseMatrix, hm1, hf, hcI, hc2f1, Option.bind_eq_bind,
      Option.some_bind, Option.pure_def, Option.some.injEq] at hexpm
    exact hexpm.symm
  refine ⟨cI, c2f, rs, cs, hcI, hc2f, hrs, hcs, ?_, ?_⟩
  · rw [s2.2.2.2.1, hf, hcc]
  · rw [hfm, hcm, hcc]

/-- Witness of C20: `offDiagonalOnlyMatrix` has a coarse partition and an adjacency for
both rows; after the two steps `coarseMatrices` holds a block under `(row1, row0)`. -/
theorem coarse_connectivity_then_matrices_witness :
    (∀ i ∈ exampleCoarseIndex.indices,
        (Map.find offDiagonalOnlyMatrix.coarseSites i).isSome = true ∧
          (Map.find offDiagonalOnlyMatrix.coarseToFineMappings i).isSome = true) ∧
      ∃ A1 log1 A2 log2,
        createCoarseConnectivity scalarKernel offDiagonalOnlyMatrix exampleCoarseIndex =
          some (A1, log1) ∧
        createCoarseMatrices scalarKernel A1 exampleCoarseIndex = some (A2, log2) ∧
        (Map.find A2.coarseMatrices (row1, row0)).isSome = true :=
  have hreg : ∀ i ∈ exampleCoarseIndex.indices,
      (Map.find offDiagonalOnlyMatrix.coarseSites i).isSome = true ∧
        (Map.find offDiagonalOnlyMatrix.coarseToFineMappings i).isSome = true := by
    intro i hi
    have : i = row0 ∨ i = row1 := by
      simpa [exampleCoarseIndex, MultiField.indices] using hi
    rcases this with rfl | rfl <;> decide
  ⟨hreg,
    (coarse_connectivity_then_matrices scalarKernel offDiagonalOnlyMatrix exampleCoarseIndex
      hreg).elim (fun A1 h1 => h1.elim (fun log1 h2 => h2.elim (fun A2 h3 =>
        h3.elim (fun log2 h4 => ⟨A1, log1, A2, log2, h4.1, h4.2.1, by
          obtain ⟨cI, c2f, rs, cs, _, _, _, _, _, hcm⟩ :=
            h4.2.2.2 row1 (by decide) row0 (by decide) 3 (by decide)
          rw [hcm]
          rfl⟩))))⟩

end CoarseValuesClaim

/-! ## The renumbering map of one neighbour -/

section SortedMap

variable {ν : Type}

theorem Map.find_insertSorted (m : List (Int × ν)) (k k' : Int) (v : ν) :
    Map.find (Map.insertSorted m k v) k' = if k = k' then some v else Map.find m k' := by
  induction m with
  | nil => rfl
  | cons p m ih =>
    obtain ⟨k₁, v₁⟩ := p
    simp only [Map.insertSorted]
    by_cases h1 : k < k₁
    · rw [if_pos h1, Map.find_cons]
    · rw [if_neg h1]
      by_cases h2 : k = k₁
      · rw [if_pos h2, Map.find_cons, Map.find_cons]
        subst h2
        by_cases h3 : k = k'
        · simp only [if_pos h3]
        · simp only [if_neg h3]
      · rw [if_neg h2, Map.find_cons, Map.find_cons, ih]
        by_cases h3 : k₁ = k'
        · have h4 : ¬ k = k' := fun e => h2 (e.trans h3.symm)
          simp only [if_pos h3, if_neg h4]
        · simp only [if_neg h3]

theorem Map.insertSorted_keys (m : List (Int × ν)) (k : Int) (v : ν)
    (hk : Map.find m k = none) :
    (Map.insertSorted m k v).length = m.length + 1 ∧
      (∀ a, a ∈ (Map.insertSorted m k v).map Prod.fst ↔ a = k ∨ a ∈ m.map Prod.fst) ∧
      ((m.map Prod.fst).Nodup → ((Map.insertSorted m k v).map Prod.fst).Nodup) := by
  induction m with
  | nil =>
    refine ⟨rfl, ?_, ?_⟩
    · intro a
      simp [Map.insertSorted]
    · intro _
      simp [Map.insertSorted]
  | cons p m ih =>
    obtain ⟨k₁, v₁⟩ := p
    rw [Map.find_cons] at hk
    have hne : ¬ k₁ = k := by
      intro e
      rw [if_pos e] at hk
      exact Option.noConfusion hk
    rw [if_neg hne] at hk
    obtain ⟨ihl, ihm, ihn⟩ := ih hk
    have hne' : ¬ k = k₁ := fun e => hne e.symm
    simp only [Map.insertSorted]
    by_cases h1 : k < k₁
    · rw [if_pos h1]
      refine ⟨rfl, ?_, ?_⟩
      · intro a
        simp
      · intro hnd
        simp only [List.map_cons, List.nodup_cons] at hnd ⊢
        refine ⟨?_, hnd⟩
        intro hmem
        rcases List.mem_cons.mp hmem with e | hm
        · exact hne' e
        · have := (Map.find_isSome_iff m k).mpr hm
          rw [hk] at this
          exact Bool.noConfusion this
    · rw [if_neg h1, if_neg hne']
      refine ⟨by simp [ihl], ?_, ?_⟩
      · intro a
        simp only [List.map_cons, List.mem_cons, ihm a]
        tauto
      · intro hnd
        simp only [List.map_cons, List.nodup_cons] at hnd ⊢
        refine ⟨?_, ihn hnd.2⟩
        intro hmem
        rcases (ihm k₁).mp hmem with e | hm
        · exact hne e
        · exact hnd.1 hm

end SortedMap

/-! ## The loop over the ghost rows of one neighbour -/

section GhostLoop

theorem ghostInv_init (cs gs0 : Int) (ci0 : List Int) :
    GhostInv cs gs0 ci0 [] ⟨ci0, gs0, []⟩ := by
  refine ⟨rfl, fun _ _ => rfl, ?_, ?_, List.nodup_nil, by simp, ?_, ?_, ?_⟩
  · intro f hf
    simp at hf
  · intro k hk
    simp [Map.find] at hk
  · intro k v hk
    simp [Map.find] at hk
  · intro k1 k2 v hk
    simp [Map.find] at hk
  · intro v h1 h2
    simp only [add_zero] at h2
    omega

theorem syncGhostRow_inv (cs gs0 : Int) (ci0 : List Int) (q : List Nat) (f : Nat)
    (g : GhostState) (hf : f < ci0.length) (hfq : f ∉ q) (h : GhostInv cs gs0 ci0 q g) :
    ∃ g', syncGhostRow cs g f = some g' ∧ GhostInv cs gs0 ci0 (q ++ [f]) g' := by
  obtain ⟨hlen, hout, hin, hkeys, hnd, hgs, hrange, hinj, hsurj⟩ := h
  have hfg : f < g.coarseIndex.length := by rw [hlen]; exact hf
  obtain ⟨old, hold⟩ : ∃ old, ci0[f]? = some old := ⟨ci0[f], List.getElem?_eq_getElem hf⟩
  have hgold : g.coarseIndex[f]? = some old := by rw [hout f hfq, hold]
  have hlenpos : (0 : Int) ≤ (g.otherToMyMapping.length : Int) := Int.ofNat_nonneg _
  cases hfind : Map.find g.otherToMyMapping old with
  | some mine =>
    refine ⟨{ g with coarseIndex := g.coarseIndex.set f mine }, ?_, ?_⟩
    · simp only [syncGhostRow, hgold, Option.bind_eq_bind, Option.some_bind, hfind,
        Option.pure_def]
    · refine ⟨by simp [hlen], ?_, ?_, ?_, hnd, hgs, hrange, hinj, hsurj⟩
      · intro f' hf'
        have hne : f ≠ f' := fun e => hf' (by rw [← e]; simp)
        have hq : f' ∉ q := fun e => hf' (List.mem_append_left _ e)
        simp only [List.getElem?_set_ne hne]
        exact hout f' hq
      · intro f' hf'
        by_cases e : f' = f
        · subst e
          refine ⟨old, mine, hold, hfind, ?_⟩
          simp [List.getElem?_set_self, hfg]
        · have hq : f' ∈ q := by
            rcases List.mem_append.mp hf' with h1 | h1
            · exact h1
            · exact absurd (List.mem_singleton.mp h1) e
          obtain ⟨old', new', h1, h2, h3⟩ := hin f' hq
          refine ⟨old', new', h1, h2, ?_⟩
          simp only [List.getElem?_set_ne (fun e' => e e'.symm)]
          exact h3
      · intro k hk
        obtain ⟨f', hf', h1⟩ := hkeys k hk
        exact ⟨f', List.mem_append_left _ hf', h1⟩
  | none =>
    obtain ⟨hl, hmem, hndk⟩ := Map.insertSorted_keys g.otherToMyMapping old
      (g.coarseGhostSize + cs) hfind
    refine ⟨{ coarseIndex := g.coarseIndex.set f (g.coarseGhostSize + cs)
              coarseGhostSize := g.coarseGhostSize + 1
              otherToMyMapping := Map.insertSorted g.otherToMyMapping old
                (g.coarseGhostSize + cs) }, ?_, ?_⟩
    · simp only [syncGhostRow, hgold, Option.bind_eq_bind, Option.some_bind, hfind,
        Option.pure_def]
    · refine ⟨by simp [hlen], ?_, ?_, ?_, hndk hnd, ?_, ?_, ?_, ?_⟩
      · intro f' hf'
        have hne : f ≠ f' := fun e => hf' (by rw [← e]; simp)
        have hq : f' ∉ q := fun e => hf' (List.mem_append_left _ e)
        simp only [List.getElem?_set_ne hne]
        exact hout f' hq
      · intro f' hf'
        by_cases e : f' = f
        · subst e
          refine ⟨old, g.coarseGhostSize + cs, hold, ?_, ?_⟩
          · simp only [Map.find_insertSorted, if_true]
          · simp [List.getElem?_set_self, hfg]
        · have hq : f' ∈ q := by
            rcases List.mem_append.mp hf' with h1 | h1
            · exact h1
            · exact absurd (List.mem_singleton.mp h1) e
          obtain ⟨old', new', h1, h2, h3⟩ := hin f' hq
          have hne : ¬ old = old' := by
            intro e'
            rw [← e', hfind] at h2
            exact Option.noConfusion h2
          refine ⟨old', new', h1, ?_, ?_⟩
          · simp only [Map.find_insertSorted, if_neg hne]
            exact h2
          · simp only [List.getElem?_set_ne (fun e' => e e'.symm)]
            exact h3
      · intro k hk
        simp only [Map.find_insertSorted] at hk
        by_cases e : old = k
        · exact ⟨f, by simp, by rw [← e]; exact hold⟩
        · rw [if_neg e] at hk
          obtain ⟨f', hf', h1⟩ := hkeys k hk
          exact ⟨f', List.mem_append_left _ hf', h1⟩
      · simp only [hl]
        rw [hgs]
        push_cast
        ring
      · intro k v hk
        simp only [Map.find_insertSorted] at hk
        by_cases e : old = k
        · rw [if_pos e] at hk
          have hv : v = g.coarseGhostSize + cs := (Option.some.inj hk).symm
          simp only
          omega
        · rw [if_neg e] at hk
          have := hrange k v hk
          simp only
          omega
      · intro k1 k2 v h1 h2
        simp only [Map.find_insertSorted] at h1 h2
        by_cases e1 : old = k1
        · by_cases e2 : old = k2
          · exact e1.symm.trans e2
          · rw [if_pos e1] at h1
            rw [if_neg e2] at h2
            have hv : v = g.coarseGhostSize + cs := (Option.some.inj h1).symm
            have := hrange k2 v h2
            omega
        · by_cases e2 : old = k2
          · rw [if_neg e1] at h1
            rw [if_pos e2] at h2
            have hv : v = g.coarseGhostSize + cs := (Option.some.inj h2).symm
            have := hrange k1 v h1
            omega
          · rw [if_neg e1] at h1
            rw [if_neg e2] at h2
            exact hinj k1 k2 v h1 h2
      · intro v h1 h2
        simp only at h2
        by_cases hv : v < cs + g.coarseGhostSize
        · obtain ⟨k, hk⟩ := hsurj v h1 hv
          have hne : ¬ old = k := by
            intro e'
            rw [← e', hfind] at hk
            exact Option.noConfusion hk
          exact ⟨k, by simp only [Map.find_insertSorted, if_neg hne]; exact hk⟩
        · refine ⟨old, ?_⟩
          simp only [Map.find_insertSorted, if_true]
          have : v = g.coarseGhostSize + cs := by omega
          rw [this]

/-- The loop over the ghost rows of one neighbour returns and establishes `GhostInv`
for all of them. -/
theorem ghostLoop_inv (cs gs0 : Int) (ci0 : List Int) (toIndices : List Nat)
    (hnd : toIndices.Nodup) (hrange : ∀ f ∈ toIndices, f < ci0.length) :
    ∃ g, toIndices.foldlM (syncGhostRow cs) ⟨ci0, gs0, []⟩ = some g ∧
      GhostInv cs gs0 ci0 toIndices g := by
  apply foldlM_prefix_invariant (syncGhostRow cs) (GhostInv cs gs0 ci0) toIndices
    ⟨ci0, gs0, []⟩ (ghostInv_init cs gs0 ci0)
  intro q a rest t hl hP
  have ha : a ∈ toIndices := by rw [hl]; simp
  have hq : a ∉ q := by
    rw [hl] at hnd
    have := (List.nodup_append.mp hnd).2.2
    intro hmem
    exact this hmem (List.mem_cons_self a rest)
  exact syncGhostRow_inv cs gs0 ci0 q a t (hrange a ha) hq hP

end GhostLoop

/-! ## The loop over the neighbours of one row -/

section NeighbourLoop

theorem Map.values_nodup {κ ν : Type} [DecidableEq κ] (m : List (κ × ν))
    (hnd : (m.map Prod.fst).Nodup)
    (hinj : ∀ k1 k2 v, Map.find m k1 = some v → Map.find m k2 = some v → k1 = k2) :
    (m.map Prod.snd).Nodup := by
  apply List.Nodup.map_on _ (List.Nodup.of_map _ hnd)
  rintro ⟨k1, v1⟩ h1 ⟨k2, v2⟩ h2 e
  simp only at e
  subst e
  have e1 := Map.find_of_mem_nodup m k1 v1 hnd h1
  have e2 := Map.find_of_mem_nodup m k2 v1 hnd h2
  rw [hinj k1 k2 v1 e1 e2]

theorem zip_map_fst_map_snd {α β : Type} (l : List (α × β)) :
    (l.map Prod.fst).zip (l.map Prod.snd) = l := by
  induction l with
  | nil => rfl
  | cons p l ih => simp [ih]

theorem ghostRows_append_singleton (P : List (Nat × List Nat)) (p : Nat × List Nat) :
    ghostRows (P ++ [p]) = ghostRows P ++ p.2 := by
  simp [ghostRows]

theorem mem_ghostRows (nbrs : List (Nat × List Nat)) (p : Nat × List Nat) (hp : p ∈ nbrs)
    (f : Nat) (hf : f ∈ p.2) : f ∈ ghostRows nbrs := by
  simp only [ghostRows, List.mem_flatten, List.mem_map]
  exact ⟨p.2, ⟨p, hp, rfl⟩, hf⟩

end NeighbourLoop

section NeighbourStep

/-- One neighbour of a row: the step of the loop over the neighbours returns and
extends what has been established for the neighbours before it. -/
theorem syncNeighbour_inv (row : Index) (cs : Int) (ci0 : List Int)
    (cm0 : List (EntryIndex × (List Int × List Int))) (P : List (Nat × List Nat))
    (p : Nat × List Nat) (n : NeighbourState)
    (hp1 : p.1 ∉ P.map Prod.fst) (hp2 : p.2.Nodup)
    (hdisj : ∀ f ∈ p.2, f ∉ ghostRows P) (hrange : ∀ f ∈ p.2, f < ci0.length)
    (h : RowPost cs ci0 P n.coarseIndex n.coarseGhostSize
        (fun nb => Map.find n.coarseMappers (row, (row.1, nb))) ∧
      ∀ key : EntryIndex, (∀ p' ∈ P, key ≠ (row, (row.1, p'.1))) →
        Map.find n.coarseMappers key = Map.find cm0 key) :
    ∃ n', syncNeighbour row cs n p = some n' ∧
      (RowPost cs ci0 (P ++ [p]) n'.coarseIndex n'.coarseGhostSize
        (fun nb => Map.find n'.coarseMappers (row, (row.1, nb))) ∧
      ∀ key : EntryIndex, (∀ p' ∈ P ++ [p], key ≠ (row, (row.1, p'.1))) →
        Map.find n'.coarseMappers key = Map.find cm0 key) := by
  obtain ⟨⟨hlen, hout, hrng, hpair, hmap, hsum⟩, hframe⟩ := h
  obtain ⟨g, hg, glen, gout, gin, gkeys, gnd, ggs, grange, ginj, gsurj⟩ :=
    ghostLoop_inv cs n.coarseGhostSize n.coarseIndex p.2 hp2
      (fun f hf => by rw [hlen]; exact hrange f hf)
  have hnn : (0 : Int) ≤ n.coarseGhostSize := by rw [hsum]; exact Int.ofNat_nonneg _
  have hge : n.coarseGhostSize ≤ g.coarseGhostSize := by
    rw [ggs]
    have : (0 : Int) ≤ (g.otherToMyMapping.length : Int) := Int.ofNat_nonneg _
    omega
  have hold : ∀ f ∈ p.2, n.coarseIndex[f]? = ci0[f]? := fun f hf => hout f (hdisj f hf)
  have hnotp : ∀ f ∈ ghostRows P, f ∉ p.2 := fun f hf hfp => hdisj f hfp hf
  have hkey : ∀ p' ∈ P, (row, (row.1, p'.1)) ≠ (row, (row.1, p.1)) := by
    intro p' hp' e
    have e' : p'.1 = p.1 := by
      have := congrArg (fun k : EntryIndex => k.2.2) e
      exact this
    exact hp1 (by rw [← e']; exact List.mem_map.mpr ⟨p', hp', rfl⟩)
  refine ⟨⟨g.coarseIndex, g.coarseGhostSize,
    Map.insert n.coarseMappers (row, (row.1, p.1))
      (g.otherToMyMapping.map Prod.fst, g.otherToMyMapping.map Prod.snd)⟩, ?_, ?_, ?_⟩
  · simp only [syncNeighbour, hg, Option.bind_eq_bind, Option.some_bind, Option.pure_def]
  · refine ⟨glen.trans hlen, ?_, ?_, ?_, ?_, ?_⟩
    · intro f hf
      rw [ghostRows_append_singleton, List.mem_append, not_or] at hf
      exact (gout f hf.2).trans (hout f hf.1)
    · intro v
      simp only [ghostRows_append_singleton, List.mem_append]
      constructor
      · rintro ⟨f, hf | hf, hv⟩
        · have h1 : n.coarseIndex[f]? = some v := by rw [← gout f (hnotp f hf)]; exact hv
          have := (hrng v).mp ⟨f, hf, h1⟩
          omega
        · obtain ⟨old, new, _, h2, h3⟩ := gin f hf
          have e : new = v := Option.some.inj (h3.symm.trans hv)
          have := grange old new h2
          omega
      · rintro ⟨h1, h2⟩
        by_cases hv : v < cs + n.coarseGhostSize
        · obtain ⟨f, hf, h3⟩ := (hrng v).mpr ⟨h1, hv⟩
          exact ⟨f, Or.inl hf, by rw [gout f (hnotp f hf)]; exact h3⟩
        · obtain ⟨k, hk⟩ := gsurj v (by omega) h2
          obtain ⟨f, hf, h3⟩ := gkeys k (by rw [hk]; rfl)
          obtain ⟨old, new, h4, h5, h6⟩ := gin f hf
          have e : old = k := Option.some.inj (h4.symm.trans h3)
          rw [e, hk] at h5
          refine ⟨f, Or.inr hf, ?_⟩
          rw [h6, ← Option.some.inj h5]
    · intro p' hp' f1 hf1 f2 hf2
      rcases List.mem_append.mp hp' with hP | hP
      · rw [gout f1 (hnotp f1 (mem_ghostRows P p' hP f1 hf1)),
          gout f2 (hnotp f2 (mem_ghostRows P p' hP f2 hf2))]
        exact hpair p' hP f1 hf1 f2 hf2
      · have e : p' = p := List.mem_singleton.mp hP
        subst e
        obtain ⟨old1, new1, a1, b1, c1⟩ := gin f1 hf1
        obtain ⟨old2, new2, a2, b2, c2⟩ := gin f2 hf2
        rw [c1, c2, ← hold f1 hf1, ← hold f2 hf2, a1, a2]
        constructor
        · intro e
          have e' : new1 = new2 := Option.some.inj e
          rw [e'] at b1
          rw [ginj old1 old2 new2 b1 b2]
        · intro e
          have e' : old1 = old2 := Option.some.inj e
          rw [e', b2] at b1
          rw [Option.some.inj b1]
    · intro p' hp'
      rcases List.mem_append.mp hp' with hP | hP
      · obtain ⟨fr, tos, h1, h2, h3, h4, h5, h6⟩ := hmap p' hP
        refine ⟨fr, tos, ?_, h2, h3, h4, h5, ?_⟩
        · simp only
          rw [Map.find_insert_ne _ _ _ _ (hkey p' hP)]
          exact h1
        · intro kv hkv f hf hc
          rw [gout f (hnotp f (mem_ghostRows P p' hP f hf))]
          exact h6 kv hkv f hf hc
      · have e : p' = p := List.mem_singleton.mp hP
        subst e
        refine ⟨g.otherToMyMapping.map Prod.fst, g.otherToMyMapping.map Prod.snd, ?_,
          by simp, gnd, Map.values_nodup _ gnd ginj, ?_, ?_⟩
        · simp only
          rw [Map.find_insert_self]
        · intro k
          constructor
          · intro hk
            obtain ⟨f, hf, h3⟩ := gkeys k ((Map.find_isSome_iff _ k).mpr hk)
            exact ⟨f, hf, by rw [← hold f hf]; exact h3⟩
          · rintro ⟨f, hf, hc⟩
            obtain ⟨old, new, h4, h5, _⟩ := gin f hf
            have e : old = k := by
              rw [hold f hf, hc] at h4
              exact (Option.some.inj h4).symm
            apply (Map.find_isSome_iff _ k).mp
            rw [← e, h5]
            rfl
        · intro kv hkv f hf hc
          rw [zip_map_fst_map_snd] at hkv
          have h1 := Map.find_of_mem_nodup g.otherToMyMapping kv.1 kv.2 gnd hkv
          obtain ⟨old, new, h4, h5, h6⟩ := gin f hf
          have e : old = kv.1 := by
            rw [hold f hf, hc] at h4
            exact (Option.some.inj h4).symm
          rw [e, h1] at h5
          rw [h6, ← Option.some.inj h5]
    · simp only [List.map_append, List.sum_append, List.map_cons, List.map_nil,
        List.sum_cons, List.sum_nil, Map.find_insert_self, Option.map_some', Option.getD_some,
        List.length_map, add_zero]
      have hcongr : P.map (fun p' => ((Map.find (Map.insert n.coarseMappers
            (row, (row.1, p.1))
            (g.otherToMyMapping.map Prod.fst, g.otherToMyMapping.map Prod.snd))
            (row, (row.1, p'.1))).map (fun m => m.1.length)).getD 0) =
          P.map (fun p' => ((Map.find n.coarseMappers (row, (row.1, p'.1))).map
            (fun m => m.1.length)).getD 0) := by
        apply List.map_congr_left
        intro p' hp'
        rw [Map.find_insert_ne _ _ _ _ (hkey p' hp')]
      rw [hcongr, ggs, hsum]
      push_cast
      rfl
  · intro key hk
    simp only
    rw [Map.find_insert_ne _ _ _ _ (hk p (by simp)),
      hframe key (fun p' hp' => hk p' (List.mem_append_left _ hp'))]

end NeighbourStep

section NeighbourLoopWhole

/-- The loop over the neighbours of a row returns and establishes `RowPost` for all of
them; it changes no entry of `coarseMappers` but those of the neighbours of the row. -/
theorem neighbourLoop_inv (row : Index) (cs : Int) (ci0 : List Int)
    (cm0 : List (EntryIndex × (List Int × List Int))) (nbrs : List (Nat × List Nat))
    (hwf : NeighboursWellFormed nbrs ci0) :
    ∃ n, nbrs.foldlM (syncNeighbour row cs) ⟨ci0, 0, cm0⟩ = some n ∧
      RowPost cs ci0 nbrs n.coarseIndex n.coarseGhostSize
        (fun nb => Map.find n.coarseMappers (row, (row.1, nb))) ∧
      ∀ key : EntryIndex, (∀ p ∈ nbrs, key ≠ (row, (row.1, p.1))) →
        Map.find n.coarseMappers key = Map.find cm0 key := by
  obtain ⟨hk, hnd, hrange⟩ := hwf
  apply foldlM_prefix_invariant (syncNeighbour row cs)
    (fun P n => RowPost cs ci0 P n.coarseIndex n.coarseGhostSize
        (fun nb => Map.find n.coarseMappers (row, (row.1, nb))) ∧
      ∀ key : EntryIndex, (∀ p ∈ P, key ≠ (row, (row.1, p.1))) →
        Map.find n.coarseMappers key = Map.find cm0 key) nbrs ⟨ci0, 0, cm0⟩
  · refine ⟨⟨rfl, fun _ _ => rfl, ?_, ?_, ?_, by simp⟩, fun _ _ => rfl⟩
    · intro v
      simp only [ghostRows, List.map_nil, List.flatten_nil, List.not_mem_nil, false_and,
        exists_false, add_zero, false_iff, not_and, not_lt]
      exact fun h => h
    · intro p hp
      simp at hp
    · intro p hp
      simp at hp
  · intro q a rest t hl hP
    have hg : ghostRows nbrs = ghostRows q ++ (a.2 ++ ghostRows rest) := by
      rw [hl]
      simp [ghostRows]
    rw [hg] at hnd hrange
    have hnd1 := List.nodup_append.mp hnd
    have hnd2 := List.nodup_append.mp hnd1.2.1
    apply syncNeighbour_inv row cs ci0 cm0 q a t _ hnd2.1 _ _ hP
    · rw [hl] at hk
      simp only [List.map_append, List.map_cons] at hk
      have := (List.nodup_append.mp hk).2.2
      intro hmem
      exact this hmem (List.mem_cons_self _ _)
    · intro f hf hq
      exact hnd1.2.2 hq (List.mem_append_left _ hf)
    · intro f hf
      exact hrange f (List.mem_append_right _ (List.mem_append_left _ hf))

end NeighbourLoopWhole

/-! ## The ghost reconciliation over all rows -/

section GhostRows

variable {M : Type}

/-- On well-formed neighbour lists `syncGhostCoarsening` returns, and for every row the
container enumerates it ends with `RowPost` for the array, the ghost count and the maps
of the row, having changed no other entry of `coarseMappers` keyed by the row. -/
theorem syncGhostCoarsening_post (A : MultiFieldMatrix M) (sites : Nat → StorageSite)
    (ci : MultiField (List Int)) (hnd : ci.indices.Nodup)
    (hsz : ∀ r ∈ ci.indices, (Map.find A.coarseSizes r).isSome = true)
    (hwf : ∀ r ∈ ci.indices, ∀ ci0, ci.get r = some ci0 →
      NeighboursWellFormed (sites r.2).mappers ci0) :
    ∃ res, syncGhostCoarsening A sites ci = some res ∧
      res.1.coarseSizes = A.coarseSizes ∧ res.2.indices = ci.indices ∧
      ∀ r ∈ ci.indices, ∀ ci0 cs, ci.get r = some ci0 → Map.find A.coarseSizes r = some cs →
        ∃ cif gs, res.2.get r = some cif ∧ Map.find res.1.coarseGhostSizes r = some gs ∧
          RowPost cs ci0 (sites r.2).mappers cif gs
            (fun nb => Map.find res.1.coarseMappers (r, (r.1, nb))) ∧
          ∀ key : EntryIndex, key.1 = r →
            (∀ p ∈ (sites r.2).mappers, key ≠ (r, (r.1, p.1))) →
            Map.find res.1.coarseMappers key = Map.find A.coarseMappers key := by
  have main := foldlM_prefix_invariant (syncGhostCoarseningRow sites)
    (fun q (st : MultiFieldMatrix M × MultiField (List Int)) =>
      st.1.coarseSizes = A.coarseSizes ∧ st.2.indices = ci.indices ∧
      (∀ r, r ∉ q → st.2.get r = ci.get r ∧
        ∀ key : EntryIndex, key.1 = r →
          Map.find st.1.coarseMappers key = Map.find A.coarseMappers key) ∧
      (∀ r ∈ q, ∀ ci0 cs, ci.get r = some ci0 → Map.find A.coarseSizes r = some cs →
        ∃ cif gs, st.2.get r = some cif ∧ Map.find st.1.coarseGhostSizes r = some gs ∧
          RowPost cs ci0 (sites r.2).mappers cif gs
            (fun nb => Map.find st.1.coarseMappers (r, (r.1, nb))) ∧
          ∀ key : EntryIndex, key.1 = r →
            (∀ p ∈ (sites r.2).mappers, key ≠ (r, (r.1, p.1))) →
            Map.find st.1.coarseMappers key = Map.find A.coarseMappers key))
    ci.indices (A, ci) ⟨rfl, rfl, fun _ _ => ⟨rfl, fun _ _ => rfl⟩,
      fun r hr => absurd hr (List.not_mem_nil r)⟩ ?_
  · obtain ⟨res, hres, h1, h2, _, h4⟩ := main
    exact ⟨res, hres, h1, h2, h4⟩
  · intro q a rest t hl ⟨hsizes, hidx, hrest, hdone⟩
    have ha : a ∈ ci.indices := by rw [hl]; simp
    have haq : a ∉ q := by
      rw [hl] at hnd
      intro hmem
      exact (List.nodup_append.mp hnd).2.2 hmem (List.mem_cons_self a rest)
    obtain ⟨ci0, hci0⟩ := MultiField.get_of_mem ci a ha
    obtain ⟨cs, hcs⟩ := Option.isSome_iff_exists.mp (hsz a ha)
    obtain ⟨n, hn, hpost, hframe⟩ := neighbourLoop_inv a cs ci0 t.1.coarseMappers
      (sites a.2).mappers (hwf a ha ci0 hci0)
    have hget : t.2.get a = some ci0 := by rw [(hrest a haq).1, hci0]
    have hcs' : Map.find t.1.coarseSizes a = some cs := by rw [hsizes, hcs]
    have hkeyne : ∀ r, r ≠ a → ∀ key : EntryIndex, key.1 = r →
        ∀ p ∈ (sites a.2).mappers, key ≠ (a, (a.1, p.1)) := by
      intro r hr key hk p _ e
      apply hr
      rw [← hk, e]
    refine ⟨({ t.1 with
               coarseMappers := n.coarseMappers
               coarseGhostSizes := Map.insert t.1.coarseGhostSizes a n.coarseGhostSize },
             t.2.set a n.coarseIndex), ?_, hsizes, ?_, ?_, ?_⟩
    · simp only [syncGhostCoarseningRow, hget, hcs', hn, Option.bind_eq_bind,
        Option.some_bind, Option.pure_def]
    · simp only [MultiField.indices_set]
      exact hidx
    · intro r hr
      rw [List.mem_append, not_or] at hr
      have hne : r ≠ a := fun e => hr.2 (by rw [e]; simp)
      refine ⟨?_, ?_⟩
      · simp only
        rw [MultiField.get_set_ne _ _ _ _ hne]
        exact (hrest r hr.1).1
      · intro key hk
        simp only
        rw [hframe key (hkeyne r hne key hk)]
        exact (hrest r hr.1).2 key hk
    · intro r hr ci0' cs' hci0' hcs''
      rcases List.mem_append.mp hr with hq | hq
      · have hne : r ≠ a := fun e => haq (by rw [← e]; exact hq)
        obtain ⟨cif, gs, h1, h2, h3, h4⟩ := hdone r hq ci0' cs' hci0' hcs''
        refine ⟨cif, gs, ?_, ?_, ?_, ?_⟩
        · simp only
          rw [MultiField.get_set_ne _ _ _ _ hne]
          exact h1
        · simp only
          rw [Map.find_insert_ne _ _ _ _ hne]
          exact h2
        · have e : (fun nb => Map.find n.coarseMappers (r, (r.1, nb))) =
              (fun nb => Map.find t.1.coarseMappers (r, (r.1, nb))) :=
            funext (fun nb => hframe _ (hkeyne r hne _ rfl))
          simp only
          rw [e]
          exact h3
        · intro key hk hp
          simp only
          rw [hframe key (hkeyne r hne key hk)]
          exact h4 key hk hp
      · have e : r = a := List.mem_singleton.mp hq
        subst e
        have e1 : ci0' = ci0 := Option.some.inj (hci0'.symm.trans hci0)
        have e2 : cs' = cs := Option.some.inj (hcs''.symm.trans hcs)
        subst e1 e2
        refine ⟨n.coarseIndex, n.coarseGhostSize, ?_, ?_, hpost, ?_⟩
        · simp only
          exact MultiField.get_set_self_of_mem _ _ _ (by rw [hidx]; exact ha)
        · simp only
          exact Map.find_insert_self _ _ _
        · intro key hk hp
          simp only
          rw [hframe key hp]
          exact (hrest r haq).2 key hk

end GhostRows

/-! ## C14 to C17: the ghost reconciliation -/

section GhostClaims

variable {M : Type}

/-- C14, as amended: `syncGhostCoarsening` on well-formed neighbour lists (the neighbours
of a row are distinct, list over all of them every ghost fine row once, and list only
rows of the array of the row) returns, and for every row and every neighbour of the row,
two ghost fine rows of that neighbour hold the same coarse id afterwards if and only if
they carried the same coarse id before. -/
theorem ghost_rows_same_id_iff (A : MultiFieldMatrix M) (sites : Nat → StorageSite)
    (coarseIndex : MultiField (List Int)) (hnd : coarseIndex.indices.Nodup)
    (hsz : ∀ r ∈ coarseIndex.indices, (Map.find A.coarseSizes r).isSome = true)
    (hwf : ∀ r ∈ coarseIndex.indices, ∀ ci0, coarseIndex.get r = some ci0 →
      NeighboursWellFormed (sites r.2).mappers ci0) :
    ∃ res, syncGhostCoarsening A sites coarseIndex = some res ∧
      ∀ r ∈ coarseIndex.indices, ∃ ci0 cif, coarseIndex.get r = some ci0 ∧
        res.2.get r = some cif ∧
        ∀ p ∈ (sites r.2).mappers, ∀ f1 ∈ p.2, ∀ f2 ∈ p.2,
          ∃ a1 a2 b1 b2, ci0[f1]? = some a1 ∧ ci0[f2]? = some a2 ∧
            cif[f1]? = some b1 ∧ cif[f2]? = some b2 ∧ (b1 = b2 ↔ a1 = a2) := by
  obtain ⟨res, hres, _, _, hpost⟩ := syncGhostCoarsening_post A sites coarseIndex hnd hsz hwf
  refine ⟨res, hres, ?_⟩
  intro r hr
  obtain ⟨ci0, hci0⟩ := MultiField.get_of_mem coarseIndex r hr
  obtain ⟨cs, hcs⟩ := Option.isSome_iff_exists.mp (hsz r hr)
  obtain ⟨cif, gs, h1, _, ⟨hlen, _, _, hpair, _, _⟩, _⟩ := hpost r hr ci0 cs hci0 hcs
  refine ⟨ci0, cif, hci0, h1, ?_⟩
  intro p hp f1 hf1 f2 hf2
  have hr1 : f1 < ci0.length := (hwf r hr ci0 hci0).2.2 f1 (mem_ghostRows _ p hp f1 hf1)
  have hr2 : f2 < ci0.length := (hwf r hr ci0 hci0).2.2 f2 (mem_ghostRows _ p hp f2 hf2)
  have hr1' : f1 < cif.length := by rw [hlen]; exact hr1
  have hr2' : f2 < cif.length := by rw [hlen]; exact hr2
  have e := hpair p hp f1 hf1 f2 hf2
  rw [List.getElem?_eq_getElem hr1, List.getElem?_eq_getElem hr2,
    List.getElem?_eq_getElem hr1', List.getElem?_eq_getElem hr2'] at e
  refine ⟨ci0[f1], ci0[f2], cif[f1], cif[f2], List.getElem?_eq_getElem hr1,
    List.getElem?_eq_getElem hr2, List.getElem?_eq_getElem hr1',
    List.getElem?_eq_getElem hr2', ?_⟩
  constructor
  · intro h
    exact Option.some.inj (e.mp (by rw [h]))
  · intro h
    exact Option.some.inj (e.mpr (by rw [h]))

/-- Witness of C14: partition `0` of `ghostSites` receives the rows `6` and `7` from one
neighbour. -/
theorem ghost_rows_same_id_iff_witness :
    ghostCoarseIndex.indices.Nodup ∧
    (∀ r ∈ ghostCoarseIndex.indices,
      (Map.find aggregatedMatrix.coarseSizes r).isSome = true) ∧
    (∀ r ∈ ghostCoarseIndex.indices, ∀ ci0, ghostCoarseIndex.get r = some ci0 →
      NeighboursWellFormed (ghostSites r.2).mappers ci0) ∧
    ∃ res, syncGhostCoarsening aggregatedMatrix ghostSites ghostCoarseIndex = some res ∧
      ∀ r ∈ ghostCoarseIndex.indices, ∃ ci0 cif, ghostCoarseIndex.get r = some ci0 ∧
        res.2.get r = some cif ∧
        ∀ p ∈ (ghostSites r.2).mappers, ∀ f1 ∈ p.2, ∀ f2 ∈ p.2,
          ∃ a1 a2 b1 b2, ci0[f1]? = some a1 ∧ ci0[f2]? = some a2 ∧
            cif[f1]? = some b1 ∧ cif[f2]? = some b2 ∧ (b1 = b2 ↔ a1 = a2) :=
  have hnd : ghostCoarseIndex.indices.Nodup := by decide
  have hsz : ∀ r ∈ ghostCoarseIndex.indices,
      (Map.find aggregatedMatrix.coarseSizes r).isSome = true := by decide
  have hwf : ∀ r ∈ ghostCoarseIndex.indices, ∀ ci0, ghostCoarseIndex.get r = some ci0 →
      NeighboursWellFormed (ghostSites r.2).mappers ci0 := by
    intro r hr ci0 h
    have e : r = row0 := by simpa [ghostCoarseIndex, MultiField.indices] using hr
    subst e
    have e2 : some ci0 = some [0, 0, 1, 1, 2, 2, 7, 7] := h.symm.trans rfl
    cases e2
    exact ⟨by decide, by decide, by decide⟩
  ⟨hnd, hsz, hwf, ghost_rows_same_id_iff aggregatedMatrix ghostSites ghostCoarseIndex hnd hsz
    hwf⟩

end GhostClaims

section GhostRangeClaim

variable {M : Type}

/-- C15, as amended: `syncGhostCoarsening` on well-formed neighbour lists (every ghost fine
row is listed once over all neighbours of its row) returns, and afterwards, for every
row, the coarse ids held by the ghost fine rows listed in the `toIndices` of its
neighbours are exactly the integers `coarseSizes[row], …, coarseSizes[row] +
coarseGhostSizes[row] - 1`; `coarseSizes` is unchanged. -/
theorem ghost_ids_contiguous (A : MultiFieldMatrix M) (sites : Nat → StorageSite)
    (coarseIndex : MultiField (List Int)) (hnd : coarseIndex.indices.Nodup)
    (hsz : ∀ r ∈ coarseIndex.indices, (Map.find A.coarseSizes r).isSome = true)
    (hwf : ∀ r ∈ coarseIndex.indices, ∀ ci0, coarseIndex.get r = some ci0 →
      NeighboursWellFormed (sites r.2).mappers ci0) :
    ∃ res, syncGhostCoarsening A sites coarseIndex = some res ∧
      res.1.coarseSizes = A.coarseSizes ∧
      ∀ r ∈ coarseIndex.indices, ∃ cif cs gs, res.2.get r = some cif ∧
        Map.find res.1.coarseSizes r = some cs ∧
        Map.find res.1.coarseGhostSizes r = some gs ∧ 0 ≤ gs ∧
        ∀ v, (∃ f ∈ ghostRows (sites r.2).mappers, cif[f]? = some v) ↔
          (cs ≤ v ∧ v ≤ cs + gs - 1) := by
  obtain ⟨res, hres, hsizes, _, hpost⟩ :=
    syncGhostCoarsening_post A sites coarseIndex hnd hsz hwf
  refine ⟨res, hres, hsizes, ?_⟩
  intro r hr
  obtain ⟨ci0, hci0⟩ := MultiField.get_of_mem coarseIndex r hr
  obtain ⟨cs, hcs⟩ := Option.isSome_iff_exists.mp (hsz r hr)
  obtain ⟨cif, gs, h1, h2, ⟨_, _, hrng, _, _, hsum⟩, _⟩ := hpost r hr ci0 cs hci0 hcs
  refine ⟨cif, cs, gs, h1, by rw [hsizes]; exact hcs, h2, ?_, ?_⟩
  · rw [hsum]
    exact Int.ofNat_nonneg _
  · intro v
    rw [hrng v]
    constructor
    · rintro ⟨a, b⟩
      exact ⟨a, by omega⟩
    · rintro ⟨a, b⟩
      exact ⟨a, by omega⟩

/-- Witness of C15: the ghost rows `6` and `7` of partition `0` of `ghostSites`. -/
theorem ghost_ids_contiguous_witness :
    ghostCoarseIndex.indices.Nodup ∧
    (∀ r ∈ ghostCoarseIndex.indices,
      (Map.find aggregatedMatrix.coarseSizes r).isSome = true) ∧
    (∀ r ∈ ghostCoarseIndex.indices, ∀ ci0, ghostCoarseIndex.get r = some ci0 →
      NeighboursWellFormed (ghostSites r.2).mappers ci0) ∧
    ∃ res, syncGhostCoarsening aggregatedMatrix ghostSites ghostCoarseIndex = some res ∧
      res.1.coarseSizes = aggregatedMatrix.coarseSizes ∧
      ∀ r ∈ ghostCoarseIndex.indices, ∃ cif cs gs, res.2.get r = some cif ∧
        Map.find res.1.coarseSizes r = some cs ∧
        Map.find res.1.coarseGhostSizes r = some gs ∧ 0 ≤ gs ∧
        ∀ v, (∃ f ∈ ghostRows (ghostSites r.2).mappers, cif[f]? = some v) ↔
          (cs ≤ v ∧ v ≤ cs + gs - 1) :=
  have hnd : ghostCoarseIndex.indices.Nodup := by decide
  have hsz : ∀ r ∈ ghostCoarseIndex.indices,
      (Map.find aggregatedMatrix.coarseSizes r).isSome = true := by decide
  have hwf : ∀ r ∈ ghostCoarseIndex.indices, ∀ ci0, ghostCoarseIndex.get r = some ci0 →
      NeighboursWellFormed (ghostSites r.2).mappers ci0 := by
    intro r hr ci0 h
    have e : r = row0 := by simpa [ghostCoarseIndex, MultiField.indices] using hr
    subst e
    have e2 : some ci0 = some [0, 0, 1, 1, 2, 2, 7, 7] := h.symm.trans rfl
    cases e2
    exact ⟨by decide, by decide, by decide⟩
  ⟨hnd, hsz, hwf, ghost_ids_contiguous aggregatedMatrix ghostSites ghostCoarseIndex hnd hsz
    hwf⟩

end GhostRangeClaim

section GhostMapperClaim

variable {M : Type}

/-- C16, as amended: `syncGhostCoarsening` on well-formed neighbour lists (every ghost fine
row is listed once over all neighbours of its row) returns, and for every row and every
neighbour of it the map stored in `coarseMappers` is a pair of arrays of equal length; the from-array holds, without repetition, exactly the coarse ids the ghost rows
of that neighbour carried before the call; the to-array holds, position by position, the
id the rows that carried the from-id hold after the call, with no value repeated; and
`coarseGhostSizes[row]` is the sum of the lengths over the neighbours of the row. -/
theorem coarse_mappers_bijection (A : MultiFieldMatrix M) (sites : Nat → StorageSite)
    (coarseIndex : MultiField (List Int)) (hnd : coarseIndex.indices.Nodup)
    (hsz : ∀ r ∈ coarseIndex.indices, (Map.find A.coarseSizes r).isSome = true)
    (hwf : ∀ r ∈ coarseIndex.indices, ∀ ci0, coarseIndex.get r = some ci0 →
      NeighboursWellFormed (sites r.2).mappers ci0) :
    ∃ res, syncGhostCoarsening A sites coarseIndex = some res ∧
      ∀ r ∈ coarseIndex.indices, ∃ ci0 cif gs, coarseIndex.get r = some ci0 ∧
        res.2.get r = some cif ∧ Map.find res.1.coarseGhostSizes r = some gs ∧
        (∀ p ∈ (sites r.2).mappers, ∃ fr tos,
          Map.find res.1.coarseMappers (r, (r.1, p.1)) = some (fr, tos) ∧
          fr.length = tos.length ∧ fr.Nodup ∧ tos.Nodup ∧
          (∀ k, k ∈ fr ↔ ∃ f ∈ p.2, ci0[f]? = some k) ∧
          (∀ kv ∈ fr.zip tos, ∀ f ∈ p.2, ci0[f]? = some kv.1 → cif[f]? = some kv.2)) ∧
        gs = (((sites r.2).mappers.map (fun p =>
          ((Map.find res.1.coarseMappers (r, (r.1, p.1))).map
            (fun m => m.1.length)).getD 0)).sum : Nat) := by
  obtain ⟨res, hres, _, _, hpost⟩ := syncGhostCoarsening_post A sites coarseIndex hnd hsz hwf
  refine ⟨res, hres, ?_⟩
  intro r hr
  obtain ⟨ci0, hci0⟩ := MultiField.get_of_mem coarseIndex r hr
  obtain ⟨cs, hcs⟩ := Option.isSome_iff_exists.mp (hsz r hr)
  obtain ⟨cif, gs, h1, h2, ⟨_, _, _, _, hmap, hsum⟩, _⟩ := hpost r hr ci0 cs hci0 hcs
  exact ⟨ci0, cif, gs, hci0, h1, h2, hmap, hsum⟩

/-- Witness of C16: the map of partition `0` of `ghostSites` for its neighbour `1`. -/
theorem coarse_mappers_bijection_witness :
    ghostCoarseIndex.indices.Nodup ∧
    (∀ r ∈ ghostCoarseIndex.indices,
      (Map.find aggregatedMatrix.coarseSizes r).isSome = true) ∧
    (∀ r ∈ ghostCoarseIndex.indices, ∀ ci0, ghostCoarseIndex.get r = some ci0 →
      NeighboursWellFormed (ghostSites r.2).mappers ci0) ∧
    ∃ res, syncGhostCoarsening aggregatedMatrix ghostSites ghostCoarseIndex = some res ∧
      ∀ r ∈ ghostCoarseIndex.indices, ∃ ci0 cif gs, ghostCoarseIndex.get r = some ci0 ∧
        res.2.get r = some cif ∧ Map.find res.1.coarseGhostSizes r = some gs ∧
        (∀ p ∈ (ghostSites r.2).mappers, ∃ fr tos,
          Map.find res.1.coarseMappers (r, (r.1, p.1)) = some (fr, tos) ∧
          fr.length = tos.length ∧ fr.Nodup ∧ tos.Nodup ∧
          (∀ k, k ∈ fr ↔ ∃ f ∈ p.2, ci0[f]? = some k) ∧
          (∀ kv ∈ fr.zip tos, ∀ f ∈ p.2, ci0[f]? = some kv.1 → cif[f]? = some kv.2)) ∧
        gs = (((ghostSites r.2).mappers.map (fun p =>
          ((Map.find res.1.coarseMappers (r, (r.1, p.1))).map
            (fun m => m.1.length)).getD 0)).sum : Nat) :=
  have hnd : ghostCoarseIndex.indices.Nodup := by decide
  have hsz : ∀ r ∈ ghostCoarseIndex.indices,
      (Map.find aggregatedMatrix.coarseSizes r).isSome = true := by decide
  have hwf : ∀ r ∈ ghostCoarseIndex.indices, ∀ ci0, ghostCoarseIndex.get r = some ci0 →
      NeighboursWellFormed (ghostSites r.2).mappers ci0 := by
    intro r hr ci0 h
    have e : r = row0 := by simpa [ghostCoarseIndex, MultiField.indices] using hr
    subst e
    have e2 : some ci0 = some [0, 0, 1, 1, 2, 2, 7, 7] := h.symm.trans rfl
    cases e2
    exact ⟨by decide, by decide, by decide⟩
  ⟨hnd, hsz, hwf, coarse_mappers_bijection aggregatedMatrix ghostSites ghostCoarseIndex hnd
    hsz hwf⟩

end GhostMapperClaim

section NoNeighbourClaim

variable {M : Type}

/-- C17: `syncGhostCoarsening` on well-formed neighbour lists returns, and for every row
whose partition has no registered neighbour it sets `coarseGhostSizes[row]` to `0`,
leaves the lookup of every `coarseMappers` key of that row as it was before the call (so
it stores no map for the row), and leaves the array `coarseIndex[row]` as it was. -/
theorem no_neighbours_noop (A : MultiFieldMatrix M) (sites : Nat → StorageSite)
    (coarseIndex : MultiField (List Int)) (hnd : coarseIndex.indices.Nodup)
    (hsz : ∀ r ∈ coarseIndex.indices, (Map.find A.coarseSizes r).isSome = true)
    (hwf : ∀ r ∈ coarseIndex.indices, ∀ ci0, coarseIndex.get r = some ci0 →
      NeighboursWellFormed (sites r.2).mappers ci0) :
    ∃ res, syncGhostCoarsening A sites coarseIndex = some res ∧
      ∀ r ∈ coarseIndex.indices, (sites r.2).mappers = [] →
        Map.find res.1.coarseGhostSizes r = some 0 ∧
        (∀ key : EntryIndex, key.1 = r →
          Map.find res.1.coarseMappers key = Map.find A.coarseMappers key) ∧
        res.2.get r = coarseIndex.get r := by
  obtain ⟨res, hres, _, _, hpost⟩ := syncGhostCoarsening_post A sites coarseIndex hnd hsz hwf
  refine ⟨res, hres, ?_⟩
  intro r hr hnone
  obtain ⟨ci0, hci0⟩ := MultiField.get_of_mem coarseIndex r hr
  obtain ⟨cs, hcs⟩ := Option.isSome_iff_exists.mp (hsz r hr)
  obtain ⟨cif, gs, h1, h2, ⟨hlen, hout, _, _, _, hsum⟩, hframe⟩ :=
    hpost r hr ci0 cs hci0 hcs
  rw [hnone] at hout hsum hframe
  refine ⟨?_, ?_, ?_⟩
  · rw [h2, hsum]
    rfl
  · intro key hk
    exact hframe key hk (fun p hp => absurd hp (List.not_mem_nil p))
  · rw [h1, hci0]
    congr 1
    apply List.ext_getElem?
    intro f
    exact hout f (by simp [ghostRows])

/-- Witness of C17: the partitions of `exampleSites` have no neighbour. -/
theorem no_neighbours_noop_witness :
    pairedCoarseIndex.indices.Nodup ∧
    (∀ r ∈ pairedCoarseIndex.indices,
      (Map.find aggregatedMatrix.coarseSizes r).isSome = true) ∧
    (∀ r ∈ pairedCoarseIndex.indices, ∀ ci0, pairedCoarseIndex.get r = some ci0 →
      NeighboursWellFormed (exampleSites r.2).mappers ci0) ∧
    (exampleSites row0.2).mappers = [] ∧
    ∃ res, syncGhostCoarsening aggregatedMatrix exampleSites pairedCoarseIndex = some res ∧
      Map.find res.1.coarseGhostSizes row0 = some 0 ∧
      res.2.get row0 = pairedCoarseIndex.get row0 :=
  have hnd : pairedCoarseIndex.indices.Nodup := by decide
  have hsz : ∀ r ∈ pairedCoarseIndex.indices,
      (Map.find aggregatedMatrix.coarseSizes r).isSome = true := by decide
  have hwf : ∀ r ∈ pairedCoarseIndex.indices, ∀ ci0, pairedCoarseIndex.get r = some ci0 →
      NeighboursWellFormed (exampleSites r.2).mappers ci0 := by
    intro r hr ci0 h
    have e : r = row0 := by simpa [pairedCoarseIndex, MultiField.indices] using hr
    subst e
    exact ⟨by decide, by decide, fun f hf => absurd hf (List.not_mem_nil f)⟩
  ⟨hnd, hsz, hwf, rfl,
    (no_neighbours_noop aggregatedMatrix exampleSites pairedCoarseIndex hnd hsz hwf).elim
      (fun res h => ⟨res, h.1, (h.2 row0 (by decide) rfl).1, (h.2 row0 (by decide) rfl).2.2⟩)⟩

end NoNeighbourClaim

section GhostRowsListedTwice

/-- The hypothesis that every ghost fine row is listed once cannot be dropped: in
`overlapSites` the ghost row `2` is listed by both neighbours, the rows `2` and `3`
carried the same id `5` and end with the ids `2` and `3`, the id `1` of the range
`1, 2, 3` is held by no ghost row, and the map of the second neighbour lists the id `1`,
which no ghost row carried before the call. -/
theorem syncGhostCoarsening_rows_listed_twice :
    (syncGhostCoarsening overlapMatrix overlapSites overlapCoarseIndex).map
        (fun res => (res.2.get row0, Map.find res.1.coarseGhostSizes row0,
          Map.find res.1.coarseMappers (row0, (0, 1)),
          Map.find res.1.coarseMappers (row0, (0, 2)))) =
      some (some [0, 0, 2, 3], some 3, some ([5], [1]), some ([1, 5], [2, 3])) := by
  rfl

end GhostRowsListedTwice

/-! ## The restriction adjacency -/

section CoarseToFine

theorem finishAdd_getRow (b : CRBuilder) (c : Nat) :
    b.finishAdd.getRow c = b.rows.getD c [] := by
  simp only [CRConnectivity.getRow, CRBuilder.finishAdd]
  by_cases h : c < b.rows.length
  · have h1 : ((List.range (b.rows.length + 1)).map
        (fun i => ((b.rows.map List.length).take i).sum)).getD (c + 1) 0 =
        ((b.rows.map List.length).take (c + 1)).sum := by
      rw [List.getD_eq_getElem?_getD, List.getElem?_map,
        List.getElem?_range (by omega : c + 1 < b.rows.length + 1)]
      rfl
    have h2 : ((List.range (b.rows.length + 1)).map
        (fun i => ((b.rows.map List.length).take i).sum)).getD c 0 =
        ((b.rows.map List.length).take c).sum := by
      rw [List.getD_eq_getElem?_getD, List.getElem?_map,
        List.getElem?_range (by omega : c < b.rows.length + 1)]
      rfl
    rw [h1, h2, List.drop_take_succ_flatten_eq_getElem _ _ h, List.getD_eq_getElem?_getD,
      List.getElem?_eq_getElem h]
    rfl
  · have h1 : ((List.range (b.rows.length + 1)).map
        (fun i => ((b.rows.map List.length).take i).sum)).getD (c + 1) 0 = 0 := by
      rw [List.getD_eq_getElem?_getD, List.getElem?_eq_none (by simp; omega)]
      rfl
    rw [h1, List.take_zero, List.drop_nil, List.getD_eq_getElem?_getD,
      List.getElem?_eq_none (by omega)]
    rfl

theorem filter_append_singleton (p : Nat → Bool) (q : List Nat) (a : Nat) :
    (q ++ [a]).filter p = if p a = true then q.filter p ++ [a] else q.filter p := by
  rw [List.filter_append]
  by_cases h : p a = true
  · rw [if_pos h, List.filter_cons_of_pos h, List.filter_nil]
  · rw [if_neg h, List.filter_cons_of_neg h, List.filter_nil, List.append_nil]

theorem getD_set_nat {α : Type} (l : List α) (i j : Nat) (a d : α) (hi : i < l.length) :
    (l.set i a).getD j d = if i = j then a else l.getD j d := by
  rw [List.getD_eq_getElem?_getD, List.getD_eq_getElem?_getD, List.getElem?_set]
  by_cases h : i = j
  · rw [if_pos h, if_pos h, if_pos hi]
    rfl
  · rw [if_neg h, if_neg h]

end CoarseToFine

section CoarseToFinePasses

theorem countPass_inv (ci : List Int) (rs cs dim : Nat) (l : List Nat)
    (hl : ∀ nr ∈ l, nr < ci.length)
    (hv : ∀ nr ∈ l, ∀ v, ci[nr]? = some v → 0 ≤ v → v.toNat < dim) :
    ∃ b, l.foldlM (countFineRow ci) (CRBuilder.initCount rs cs dim) = some b ∧
      b.rowSite = rs ∧ b.colSite = cs ∧ b.rows = [] ∧ b.counts.length = dim ∧
      ∀ c, c < dim → b.counts.getD c 0 =
        (l.filter (fun nr => decide (ci[nr]? = some (c : Int)))).length := by
  apply foldlM_prefix_invariant (countFineRow ci)
    (fun q b => b.rowSite = rs ∧ b.colSite = cs ∧ b.rows = [] ∧ b.counts.length = dim ∧
      ∀ c, c < dim → b.counts.getD c 0 =
        (q.filter (fun nr => decide (ci[nr]? = some (c : Int)))).length)
  · refine ⟨rfl, rfl, rfl, by simp [CRBuilder.initCount], ?_⟩
    intro c hc
    simp [CRBuilder.initCount, List.getD_eq_getElem?_getD, List.getElem?_replicate, hc]
  · intro q a rest t hq ⟨h1, h2, h3, h4, h5⟩
    have ha : a ∈ l := by rw [hq]; simp
    have hb : a < ci.length := hl a ha
    obtain ⟨v, hva⟩ : ∃ v, ci[a]? = some v := ⟨ci[a], List.getElem?_eq_getElem hb⟩
    by_cases hnn : 0 ≤ v
    · have hlt : v.toNat < t.counts.length := by rw [h4]; exact hv a ha v hva hnn
      refine ⟨{ t with counts := t.counts.set v.toNat (t.counts.getD v.toNat 0 + 1) }, ?_,
        h1, h2, h3, by simp [h4], ?_⟩
      · simp only [countFineRow, hva, Option.bind_eq_bind, Option.some_bind, if_pos hnn,
          CRBuilder.addCount, if_pos hlt]
      · intro c hc
        simp only
        rw [getD_set_nat _ _ _ _ _ hlt, filter_append_singleton]
        by_cases e : v.toNat = c
        · have e' : v = (c : Int) := by omega
          rw [if_pos e, if_pos (by rw [hva, e']; simp), List.length_append, ← h5 c hc, e]
          rfl
        · have e' : ¬ v = (c : Int) := by omega
          rw [if_neg e, if_neg (by rw [hva]; simp [e']), h5 c hc]
    · refine ⟨t, ?_, h1, h2, h3, h4, ?_⟩
      · simp only [countFineRow, hva, Option.bind_eq_bind, Option.some_bind, if_neg hnn,
          Option.pure_def]
      · intro c hc
        have e' : ¬ v = (c : Int) := by omega
        rw [filter_append_singleton, if_neg (by rw [hva]; simp [e']), h5 c hc]

theorem addPass_inv (ci : List Int) (b0 : CRBuilder) (dim : Nat) (l : List Nat)
    (hrows : b0.rows = List.replicate dim [])
    (hcounts : ∀ c, c < dim → b0.counts.getD c 0 =
      (l.filter (fun nr => decide (ci[nr]? = some (c : Int)))).length)
    (hl : ∀ nr ∈ l, nr < ci.length)
    (hv : ∀ nr ∈ l, ∀ v, ci[nr]? = some v → 0 ≤ v → v.toNat < dim) :
    ∃ b, l.foldlM (addFineRow ci) b0 = some b ∧
      b.rowSite = b0.rowSite ∧ b.colSite = b0.colSite ∧ b.rows.length = dim ∧
      ∀ c, c < dim → b.rows.getD c [] =
        l.filter (fun nr => decide (ci[nr]? = some (c : Int))) := by
  have main := foldlM_prefix_invariant (addFineRow ci)
    (fun q b => b.counts = b0.counts ∧ b.rowSite = b0.rowSite ∧ b.colSite = b0.colSite ∧
      b.rows.length = dim ∧
      ∀ c, c < dim → b.rows.getD c [] =
        q.filter (fun nr => decide (ci[nr]? = some (c : Int)))) l b0 ?_ ?_
  · obtain ⟨b, hb, _, h2, h3, h4, h5⟩ := main
    exact ⟨b, hb, h2, h3, h4, h5⟩
  · refine ⟨rfl, rfl, rfl, by simp [hrows], ?_⟩
    intro c hc
    simp [hrows, List.getD_eq_getElem?_getD, List.getElem?_replicate, hc]
  · intro q a rest t hq ⟨h0, h1, h2, h4, h5⟩
    have ha : a ∈ l := by rw [hq]; simp
    have hb : a < ci.length := hl a ha
    obtain ⟨v, hva⟩ : ∃ v, ci[a]? = some v := ⟨ci[a], List.getElem?_eq_getElem hb⟩
    by_cases hnn : 0 ≤ v
    · have hdim : v.toNat < dim := hv a ha v hva hnn
      have hlt : v.toNat < t.rows.length := by rw [h4]; exact hdim
      have hsel : decide (ci[a]? = some ((v.toNat : Nat) : Int)) = true := by
        rw [hva, Int.toNat_of_nonneg hnn]
        simp
      have hroom : (t.rows.getD v.toNat []).length < t.counts.getD v.toNat 0 := by
        rw [h0, hcounts v.toNat hdim, h5 v.toNat hdim, hq, List.filter_append,
          List.filter_cons, if_pos hsel, List.length_append, List.length_cons]
        omega
      refine ⟨{ t with rows := t.rows.set v.toNat (t.rows.getD v.toNat [] ++ [a]) }, ?_,
        h0, h1, h2, by simp [h4], ?_⟩
      · simp only [addFineRow, hva, Option.bind_eq_bind, Option.some_bind, if_pos hnn,
          CRBuilder.add, if_pos (And.intro hlt hroom)]
      · intro c hc
        simp only
        rw [getD_set_nat _ _ _ _ _ hlt, filter_append_singleton]
        by_cases e : v.toNat = c
        · have e' : v = (c : Int) := by omega
          rw [if_pos e, if_pos (by rw [hva, e']; simp), ← h5 c hc, e]
        · have e' : ¬ v = (c : Int) := by omega
          rw [if_neg e, if_neg (by rw [hva]; simp [e']), h5 c hc]
    · refine ⟨t, ?_, h0, h1, h2, h4, ?_⟩
      · simp only [addFineRow, hva, Option.bind_eq_bind, Option.some_bind, if_neg hnn,
          Option.pure_def]
      · intro c hc
        have e' : ¬ v = (c : Int) := by omega
        rw [filter_append_singleton, if_neg (by rw [hva]; simp [e']), h5 c hc]

end CoarseToFinePasses

section CoarseToFineRows

variable {M : Type}

/-- The adjacency of one row: built whenever the array covers the fine extent and its
non-negative values are below the count of the coarse partition; the row `c` of it is
`fineRowsOf coarseIndex nFineRows c`. -/
theorem buildCoarseToFine_rows (sites : Nat → StorageSite) (coarseSite fineSite : Nat)
    (ci : List Int) (hext : (sites fineSite).count ≤ ci.length)
    (hbelow : ∀ nr, nr < (sites fineSite).count → ∀ v, ci[nr]? = some v →
      v < ((sites coarseSite).count : Int)) :
    ∃ c2f, buildCoarseToFine sites coarseSite fineSite ci = some c2f ∧
      c2f.rowSite = coarseSite ∧ c2f.colSite = fineSite ∧
      ∀ c, c2f.getRow c = fineRowsOf ci (sites fineSite).count c := by
  have hl : ∀ nr ∈ List.range (sites fineSite).count, nr < ci.length := by
    intro nr hnr
    exact Nat.lt_of_lt_of_le (List.mem_range.mp hnr) hext
  have hv : ∀ nr ∈ List.range (sites fineSite).count, ∀ v, ci[nr]? = some v → 0 ≤ v →
      v.toNat < (sites coarseSite).count := by
    intro nr hnr v h1 h2
    have := hbelow nr (List.mem_range.mp hnr) v h1
    omega
  obtain ⟨b1, hb1, r1, c1, _, hlen1, hcount⟩ :=
    countPass_inv ci coarseSite fineSite (sites coarseSite).count _ hl hv
  obtain ⟨b3, hb3, r3, c3, hlen3, hrows⟩ :=
    addPass_inv ci b1.finishCount (sites coarseSite).count _
      (by simp [CRBuilder.finishCount, hlen1]) hcount hl hv
  refine ⟨b3.finishAdd, ?_, ?_, ?_, ?_⟩
  · simp only [buildCoarseToFine, hb1, hb3, Option.bind_eq_bind, Option.some_bind,
      Option.pure_def]
  · exact r3.trans r1
  · exact c3.trans c1
  · intro c
    rw [finishAdd_getRow]
    by_cases hc : c < (sites coarseSite).count
    · exact hrows c hc
    · rw [List.getD_eq_getElem?_getD, List.getElem?_eq_none (by omega)]
      symm
      apply List.filter_eq_nil_iff.mpr
      intro nr hnr h
      have h' : ci[nr]? = some (c : Int) := of_decide_eq_true h
      have := hbelow nr (List.mem_range.mp hnr) _ h'
      omega

/-- C18: when a coarse partition is registered for every row, the array of every row
covers the fine extent and its non-negative values are below the count of the coarse
partition, `createCoarseToFineMapping` returns and the adjacency stored for a row lists
under every coarse id `c` exactly the fine rows `nr` of the whole fine extent with
`coarseIndex[nr] = c`, once each and in increasing order; a fine row with a negative
coarse index is in no list. -/
theorem coarse_to_fine_lists_fine_rows (A : MultiFieldMatrix M) (sites : Nat → StorageSite)
    (coarseIndex : MultiField (List Int))
    (hreg : ∀ r ∈ coarseIndex.indices, (Map.find A.coarseSites r).isSome = true)
    (hext : ∀ r ∈ coarseIndex.indices, ∀ ci0, coarseIndex.get r = some ci0 →
      (sites r.2).count ≤ ci0.length)
    (hbelow : ∀ r ∈ coarseIndex.indices, ∀ ci0 coarseSite, coarseIndex.get r = some ci0 →
      Map.find A.coarseSites r = some coarseSite →
      ∀ nr, nr < (sites r.2).count → ∀ v, ci0[nr]? = some v →
        v < ((sites coarseSite).count : Int)) :
    ∃ A', createCoarseToFineMapping A sites coarseIndex = some A' ∧
      ∀ r ∈ coarseIndex.indices, ∃ ci0 c2f, coarseIndex.get r = some ci0 ∧
        Map.find A'.coarseToFineMappings r = some c2f ∧
        (∀ c, c2f.getRow c = fineRowsOf ci0 (sites r.2).count c) ∧
        (∀ nr v, ci0[nr]? = some v → v < 0 → ∀ c, nr ∉ c2f.getRow c) := by
  have main := foldlM_prefix_invariant (createCoarseToFineMappingRow sites coarseIndex)
    (fun q (A' : MultiFieldMatrix M) => A'.coarseSites = A.coarseSites ∧
      ∀ r ∈ q, ∃ ci0 c2f, coarseIndex.get r = some ci0 ∧
        Map.find A'.coarseToFineMappings r = some c2f ∧
        (∀ c, c2f.getRow c = fineRowsOf ci0 (sites r.2).count c) ∧
        (∀ nr v, ci0[nr]? = some v → v < 0 → ∀ c, nr ∉ c2f.getRow c))
    coarseIndex.indices A ⟨rfl, fun r hr => absurd hr (List.not_mem_nil r)⟩ ?_
  · obtain ⟨A', hA', _, h⟩ := main
    exact ⟨A', hA', h⟩
  · intro q a rest t hq ⟨hsites, hdone⟩
    have ha : a ∈ coarseIndex.indices := by rw [hq]; simp
    obtain ⟨ci0, hci0⟩ := MultiField.get_of_mem coarseIndex a ha
    obtain ⟨cSite, hcSite⟩ := Option.isSome_iff_exists.mp (hreg a ha)
    obtain ⟨c2f, hc2f, _, _, hrows⟩ := buildCoarseToFine_rows sites cSite a.2 ci0
      (hext a ha ci0 hci0) (hbelow a ha ci0 cSite hci0 hcSite)
    refine ⟨{ t with coarseToFineMappings := Map.insert t.coarseToFineMappings a c2f }, ?_,
      hsites, ?_⟩
    · simp only [createCoarseToFineMappingRow, hsites, hcSite, hci0, hc2f,
        Option.bind_eq_bind, Option.some_bind, Option.pure_def]
    · intro r hr
      by_cases e : r = a
      · subst e
        refine ⟨ci0, c2f, hci0, Map.find_insert_self _ _ _, hrows, ?_⟩
        intro nr v h1 h2 c hmem
        rw [hrows c] at hmem
        have h3 := (List.mem_filter.mp hmem).2
        have h4 : ci0[nr]? = some (c : Int) := of_decide_eq_true h3
        have h5 : v = (c : Int) := Option.some.inj (h1.symm.trans h4)
        omega
      · have hq' : r ∈ q := by
          rcases List.mem_append.mp hr with h | h
          · exact h
          · exact absurd (List.mem_singleton.mp h) e
        obtain ⟨ci1, c1, h1, h2, h3, h4⟩ := hdone r hq'
        refine ⟨ci1, c1, h1, ?_, h3, h4⟩
        simp only
        rw [Map.find_insert_ne _ _ _ _ e]
        exact h2

/-- Witness of C18: eight fine rows of partition `0` assigned two apiece to the four
coarse ids of the coarse partition `10`; every coarse id lists its two fine rows. -/
theorem coarse_to_fine_lists_fine_rows_witness :
    (∀ r ∈ pairedCoarseIndex.indices,
      (Map.find aggregatedMatrix.coarseSites r).isSome = true) ∧
    ∃ A', createCoarseToFineMapping aggregatedMatrix ghostSites pairedCoarseIndex = some A' ∧
      ∃ c2f, Map.find A'.coarseToFineMappings row0 = some c2f ∧
        c2f.getRow 0 = [0, 1] ∧ c2f.getRow 1 = [2, 3] ∧ c2f.getRow 2 = [4, 5] ∧
        c2f.getRow 3 = [6, 7] :=
  have hreg : ∀ r ∈ pairedCoarseIndex.indices,
      (Map.find aggregatedMatrix.coarseSites r).isSome = true := by decide
  have hci : ∀ r ∈ pairedCoarseIndex.indices, ∀ ci0, pairedCoarseIndex.get r = some ci0 →
      r = row0 ∧ ci0 = [0, 0, 1, 1, 2, 2, 3, 3] := by
    intro r hr ci0 h
    have e : r = row0 := by simpa [pairedCoarseIndex, MultiField.indices] using hr
    subst e
    have e2 : some ci0 = some [0, 0, 1, 1, 2, 2, 3, 3] := h.symm.trans rfl
    exact ⟨rfl, (Option.some.inj e2)⟩
  have hext : ∀ r ∈ pairedCoarseIndex.indices, ∀ ci0, pairedCoarseIndex.get r = some ci0 →
      (ghostSites r.2).count ≤ ci0.length := by
    intro r hr ci0 h
    obtain ⟨e1, e2⟩ := hci r hr ci0 h
    subst e1 e2
    decide
  have hbelow : ∀ r ∈ pairedCoarseIndex.indices, ∀ ci0 coarseSite,
      pairedCoarseIndex.get r = some ci0 →
      Map.find aggregatedMatrix.coarseSites r = some coarseSite →
      ∀ nr, nr < (ghostSites r.2).count → ∀ v, ci0[nr]? = some v →
        v < ((ghostSites coarseSite).count : Int) := by
    intro r hr ci0 coarseSite h hs
    obtain ⟨e1, e2⟩ := hci r hr ci0 h
    subst e1 e2
    have e3 : some coarseSite = some 10 := hs.symm.trans rfl
    cases e3
    intro nr hnr v hv
    have hmem : v ∈ [0, 0, 1, 1, 2, 2, 3, 3] := List.getElem?_mem hv
    have hv4 : v < 4 := by
      simp only [List.mem_cons, List.mem_singleton, List.not_mem_nil, or_false] at hmem
      omega
    exact hv4
  ⟨hreg,
    (coarse_to_fine_lists_fine_rows aggregatedMatrix ghostSites pairedCoarseIndex hreg hext
      hbelow).elim (fun A' h => ⟨A', h.1, by
        obtain ⟨ci0, c2f, h1, h2, h3, _⟩ := h.2 row0 (by decide)
        have e2 : some ci0 = some [0, 0, 1, 1, 2, 2, 3, 3] := h1.symm.trans rfl
        cases e2
        exact ⟨c2f, h2, by rw [h3]; rfl, by rw [h3]; rfl, by rw [h3]; rfl, by rw [h3]; rfl⟩⟩)⟩

end CoarseToFineRows

/-! ## The entries of the coarse maps along the pipeline -/

section EntryMaps

variable {M R : Type}

/-- The steps `createCoarsening`, `syncGhostCoarsening` and `createCoarseToFineMapping`
leave the maps `matrices`, `coarseConnectivities` and `coarseMatrices` as they are. -/
theorem createCoarsening_entries (K : Matrix M R) (A : MultiFieldMatrix M)
    (coarseIndex : MultiField (List Int)) (groupSize : Int) (w : R) (st : CoarseningState M)
    (h : createCoarsening K A coarseIndex groupSize w = some st) :
    st.matrix.matrices = A.matrices ∧
      st.matrix.coarseConnectivities = A.coarseConnectivities ∧
      st.matrix.coarseMatrices = A.coarseMatrices := by
  unfold createCoarsening at h
  refine foldlM_rel (createCoarseningRow K groupSize w)
    (fun s t => t.matrix.matrices = s.matrix.matrices ∧
      t.matrix.coarseConnectivities = s.matrix.coarseConnectivities ∧
      t.matrix.coarseMatrices = s.matrix.coarseMatrices)
    (fun _ => ⟨rfl, rfl, rfl⟩)
    (fun s t u h1 h2 => ⟨h2.1.trans h1.1, h2.2.1.trans h1.2.1, h2.2.2.trans h1.2.2⟩)
    _ _ _ ?_ h
  intro b _ t t' hb
  unfold createCoarseningRow at hb
  by_cases hs : t.matrix.hasMatrix b b = true
  · rw [if_pos hs] at hb
    cases hm : (t.matrix.getMatrix b b).1.toOption with
    | none => rw [hm] at hb; simp at hb
    | some m =>
      cases hc : t.coarseIndex.get b with
      | none => rw [hm, hc] at hb; simp at hb
      | some cI =>
        rw [hm, hc] at hb
        simp only [Option.bind_eq_bind, Option.some_bind, Option.pure_def,
          Option.some.injEq] at hb
        rw [← hb]
        exact ⟨rfl, rfl, rfl⟩
  · rw [if_neg hs] at hb
    simp only [Option.pure_def, Option.some.injEq] at hb
    rw [← hb]
    exact ⟨rfl, rfl, rfl⟩

theorem syncGhostCoarsening_entries (A : MultiFieldMatrix M) (sites : Nat → StorageSite)
    (coarseIndex : MultiField (List Int))
    (res : MultiFieldMatrix M × MultiField (List Int))
    (h : syncGhostCoarsening A sites coarseIndex = some res) :
    res.1.matrices = A.matrices ∧ res.1.coarseConnectivities = A.coarseConnectivities ∧
      res.1.coarseMatrices = A.coarseMatrices := by
  unfold syncGhostCoarsening at h
  refine foldlM_rel (syncGhostCoarseningRow sites)
    (fun s t => t.1.matrices = s.1.matrices ∧
      t.1.coarseConnectivities = s.1.coarseConnectivities ∧
      t.1.coarseMatrices = s.1.coarseMatrices)
    (fun _ => ⟨rfl, rfl, rfl⟩)
    (fun s t u h1 h2 => ⟨h2.1.trans h1.1, h2.2.1.trans h1.2.1, h2.2.2.trans h1.2.2⟩)
    _ _ _ ?_ h
  intro b _ t t' hb
  unfold syncGhostCoarseningRow at hb
  cases hc : t.2.get b with
  | none => rw [hc] at hb; simp at hb
  | some cI =>
    cases hs : Map.find t.1.coarseSizes b with
    | none => rw [hc, hs] at hb; simp at hb
    | some cs =>
      cases hn : (sites b.2).mappers.foldlM (syncNeighbour b cs)
          ⟨cI, 0, t.1.coarseMappers⟩ with
      | none => rw [hc, hs] at hb; simp [hn] at hb
      | some n =>
        rw [hc, hs] at hb
        simp only [Option.bind_eq_bind, Option.some_bind, hn, Option.pure_def,
          Option.some.injEq] at hb
        rw [← hb]
        exact ⟨rfl, rfl, rfl⟩

theorem createCoarseToFineMapping_entries (A : MultiFieldMatrix M)
    (sites : Nat → StorageSite) (coarseIndex : MultiField (List Int))
    (A' : MultiFieldMatrix M) (h : createCoarseToFineMapping A sites coarseIndex = some A') :
    A'.matrices = A.matrices ∧ A'.coarseConnectivities = A.coarseConnectivities ∧
      A'.coarseMatrices = A.coarseMatrices := by
  unfold createCoarseToFineMapping at h
  refine foldlM_rel (createCoarseToFineMappingRow sites coarseIndex)
    (fun s t => t.matrices = s.matrices ∧
      t.coarseConnectivities = s.coarseConnectivities ∧
      t.coarseMatrices = s.coarseMatrices)
    (fun _ => ⟨rfl, rfl, rfl⟩)
    (fun s t u h1 h2 => ⟨h2.1.trans h1.1, h2.2.1.trans h1.2.1, h2.2.2.trans h1.2.2⟩)
    _ _ _ ?_ h
  intro b _ t t' hb
  unfold createCoarseToFineMappingRow at hb
  cases hs : Map.find t.coarseSites b with
  | none => rw [hs] at hb; simp at hb
  | some cs =>
    cases hc : coarseIndex.get b with
    | none => rw [hs, hc] at hb; simp at hb
    | some cI =>
      cases hn : buildCoarseToFine sites cs b.2 cI with
      | none => rw [hs, hc] at hb; simp [hn] at hb
      | some n =>
        rw [hs, hc] at hb
        simp only [Option.bind_eq_bind, Option.some_bind, hn, Option.pure_def,
          Option.some.injEq] at hb
        rw [← hb]
        exact ⟨rfl, rfl, rfl⟩

end EntryMaps

/-! ## C19: Invariant I3 -/

section InvariantClaim

variable {M R : Type}

theorem expectedConnectivity_key (K : Matrix M R) (A : MultiFieldMatrix M)
    (coarseIndex : MultiField (List Int)) (e : EntryIndex) (cc : CRConnectivity)
    (h : expectedConnectivity K A coarseIndex e = some cc) :
    (Map.find A.matrices e).isSome = true := by
  unfold expectedConnectivity at h
  cases hm : (A.getMatrix e.1 e.2).1.toOption with
  | none => rw [hm] at h; simp at h
  | some m => exact hasMatrix_of_getMatrix A e.1 e.2 m hm

theorem expectedCoarseMatrix_key (K : Matrix M R) (A : MultiFieldMatrix M)
    (coarseIndex : MultiField (List Int)) (e : EntryIndex) (cm : M)
    (h : expectedCoarseMatrix K A coarseIndex e = some cm) :
    (Map.find A.matrices e).isSome = true := by
  unfold expectedCoarseMatrix at h
  cases hm : (A.getMatrix e.1 e.2).1.toOption with
  | none => rw [hm] at h; simp at h
  | some m => exact hasMatrix_of_getMatrix A e.1 e.2 m hm

/-- C19, amended: Invariant I3 holds in every state reached by construction, block
insertion, the registration of coarse partitions, the steps of the coarsening pipeline
and `removeMatrix` of entries whose key neither coarse map holds, in any interleaving. -/
theorem invariantI3_of_reachable (K : Matrix M R) (sites : Nat → StorageSite)
    (A : MultiFieldMatrix M) (h : Reachable K sites false A) : InvariantI3 A := by
  induction h with
  | construct =>
    exact ⟨fun e he => absurd he (by simp [MultiFieldMatrix.empty, Map.find]),
      fun e he => absurd he (by simp [MultiFieldMatrix.empty, Map.find])⟩
  | addMatrix row col m _ ih =>
    exact ⟨fun e he => Map.find_insert_isSome _ _ _ _ (ih.1 e he),
      fun e he => Map.find_insert_isSome _ _ _ _ (ih.2 e he)⟩
  | @removeMatrix B row col _ hkeys ih =>
    rcases hkeys with hf | ⟨h1, h2⟩
    · exact absurd hf Bool.false_ne_true
    · constructor
      · intro e he
        have hne : e ≠ (row, col) := by
          intro e'
          rw [e'] at he
          have he' : (Map.find B.coarseConnectivities (row, col)).isSome = true := he
          rw [h1] at he'
          exact Bool.false_ne_true he'
        show (Map.find (Map.erase B.matrices (row, col)) e).isSome = true
        rw [Map.find_erase_ne _ _ _ hne]
        exact ih.1 e he
      · intro e he
        have hne : e ≠ (row, col) := by
          intro e'
          rw [e'] at he
          have he' : (Map.find B.coarseMatrices (row, col)).isSome = true := he
          rw [h2] at he'
          exact Bool.false_ne_true he'
        show (Map.find (Map.erase B.matrices (row, col)) e).isSome = true
        rw [Map.find_erase_ne _ _ _ hne]
        exact ih.2 e he
  | setCoarseSite row site _ ih => exact ih
  | createCoarsening coarseIndex groupSize w st _ hst ih =>
    obtain ⟨h1, h2, h3⟩ := createCoarsening_entries K _ coarseIndex groupSize w st hst
    unfold InvariantI3
    rw [h1, h2, h3]
    exact ih
  | syncGhostCoarsening coarseIndex res _ hres ih =>
    obtain ⟨h1, h2, h3⟩ := syncGhostCoarsening_entries _ sites coarseIndex res hres
    unfold InvariantI3
    rw [h1, h2, h3]
    exact ih
  | createCoarseToFineMapping coarseIndex A' _ hres ih =>
    obtain ⟨h1, h2, h3⟩ := createCoarseToFineMapping_entries _ sites coarseIndex A' hres
    unfold InvariantI3
    rw [h1, h2, h3]
    exact ih
  | createCoarseConnectivity coarseIndex res _ hres ih =>
    obtain ⟨h1, _, _, h4, h5⟩ := (createCoarseConnectivity_value K _ coarseIndex res hres).1
    unfold InvariantI3
    rw [h1, h4]
    refine ⟨?_, ih.2⟩
    intro e he
    rcases h5 e with hsame | ⟨cc, hexp, _⟩
    · rw [hsame] at he
      exact ih.1 e he
    · exact expectedConnectivity_key K _ coarseIndex e cc hexp
  | createCoarseMatrices coarseIndex res _ hres ih =>
    obtain ⟨h1, _, _, h4, h5⟩ := (createCoarseMatrices_value K _ coarseIndex res hres).1
    unfold InvariantI3
    rw [h1, h4]
    refine ⟨ih.1, ?_⟩
    intro e he
    rcases h5 e with hsame | ⟨cm, hexp, _⟩
    · rw [hsame] at he
      exact ih.2 e he
    · exact expectedCoarseMatrix_key K _ coarseIndex e cm hexp

end InvariantClaim

section InvariantExamples

/-- The aggregate `coarsenedAggregate` is reached by the operations of the class. -/
theorem coarsenedAggregate_reachable (anyRemoval : Bool) :
    ∃ A, coarsenedAggregate = some A ∧ Reachable scalarKernel ghostSites anyRemoval A ∧
      (Map.find A.coarseConnectivities (row0, row0)).isSome = true ∧
      (Map.find A.matrices (row0, row0)).isSome = true := by
  have h2 : createCoarseToFineMapping
      (((MultiFieldMatrix.empty : MultiFieldMatrix Int).addMatrix row0 row0 1).setCoarseSite
        row0 10) ghostSites pairedCoarseIndex =
      some ((createCoarseToFineMapping
        (((MultiFieldMatrix.empty : MultiFieldMatrix Int).addMatrix row0 row0 1).setCoarseSite
          row0 10) ghostSites pairedCoarseIndex).getD MultiFieldMatrix.empty) := rfl
  have h3 : createCoarseConnectivity scalarKernel ((createCoarseToFineMapping
        (((MultiFieldMatrix.empty : MultiFieldMatrix Int).addMatrix row0 row0 1).setCoarseSite
          row0 10) ghostSites pairedCoarseIndex).getD MultiFieldMatrix.empty)
        pairedCoarseIndex =
      some ((createCoarseConnectivity scalarKernel ((createCoarseToFineMapping
        (((MultiFieldMatrix.empty : MultiFieldMatrix Int).addMatrix row0 row0 1).setCoarseSite
          row0 10) ghostSites pairedCoarseIndex).getD MultiFieldMatrix.empty)
        pairedCoarseIndex).getD (MultiFieldMatrix.empty, [])) := rfl
  exact ⟨_, rfl,
    Reachable.createCoarseConnectivity pairedCoarseIndex _
      (Reachable.createCoarseToFineMapping pairedCoarseIndex _
        (Reachable.setCoarseSite row0 10
          (Reachable.addMatrix row0 row0 1 Reachable.construct)) h2) h3, rfl, rfl⟩

/-- C19 as stated fails: after the coarsening pipeline has stored a coarse connectivity
under `(row0, row0)`, `removeMatrix(row0, row0)` erases the key from `matrices` alone, and
the state reached holds a key of `coarseConnectivities` that is no key of `matrices`. -/
theorem removeMatrix_breaks_invariantI3 :
    ∃ A, coarsenedThenRemoved = some A ∧ Reachable scalarKernel ghostSites true A ∧
      (Map.find A.coarseConnectivities (row0, row0)).isSome = true ∧
      Map.find A.matrices (row0, row0) = none ∧ ¬ InvariantI3 A := by
  obtain ⟨A, hA, hreach, hcc, _⟩ := coarsenedAggregate_reachable true
  have hnone : Map.find (A.removeMatrix row0 row0).matrices (row0, row0) = none :=
    Map.find_erase_self _ _
  refine ⟨A.removeMatrix row0 row0, ?_, Reachable.removeMatrix row0 row0 hreach (Or.inl rfl),
    hcc, hnone, ?_⟩
  · simp only [coarsenedThenRemoved, hA, Option.map_some']
  · intro hI
    have := hI.1 (row0, row0) hcc
    rw [hnone] at this
    exact Bool.false_ne_true this

/-- Witness of C19, amended: the state `coarsenedAggregate` is reached without a removal
and satisfies Invariant I3. -/
theorem invariantI3_of_reachable_witness :
    ∃ A, coarsenedAggregate = some A ∧ Reachable scalarKernel ghostSites false A ∧
      InvariantI3 A :=
  (coarsenedAggregate_reachable false).elim (fun A h =>
    ⟨A, h.1, h.2.1, invariantI3_of_reachable scalarKernel ghostSites A h.2.1⟩)

end InvariantExamples

/-! ## The entries visited by the last two coarsening steps -/

section VisitedEntries

variable {M R : Type} {σ β : Type}

/-- A loop that returns ends with the invariant of the whole list when every step that
returns carries the invariant of the processed prefix on. -/
theorem foldlM_prefix_of_some (f : σ → β → Option σ) (P : List β → σ → Prop)
    (l0 : List β) (s0 r : σ) (h0 : P [] s0)
    (hstep : ∀ q a rest t t', l0 = q ++ a :: rest → P q t → f t a = some t' →
      P (q ++ [a]) t')
    (h : l0.foldlM f s0 = some r) : P l0 r := by
  have aux : ∀ (l q : List β) (s : σ), l0 = q ++ l → P q s → l.foldlM f s = some r →
      P l0 r := by
    intro l
    induction l with
    | nil =>
      intro q s hl hP hr
      rw [List.append_nil] at hl
      simp only [List.foldlM_nil, Option.pure_def, Option.some.injEq] at hr
      rw [hl, ← hr]
      exact hP
    | cons a l ih =>
      intro q s hl hP hr
      rw [List.foldlM_cons] at hr
      cases ha : f s a with
      | none => rw [ha] at hr; simp at hr
      | some t' =>
        rw [ha] at hr
        simp only [Option.bind_eq_bind, Option.some_bind] at hr
        exact ih (q ++ [a]) t' (by rw [hl]; simp) (hstep q a l s t' hl hP ha) hr
  exact aux l0 [] s0 rfl h0 h

theorem filter_hasMatrix_append (A : MultiFieldMatrix M) (row : Index) (q : List Index)
    (a : Index) :
    (q ++ [a]).filter (fun col => A.hasMatrix row col) =
      q.filter (fun col => A.hasMatrix row col) ++
        (if A.hasMatrix row a = true then [a] else []) := by
  rw [List.filter_append]
  by_cases h : A.hasMatrix row a = true
  · rw [if_pos h, List.filter_cons, if_pos h, List.filter_nil]
  · rw [if_neg h, List.filter_cons, if_neg h, List.filter_nil]

/-- The calls that `createCoarseConnectivity` logs are those of the visited entries. -/
theorem createCoarseConnectivity_log (K : Matrix M R) (A : MultiFieldMatrix M)
    (coarseIndex : MultiField (List Int)) (res : MultiFieldMatrix M × List Event)
    (h : createCoarseConnectivity K A coarseIndex = some res) :
    res.2 = (visitedEntries A coarseIndex).map
      (fun e => Event.createCoarseConnectivity e.1 e.2) := by
  unfold createCoarseConnectivity at h
  have main := foldlM_prefix_of_some (createCoarseConnectivityRow K coarseIndex)
    (fun q (st : MultiFieldMatrix M × List Event) => st.1.matrices = A.matrices ∧
      st.2 = (q.flatMap (fun row =>
        (coarseIndex.indices.filter (fun col => A.hasMatrix row col)).map
          (fun col => (row, col)))).map (fun e => Event.createCoarseConnectivity e.1 e.2))
    coarseIndex.indices (A, []) res ⟨rfl, rfl⟩ ?_ h
  · exact main.2
  · intro q a rest t t' _ hP ha
    unfold createCoarseConnectivityRow at ha
    simp only [Option.bind_eq_bind] at ha
    obtain ⟨rs, _, ha⟩ := Option.bind_eq_some.mp ha
    obtain ⟨c2f, _, ha⟩ := Option.bind_eq_some.mp ha
    have inner := foldlM_prefix_of_some
      (createCoarseConnectivityEntry K coarseIndex a rs c2f)
      (fun p (st : MultiFieldMatrix M × List Event) => st.1.matrices = A.matrices ∧
        st.2 = t.2 ++ ((p.filter (fun col => A.hasMatrix a col)).map
          (fun col => (a, col))).map (fun e => Event.createCoarseConnectivity e.1 e.2))
      coarseIndex.indices t t' ⟨hP.1, by simp⟩ ?_ ha
    · refine ⟨inner.1, ?_⟩
      rw [inner.2, hP.2]
      simp only [List.flatMap_append, List.flatMap_cons, List.flatMap_nil, List.append_nil,
        List.map_append]
    · intro p b _ u u' _ hQ hb
      unfold createCoarseConnectivityEntry at hb
      have hsame : u.1.hasMatrix a b = A.hasMatrix a b := hasMatrix_congr A u.1 hQ.1 a b
      by_cases hs : A.hasMatrix a b = true
      · rw [hsame, if_pos hs] at hb
        simp only [Option.bind_eq_bind, Option.pure_def] at hb
        obtain ⟨m, _, hb⟩ := Option.bind_eq_some.mp hb
        obtain ⟨cs, _, hb⟩ := Option.bind_eq_some.mp hb
        obtain ⟨cI, _, hb⟩ := Option.bind_eq_some.mp hb
        simp only [Option.some.injEq] at hb
        rw [← hb]
        refine ⟨hQ.1, ?_⟩
        simp only [hQ.2, filter_hasMatrix_append, if_pos hs, List.map_append, List.map_cons,
          List.map_nil, List.append_assoc]
      · rw [hsame, if_neg hs] at hb
        simp only [Option.pure_def, Option.some.injEq] at hb
        rw [← hb]
        refine ⟨hQ.1, ?_⟩
        simp only [hQ.2, filter_hasMatrix_append, if_neg hs, List.append_nil]

/-- The calls that `createCoarseMatrices` logs are those of the visited entries. -/
theorem createCoarseMatrices_log (K : Matrix M R) (A : MultiFieldMatrix M)
    (coarseIndex : MultiField (List Int)) (res : MultiFieldMatrix M × List Event)
    (h : createCoarseMatrices K A coarseIndex = some res) :
    res.2 = (visitedEntries A coarseIndex).map
      (fun e => Event.createCoarseMatrix e.1 e.2) := by
  unfold createCoarseMatrices at h
  have main := foldlM_prefix_of_some (createCoarseMatricesRow K coarseIndex)
    (fun q (st : MultiFieldMatrix M × List Event) => st.1.matrices = A.matrices ∧
      st.2 = (q.flatMap (fun row =>
        (coarseIndex.indices.filter (fun col => A.hasMatrix row col)).map
          (fun col => (row, col)))).map (fun e => Event.createCoarseMatrix e.1 e.2))
    coarseIndex.indices (A, []) res ⟨rfl, rfl⟩ ?_ h
  · exact main.2
  · intro q a rest t t' _ hP ha
    unfold createCoarseMatricesRow at ha
    simp only [Option.bind_eq_bind] at ha
    obtain ⟨c2f, _, ha⟩ := Option.bind_eq_some.mp ha
    have inner := foldlM_prefix_of_some
      (createCoarseMatricesEntry K coarseIndex a c2f)
      (fun p (st : MultiFieldMatrix M × List Event) => st.1.matrices = A.matrices ∧
        st.2 = t.2 ++ ((p.filter (fun col => A.hasMatrix a col)).map
          (fun col => (a, col))).map (fun e => Event.createCoarseMatrix e.1 e.2))
      coarseIndex.indices t t' ⟨hP.1, by simp⟩ ?_ ha
    · refine ⟨inner.1, ?_⟩
      rw [inner.2, hP.2]
      simp only [List.flatMap_append, List.flatMap_cons, List.flatMap_nil, List.append_nil,
        List.map_append]
    · intro p b _ u u' _ hQ hb
      unfold createCoarseMatricesEntry at hb
      have hsame : u.1.hasMatrix a b = A.hasMatrix a b := hasMatrix_congr A u.1 hQ.1 a b
      by_cases hs : A.hasMatrix a b = true
      · rw [hsame, if_pos hs] at hb
        simp only [Option.bind_eq_bind, Option.pure_def] at hb
        obtain ⟨m, _, hb⟩ := Option.bind_eq_some.mp hb
        obtain ⟨cc, _, hb⟩ := Option.bind_eq_some.mp hb
        obtain ⟨cI, _, hb⟩ := Option.bind_eq_some.mp hb
        simp only [Option.some.injEq] at hb
        rw [← hb]
        refine ⟨hQ.1, ?_⟩
        simp only [hQ.2, filter_hasMatrix_append, if_pos hs, List.map_append, List.map_cons,
          List.map_nil, List.append_assoc]
      · rw [hsame, if_neg hs] at hb
        simp only [Option.pure_def, Option.some.injEq] at hb
        rw [← hb]
        refine ⟨hQ.1, ?_⟩
        simp only [hQ.2, filter_hasMatrix_append, if_neg hs, List.append_nil]

end VisitedEntries

/-! ## C28: the metadata that `createCoarseMatrices` reads -/

section MetadataPresent

variable {M R : Type}

theorem visitedEntries_congr (A B : MultiFieldMatrix M) (c d : MultiField (List Int))
    (hm : B.matrices = A.matrices) (hi : d.indices = c.indices) :
    visitedEntries B d = visitedEntries A c := by
  simp only [visitedEntries, MultiFieldMatrix.hasMatrix, hm, hi]

/-- When `createCoarseToFineMapping` returns, `coarseToFineMappings` holds an adjacency
for every enumerated row. -/
theorem createCoarseToFineMapping_registers (A : MultiFieldMatrix M)
    (sites : Nat → StorageSite) (coarseIndex : MultiField (List Int))
    (A' : MultiFieldMatrix M) (h : createCoarseToFineMapping A sites coarseIndex = some A') :
    ∀ r ∈ coarseIndex.indices, (Map.find A'.coarseToFineMappings r).isSome = true := by
  unfold createCoarseToFineMapping at h
  refine foldlM_prefix_of_some (createCoarseToFineMappingRow sites coarseIndex)
    (fun q (B : MultiFieldMatrix M) =>
      ∀ r ∈ q, (Map.find B.coarseToFineMappings r).isSome = true)
    coarseIndex.indices A A' (fun r hr => absurd hr (List.not_mem_nil r)) ?_ h
  intro q a rest t t' _ hP ha
  unfold createCoarseToFineMappingRow at ha
  simp only [Option.bind_eq_bind, Option.pure_def] at ha
  obtain ⟨cs, _, ha⟩ := Option.bind_eq_some.mp ha
  obtain ⟨cI, _, ha⟩ := Option.bind_eq_some.mp ha
  obtain ⟨c2f, _, ha⟩ := Option.bind_eq_some.mp ha
  simp only [Option.some.injEq] at ha
  rw [← ha]
  intro r hr
  rcases List.mem_append.mp hr with hq | hq
  · exact Map.find_insert_isSome _ _ _ _ (hP r hq)
  · rw [List.mem_singleton.mp hq]
    simp only
    rw [Map.find_insert_self]
    rfl

/-- C28: when `createCoarseToFineMapping` and `createCoarseConnectivity` have returned on
containers with one enumeration, and `matrices` (and with it the two maps they wrote) is
as they left it, `createCoarseMatrices` on a container with that enumeration finds an
adjacency for every row and a coarse connectivity for every entry it processes, so it
returns; the entries it processes are, in the same order, the entries
`createCoarseConnectivity` has written. -/
theorem createCoarseMatrices_finds_metadata (K : Matrix M R) (A : MultiFieldMatrix M)
    (sites : Nat → StorageSite) (c1 c2 c3 : MultiField (List Int))
    (A1 : MultiFieldMatrix M) (res2 : MultiFieldMatrix M × List Event)
    (B : MultiFieldMatrix M)
    (h12 : c2.indices = c1.indices) (h13 : c3.indices = c1.indices)
    (h1 : createCoarseToFineMapping A sites c1 = some A1)
    (h2 : createCoarseConnectivity K A1 c2 = some res2)
    (hm : B.matrices = res2.1.matrices)
    (hf : B.coarseToFineMappings = res2.1.coarseToFineMappings)
    (hc : B.coarseConnectivities = res2.1.coarseConnectivities) :
    (∀ row ∈ c3.indices, (Map.find B.coarseToFineMappings row).isSome = true) ∧
    (∀ row ∈ c3.indices, ∀ col ∈ c3.indices, B.hasMatrix row col = true →
      (Map.find B.coarseConnectivities (row, col)).isSome = true) ∧
    ∃ res3, createCoarseMatrices K B c3 = some res3 ∧
      res3.2 = (visitedEntries B c3).map (fun e => Event.createCoarseMatrix e.1 e.2) ∧
      res2.2 = (visitedEntries B c3).map
        (fun e => Event.createCoarseConnectivity e.1 e.2) := by
  obtain ⟨hcont, hwr⟩ := createCoarseConnectivity_writes K A1 c2 res2 h2
  have hreg : ∀ row ∈ c3.indices, (Map.find B.coarseToFineMappings row).isSome = true := by
    intro row hrow
    rw [hf, hcont.2.2.1]
    exact createCoarseToFineMapping_registers A sites c1 A1 h1 row (by rw [← h13]; exact hrow)
  have hcc : ∀ row ∈ c3.indices, ∀ col ∈ c3.indices, B.hasMatrix row col = true →
      (Map.find B.coarseConnectivities (row, col)).isSome = true := by
    intro row hrow col hcol hs
    rw [hc]
    refine (hwr row (by rw [h12, ← h13]; exact hrow) col (by rw [h12, ← h13]; exact hcol)
      ?_).1
    rw [← hasMatrix_congr A1 B (hm.trans hcont.1)]
    exact hs
  obtain ⟨res3, h3⟩ := createCoarseMatrices_returns K B c3 hreg hcc
  refine ⟨hreg, hcc, res3, h3, createCoarseMatrices_log K B c3 res3 h3, ?_⟩
  rw [createCoarseConnectivity_log K A1 c2 res2 h2,
    visitedEntries_congr A1 B c2 c3 (hm.trans hcont.1) (h13.trans h12.symm)]

end MetadataPresent

section MetadataPresentWitness

/-- Witness of C28: on `registeredAggregate` the three steps return one after another
and `createCoarseMatrices` processes the entry `(row0, row0)`. -/
theorem createCoarseMatrices_finds_metadata_witness :
    createCoarseToFineMapping registeredAggregate ghostSites pairedCoarseIndex =
      some mappedAggregate ∧
    createCoarseConnectivity scalarKernel mappedAggregate pairedCoarseIndex =
      some connectedAggregate ∧
    ∃ res3, createCoarseMatrices scalarKernel connectedAggregate.1 pairedCoarseIndex =
        some res3 ∧
      res3.2 = [Event.createCoarseMatrix row0 row0] ∧
      connectedAggregate.2 = [Event.createCoarseConnectivity row0 row0] :=
  have h1 : createCoarseToFineMapping registeredAggregate ghostSites pairedCoarseIndex =
      some mappedAggregate := rfl
  have h2 : createCoarseConnectivity scalarKernel mappedAggregate pairedCoarseIndex =
      some connectedAggregate := rfl
  ⟨h1, h2,
    (createCoarseMatrices_finds_metadata scalarKernel registeredAggregate ghostSites
      pairedCoarseIndex pairedCoarseIndex pairedCoarseIndex mappedAggregate connectedAggregate
      connectedAggregate.1 rfl rfl h1 h2 rfl rfl rfl).2.2.elim
      (fun res3 h => ⟨res3, h.1, h.2.1.trans rfl, h.2.2.trans rfl⟩)⟩

end MetadataPresentWitness

/-! ## A pass on old metadata and the pass on cleared metadata -/

section OverlayLemmas

variable {M R : Type} {σ τ β : Type}

theorem Map.overlay_insert {κ ν : Type} [DecidableEq κ] (old s t : List (κ × ν)) (k : κ)
    (v : ν) (h : ∀ k', Map.find s k' = Map.overlay t old k') :
    ∀ k', Map.find (Map.insert s k v) k' = Map.overlay (Map.insert t k v) old k' := by
  intro k'
  unfold Map.overlay
  by_cases e : k' = k
  · subst e
    rw [Map.find_insert_self, Map.find_insert_self]
  · rw [Map.find_insert_ne _ _ _ _ e, Map.find_insert_ne _ _ _ _ e]
    exact h k'

theorem Map.find_of_overlay {κ ν : Type} [DecidableEq κ] (old s t : List (κ × ν)) (k : κ)
    (v : ν) (h : ∀ k', Map.find s k' = Map.overlay t old k') (ht : Map.find t k = some v) :
    Map.find s k = some v := by
  rw [h k]
  unfold Map.overlay
  rw [ht]

/-- A loop simulates a loop with the same steps on related states: when the second
returns, so does the first, in a related state. -/
theorem foldlM_sim (f : σ → β → Option σ) (g : τ → β → Option τ) (Rel : σ → τ → Prop) :
    ∀ (l : List β) (s : σ) (t t' : τ), Rel s t →
      (∀ a ∈ l, ∀ s t t', Rel s t → g t a = some t' → ∃ s', f s a = some s' ∧ Rel s' t') →
      l.foldlM g t = some t' → ∃ s', l.foldlM f s = some s' ∧ Rel s' t' := by
  intro l
  induction l with
  | nil =>
    intro s t t' hR _ h
    simp only [List.foldlM_nil, Option.pure_def, Option.some.injEq] at h
    exact ⟨s, rfl, h ▸ hR⟩
  | cons a l ih =>
    intro s t t' hR hstep h
    rw [List.foldlM_cons] at h
    cases ha : g t a with
    | none => rw [ha] at h; simp at h
    | some u =>
      rw [ha] at h
      simp only [Option.bind_eq_bind, Option.some_bind] at h
      obtain ⟨s1, hs1, hR1⟩ := hstep a (List.mem_cons_self a l) s t u hR ha
      obtain ⟨s', hs', hR'⟩ := ih s1 u t' hR1
        (fun b hb => hstep b (List.mem_cons_of_mem a hb)) h
      refine ⟨s', ?_, hR'⟩
      rw [List.foldlM_cons, hs1]
      exact hs'

theorem overlay_clearMetadata (A : MultiFieldMatrix M) : Overlay A A A.clearMetadata :=
  ⟨rfl, rfl, fun _ => rfl, fun _ => rfl, fun _ => rfl, fun _ => rfl, fun _ => rfl,
    fun _ => rfl⟩

theorem overlay_coarseSizes (A S T : MultiFieldMatrix M) (k : Index) (v : Int)
    (h : Overlay A S T) :
    Overlay A { S with coarseSizes := Map.insert S.coarseSizes k v }
      { T with coarseSizes := Map.insert T.coarseSizes k v } :=
  ⟨h.1, h.2.1, Map.overlay_insert _ _ _ k v h.2.2.1, h.2.2.2.1, h.2.2.2.2.1, h.2.2.2.2.2.1,
    h.2.2.2.2.2.2.1, h.2.2.2.2.2.2.2⟩

theorem overlay_coarseToFine (A S T : MultiFieldMatrix M) (k : Index) (v : CRConnectivity)
    (h : Overlay A S T) :
    Overlay A { S with coarseToFineMappings := Map.insert S.coarseToFineMappings k v }
      { T with coarseToFineMappings := Map.insert T.coarseToFineMappings k v } :=
  ⟨h.1, h.2.1, h.2.2.1, h.2.2.2.1, h.2.2.2.2.1, Map.overlay_insert _ _ _ k v h.2.2.2.2.2.1,
    h.2.2.2.2.2.2.1, h.2.2.2.2.2.2.2⟩

theorem overlay_coarseConnectivities (A S T : MultiFieldMatrix M) (k : EntryIndex)
    (v : CRConnectivity) (h : Overlay A S T) :
    Overlay A { S with coarseConnectivities := Map.insert S.coarseConnectivities k v }
      { T with coarseConnectivities := Map.insert T.coarseConnectivities k v } :=
  ⟨h.1, h.2.1, h.2.2.1, h.2.2.2.1, h.2.2.2.2.1, h.2.2.2.2.2.1,
    Map.overlay_insert _ _ _ k v h.2.2.2.2.2.2.1, h.2.2.2.2.2.2.2⟩

theorem overlay_coarseMatrices (A S T : MultiFieldMatrix M) (k : EntryIndex) (v : M)
    (h : Overlay A S T) :
    Overlay A { S with coarseMatrices := Map.insert S.coarseMatrices k v }
      { T with coarseMatrices := Map.insert T.coarseMatrices k v } :=
  ⟨h.1, h.2.1, h.2.2.1, h.2.2.2.1, h.2.2.2.2.1, h.2.2.2.2.2.1, h.2.2.2.2.2.2.1,
    Map.overlay_insert _ _ _ k v h.2.2.2.2.2.2.2⟩

theorem overlay_ghost (A S T : MultiFieldMatrix M) (k : Index) (v : Int)
    (cmS cmT : List (EntryIndex × (List Int × List Int))) (h : Overlay A S T)
    (hcm : ∀ e, Map.find cmS e = Map.overlay cmT A.coarseMappers e) :
    Overlay A
      { S with coarseMappers := cmS, coarseGhostSizes := Map.insert S.coarseGhostSizes k v }
      { T with coarseMappers := cmT, coarseGhostSizes := Map.insert T.coarseGhostSizes k v } :=
  ⟨h.1, h.2.1, h.2.2.1, Map.overlay_insert _ _ _ k v h.2.2.2.1, hcm, h.2.2.2.2.2.1,
    h.2.2.2.2.2.2.1, h.2.2.2.2.2.2.2⟩

end OverlayLemmas

section PassSimulation

variable {M R : Type}

theorem createCoarsening_sim (K : Matrix M R) (A S T : MultiFieldMatrix M)
    (coarseIndex : MultiField (List Int)) (groupSize : Int) (w : R)
    (t' : CoarseningState M) (h : Overlay A S T)
    (ht : createCoarsening K T coarseIndex groupSize w = some t') :
    ∃ s', createCoarsening K S coarseIndex groupSize w = some s' ∧
      Overlay A s'.matrix t'.matrix ∧ s'.coarseIndex = t'.coarseIndex := by
  unfold createCoarsening at ht ⊢
  have main := foldlM_sim (createCoarseningRow K groupSize w)
    (createCoarseningRow K groupSize w)
    (fun s t => Overlay A s.matrix t.matrix ∧ s.coarseIndex = t.coarseIndex ∧ s.log = t.log)
    coarseIndex.indices ⟨S, coarseIndex, []⟩ ⟨T, coarseIndex, []⟩ t' ⟨h, rfl, rfl⟩ ?_ ht
  · obtain ⟨s', hs', hR⟩ := main
    exact ⟨s', hs', hR.1, hR.2.1⟩
  · intro a _ s t u ⟨hO, hci, hlog⟩ hu
    have hsame : s.matrix.hasMatrix a a = t.matrix.hasMatrix a a :=
      hasMatrix_congr t.matrix s.matrix hO.1 a a
    have hget : (s.matrix.getMatrix a a).1.toOption = (t.matrix.getMatrix a a).1.toOption := by
      simp only [MultiFieldMatrix.getMatrix_toOption, hO.1]
    unfold createCoarseningRow at hu ⊢
    rw [hsame, hget, hci, hlog]
    by_cases hs : t.matrix.hasMatrix a a = true
    · rw [if_pos hs] at hu ⊢
      simp only [Option.bind_eq_bind, Option.pure_def] at hu ⊢
      obtain ⟨m, hm, hu⟩ := Option.bind_eq_some.mp hu
      obtain ⟨cI, hcI, hu⟩ := Option.bind_eq_some.mp hu
      simp only [Option.some.injEq] at hu
      rw [hm, hcI, ← hu]
      exact ⟨_, rfl, overlay_coarseSizes A _ _ _ _ hO, rfl, rfl⟩
    · rw [if_neg hs] at hu ⊢
      simp only [Option.pure_def, Option.some.injEq] at hu
      rw [← hu]
      exact ⟨s, rfl, hO, hci, hlog⟩

theorem syncNeighbour_sim (old : List (EntryIndex × (List Int × List Int)))
    (row : Index) (cs : Int) (nbrs : List (Nat × List Nat)) (n m m' : NeighbourState)
    (hci : n.coarseIndex = m.coarseIndex) (hgs : n.coarseGhostSize = m.coarseGhostSize)
    (hcm : ∀ e, Map.find n.coarseMappers e = Map.overlay m.coarseMappers old e)
    (hm : nbrs.foldlM (syncNeighbour row cs) m = some m') :
    ∃ n', nbrs.foldlM (syncNeighbour row cs) n = some n' ∧
      n'.coarseIndex = m'.coarseIndex ∧ n'.coarseGhostSize = m'.coarseGhostSize ∧
      ∀ e, Map.find n'.coarseMappers e = Map.overlay m'.coarseMappers old e := by
  refine foldlM_sim (syncNeighbour row cs) (syncNeighbour row cs)
    (fun n m => n.coarseIndex = m.coarseIndex ∧ n.coarseGhostSize = m.coarseGhostSize ∧
      ∀ e, Map.find n.coarseMappers e = Map.overlay m.coarseMappers old e)
    nbrs n m m' ⟨hci, hgs, hcm⟩ ?_ hm
  intro p _ s t u ⟨h1, h2, h3⟩ hu
  unfold syncNeighbour at hu ⊢
  rw [h1, h2]
  simp only [Option.bind_eq_bind, Option.pure_def] at hu ⊢
  obtain ⟨g, hg, hu⟩ := Option.bind_eq_some.mp hu
  simp only [Option.some.injEq] at hu
  rw [hg, ← hu]
  exact ⟨_, rfl, rfl, rfl, Map.overlay_insert _ _ _ _ _ h3⟩

theorem syncGhostCoarsening_sim (A S T : MultiFieldMatrix M) (sites : Nat → StorageSite)
    (coarseIndex : MultiField (List Int))
    (t' : MultiFieldMatrix M × MultiField (List Int)) (h : Overlay A S T)
    (ht : syncGhostCoarsening T sites coarseIndex = some t') :
    ∃ s', syncGhostCoarsening S sites coarseIndex = some s' ∧
      Overlay A s'.1 t'.1 ∧ s'.2 = t'.2 := by
  unfold syncGhostCoarsening at ht ⊢
  refine foldlM_sim (syncGhostCoarseningRow sites) (syncGhostCoarseningRow sites)
    (fun s t => Overlay A s.1 t.1 ∧ s.2 = t.2)
    coarseIndex.indices (S, coarseIndex) (T, coarseIndex) t' ⟨h, rfl⟩ ?_ ht
  intro a _ s t u ⟨hO, hci⟩ hu
  unfold syncGhostCoarseningRow at hu ⊢
  rw [hci]
  simp only [Option.bind_eq_bind, Option.pure_def] at hu ⊢
  obtain ⟨cI, hcI, hu⟩ := Option.bind_eq_some.mp hu
  obtain ⟨cs, hcs, hu⟩ := Option.bind_eq_some.mp hu
  obtain ⟨m, hm, hu⟩ := Option.bind_eq_some.mp hu
  simp only [Option.some.injEq] at hu
  obtain ⟨n, hn, e1, e2, e3⟩ := syncNeighbour_sim A.coarseMappers a cs (sites a.2).mappers
    ⟨cI, 0, s.1.coarseMappers⟩ ⟨cI, 0, t.1.coarseMappers⟩ m rfl rfl hO.2.2.2.2.1 hm
  rw [hcI, Map.find_of_overlay _ _ _ a cs hO.2.2.1 hcs]
  simp only [Option.some_bind, hn]
  rw [← hu]
  refine ⟨_, rfl, ?_, ?_⟩
  · simp only [e2]
    exact overlay_ghost A s.1 t.1 a m.coarseGhostSize n.coarseMappers m.coarseMappers hO e3
  · simp only [e1]

theorem createCoarseToFineMapping_sim (A S T : MultiFieldMatrix M)
    (sites : Nat → StorageSite) (coarseIndex : MultiField (List Int))
    (t' : MultiFieldMatrix M) (h : Overlay A S T)
    (ht : createCoarseToFineMapping T sites coarseIndex = some t') :
    ∃ s', createCoarseToFineMapping S sites coarseIndex = some s' ∧ Overlay A s' t' := by
  unfold createCoarseToFineMapping at ht ⊢
  refine foldlM_sim (createCoarseToFineMappingRow sites coarseIndex)
    (createCoarseToFineMappingRow sites coarseIndex) (fun s t => Overlay A s t)
    coarseIndex.indices S T t' h ?_ ht
  intro a _ s t u hO hu
  unfold createCoarseToFineMappingRow at hu ⊢
  simp only [Option.bind_eq_bind, Option.pure_def] at hu ⊢
  obtain ⟨cs, hcs, hu⟩ := Option.bind_eq_some.mp hu
  obtain ⟨cI, hcI, hu⟩ := Option.bind_eq_some.mp hu
  obtain ⟨c2f, hc2f, hu⟩ := Option.bind_eq_some.mp hu
  simp only [Option.some.injEq] at hu
  have hcs' : Map.find s.coarseSites a = some cs := by rw [hO.2.1]; exact hcs
  rw [hcs', hcI]
  simp only [Option.some_bind, hc2f]
  rw [← hu]
  exact ⟨_, rfl, overlay_coarseToFine A s t a c2f hO⟩

end PassSimulation

section PassSimulationEntries

variable {M R : Type}

theorem createCoarseConnectivity_sim (K : Matrix M R) (A S T : MultiFieldMatrix M)
    (coarseIndex : MultiField (List Int)) (t' : MultiFieldMatrix M × List Event)
    (h : Overlay A S T) (ht : createCoarseConnectivity K T coarseIndex = some t') :
    ∃ s', createCoarseConnectivity K S coarseIndex = some s' ∧ Overlay A s'.1 t'.1 := by
  unfold createCoarseConnectivity at ht ⊢
  have main := foldlM_sim (createCoarseConnectivityRow K coarseIndex)
    (createCoarseConnectivityRow K coarseIndex)
    (fun s t => Overlay A s.1 t.1 ∧ s.2 = t.2)
    coarseIndex.indices (S, []) (T, []) t' ⟨h, rfl⟩ ?_ ht
  · obtain ⟨s', hs', hR⟩ := main
    exact ⟨s', hs', hR.1⟩
  · intro a _ s t u ⟨hO, hlog⟩ hu
    unfold createCoarseConnectivityRow at hu ⊢
    simp only [Option.bind_eq_bind] at hu ⊢
    obtain ⟨rs, hrs, hu⟩ := Option.bind_eq_some.mp hu
    obtain ⟨c2f, hc2f, hu⟩ := Option.bind_eq_some.mp hu
    have hrs' : Map.find s.1.coarseSites a = some rs := by rw [hO.2.1]; exact hrs
    rw [hrs', Map.find_of_overlay _ _ _ a c2f hO.2.2.2.2.2.1 hc2f]
    simp only [Option.some_bind]
    refine foldlM_sim (createCoarseConnectivityEntry K coarseIndex a rs c2f)
      (createCoarseConnectivityEntry K coarseIndex a rs c2f)
      (fun s t => Overlay A s.1 t.1 ∧ s.2 = t.2) coarseIndex.indices s t u ⟨hO, hlog⟩ ?_ hu
    intro b _ p q v ⟨hP, hl⟩ hv
    have hsame : p.1.hasMatrix a b = q.1.hasMatrix a b := hasMatrix_congr q.1 p.1 hP.1 a b
    have hget : (p.1.getMatrix a b).1.toOption = (q.1.getMatrix a b).1.toOption := by
      simp only [MultiFieldMatrix.getMatrix_toOption, hP.1]
    unfold createCoarseConnectivityEntry at hv ⊢
    rw [hsame, hget]
    by_cases hs : q.1.hasMatrix a b = true
    · rw [if_pos hs] at hv ⊢
      simp only [Option.bind_eq_bind, Option.pure_def] at hv ⊢
      obtain ⟨m, hm, hv⟩ := Option.bind_eq_some.mp hv
      obtain ⟨cs, hcs, hv⟩ := Option.bind_eq_some.mp hv
      obtain ⟨cI, hcI, hv⟩ := Option.bind_eq_some.mp hv
      simp only [Option.some.injEq] at hv
      have hcs' : Map.find p.1.coarseSites b = some cs := by rw [hP.2.1]; exact hcs
      rw [hm, hcs', hcI, ← hv]
      exact ⟨_, rfl, overlay_coarseConnectivities A p.1 q.1 _ _ hP, by simp only [hl]⟩
    · rw [if_neg hs] at hv ⊢
      simp only [Option.pure_def, Option.some.injEq] at hv
      rw [← hv]
      exact ⟨p, rfl, hP, hl⟩

theorem createCoarseMatrices_sim (K : Matrix M R) (A S T : MultiFieldMatrix M)
    (coarseIndex : MultiField (List Int)) (t' : MultiFieldMatrix M × List Event)
    (h : Overlay A S T) (ht : createCoarseMatrices K T coarseIndex = some t') :
    ∃ s', createCoarseMatrices K S coarseIndex = some s' ∧ Overlay A s'.1 t'.1 := by
  unfold createCoarseMatrices at ht ⊢
  have main := foldlM_sim (createCoarseMatricesRow K coarseIndex)
    (createCoarseMatricesRow K coarseIndex)
    (fun s t => Overlay A s.1 t.1 ∧ s.2 = t.2)
    coarseIndex.indices (S, []) (T, []) t' ⟨h, rfl⟩ ?_ ht
  · obtain ⟨s', hs', hR⟩ := main
    exact ⟨s', hs', hR.1⟩
  · intro a _ s t u ⟨hO, hlog⟩ hu
    unfold createCoarseMatricesRow at hu ⊢
    simp only [Option.bind_eq_bind] at hu ⊢
    obtain ⟨c2f, hc2f, hu⟩ := Option.bind_eq_some.mp hu
    rw [Map.find_of_overlay _ _ _ a c2f hO.2.2.2.2.2.1 hc2f]
    simp only [Option.some_bind]
    refine foldlM_sim (createCoarseMatricesEntry K coarseIndex a c2f)
      (createCoarseMatricesEntry K coarseIndex a c2f)
      (fun s t => Overlay A s.1 t.1 ∧ s.2 = t.2) coarseIndex.indices s t u ⟨hO, hlog⟩ ?_ hu
    intro b _ p q v ⟨hP, hl⟩ hv
    have hsame : p.1.hasMatrix a b = q.1.hasMatrix a b := hasMatrix_congr q.1 p.1 hP.1 a b
    have hget : (p.1.getMatrix a b).1.toOption = (q.1.getMatrix a b).1.toOption := by
      simp only [MultiFieldMatrix.getMatrix_toOption, hP.1]
    unfold createCoarseMatricesEntry at hv ⊢
    rw [hsame, hget]
    by_cases hs : q.1.hasMatrix a b = true
    · rw [if_pos hs] at hv ⊢
      simp only [Option.bind_eq_bind, Option.pure_def] at hv ⊢
      obtain ⟨m, hm, hv⟩ := Option.bind_eq_some.mp hv
      obtain ⟨cc, hcc, hv⟩ := Option.bind_eq_some.mp hv
      obtain ⟨cI, hcI, hv⟩ := Option.bind_eq_some.mp hv
      simp only [Option.some.injEq] at hv
      rw [hm, Map.find_of_overlay _ _ _ (a, b) cc hP.2.2.2.2.2.2.1 hcc, hcI, ← hv]
      exact ⟨_, rfl, overlay_coarseMatrices A p.1 q.1 _ _ hP, by simp only [hl]⟩
    · rw [if_neg hs] at hv ⊢
      simp only [Option.pure_def, Option.some.injEq] at hv
      rw [← hv]
      exact ⟨p, rfl, hP, hl⟩

/-- A pass on old metadata simulates the pass on cleared metadata: when the latter
returns, so does the former, with the same container and with the result of the latter
laid over the old metadata. -/
theorem coarseningPass_sim (K : Matrix M R) (sites : Nat → StorageSite)
    (A : MultiFieldMatrix M) (coarseIndex : MultiField (List Int)) (groupSize : Int) (w : R)
    (Y : MultiFieldMatrix M) (ci' : MultiField (List Int))
    (h : coarseningPass K sites A.clearMetadata coarseIndex groupSize w = some (Y, ci')) :
    ∃ X, coarseningPass K sites A coarseIndex groupSize w = some (X, ci') ∧
      Overlay A X Y := by
  unfold coarseningPass at h ⊢
  simp only [Option.bind_eq_bind, Option.pure_def] at h ⊢
  obtain ⟨t1, h1, h⟩ := Option.bind_eq_some.mp h
  obtain ⟨t2, h2, h⟩ := Option.bind_eq_some.mp h
  obtain ⟨t3, h3, h⟩ := Option.bind_eq_some.mp h
  obtain ⟨t4, h4, h⟩ := Option.bind_eq_some.mp h
  obtain ⟨t5, h5, h⟩ := Option.bind_eq_some.mp h
  simp only [Option.some.injEq, Prod.mk.injEq] at h
  obtain ⟨s1, g1, o1, e1⟩ := createCoarsening_sim K A A A.clearMetadata coarseIndex groupSize w
    t1 (overlay_clearMetadata A) h1
  rw [← e1] at h2
  obtain ⟨s2, g2, o2, e2⟩ := syncGhostCoarsening_sim A s1.matrix t1.matrix sites s1.coarseIndex
    t2 o1 h2
  rw [← e2] at h3 h4 h5 h
  obtain ⟨s3, g3, o3⟩ := createCoarseToFineMapping_sim A s2.1 t2.1 sites s2.2 t3 o2 h3
  obtain ⟨s4, g4, o4⟩ := createCoarseConnectivity_sim K A s3 t3 s2.2 t4 o3 h4
  obtain ⟨s5, g5, o5⟩ := createCoarseMatrices_sim K A s4.1 t4.1 s2.2 t5 o4 h5
  obtain ⟨hY, hci⟩ := h
  subst hY hci
  refine ⟨s5.1, ?_, o5⟩
  rw [g1]
  simp only [Option.some_bind, g2, g3, g4, g5]

end PassSimulationEntries

/-! ## C26: a repeated coarsening pass -/

section RepeatedPassClaim

variable {M R : Type}

/-- C26, amended: a repeated pass overwrites the AMG metadata key by key and clears
nothing.  When the pass alone, on the instance with the six metadata maps emptied,
returns `Y`, the pass on the instance as the earlier pass has left it returns with the
same container, and each of `coarseSizes`, `coarseGhostSizes`, `coarseMappers`,
`coarseToFineMappings`, `coarseConnectivities` and `coarseMatrices` holds under a key
what `Y` holds when the pass has written the key, and what the map held before the pass
otherwise. -/
theorem repeated_pass_overlays (K : Matrix M R) (sites : Nat → StorageSite)
    (A : MultiFieldMatrix M) (coarseIndex : MultiField (List Int)) (groupSize : Int) (w : R)
    (Y : MultiFieldMatrix M) (ci' : MultiField (List Int))
    (h : coarseningPass K sites A.clearMetadata coarseIndex groupSize w = some (Y, ci')) :
    ∃ X, coarseningPass K sites A coarseIndex groupSize w = some (X, ci') ∧
      Overlay A X Y ∧
      (∀ e v, Map.find Y.coarseConnectivities e = some v →
        Map.find X.coarseConnectivities e = some v) ∧
      (∀ e, Map.find Y.coarseConnectivities e = none →
        Map.find X.coarseConnectivities e = Map.find A.coarseConnectivities e) := by
  obtain ⟨X, hX, hO⟩ := coarseningPass_sim K sites A coarseIndex groupSize w Y ci' h
  refine ⟨X, hX, hO, ?_, ?_⟩
  · intro e v hv
    exact Map.find_of_overlay _ _ _ e v hO.2.2.2.2.2.2.1 hv
  · intro e hv
    rw [hO.2.2.2.2.2.2.1 e]
    unfold Map.overlay
    rw [hv]

/-- C26 as stated fails: the first pass on `passMatrix` stores a coarse connectivity and
a coarse block under `(row0, row1)`; after `removeMatrix(row0, row1)` the second pass
leaves both in place, while the second pass alone, on emptied metadata, has neither. -/
theorem repeated_pass_keeps_old_keys :
    (coarseningPass scalarKernel exampleSites passMatrix exampleCoarseIndex 2 0).map Prod.fst =
      some afterFirstPass ∧
    coarseningPass scalarKernel exampleSites beforeSecondPass exampleCoarseIndex 2 0 =
      some repeatedSecondPass ∧
    coarseningPass scalarKernel exampleSites beforeSecondPass.clearMetadata exampleCoarseIndex
      2 0 = some freshSecondPass ∧
    (Map.find repeatedSecondPass.1.coarseConnectivities (row0, row1)).isSome = true ∧
    Map.find freshSecondPass.1.coarseConnectivities (row0, row1) = none ∧
    Map.find repeatedSecondPass.1.coarseMatrices (row0, row1) = some 3 ∧
    Map.find freshSecondPass.1.coarseMatrices (row0, row1) = none ∧
    repeatedSecondPass.1.coarseMatrices ≠ freshSecondPass.1.coarseMatrices := by
  refine ⟨rfl, rfl, rfl, rfl, rfl, rfl, rfl, ?_⟩
  intro e
  have h : Map.find repeatedSecondPass.1.coarseMatrices (row0, row1) = some 3 := rfl
  rw [e] at h
  exact Option.noConfusion h

/-- Witness of C26, amended: the second pass of the example. -/
theorem repeated_pass_overlays_witness :
    coarseningPass scalarKernel exampleSites beforeSecondPass.clearMetadata exampleCoarseIndex
      2 0 = some (freshSecondPass.1, freshSecondPass.2) ∧
    ∃ X, coarseningPass scalarKernel exampleSites beforeSecondPass exampleCoarseIndex 2 0 =
        some (X, freshSecondPass.2) ∧
      Overlay beforeSecondPass X freshSecondPass.1 :=
  have h : coarseningPass scalarKernel exampleSites beforeSecondPass.clearMetadata
      exampleCoarseIndex 2 0 = some (freshSecondPass.1, freshSecondPass.2) := rfl
  ⟨h, (repeated_pass_overlays scalarKernel exampleSites beforeSecondPass exampleCoarseIndex 2 0
    freshSecondPass.1 freshSecondPass.2 h).elim (fun X hX => ⟨X, hX.1, hX.2.1⟩)⟩

end RepeatedPassClaim

/-! ## C27: ghost rows with a negative coarse id -/

section NegativeGhostRows

variable {M : Type}

theorem syncGhostCoarsening_coarseSites (A : MultiFieldMatrix M) (sites : Nat → StorageSite)
    (coarseIndex : MultiField (List Int))
    (res : MultiFieldMatrix M × MultiField (List Int))
    (h : syncGhostCoarsening A sites coarseIndex = some res) :
    res.1.coarseSites = A.coarseSites := by
  unfold syncGhostCoarsening at h
  refine foldlM_rel (syncGhostCoarseningRow sites)
    (fun s t => t.1.coarseSites = s.1.coarseSites) (fun _ => rfl)
    (fun s t u h1 h2 => h2.trans h1) _ _ _ ?_ h
  intro b _ t t' hb
  unfold syncGhostCoarseningRow at hb
  simp only [Option.bind_eq_bind, Option.pure_def] at hb
  obtain ⟨cI, _, hb⟩ := Option.bind_eq_some.mp hb
  obtain ⟨cs, _, hb⟩ := Option.bind_eq_some.mp hb
  obtain ⟨n, _, hb⟩ := Option.bind_eq_some.mp hb
  simp only [Option.some.injEq] at hb
  rw [← hb]

/-- The adjacency that `createCoarseToFineMapping` stores for a row, row by row. -/
theorem createCoarseToFineMapping_getRow (A : MultiFieldMatrix M) (sites : Nat → StorageSite)
    (coarseIndex : MultiField (List Int))
    (hreg : ∀ r ∈ coarseIndex.indices, (Map.find A.coarseSites r).isSome = true)
    (hext : ∀ r ∈ coarseIndex.indices, ∀ ci0, coarseIndex.get r = some ci0 →
      (sites r.2).count ≤ ci0.length)
    (hbelow : ∀ r ∈ coarseIndex.indices, ∀ ci0 coarseSite, coarseIndex.get r = some ci0 →
      Map.find A.coarseSites r = some coarseSite →
      ∀ nr, nr < (sites r.2).count → ∀ v, ci0[nr]? = some v →
        v < ((sites coarseSite).count : Int)) :
    ∃ A', createCoarseToFineMapping A sites coarseIndex = some A' ∧
      ∀ r ∈ coarseIndex.indices, ∃ ci0 c2f, coarseIndex.get r = some ci0 ∧
        Map.find A'.coarseToFineMappings r = some c2f ∧
        ∀ c, c2f.getRow c = fineRowsOf ci0 (sites r.2).count c := by
  have main := foldlM_prefix_invariant (createCoarseToFineMappingRow sites coarseIndex)
    (fun q (A' : MultiFieldMatrix M) => A'.coarseSites = A.coarseSites ∧
      ∀ r ∈ q, ∃ ci0 c2f, coarseIndex.get r = some ci0 ∧
        Map.find A'.coarseToFineMappings r = some c2f ∧
        ∀ c, c2f.getRow c = fineRowsOf ci0 (sites r.2).count c)
    coarseIndex.indices A ⟨rfl, fun r hr => absurd hr (List.not_mem_nil r)⟩ ?_
  · obtain ⟨A', hA', _, h⟩ := main
    exact ⟨A', hA', h⟩
  · intro q a rest t hq ⟨hsites, hdone⟩
    have ha : a ∈ coarseIndex.indices := by rw [hq]; simp
    obtain ⟨ci0, hci0⟩ := MultiField.get_of_mem coarseIndex a ha
    obtain ⟨cSite, hcSite⟩ := Option.isSome_iff_exists.mp (hreg a ha)
    obtain ⟨c2f, hc2f, _, _, hrows⟩ := buildCoarseToFine_rows sites cSite a.2 ci0
      (hext a ha ci0 hci0) (hbelow a ha ci0 cSite hci0 hcSite)
    refine ⟨{ t with coarseToFineMappings := Map.insert t.coarseToFineMappings a c2f }, ?_,
      hsites, ?_⟩
    · simp only [createCoarseToFineMappingRow, hsites, hcSite, hci0, hc2f,
        Option.bind_eq_bind, Option.some_bind, Option.pure_def]
    · intro r hr
      by_cases e : r = a
      · subst e
        exact ⟨ci0, c2f, hci0, Map.find_insert_self _ _ _, hrows⟩
      · have hq' : r ∈ q := by
          rcases List.mem_append.mp hr with h | h
          · exact h
          · exact absurd (List.mem_singleton.mp h) e
        obtain ⟨ci1, c1, h1, h2, h3⟩ := hdone r hq'
        refine ⟨ci1, c1, h1, ?_, h3⟩
        simp only
        rw [Map.find_insert_ne _ _ _ _ e]
        exact h2

end NegativeGhostRows

section NegativeGhostRowsClaim

variable {M : Type}

/-- C27, as amended: on well-formed neighbour lists (every ghost fine row is listed once
over all neighbours of its row), with non-negative entries of `coarseSizes` and a
registered coarse partition that covers the ids present after the reconciliation,
`syncGhostCoarsening` and then `createCoarseToFineMapping` return, and every ghost fine
row `f` listed by a neighbour holds afterwards an id `b` with `0 ≤ b`,
`coarseSizes[row] ≤ b < coarseSizes[row] + coarseGhostSizes[row]`, whatever id it carried
before; the ghost rows of the same neighbour that carried the same negative id as `f`
hold the one id `b`; and `f` is listed under `b` in the adjacency of the row. -/
theorem negative_ghost_rows_renumbered (A : MultiFieldMatrix M) (sites : Nat → StorageSite)
    (coarseIndex : MultiField (List Int)) (hnd : coarseIndex.indices.Nodup)
    (hsz : ∀ r ∈ coarseIndex.indices, (Map.find A.coarseSizes r).isSome = true)
    (hwf : ∀ r ∈ coarseIndex.indices, ∀ ci0, coarseIndex.get r = some ci0 →
      NeighboursWellFormed (sites r.2).mappers ci0)
    (hcs : ∀ r ∈ coarseIndex.indices, ∀ cs, Map.find A.coarseSizes r = some cs → 0 ≤ cs)
    (hghost : ∀ r ∈ coarseIndex.indices, ∀ f ∈ ghostRows (sites r.2).mappers,
      f < (sites r.2).count)
    (hreg : ∀ r ∈ coarseIndex.indices, (Map.find A.coarseSites r).isSome = true)
    (hext : ∀ r ∈ coarseIndex.indices, ∀ ci0, coarseIndex.get r = some ci0 →
      (sites r.2).count ≤ ci0.length)
    (hbelow : ∀ res, syncGhostCoarsening A sites coarseIndex = some res →
      ∀ r ∈ coarseIndex.indices, ∀ cif coarseSite, res.2.get r = some cif →
        Map.find A.coarseSites r = some coarseSite →
        ∀ nr, nr < (sites r.2).count → ∀ v, cif[nr]? = some v →
          v < ((sites coarseSite).count : Int)) :
    ∃ res A', syncGhostCoarsening A sites coarseIndex = some res ∧
      createCoarseToFineMapping res.1 sites res.2 = some A' ∧
      ∀ r ∈ coarseIndex.indices, ∃ ci0 cif cs gs c2f, coarseIndex.get r = some ci0 ∧
        res.2.get r = some cif ∧ Map.find A.coarseSizes r = some cs ∧
        Map.find res.1.coarseGhostSizes r = some gs ∧
        Map.find A'.coarseToFineMappings r = some c2f ∧
        ∀ p ∈ (sites r.2).mappers, ∀ f ∈ p.2, ∃ b, cif[f]? = some b ∧ 0 ≤ b ∧ cs ≤ b ∧
          b < cs + gs ∧ f ∈ c2f.getRow b.toNat ∧
          ∀ f2 ∈ p.2, ∀ v, v < 0 → ci0[f]? = some v → ci0[f2]? = some v →
            cif[f2]? = some b := by
  obtain ⟨res, hres, _, hidx, hpost⟩ :=
    syncGhostCoarsening_post A sites coarseIndex hnd hsz hwf
  have hsites := syncGhostCoarsening_coarseSites A sites coarseIndex res hres
  have hrow : ∀ r ∈ coarseIndex.indices, ∃ ci0 cs cif gs, coarseIndex.get r = some ci0 ∧
      Map.find A.coarseSizes r = some cs ∧ res.2.get r = some cif ∧
      Map.find res.1.coarseGhostSizes r = some gs ∧
      RowPost cs ci0 (sites r.2).mappers cif gs
        (fun nb => Map.find res.1.coarseMappers (r, (r.1, nb))) := by
    intro r hr
    obtain ⟨ci0, hci0⟩ := MultiField.get_of_mem coarseIndex r hr
    obtain ⟨cs, hcs0⟩ := Option.isSome_iff_exists.mp (hsz r hr)
    obtain ⟨cif, gs, h1, h2, h3, _⟩ := hpost r hr ci0 cs hci0 hcs0
    exact ⟨ci0, cs, cif, gs, hci0, hcs0, h1, h2, h3⟩
  obtain ⟨A', hA', hrows⟩ := createCoarseToFineMapping_getRow res.1 sites res.2
    (by rw [hidx, hsites]; exact hreg)
    (by
      intro r hr cif hcif
      rw [hidx] at hr
      obtain ⟨ci0, cs, cif', gs, h0, _, h1, _, hP⟩ := hrow r hr
      have e : cif = cif' := Option.some.inj (hcif.symm.trans h1)
      rw [e, hP.1]
      exact hext r hr ci0 h0)
    (by
      intro r hr cif cSite hcif hcSite
      rw [hidx] at hr
      rw [hsites] at hcSite
      exact hbelow res hres r hr cif cSite hcif hcSite)
  refine ⟨res, A', hres, hA', ?_⟩
  intro r hr
  obtain ⟨ci0, cs, cif, gs, h0, hcs0, h1, h2, hlen, _, hrng, hpair, _, _⟩ := hrow r hr
  obtain ⟨cif', c2f, h1', hc2f, hget⟩ := hrows r (by rw [hidx]; exact hr)
  have e : cif' = cif := Option.some.inj (h1'.symm.trans h1)
  subst e
  refine ⟨ci0, cif', cs, gs, c2f, h0, h1, hcs0, h2, hc2f, ?_⟩
  intro p hp f hf
  have hfg : f ∈ ghostRows (sites r.2).mappers := mem_ghostRows _ p hp f hf
  have hflt : f < cif'.length := by
    rw [hlen]
    exact (hwf r hr ci0 h0).2.2 f hfg
  have hb : cif'[f]? = some cif'[f] := List.getElem?_eq_getElem hflt
  obtain ⟨hb1, hb2⟩ := (hrng cif'[f]).mp ⟨f, hfg, hb⟩
  have hnn : 0 ≤ cif'[f] := le_trans (hcs r hr cs hcs0) hb1
  refine ⟨cif'[f], hb, hnn, hb1, hb2, ?_, ?_⟩
  · rw [hget, fineRowsOf, List.mem_filter]
    refine ⟨List.mem_range.mpr (hghost r hr f hfg), ?_⟩
    rw [hb, Int.toNat_of_nonneg hnn]
    simp
  · intro f2 hf2 v _ hv1 hv2
    rw [← hb]
    exact ((hpair p hp f hf f2 hf2).mpr (hv1.trans hv2.symm)).symm

end NegativeGhostRowsClaim

section NegativeGhostRowsWitness

/-- Witness of C27: the ghost rows `6` and `7` of partition `0` carry `-1`; after the
reconciliation both hold the id `3` and the adjacency lists them under `3`. -/
theorem negative_ghost_rows_renumbered_witness :
    ∃ res A', syncGhostCoarsening aggregatedMatrix ghostSites negativeGhostIndex = some res ∧
      createCoarseToFineMapping res.1 ghostSites res.2 = some A' ∧
      ∀ r ∈ negativeGhostIndex.indices, ∃ ci0 cif cs gs c2f,
        negativeGhostIndex.get r = some ci0 ∧
        res.2.get r = some cif ∧ Map.find aggregatedMatrix.coarseSizes r = some cs ∧
        Map.find res.1.coarseGhostSizes r = some gs ∧
        Map.find A'.coarseToFineMappings r = some c2f ∧
        ∀ p ∈ (ghostSites r.2).mappers, ∀ f ∈ p.2, ∃ b, cif[f]? = some b ∧ 0 ≤ b ∧ cs ≤ b ∧
          b < cs + gs ∧ f ∈ c2f.getRow b.toNat ∧
          ∀ f2 ∈ p.2, ∀ v, v < 0 → ci0[f]? = some v → ci0[f2]? = some v →
            cif[f2]? = some b :=
  have hrow : ∀ r ∈ negativeGhostIndex.indices, r = row0 := by
    intro r hr
    simpa [negativeGhostIndex, MultiField.indices] using hr
  negative_ghost_rows_renumbered aggregatedMatrix ghostSites negativeGhostIndex
    (by decide) (by decide)
    (by
      intro r hr ci0 h
      have e := hrow r hr
      subst e
      have e2 : some ci0 = some [0, 0, 1, 1, 2, 2, -1, -1] := h.symm.trans rfl
      cases e2
      exact ⟨by decide, by decide, by decide⟩)
    (by
      intro r hr cs h
      have e := hrow r hr
      subst e
      have e2 : some cs = some 3 := h.symm.trans rfl
      cases e2
      decide)
    (by decide)
    (by decide)
    (by
      intro r hr ci0 h
      have e := hrow r hr
      subst e
      have e2 : some ci0 = some [0, 0, 1, 1, 2, 2, -1, -1] := h.symm.trans rfl
      cases e2
      decide)
    (by
      intro res hres r hr cif cSite hcif hcSite
      have e := hrow r hr
      subst e
      have e1 : some res =
          some ((syncGhostCoarsening aggregatedMatrix ghostSites negativeGhostIndex).getD
            (aggregatedMatrix, negativeGhostIndex)) := hres.symm.trans rfl
      cases e1
      have e2 : some cif = some [0, 0, 1, 1, 2, 2, 3, 3] := hcif.symm.trans rfl
      cases e2
      have e3 : some cSite = some 10 := hcSite.symm.trans rfl
      cases e3
      intro nr _ v hv
      have hmem : v ∈ [0, 0, 1, 1, 2, 2, 3, 3] := List.getElem?_mem hv
      have hv4 : v < 4 := by
        simp only [List.mem_cons, List.mem_singleton, List.not_mem_nil, or_false] at hmem
        omega
      exact hv4)

end NegativeGhostRowsWitness

/-! ## C23: what `createCoarsening` records -/

section AggregationRecorded

variable {M R : Type}

/-- The step `createCoarsening` on a container with distinct identities returns; for
every enumerated row with a diagonal entry it has called the aggregation kernel of the
diagonal block once, on the array the row had before the call, stored the array the
kernel returns in `coarseIndex[row]` and the count in `coarseSizes[row]`. -/
theorem createCoarsening_rows (K : Matrix M R) (A : MultiFieldMatrix M)
    (coarseIndex : MultiField (List Int)) (groupSize : Int) (w : R)
    (hnd : coarseIndex.indices.Nodup) :
    ∃ st, createCoarsening K A coarseIndex groupSize w = some st ∧
      st.log = (coarseIndex.indices.filter (fun row => A.hasMatrix row row)).map
        Event.createCoarsening ∧
      ∀ row ∈ coarseIndex.indices, A.hasMatrix row row = true →
        ∃ m cI, (A.getMatrix row row).1.toOption = some m ∧ coarseIndex.get row = some cI ∧
          st.coarseIndex.get row = some (K.createCoarsening m cI groupSize w).1 ∧
          Map.find st.matrix.coarseSizes row = some (K.createCoarsening m cI groupSize w).2 := by
  have main := foldlM_prefix_invariant (createCoarseningRow K groupSize w)
    (fun q (st : CoarseningState M) => st.matrix.matrices = A.matrices ∧
      st.coarseIndex.indices = coarseIndex.indices ∧
      st.log = (q.filter (fun row => A.hasMatrix row row)).map Event.createCoarsening ∧
      (∀ r, r ∉ q → st.coarseIndex.get r = coarseIndex.get r) ∧
      ∀ row ∈ q, A.hasMatrix row row = true →
        ∃ m cI, (A.getMatrix row row).1.toOption = some m ∧ coarseIndex.get row = some cI ∧
          st.coarseIndex.get row = some (K.createCoarsening m cI groupSize w).1 ∧
          Map.find st.matrix.coarseSizes row = some (K.createCoarsening m cI groupSize w).2)
    coarseIndex.indices ⟨A, coarseIndex, []⟩
    ⟨rfl, rfl, rfl, fun _ _ => rfl, fun r hr => absurd hr (List.not_mem_nil r)⟩ ?_
  · obtain ⟨st, hst, _, _, hlog, _, hrows⟩ := main
    exact ⟨st, hst, hlog, hrows⟩
  · intro q a rest t hq ⟨hmat, hidx, hlog, hrest, hdone⟩
    have ha : a ∈ coarseIndex.indices := by rw [hq]; simp
    have haq : a ∉ q := by
      rw [hq] at hnd
      intro hmem
      exact (List.nodup_append.mp hnd).2.2 hmem (List.mem_cons_self a rest)
    have hsame : t.matrix.hasMatrix a a = A.hasMatrix a a := hasMatrix_congr A t.matrix hmat a a
    have hget : (t.matrix.getMatrix a a).1.toOption = (A.getMatrix a a).1.toOption := by
      simp only [MultiFieldMatrix.getMatrix_toOption, hmat]
    unfold createCoarseningRow
    rw [hsame, hget]
    by_cases hs : A.hasMatrix a a = true
    · obtain ⟨m, hm⟩ := getMatrix_of_hasMatrix A a a hs
      obtain ⟨cI, hcI⟩ := MultiField.get_of_mem coarseIndex a ha
      have hcI' : t.coarseIndex.get a = some cI := by rw [hrest a haq, hcI]
      rw [if_pos hs, hm, hcI']
      simp only [Option.bind_eq_bind, Option.some_bind, Option.pure_def]
      refine ⟨_, rfl, hmat, ?_, ?_, ?_, ?_⟩
      · simp only [MultiField.indices_set]
        exact hidx
      · simp only [hlog, List.filter_append, List.filter_cons, if_pos hs, List.filter_nil,
          List.map_append, List.map_cons, List.map_nil]
      · intro r hr
        rw [List.mem_append, not_or] at hr
        have hne : r ≠ a := fun e => hr.2 (by rw [e]; simp)
        simp only
        rw [MultiField.get_set_ne _ _ _ _ hne]
        exact hrest r hr.1
      · intro row hrow hsr
        rcases List.mem_append.mp hrow with h | h
        · have hne : row ≠ a := fun e => haq (by rw [← e]; exact h)
          obtain ⟨m', cI', k1, k2, k3, k4⟩ := hdone row h hsr
          refine ⟨m', cI', k1, k2, ?_, ?_⟩
          · simp only
            rw [MultiField.get_set_ne _ _ _ _ hne]
            exact k3
          · simp only
            rw [Map.find_insert_ne _ _ _ _ hne]
            exact k4
        · have e : row = a := List.mem_singleton.mp h
          subst e
          refine ⟨m, cI, hm, hcI, ?_, ?_⟩
          · simp only
            exact MultiField.get_set_self_of_mem _ _ _ (by rw [hidx]; exact ha)
          · simp only
            exact Map.find_insert_self _ _ _
    · rw [if_neg hs]
      refine ⟨t, rfl, hmat, hidx, ?_, ?_, ?_⟩
      · simp only [hlog, List.filter_append, List.filter_cons, if_neg hs, List.filter_nil,
          List.append_nil]
      · intro r hr
        rw [List.mem_append, not_or] at hr
        exact hrest r hr.1
      · intro row hrow hsr
        rcases List.mem_append.mp hrow with h | h
        · exact hdone row h hsr
        · rw [List.mem_singleton.mp h] at hsr
          exact absurd hsr hs

end AggregationRecorded

section AggregationPartition

variable {M R : Type}

/-- C23: on a container with distinct identities `createCoarsening` returns, and for every
enumerated row with a diagonal entry it calls the aggregation kernel of the diagonal
block on `coarseIndex[row]` with the given `groupSize` and `weightRatioThreshold`, stores
the returned array in `coarseIndex[row]` and the returned count in `coarseSizes[row]`.
When the kernel keeps its contract `IsAggregation` on these calls, every fine row index
of the row carries exactly one coarse id afterwards, and the number of distinct
non-negative ids in `coarseIndex[row]` is `coarseSizes[row]`. -/
theorem createCoarsening_partition (K : Matrix M R) (A : MultiFieldMatrix M)
    (coarseIndex : MultiField (List Int)) (groupSize : Int) (w : R)
    (hnd : coarseIndex.indices.Nodup)
    (hagg : ∀ row ∈ coarseIndex.indices, ∀ m cI, (A.getMatrix row row).1.toOption = some m →
      coarseIndex.get row = some cI →
      IsAggregation cI (K.createCoarsening m cI groupSize w)) :
    ∃ st, createCoarsening K A coarseIndex groupSize w = some st ∧
      ∀ row ∈ coarseIndex.indices, A.hasMatrix row row = true →
        ∃ m cI out n, (A.getMatrix row row).1.toOption = some m ∧ coarseIndex.get row = some cI ∧
          K.createCoarsening m cI groupSize w = (out, n) ∧
          Event.createCoarsening row ∈ st.log ∧
          st.coarseIndex.get row = some out ∧
          Map.find st.matrix.coarseSizes row = some n ∧
          out.length = cI.length ∧
          (∀ f, f < cI.length → ∃ v, out[f]? = some v ∧ ∀ v', out[f]? = some v' → v' = v) ∧
          (((out.filter (fun v => decide (0 ≤ v))).dedup.length : Nat) : Int) = n := by
  obtain ⟨st, hst, hlog, hrows⟩ := createCoarsening_rows K A coarseIndex groupSize w hnd
  refine ⟨st, hst, ?_⟩
  intro row hrow hs
  obtain ⟨m, cI, hm, hcI, h1, h2⟩ := hrows row hrow hs
  obtain ⟨hlen, hcount⟩ := hagg row hrow m cI hm hcI
  refine ⟨m, cI, (K.createCoarsening m cI groupSize w).1,
    (K.createCoarsening m cI groupSize w).2, hm, hcI, rfl, ?_, h1, h2, hlen, ?_, hcount⟩
  · rw [hlog]
    exact List.mem_map.mpr ⟨row, List.mem_filter.mpr ⟨hrow, hs⟩, rfl⟩
  · intro f hf
    have hf' : f < (K.createCoarsening m cI groupSize w).1.length := by rw [hlen]; exact hf
    refine ⟨(K.createCoarsening m cI groupSize w).1[f], List.getElem?_eq_getElem hf', ?_⟩
    intro v' hv'
    rw [List.getElem?_eq_getElem hf'] at hv'
    exact (Option.some.inj hv').symm

/-- Witness of C23: the two rows of `exampleMatrix` aggregated with `groupSize = 2`; the
three fine rows of `row0` get the ids `0, 0, 1` and `coarseSizes[row0] = 2`. -/
theorem createCoarsening_partition_witness :
    exampleCoarseIndex.indices.Nodup ∧
    ∃ st, createCoarsening scalarKernel exampleMatrix exampleCoarseIndex 2 0 = some st ∧
      st.coarseIndex.get row0 = some [0, 0, 1] ∧
      Map.find st.matrix.coarseSizes row0 = some 2 :=
  have hnd : exampleCoarseIndex.indices.Nodup := by decide
  have hagg : ∀ row ∈ exampleCoarseIndex.indices, ∀ m cI,
      (exampleMatrix.getMatrix row row).1.toOption = some m → exampleCoarseIndex.get row = some cI →
      IsAggregation cI (scalarKernel.createCoarsening m cI 2 0) := by
    intro row hrow m cI _ hcI
    have hr : row = row0 ∨ row = row1 := by
      simpa [exampleCoarseIndex, MultiField.indices] using hrow
    have e : some cI = some [0, 0, 0] := by
      rcases hr with rfl | rfl
      · exact hcI.symm.trans rfl
      · exact hcI.symm.trans rfl
    cases e
    exact ⟨rfl, rfl⟩
  ⟨hnd, (createCoarsening_partition scalarKernel exampleMatrix exampleCoarseIndex 2 0 hnd
    hagg).elim (fun st h => ⟨st, h.1, by
      obtain ⟨m, cI, out, n, h1, h2, h3, _, h5, h6, _⟩ := h.2 row0 (by decide) (by decide)
      have e1 : some m = some 2 := h1.symm.trans rfl
      have e2 : some cI = some [0, 0, 0] := h2.symm.trans rfl
      cases e1
      cases e2
      have e3 : (out, n) = ([0, 0, 1], 2) := h3.symm.trans rfl
      cases e3
      exact ⟨h5, h6⟩⟩)⟩

end AggregationPartition

/-! ## The transfer kernels of arrays -/

section TransferKernels

variable {R : Type}

theorem injectStep_inv [AddMonoid R] (fine coarse : List R) (ci : List Int) (q : List Nat)
    (a : Nat) (cur : List R) (haf : a < fine.length) (hac : a < ci.length)
    (hv : ∀ c, ci[a]? = some c → 0 ≤ c → c.toNat < coarse.length)
    (hlen : cur.length = coarse.length)
    (hcur : ∀ j : Nat, cur[j]? = (coarse[j]?).map (fun b => b +
      ((q.filter (fun i => decide (ci[i]? = some (j : Int)))).map
        (fun i => fine.getD i 0)).sum)) :
    ∃ cur', ArrayBase.injectStep fine ci cur a = some cur' ∧ cur'.length = coarse.length ∧
      ∀ j : Nat, cur'[j]? = (coarse[j]?).map (fun b => b +
        (((q ++ [a]).filter (fun i => decide (ci[i]? = some (j : Int)))).map
          (fun i => fine.getD i 0)).sum) := by
  have hfa : fine[a]? = some fine[a] := List.getElem?_eq_getElem haf
  have hca : ci[a]? = some ci[a] := List.getElem?_eq_getElem hac
  have hgd : fine.getD a 0 = fine[a] := by
    rw [List.getD_eq_getElem?_getD, hfa]
    rfl
  unfold ArrayBase.injectStep
  rw [hfa, hca]
  simp only [Option.bind_eq_bind, Option.some_bind, Option.pure_def]
  by_cases hnn : 0 ≤ ci[a]
  · have hlt : (ci[a]).toNat < cur.length := by rw [hlen]; exact hv _ hca hnn
    rw [if_pos hnn, List.getElem?_eq_getElem hlt]
    simp only [Option.some_bind]
    refine ⟨_, rfl, by simp [hlen], ?_⟩
    intro j
    rw [filter_append_singleton, List.getElem?_set]
    by_cases e : (ci[a]).toNat = j
    · have e' : ci[a] = (j : Int) := by omega
      have hj : j < coarse.length := by rw [← e, ← hlen]; exact hlt
      have hsel : decide (ci[a]? = some (j : Int)) = true := by rw [hca, e']; simp
      have hold := hcur j
      rw [List.getElem?_eq_getElem (by rw [hlen]; exact hj),
        List.getElem?_eq_getElem hj] at hold
      rw [if_pos e, if_pos hlt, if_pos hsel, List.getElem?_eq_getElem hj]
      simp only [Option.map_some', Option.some.injEq] at hold ⊢
      have hidx : cur[(ci[a]).toNat] = cur[j] := by simp only [e]
      rw [hidx, hold, List.map_append, List.sum_append, List.map_cons, List.map_nil,
        List.sum_cons, List.sum_nil, add_zero, hgd, add_assoc]
    · have e' : ¬ ci[a] = (j : Int) := by omega
      have hsel : ¬ decide (ci[a]? = some (j : Int)) = true := by rw [hca]; simp [e']
      rw [if_neg e, if_neg hsel]
      exact hcur j
  · rw [if_neg hnn]
    refine ⟨cur, rfl, hlen, ?_⟩
    intro j
    have e' : ¬ ci[a] = (j : Int) := by omega
    have hsel : ¬ decide (ci[a]? = some (j : Int)) = true := by rw [hca]; simp [e']
    rw [filter_append_singleton, if_neg hsel]
    exact hcur j

/-- The kernel `ArrayBase.inject` returns when the extent is covered and the
non-negative coarse ids are indices of the coarse array; every coarse entry has
accumulated the sum of the fine values of its members in the extent. -/
theorem inject_closed [AddMonoid R] (fine coarse : List R) (ci : List Int) (length : Nat)
    (hf : length ≤ fine.length) (hc : length ≤ ci.length)
    (hv : ∀ i, i < length → ∀ c, ci[i]? = some c → 0 ≤ c → c.toNat < coarse.length) :
    ∃ out, ArrayBase.inject fine coarse ci length = some out ∧
      out.length = coarse.length ∧
      ∀ j : Nat, out[j]? = (coarse[j]?).map (fun b => b +
        (((List.range length).filter (fun i => decide (ci[i]? = some (j : Int)))).map
          (fun i => fine.getD i 0)).sum) := by
  unfold ArrayBase.inject
  apply foldlM_prefix_invariant (ArrayBase.injectStep fine ci)
    (fun q cur => cur.length = coarse.length ∧
      ∀ j : Nat, cur[j]? = (coarse[j]?).map (fun b => b +
        ((q.filter (fun i => decide (ci[i]? = some (j : Int)))).map
          (fun i => fine.getD i 0)).sum))
  · refine ⟨rfl, ?_⟩
    intro j
    cases coarse[j]? with
    | none => rfl
    | some b => simp
  · intro q a rest t hq ⟨h1, h2⟩
    have ha : a < length := List.mem_range.mp (by rw [hq]; simp)
    exact injectStep_inv fine coarse ci q a t (Nat.lt_of_lt_of_le ha hf)
      (Nat.lt_of_lt_of_le ha hc) (hv a ha) h1 h2

end TransferKernels

section TransferKernelCorrect

variable {R : Type}

/-- The kernel `ArrayBase.correct` returns when the extent is covered and the
non-negative coarse ids are indices of the coarse array; every fine row of the extent
holds `correctedValue`, every other fine row its value. -/
theorem correct_closed [Add R] (fine coarse : List R) (ci : List Int) (length : Nat)
    (hf : length ≤ fine.length) (hc : length ≤ ci.length)
    (hv : ∀ i, i < length → ∀ c, ci[i]? = some c → 0 ≤ c → c.toNat < coarse.length) :
    ∃ out, ArrayBase.correct fine coarse ci length = some out ∧
      out.length = fine.length ∧
      ∀ i : Nat, out[i]? =
        if i < length then correctedValue fine coarse ci i else fine[i]? := by
  unfold ArrayBase.correct
  have main := foldlM_prefix_invariant (ArrayBase.correctStep coarse ci)
    (fun q cur => cur.length = fine.length ∧
      ∀ i : Nat, cur[i]? = if i ∈ q then correctedValue fine coarse ci i else fine[i]?)
    (List.range length) fine ⟨rfl, fun i => by simp⟩ ?_
  · obtain ⟨out, hout, h1, h2⟩ := main
    refine ⟨out, hout, h1, ?_⟩
    intro i
    rw [h2 i]
    by_cases hi : i < length
    · rw [if_pos (List.mem_range.mpr hi), if_pos hi]
    · rw [if_neg (fun h => hi (List.mem_range.mp h)), if_neg hi]
  · intro q a rest t hq ⟨h1, h2⟩
    have ha : a < length := List.mem_range.mp (by rw [hq]; simp)
    have haq : a ∉ q := by
      have hnd : (q ++ a :: rest).Nodup := by rw [← hq]; exact List.nodup_range length
      intro hmem
      exact (List.nodup_append.mp hnd).2.2 hmem (List.mem_cons_self a rest)
    have haf : a < fine.length := Nat.lt_of_lt_of_le ha hf
    have hac : a < ci.length := Nat.lt_of_lt_of_le ha hc
    have hfa : fine[a]? = some fine[a] := List.getElem?_eq_getElem haf
    have hca : ci[a]? = some ci[a] := List.getElem?_eq_getElem hac
    have hta : t[a]? = some fine[a] := by rw [h2 a, if_neg haq, hfa]
    have hat : a < t.length := by rw [h1]; exact haf
    unfold ArrayBase.correctStep
    rw [hta, hca]
    simp only [Option.bind_eq_bind, Option.some_bind, Option.pure_def]
    by_cases hnn : 0 ≤ ci[a]
    · have hlt : (ci[a]).toNat < coarse.length := hv a ha _ hca hnn
      rw [if_pos hnn, List.getElem?_eq_getElem hlt]
      simp only [Option.some_bind]
      refine ⟨_, rfl, by simp [h1], ?_⟩
      intro i
      rw [List.getElem?_set]
      by_cases e : a = i
      · subst e
        rw [if_pos rfl, if_pos hat, if_pos (by simp)]
        simp only [correctedValue, hfa, hca, Option.bind_eq_bind, Option.some_bind, if_pos hnn,
          List.getElem?_eq_getElem hlt, Option.map_some']
      · rw [if_neg e, h2 i]
        have hiff : i ∈ q ++ [a] ↔ i ∈ q := by
          simp only [List.mem_append, List.mem_singleton]
          constructor
          · rintro (h | h)
            · exact h
            · exact absurd h.symm e
          · exact Or.inl
        by_cases hq' : i ∈ q
        · rw [if_pos hq', if_pos (hiff.mpr hq')]
        · rw [if_neg hq', if_neg (fun h => hq' (hiff.mp h))]
    · rw [if_neg hnn]
      refine ⟨t, rfl, h1, ?_⟩
      intro i
      by_cases e : a = i
      · subst e
        rw [hta, if_pos (by simp)]
        simp only [correctedValue, hfa, hca, Option.bind_eq_bind, Option.some_bind, if_neg hnn,
          Option.pure_def]
      · rw [h2 i]
        have hiff : i ∈ q ++ [a] ↔ i ∈ q := by
          simp only [List.mem_append, List.mem_singleton]
          constructor
          · rintro (h | h)
            · exact h
            · exact absurd h.symm e
          · exact Or.inl
        by_cases hq' : i ∈ q
        · rw [if_pos hq', if_pos (hiff.mpr hq')]
        · rw [if_neg hq', if_neg (fun h => hq' (hiff.mp h))]

end TransferKernelCorrect

/-! ## The row loops of `injectResidual` and `correctSolution` -/

section TransferLoops

variable {M R : Type}

/-- The operation `injectResidual` returns when every row finds its blocks and its
kernel call returns; when distinct rows have distinct coarse blocks, the coarse block of
a row ends as the kernel has left it from its initial content, and no other block of the
coarse container is changed. -/
theorem injectResidual_blocks (T : Transfer R) (A : MultiFieldMatrix M)
    (sites : Nat → StorageSite) (ci : MultiField (List Int)) (fR cB : MultiField (List R))
    (hnd : fR.indices.Nodup)
    (hinj : ∀ r1 ∈ fR.indices, ∀ r2 ∈ fR.indices, ∀ s, Map.find A.coarseSites r1 = some s →
      Map.find A.coarseSites r2 = some s → r1.1 = r2.1 → r1 = r2)
    (hok : ∀ r ∈ fR.indices, ∃ s fI cI bI out, Map.find A.coarseSites r = some s ∧
      fR.get r = some fI ∧ ci.get r = some cI ∧ cB.get (r.1, s) = some bI ∧
      T.inject fI bI cI (sites r.2).selfCount = some out) :
    ∃ res, injectResidual T A sites ci fR cB = some res ∧ res.1.indices = cB.indices ∧
      res.2 = injectCalls A sites fR.indices ∧
      (∀ key, (∀ r ∈ fR.indices, ∀ s, Map.find A.coarseSites r = some s → key ≠ (r.1, s)) →
        res.1.get key = cB.get key) ∧
      ∀ r ∈ fR.indices, ∀ s fI cI bI out, Map.find A.coarseSites r = some s →
        fR.get r = some fI → ci.get r = some cI → cB.get (r.1, s) = some bI →
        T.inject fI bI cI (sites r.2).selfCount = some out →
        res.1.get (r.1, s) = some out := by
  unfold injectResidual
  apply foldlM_prefix_invariant (injectResidualRow T A sites ci fR)
    (fun q (st : MultiField (List R) × List TransferEvent) =>
      st.1.indices = cB.indices ∧ st.2 = injectCalls A sites q ∧
      (∀ key, (∀ r ∈ q, ∀ s, Map.find A.coarseSites r = some s → key ≠ (r.1, s)) →
        st.1.get key = cB.get key) ∧
      ∀ r ∈ q, ∀ s fI cI bI out, Map.find A.coarseSites r = some s →
        fR.get r = some fI → ci.get r = some cI → cB.get (r.1, s) = some bI →
        T.inject fI bI cI (sites r.2).selfCount = some out →
        st.1.get (r.1, s) = some out)
  · exact ⟨rfl, rfl, fun _ _ => rfl, fun r hr => absurd hr (List.not_mem_nil r)⟩
  · intro q a rest t hq ⟨hidx, hlog, hframe, hdone⟩
    have ha : a ∈ fR.indices := by rw [hq]; simp
    have hqsub : ∀ r ∈ q, r ∈ fR.indices := fun r hr => by
      rw [hq]; exact List.mem_append_left _ hr
    have haq : a ∉ q := by
      rw [hq] at hnd
      intro hmem
      exact (List.nodup_append.mp hnd).2.2 hmem (List.mem_cons_self a rest)
    obtain ⟨s, fI, cI, bI, out, hs, hfI, hcI, hbI, hout⟩ := hok a ha
    have hother : ∀ r ∈ q, ∀ s', Map.find A.coarseSites r = some s' →
        ((a.1, s) : Index) ≠ (r.1, s') := by
      intro r hr s' hs' e
      have e1 : a.1 = r.1 := (Prod.mk.inj e).1
      have e2 : s = s' := (Prod.mk.inj e).2
      rw [← e2] at hs'
      exact haq (by rw [hinj a ha r (hqsub r hr) s hs hs' e1]; exact hr)
    have hbt : t.1.get (a.1, s) = some bI := by rw [hframe _ hother, hbI]
    have hmem : ((a.1, s) : Index) ∈ t.1.indices :=
      (MultiField.get_isSome_iff t.1 _).mp (by rw [hbt]; rfl)
    refine ⟨(t.1.set (a.1, s) out,
      t.2 ++ [TransferEvent.inject a (a.1, s) (sites a.2).selfCount]), ?_, ?_, ?_, ?_, ?_⟩
    · simp only [injectResidualRow, hs, hfI, hcI, hbt, hout, Option.bind_eq_bind,
        Option.some_bind, Option.pure_def]
    · simp only [MultiField.indices_set]
      exact hidx
    · simp only [hlog, injectCalls, List.filterMap_append, List.filterMap_cons, hs,
        Option.map_some', List.filterMap_nil]
    · intro key hkey
      simp only
      rw [MultiField.get_set_ne _ _ _ _ (hkey a (by simp) s hs)]
      exact hframe key (fun r hr => hkey r (List.mem_append_left _ hr))
    · intro r hr s' fI' cI' bI' out' hs' hfI' hcI' hbI' hout'
      rcases List.mem_append.mp hr with h | h
      · simp only
        rw [MultiField.get_set_ne _ _ _ _ (Ne.symm (hother r h s' hs'))]
        exact hdone r h s' fI' cI' bI' out' hs' hfI' hcI' hbI' hout'
      · have e : r = a := List.mem_singleton.mp h
        subst e
        have e1 : s' = s := Option.some.inj (hs'.symm.trans hs)
        subst e1
        have e2 : fI' = fI := Option.some.inj (hfI'.symm.trans hfI)
        have e3 : cI' = cI := Option.some.inj (hcI'.symm.trans hcI)
        have e4 : bI' = bI := Option.some.inj (hbI'.symm.trans hbI)
        subst e2 e3 e4
        have e5 : out' = out := Option.some.inj (hout'.symm.trans hout)
        subst e5
        simp only
        exact MultiField.get_set_self_of_mem _ _ _ hmem

/-- The operation `correctSolution` on a container with distinct identities returns when
every row finds its blocks and its kernel call returns; the block of a row ends as the
kernel has left it from its initial content, and the enumeration is kept. -/
theorem correctSolution_blocks (T : Transfer R) (A : MultiFieldMatrix M)
    (sites : Nat → StorageSite) (ci : MultiField (List Int)) (fS cS : MultiField (List R))
    (hnd : fS.indices.Nodup)
    (hok : ∀ r ∈ fS.indices, ∃ s fI cI bI out, Map.find A.coarseSites r = some s ∧
      fS.get r = some fI ∧ ci.get r = some cI ∧ cS.get (r.1, s) = some bI ∧
      T.correct fI bI cI (sites r.2).selfCount = some out) :
    ∃ res, correctSolution T A sites ci fS cS = some res ∧ res.1.indices = fS.indices ∧
      res.2 = correctCalls A sites fS.indices ∧
      ∀ r ∈ fS.indices, ∀ s fI cI bI out, Map.find A.coarseSites r = some s →
        fS.get r = some fI → ci.get r = some cI → cS.get (r.1, s) = some bI →
        T.correct fI bI cI (sites r.2).selfCount = some out →
        res.1.get r = some out := by
  unfold correctSolution
  have main := foldlM_prefix_invariant (correctSolutionRow T A sites ci cS)
    (fun q (st : MultiField (List R) × List TransferEvent) =>
      st.1.indices = fS.indices ∧ st.2 = correctCalls A sites q ∧
      (∀ r, r ∉ q → st.1.get r = fS.get r) ∧
      ∀ r ∈ q, ∀ s fI cI bI out, Map.find A.coarseSites r = some s →
        fS.get r = some fI → ci.get r = some cI → cS.get (r.1, s) = some bI →
        T.correct fI bI cI (sites r.2).selfCount = some out →
        st.1.get r = some out)
    fS.indices (fS, [])
    ⟨rfl, rfl, fun _ _ => rfl, fun r hr => absurd hr (List.not_mem_nil r)⟩ ?_
  · obtain ⟨res, hres, h1, h2, _, h4⟩ := main
    exact ⟨res, hres, h1, h2, h4⟩
  · intro q a rest t hq ⟨hidx, hlog, hrest, hdone⟩
    have ha : a ∈ fS.indices := by rw [hq]; simp
    have haq : a ∉ q := by
      rw [hq] at hnd
      intro hmem
      exact (List.nodup_append.mp hnd).2.2 hmem (List.mem_cons_self a rest)
    obtain ⟨s, fI, cI, bI, out, hs, hfI, hcI, hbI, hout⟩ := hok a ha
    have hft : t.1.get a = some fI := by rw [hrest a haq, hfI]
    refine ⟨(t.1.set a out,
      t.2 ++ [TransferEvent.correct a (a.1, s) (sites a.2).selfCount]), ?_, ?_, ?_, ?_, ?_⟩
    · simp only [correctSolutionRow, hs, hft, hcI, hbI, hout, Option.bind_eq_bind,
        Option.some_bind, Option.pure_def]
    · simp only [MultiField.indices_set]
      exact hidx
    · simp only [hlog, correctCalls, List.filterMap_append, List.filterMap_cons, hs,
        Option.map_some', List.filterMap_nil]
    · intro r hr
      rw [List.mem_append, not_or] at hr
      have hne : r ≠ a := fun e => hr.2 (by rw [e]; simp)
      simp only
      rw [MultiField.get_set_ne _ _ _ _ hne]
      exact hrest r hr.1
    · intro r hr s' fI' cI' bI' out' hs' hfI' hcI' hbI' hout'
      rcases List.mem_append.mp hr with h | h
      · have hne : r ≠ a := fun e => haq (by rw [← e]; exact h)
        simp only
        rw [MultiField.get_set_ne _ _ _ _ hne]
        exact hdone r h s' fI' cI' bI' out' hs' hfI' hcI' hbI' hout'
      · have e : r = a := List.mem_singleton.mp h
        subst e
        have e1 : s' = s := Option.some.inj (hs'.symm.trans hs)
        subst e1
        have e2 : fI' = fI := Option.some.inj (hfI'.symm.trans hfI)
        have e3 : cI' = cI := Option.some.inj (hcI'.symm.trans hcI)
        have e4 : bI' = bI := Option.some.inj (hbI'.symm.trans hbI)
        subst e2 e3 e4
        have e5 : out' = out := Option.some.inj (hout'.symm.trans hout)
        subst e5
        simp only
        exact MultiField.get_set_self_of_mem _ _ _ (by rw [hidx]; exact ha)

end TransferLoops

/-! ## C22: the extent and the blocks handed to the transfer kernels -/

section TransferExtent

variable {M R : Type}

/-- The kernel `ArrayBase.inject` reads the fine array on its extent only. -/
theorem inject_reads_extent [Add R] (fine fine' coarse : List R) (ci : List Int) (n : Nat)
    (h : ∀ i, i < n → fine[i]? = fine'[i]?) :
    ArrayBase.inject fine coarse ci n = ArrayBase.inject fine' coarse ci n := by
  unfold ArrayBase.inject
  apply foldlM_congr_mem
  intro a ha t
  unfold ArrayBase.injectStep
  rw [h a (List.mem_range.mp ha)]

/-- The kernel `ArrayBase.correct` leaves the fine rows beyond its extent as they are. -/
theorem correct_keeps_beyond_extent [Add R] (fine coarse out : List R) (ci : List Int)
    (n : Nat) (h : ArrayBase.correct fine coarse ci n = some out) :
    ∀ i, n ≤ i → out[i]? = fine[i]? := by
  unfold ArrayBase.correct at h
  refine foldlM_rel (ArrayBase.correctStep coarse ci)
    (fun s t => ∀ i, n ≤ i → t[i]? = s[i]?) (fun _ _ _ => rfl)
    (fun s t u h1 h2 i hi => (h2 i hi).trans (h1 i hi)) _ _ _ ?_ h
  intro a ha t t' hstep i hi
  have han : a < n := List.mem_range.mp ha
  unfold ArrayBase.correctStep at hstep
  simp only [Option.bind_eq_bind, Option.pure_def] at hstep
  obtain ⟨v, _, hstep⟩ := Option.bind_eq_some.mp hstep
  obtain ⟨c, _, hstep⟩ := Option.bind_eq_some.mp hstep
  by_cases hnn : 0 ≤ c
  · rw [if_pos hnn] at hstep
    obtain ⟨corr, _, hstep⟩ := Option.bind_eq_some.mp hstep
    simp only [Option.some.injEq] at hstep
    rw [← hstep, List.getElem?_set_ne (by omega)]
  · rw [if_neg hnn] at hstep
    simp only [Option.some.injEq] at hstep
    rw [hstep]

/-- C22: `injectResidual` and `correctSolution` call the transfer kernel once for every row
of the fine container, with the fine block and the coarse-index array of the row, the
coarse block keyed by `(row.first, coarseSites[row])` and the self-owned count of the
partition of the row as the extent.  When distinct rows have distinct coarse blocks, the
coarse block of a row ends as its one kernel call has left it and no other block of the
coarse container is changed; the fine block of a row ends as its one kernel call has left
it.  The kernels of arrays read and write the fine array on the extent only: the ghost
extent contributes nothing to the coarse array and receives no correction. -/
theorem transfer_hands_self_extent [Add R] (T : Transfer R) (A : MultiFieldMatrix M)
    (sites : Nat → StorageSite) (ci : MultiField (List Int))
    (fine coarse : MultiField (List R)) (hnd : fine.indices.Nodup)
    (hinj : ∀ r1 ∈ fine.indices, ∀ r2 ∈ fine.indices, ∀ s,
      Map.find A.coarseSites r1 = some s → Map.find A.coarseSites r2 = some s →
      r1.1 = r2.1 → r1 = r2)
    (hinject : ∀ r ∈ fine.indices, ∃ s fI cI bI out, Map.find A.coarseSites r = some s ∧
      fine.get r = some fI ∧ ci.get r = some cI ∧ coarse.get (r.1, s) = some bI ∧
      T.inject fI bI cI (sites r.2).selfCount = some out)
    (hcorrect : ∀ r ∈ fine.indices, ∃ s fI cI bI out, Map.find A.coarseSites r = some s ∧
      fine.get r = some fI ∧ ci.get r = some cI ∧ coarse.get (r.1, s) = some bI ∧
      T.correct fI bI cI (sites r.2).selfCount = some out) :
    (∃ res, injectResidual T A sites ci fine coarse = some res ∧
      res.2 = injectCalls A sites fine.indices ∧
      (∀ key, (∀ r ∈ fine.indices, ∀ s, Map.find A.coarseSites r = some s →
        key ≠ (r.1, s)) → res.1.get key = coarse.get key) ∧
      ∀ r ∈ fine.indices, ∀ s fI cI bI out, Map.find A.coarseSites r = some s →
        fine.get r = some fI → ci.get r = some cI → coarse.get (r.1, s) = some bI →
        T.inject fI bI cI (sites r.2).selfCount = some out →
        res.1.get (r.1, s) = some out) ∧
    (∃ res, correctSolution T A sites ci fine coarse = some res ∧
      res.2 = correctCalls A sites fine.indices ∧ res.1.indices = fine.indices ∧
      ∀ r ∈ fine.indices, ∀ s fI cI bI out, Map.find A.coarseSites r = some s →
        fine.get r = some fI → ci.get r = some cI → coarse.get (r.1, s) = some bI →
        T.correct fI bI cI (sites r.2).selfCount = some out →
        res.1.get r = some out) ∧
    (∀ (fI fI' bI : List R) (cI : List Int) (n : Nat), (∀ i, i < n → fI[i]? = fI'[i]?) →
      ArrayBase.inject fI bI cI n = ArrayBase.inject fI' bI cI n) ∧
    (∀ (fI bI out : List R) (cI : List Int) (n : Nat),
      ArrayBase.correct fI bI cI n = some out → ∀ i, n ≤ i → out[i]? = fI[i]?) := by
  refine ⟨?_, ?_, inject_reads_extent, correct_keeps_beyond_extent⟩
  · obtain ⟨res, hres, _, h2, h3, h4⟩ :=
      injectResidual_blocks T A sites ci fine coarse hnd hinj hinject
    exact ⟨res, hres, h2, h3, h4⟩
  · obtain ⟨res, hres, h1, h2, h3⟩ :=
      correctSolution_blocks T A sites ci fine coarse hnd hcorrect
    exact ⟨res, hres, h2, h1, h3⟩

/-- Witness of C22: one fine row of partition `0`, two self-owned rows and one ghost row;
both kernels are called with the extent `2` and the coarse block `(0, 10)`. -/
theorem transfer_hands_self_extent_witness :
    (∃ res, injectResidual arrayTransfer registeredAggregate exampleSites oneAggregate
        constantFine zeroCoarse = some res ∧
      res.2 = [TransferEvent.inject row0 (0, 10) 2]) ∧
    (∃ res, correctSolution arrayTransfer registeredAggregate exampleSites oneAggregate
        constantFine zeroCoarse = some res ∧
      res.2 = [TransferEvent.correct row0 (0, 10) 2]) :=
  have hrow : ∀ r ∈ constantFine.indices, r = row0 := by
    intro r hr
    simpa [constantFine, MultiField.indices] using hr
  have h := transfer_hands_self_extent arrayTransfer registeredAggregate exampleSites
    oneAggregate constantFine zeroCoarse (by decide)
    (by
      intro r1 h1 r2 h2 _ _ _ _
      rw [hrow r1 h1, hrow r2 h2])
    (by
      intro r hr
      rw [hrow r hr]
      exact ⟨10, [1, 1, 1], [0, 0, 0], [0], [2], rfl, rfl, rfl, rfl, rfl⟩)
    (by
      intro r hr
      rw [hrow r hr]
      exact ⟨10, [1, 1, 1], [0, 0, 0], [0], [1, 1, 1], rfl, rfl, rfl, rfl, rfl⟩)
  ⟨h.1.elim (fun res hres => ⟨res, hres.1, hres.2.1.trans rfl⟩),
    h.2.1.elim (fun res hres => ⟨res, hres.1, hres.2.1.trans rfl⟩)⟩

end TransferExtent

/-! ## C21: restriction and prolongation of a constant field -/

section RoundTrip

variable {M R : Type}

theorem sum_map_of_const [AddMonoid R] (l : List Nat) (f : Nat → R) (c : R)
    (h : ∀ i ∈ l, f i = c) : (l.map f).sum = l.length • c := by
  induction l with
  | nil => simp
  | cons a l ih =>
    rw [List.map_cons, List.sum_cons, h a (List.mem_cons_self a l),
      ih (fun i hi => h i (List.mem_cons_of_mem a hi)), List.length_cons, succ_nsmul']

/-- The kernel `ArrayBase.inject` on a fine array that is `c` on the extent and a coarse
array of zeros: every coarse entry ends with `k • c`, `k` the number of its members. -/
theorem inject_constant [AddMonoid R] (fine coarse : List R) (ci : List Int) (n : Nat) (c : R)
    (hf : n ≤ fine.length) (hc : n ≤ ci.length)
    (hv : ∀ i, i < n → ∀ v, ci[i]? = some v → 0 ≤ v → v.toNat < coarse.length)
    (hconst : ∀ i, i < n → fine[i]? = some c)
    (hzero : ∀ j, j < coarse.length → coarse[j]? = some 0) :
    ∃ out, ArrayBase.inject fine coarse ci n = some out ∧ out.length = coarse.length ∧
      ∀ j, j < coarse.length → out[j]? = some
        (((List.range n).filter (fun i => decide (ci[i]? = some (j : Int)))).length • c) := by
  obtain ⟨out, hout, hlen, hval⟩ := inject_closed fine coarse ci n hf hc hv
  refine ⟨out, hout, hlen, ?_⟩
  intro j hj
  rw [hval j, hzero j hj, Option.map_some', zero_add]
  congr 1
  apply sum_map_of_const
  intro i hi
  have hin : i < n := List.mem_range.mp (List.mem_filter.mp hi).1
  rw [List.getD_eq_getElem?_getD, hconst i hin]
  rfl

end RoundTrip

section RoundTripClaim

variable {M R : Type}

/-- C21, amended: for a fine field that is the constant `c` on the self-owned extent of
every row and a coarse field of zeros, `injectResidual` followed by `correctSolution`
(each coarse entry accumulating the sum of the fine values of its members, each coarse
value added onto the fine values of its members) leaves at every aggregated self-owned
fine row the value `c + k • c`, where `k` is the number of self-owned fine rows of its
aggregate: the sum of the aggregate is added onto `c`. -/
theorem round_trip_constant [AddMonoid R] (A : MultiFieldMatrix M) (sites : Nat → StorageSite)
    (ci : MultiField (List Int)) (fine coarse : MultiField (List R)) (c : R)
    (hnd : fine.indices.Nodup)
    (hinj : ∀ r1 ∈ fine.indices, ∀ r2 ∈ fine.indices, ∀ s,
      Map.find A.coarseSites r1 = some s → Map.find A.coarseSites r2 = some s →
      r1.1 = r2.1 → r1 = r2)
    (hrows : ∀ r ∈ fine.indices, ∃ s fI cI bI, Map.find A.coarseSites r = some s ∧
      fine.get r = some fI ∧ ci.get r = some cI ∧ coarse.get (r.1, s) = some bI ∧
      (sites r.2).selfCount ≤ fI.length ∧ (sites r.2).selfCount ≤ cI.length ∧
      (∀ i, i < (sites r.2).selfCount → ∀ v, cI[i]? = some v → 0 ≤ v →
        v.toNat < bI.length) ∧
      (∀ i, i < (sites r.2).selfCount → fI[i]? = some c) ∧
      (∀ j, j < bI.length → bI[j]? = some 0)) :
    ∃ res1 res2, injectResidual arrayTransfer A sites ci fine coarse = some res1 ∧
      correctSolution arrayTransfer A sites ci fine res1.1 = some res2 ∧
      ∀ r ∈ fine.indices, ∀ cI, ci.get r = some cI → ∃ out, res2.1.get r = some out ∧
        ∀ i, i < (sites r.2).selfCount → ∀ v, cI[i]? = some v → 0 ≤ v →
          out[i]? = some (c + aggregateSize cI (sites r.2).selfCount i • c) := by
  have hfull : ∀ r ∈ fine.indices, ∃ s fI cI bI out1 out2,
      Map.find A.coarseSites r = some s ∧
      fine.get r = some fI ∧ ci.get r = some cI ∧ coarse.get (r.1, s) = some bI ∧
      ArrayBase.inject fI bI cI (sites r.2).selfCount = some out1 ∧
      ArrayBase.correct fI out1 cI (sites r.2).selfCount = some out2 ∧
      ∀ i, i < (sites r.2).selfCount → ∀ v, cI[i]? = some v → 0 ≤ v →
        out2[i]? = some (c + aggregateSize cI (sites r.2).selfCount i • c) := by
    intro r hr
    obtain ⟨s, fI, cI, bI, hs, hfI, hcI, hbI, hf, hc, hv, hconst, hzero⟩ := hrows r hr
    obtain ⟨out1, h1, hlen1, hval1⟩ :=
      inject_constant fI bI cI (sites r.2).selfCount c hf hc hv hconst hzero
    obtain ⟨out2, h2, _, hval2⟩ := correct_closed fI out1 cI (sites r.2).selfCount hf hc
      (fun i hi v hvi hnn => by rw [hlen1]; exact hv i hi v hvi hnn)
    refine ⟨s, fI, cI, bI, out1, out2, hs, hfI, hcI, hbI, h1, h2, ?_⟩
    intro i hi v hvi hnn
    have hj : v.toNat < bI.length := hv i hi v hvi hnn
    have hcast : ((v.toNat : Nat) : Int) = v := Int.toNat_of_nonneg hnn
    rw [hval2 i, if_pos hi]
    simp only [correctedValue, hconst i hi, hvi, Option.bind_eq_bind, Option.some_bind,
      if_pos hnn, hval1 v.toNat hj, Option.map_some', aggregateSize, hcast]
  obtain ⟨res1, hres1, _, _, _, hget1⟩ := injectResidual_blocks arrayTransfer A sites ci fine
    coarse hnd hinj (by
      intro r hr
      obtain ⟨s, fI, cI, bI, out1, _, hs, hfI, hcI, hbI, h1, _⟩ := hfull r hr
      exact ⟨s, fI, cI, bI, out1, hs, hfI, hcI, hbI, h1⟩)
  obtain ⟨res2, hres2, _, _, hget2⟩ := correctSolution_blocks arrayTransfer A sites ci fine
    res1.1 hnd (by
      intro r hr
      obtain ⟨s, fI, cI, bI, out1, out2, hs, hfI, hcI, hbI, h1, h2, _⟩ := hfull r hr
      exact ⟨s, fI, cI, out1, out2, hs, hfI, hcI,
        hget1 r hr s fI cI bI out1 hs hfI hcI hbI h1, h2⟩)
  refine ⟨res1, res2, hres1, hres2, ?_⟩
  intro r hr cI' hcI'
  obtain ⟨s, fI, cI, bI, out1, out2, hs, hfI, hcI, hbI, h1, h2, hval⟩ := hfull r hr
  have e : cI' = cI := Option.some.inj (hcI'.symm.trans hcI)
  subst e
  exact ⟨out2, hget2 r hr s fI cI' out1 out2 hs hfI hcI
    (hget1 r hr s fI cI' bI out1 hs hfI hcI hbI h1) h2, hval⟩

/-- C21 as stated fails: the constant field `1` on two self-owned fine rows of one
aggregate; `injectResidual` leaves `2` in the coarse entry and `correctSolution` leaves
`3`, not `1`, at the two rows (the ghost row keeps `1`). -/
theorem round_trip_adds_aggregate_sum :
    ∃ res1 res2, injectResidual arrayTransfer registeredAggregate exampleSites oneAggregate
        constantFine zeroCoarse = some res1 ∧
      correctSolution arrayTransfer registeredAggregate exampleSites oneAggregate constantFine
        res1.1 = some res2 ∧
      res1.1.get (0, 10) = some [2] ∧ res2.1.get row0 = some [3, 3, 1] ∧
      res2.1.get row0 ≠ constantFine.get row0 :=
  ⟨_, _, rfl, rfl, rfl, rfl, by decide⟩

end RoundTripClaim

section RoundTripWitness

/-- Witness of C21, amended: the constant field `1` on the two self-owned rows of one
aggregate ends as `1 + 2 • 1` on both. -/
theorem round_trip_constant_witness :
    ∃ res1 res2, injectResidual arrayTransfer registeredAggregate exampleSites oneAggregate
        constantFine zeroCoarse = some res1 ∧
      correctSolution arrayTransfer registeredAggregate exampleSites oneAggregate constantFine
        res1.1 = some res2 ∧
      ∀ r ∈ constantFine.indices, ∀ cI, oneAggregate.get r = some cI →
        ∃ out, res2.1.get r = some out ∧
          ∀ i, i < (exampleSites r.2).selfCount → ∀ v, cI[i]? = some v → 0 ≤ v →
            out[i]? = some ((1 : Int) + aggregateSize cI (exampleSites r.2).selfCount i • 1) :=
  have hrow : ∀ r ∈ constantFine.indices, r = row0 := by
    intro r hr
    simpa [constantFine, MultiField.indices] using hr
  round_trip_constant registeredAggregate exampleSites oneAggregate constantFine zeroCoarse 1
    (by decide)
    (by
      intro r1 h1 r2 h2 _ _ _ _
      rw [hrow r1 h1, hrow r2 h2])
    (by
      intro r hr
      rw [hrow r hr]
      refine ⟨10, [1, 1, 1], [0, 0, 0], [0], rfl, rfl, rfl, rfl, by decide, by decide, ?_, ?_,
        ?_⟩
      · intro i _ v hv _
        have hmem : v ∈ [(0 : Int), 0, 0] := List.getElem?_mem hv
        have hv0 : v = 0 := by
          simp only [List.mem_cons, List.mem_singleton, List.not_mem_nil, or_false,
            or_self] at hmem
          exact hmem
        rw [hv0]
        decide
      · intro i hi
        have hi2 : i < 2 := hi
        interval_cases i <;> rfl
      · intro j hj
        have hj1 : j < 1 := hj
        interval_cases j
        rfl)

end RoundTripWitness

/-! ## C24: the order in which the rows are visited -/

section RowOrder

variable {M R : Type} {α : Type}

theorem MultiField.indices_perm (f g : MultiField α) (h : g.arrays.Perm f.arrays) :
    g.indices.Perm f.indices :=
  List.Perm.map Prod.fst h

/-- A container with distinct identities holds the same block under an identity in
whatever order it enumerates its blocks. -/
theorem MultiField.get_perm (f g : MultiField α) (h : g.arrays.Perm f.arrays)
    (hnd : f.indices.Nodup) (i : Index) : g.get i = f.get i := by
  have hg : g.indices.Nodup := (List.Perm.nodup_iff (MultiField.indices_perm f g h)).mpr hnd
  cases hf : f.get i with
  | some v =>
    have hmem : (i, v) ∈ f.arrays := Map.mem_of_find f.arrays i v hf
    exact Map.find_of_mem_nodup g.arrays i v hg (h.mem_iff.mpr hmem)
  | none =>
    apply MultiField.get_eq_none_of_not_mem
    intro hi
    have hi' : i ∈ f.indices := (MultiField.indices_perm f g h).mem_iff.mp hi
    have := (MultiField.get_isSome_iff f i).mpr hi'
    rw [hf] at this
    exact Bool.false_ne_true this

theorem blockSum_perm [AddCommMonoid R] (act : M → List R → Nat → R) (A : MultiFieldMatrix M)
    (x x' : MultiField (List R)) (h : x'.arrays.Perm x.arrays) (hnd : x.indices.Nodup)
    (row : Index) (k : Nat) :
    blockSum act A x' row (couplings A x' row) k = blockSum act A x row (couplings A x row) k := by
  unfold blockSum
  have hterm : (fun col => blockTerm act A x' row col k) =
      (fun col => blockTerm act A x row col k) := by
    funext col
    unfold blockTerm
    rw [MultiField.get_perm x x' h hnd col]
  rw [hterm]
  apply List.Perm.sum_eq
  apply List.Perm.map
  unfold couplings
  exact List.Perm.filter _ (MultiField.indices_perm x x' h)

/-- With kernels that add the product, over a commutative addition, the accumulation
over the couplings of a row does not depend on the order in which `x` enumerates its
blocks. -/
theorem accumulate_perm [AddCommMonoid R] (K : Matrix M R) (act : M → List R → Nat → R)
    (hK : Additive K act) (A : MultiFieldMatrix M) (x x' : MultiField (List R))
    (h : x'.arrays.Perm x.arrays) (hnd : x.indices.Nodup) (row : Index) (yI : List R) :
    accumulate K A x' row (couplings A x' row) yI =
      accumulate K A x row (couplings A x row) yI := by
  apply List.ext_getElem?
  intro k
  rw [accumulate_getElem? K act hK, accumulate_getElem? K act hK,
    blockSum_perm act A x x' h hnd row k]

end RowOrder

section RowOrderClaim

variable {M R : Type}

/-- The row loop of `computeResidual` over any list `rows` of distinct rows, in closed
form. -/
theorem computeResidual_rows_closed [Zero R] (K : Matrix M R) (A : MultiFieldMatrix M)
    (sites : Nat → StorageSite) (x b r : MultiField (List R)) (rows : List Index)
    (hrows : rows.Nodup) (hr : r.indices.Nodup)
    (hb : ∀ i ∈ rows, A.hasMatrix i i = true → i ∈ b.indices)
    (hrm : ∀ i ∈ rows, A.hasMatrix i i = true → i ∈ r.indices) :
    rows.foldlM
        (fun (st : MultiField (List R) × List Event) rowIndex =>
          if A.hasMatrix rowIndex rowIndex then do
            let bI ← b.get rowIndex
            let rI ← st.1.get rowIndex
            let rI1 := ArrayBase.copyPartial rI bI 0 (sites rowIndex.2).selfCount
            let rI2 := ArrayBase.zeroPartial rI1 (sites rowIndex.2).selfCount
              (sites rowIndex.2).count
            let res ← columnLoop K A x rowIndex rI2 st.2
            pure (st.1.set rowIndex res.1, res.2)
          else pure st)
        (r, []) =
      some (r.mapOn (fun i => decide (i ∈ rows) && A.hasMatrix i i)
              (residualBlock K A sites x b),
            (rows.filter (fun i => A.hasMatrix i i)).flatMap
              (fun i => (couplings A x i).map (Event.multiplyAndAdd i))) := by
  have h := rowLoop_closed (fun i => A.hasMatrix i i) (residualBlock K A sites x b)
    (fun i => (couplings A x i).map (Event.multiplyAndAdd i)) rows r [] hrows hr hrm
  simp only [List.nil_append] at h
  rw [← h]
  apply foldlM_congr_mem
  intro i hi st
  by_cases hs : A.hasMatrix i i = true
  · obtain ⟨bI, hbI⟩ := b.get_of_mem i (hb i hi hs)
    simp only [hs, if_true, hbI, columnLoop_eq, Option.bind_eq_bind, Option.pure_def,
      Option.some_bind, residualBlock]
  · simp only [Bool.not_eq_true] at hs
    simp only [hs, Bool.false_eq_true, if_false, Option.pure_def]

/-- C24: the results of `multiply`, `multiplyAndAdd` and `computeResidual` do not depend on
the order in which the rows are visited.  For `y` with distinct identities, `multiply` and
`multiplyAndAdd` on a container `y'` that enumerates the blocks of `y` in another order
leave the same content in every block.  The row loop of `computeResidual`, run over any
permutation `rows` of the rows of `x`, leaves the container that `computeResidual`
leaves; and with kernels that add the product, over a commutative addition,
`computeResidual` on a container `x'` that enumerates the blocks of `x` in another order
(rows and columns are then visited in another order) leaves the same content in every
block of `r`. -/
theorem row_order_independent [AddCommMonoid R] (K : Matrix M R) (act : M → List R → Nat → R)
    (A : MultiFieldMatrix M) (sites : Nat → StorageSite)
    (x x' y y' b r : MultiField (List R))
    (hy : y.indices.Nodup) (hyp : y'.arrays.Perm y.arrays)
    (hx : x.indices.Nodup) (hxp : x'.arrays.Perm x.arrays)
    (hr : r.indices.Nodup)
    (hb : ∀ i ∈ x.indices, A.hasMatrix i i = true → i ∈ b.indices)
    (hrm : ∀ i ∈ x.indices, A.hasMatrix i i = true → i ∈ r.indices)
    (hK : Additive K act) :
    (∃ res res', multiply K A y x = some res ∧ multiply K A y' x = some res' ∧
      ∀ i, res'.1.get i = res.1.get i) ∧
    (∃ res res', multiplyAndAdd K A y x = some res ∧ multiplyAndAdd K A y' x = some res' ∧
      ∀ i, res'.1.get i = res.1.get i) ∧
    (∃ res, computeResidual K A sites x b r = some res ∧
      ∀ rows : List Index, rows.Perm x.indices →
        ∃ res', rows.foldlM
            (fun (st : MultiField (List R) × List Event) rowIndex =>
              if A.hasMatrix rowIndex rowIndex then do
                let bI ← b.get rowIndex
                let rI ← st.1.get rowIndex
                let rI1 := ArrayBase.copyPartial rI bI 0 (sites rowIndex.2).selfCount
                let rI2 := ArrayBase.zeroPartial rI1 (sites rowIndex.2).selfCount
                  (sites rowIndex.2).count
                let res ← columnLoop K A x rowIndex rI2 st.2
                pure (st.1.set rowIndex res.1, res.2)
              else pure st)
            (r, []) = some res' ∧ res'.1 = res.1) ∧
    (∃ res res', computeResidual K A sites x b r = some res ∧
      computeResidual K A sites x' b r = some res' ∧ ∀ i, res'.1.get i = res.1.get i) := by
  have hy' : y'.indices.Nodup :=
    (List.Perm.nodup_iff (MultiField.indices_perm y y' hyp)).mpr hy
  have hx' : x'.indices.Nodup :=
    (List.Perm.nodup_iff (MultiField.indices_perm x x' hxp)).mpr hx
  have hmemx : ∀ i, i ∈ x'.indices ↔ i ∈ x.indices :=
    fun i => (MultiField.indices_perm x x' hxp).mem_iff
  refine ⟨?_, ?_, ?_, ?_⟩
  · refine ⟨_, _, multiply_closed K A y x hy, multiply_closed K A y' x hy', ?_⟩
    intro i
    simp only [MultiField.get_mapBlocks, MultiField.get_perm y y' hyp hy i]
  · refine ⟨_, _, multiplyAndAdd_closed K A y x hy, multiplyAndAdd_closed K A y' x hy', ?_⟩
    intro i
    simp only [MultiField.get_mapBlocks, MultiField.get_perm y y' hyp hy i]
  · refine ⟨_, computeResidual_closed K A sites x b r hx hr hb hrm, ?_⟩
    intro rows hperm
    refine ⟨_, computeResidual_rows_closed K A sites x b r rows
      ((List.Perm.nodup_iff hperm).mpr hx) hr
      (fun i hi => hb i (hperm.mem_iff.mp hi)) (fun i hi => hrm i (hperm.mem_iff.mp hi)), ?_⟩
    show r.mapOn (fun i => decide (i ∈ rows) && A.hasMatrix i i)
        (residualBlock K A sites x b) =
      r.mapOn (fun i => decide (i ∈ x.indices) && A.hasMatrix i i)
        (residualBlock K A sites x b)
    apply MultiField.mapOn_congr
    intro i _
    have e : decide (i ∈ rows) = decide (i ∈ x.indices) := by
      rw [decide_eq_decide]
      exact hperm.mem_iff
    rw [e]
  · refine ⟨_, _, computeResidual_closed K A sites x b r hx hr hb hrm,
      computeResidual_closed K A sites x' b r hx' hr
        (fun i hi => hb i ((hmemx i).mp hi)) (fun i hi => hrm i ((hmemx i).mp hi)), ?_⟩
    intro i
    have e : decide (i ∈ x'.indices) = decide (i ∈ x.indices) := by
      rw [decide_eq_decide]
      exact hmemx i
    simp only [MultiField.get_mapOn, e]
    by_cases hsel : (decide (i ∈ x.indices) && A.hasMatrix i i) = true
    · rw [if_pos hsel, if_pos hsel]
      cases r.get i with
      | none => rfl
      | some rI =>
        simp only [Option.map_some', residualBlock]
        cases b.get i with
        | none => rfl
        | some bI => simp only [accumulate_perm K act hK A x x' hxp hx i]
    · rw [if_neg hsel, if_neg hsel]

end RowOrderClaim

section RowOrderWitness

/-- Witness of C24: the two-row system with `y` and `x` enumerated in either order. -/
theorem row_order_independent_witness :
    swappedY.arrays.Perm exampleY.arrays ∧ swappedX.arrays.Perm exampleX.arrays ∧
    (∃ res res', multiply scalarKernel exampleMatrix exampleY exampleX = some res ∧
      multiply scalarKernel exampleMatrix swappedY exampleX = some res' ∧
      ∀ i, res'.1.get i = res.1.get i) ∧
    (∃ res res', computeResidual scalarKernel exampleMatrix exampleSites exampleX exampleB
        exampleY = some res ∧
      computeResidual scalarKernel exampleMatrix exampleSites swappedX exampleB exampleY =
        some res' ∧ ∀ i, res'.1.get i = res.1.get i) :=
  have hyp : swappedY.arrays.Perm exampleY.arrays := List.Perm.swap _ _ _
  have hxp : swappedX.arrays.Perm exampleX.arrays := List.Perm.swap _ _ _
  have h := row_order_independent scalarKernel scalarAct exampleMatrix exampleSites exampleX
    swappedX exampleY swappedY exampleB exampleY (by decide) hyp (by decide) hxp (by decide)
    (by intro i hi _; simpa [exampleB, exampleX, MultiField.indices] using hi)
    (by intro i hi _; simpa [exampleY, exampleX, MultiField.indices] using hi)
    scalarKernel_additive
  ⟨hyp, hxp, h.1, h.2.2.2⟩

end RowOrderWitness

/-! ## C25: twenty sweeps on the chain of four cells -/

section ChainClaim

/-- The square of the residual norm of the chain after twenty sweeps, as a fraction. -/
theorem chainResidualSq_twenty :
    chainResidualSq 20 = some (970890192669870669 / 19342813113834066795298816) := by
  decide!

/-- C25 as stated fails: after 20 sweeps of `forwardGS` from `x = 0` the residual norm
`‖b - A·x‖` of the chain is not below `1e-10`; its square is not below `1e-20`. -/
theorem chain_twenty_sweeps_not_below :
    ∃ q, chainResidualSq 20 = some q ∧ ¬ q < (1 / 10 ^ 10) ^ 2 := by
  refine ⟨_, chainResidualSq_twenty, ?_⟩
  norm_num

/-- C25, amended: after 20 sweeps of `forwardGS` from `x = 0` the residual norm of the
chain lies between `2.2e-4` and `2.3e-4` (its square between the squares); it is below
`1e-10` after 55 sweeps. -/
theorem chain_sweeps_residual :
    (∃ q, chainResidualSq 20 = some q ∧ (22 / 10 ^ 5) ^ 2 ≤ q ∧ q < (23 / 10 ^ 5) ^ 2) ∧
    (∃ q, chainResidualSq 55 = some q ∧ q < (1 / 10 ^ 10) ^ 2) := by
  constructor
  · refine ⟨_, chainResidualSq_twenty, ?_, ?_⟩ <;> norm_num
  · have h : (chainResidualSq 55).isSome = true ∧
        (chainResidualSq 55).getD 1 < (1 / 10 ^ 10) ^ 2 := by decide!
    obtain ⟨q, hq⟩ := Option.isSome_iff_exists.mp h.1
    refine ⟨q, hq, ?_⟩
    have h2 := h.2
    rw [hq] at h2
    exact h2

end ChainClaim

/-! ## The immersed-boundary faces -/

section IBFaces

theorem countIBFaces_throws (T : IBTypes) (faceCells : CRConnectivity) (cellIBType : List Int) :
    ∀ (faces : List Nat) (n : Nat),
      (∀ f ∈ faces, (faceTypes faceCells cellIBType f).isSome = true) →
      (∃ f ∈ faces, ∃ t, faceTypes faceCells cellIBType f = some t ∧
        isFluidSolidFace T t = true) →
      countIBFaces T faceCells cellIBType faces n =
        some (Except.error "found face between solid and fluid cells") := by
  intro faces
  induction faces with
  | nil =>
    intro n _ h
    obtain ⟨f, hf, _⟩ := h
    exact absurd hf (List.not_mem_nil f)
  | cons g faces ih =>
    intro n hwf h
    have hg := hwf g (List.mem_cons_self g faces)
    obtain ⟨t, ht⟩ := Option.isSome_iff_exists.mp hg
    simp only [countIBFaces, ht]
    by_cases hfs : isFluidSolidFace T t = true
    · simp only [hfs, if_true]
    · simp only [hfs, Bool.false_eq_true, if_false]
      apply ih _ (fun f hf => hwf f (List.mem_cons_of_mem g hf))
      obtain ⟨f, hf, u, hu, hs⟩ := h
      rcases List.mem_cons.mp hf with e | hf'
      · subst e
        rw [ht] at hu
        cases hu
        exact absurd hs hfs
      · exact ⟨f, hf', u, hu, hs⟩

theorem countIBFaces_counts (T : IBTypes) (faceCells : CRConnectivity) (cellIBType : List Int) :
    ∀ (faces : List Nat) (n : Nat),
      (∀ f ∈ faces, (faceTypes faceCells cellIBType f).isSome = true) →
      (¬ ∃ f ∈ faces, ∃ t, faceTypes faceCells cellIBType f = some t ∧
        isFluidSolidFace T t = true) →
      countIBFaces T faceCells cellIBType faces n =
        some (Except.ok (n + (faces.filter (fun f =>
          match faceTypes faceCells cellIBType f with
          | some t => isIBFace T t
          | none => false)).length)) := by
  intro faces
  induction faces with
  | nil =>
    intro n _ _
    rfl
  | cons g faces ih =>
    intro n hwf h
    have hg := hwf g (List.mem_cons_self g faces)
    obtain ⟨t, ht⟩ := Option.isSome_iff_exists.mp hg
    have hfs : ¬ isFluidSolidFace T t = true :=
      fun hs => h ⟨g, List.mem_cons_self g faces, t, ht, hs⟩
    simp only [countIBFaces, ht, hfs, Bool.false_eq_true, if_false, List.filter_cons]
    rw [ih _ (fun f hf => hwf f (List.mem_cons_of_mem g hf))
      (fun ⟨f, hf, u, hu, hs⟩ => h ⟨f, List.mem_cons_of_mem g hf, u, hu, hs⟩)]
    by_cases hib : isIBFace T t = true
    · simp only [hib, if_true, List.length_cons]
      congr 2
      omega
    · simp only [hib, Bool.false_eq_true, if_false]

theorem fillIBFaces_result (T : IBTypes) (faceCells : CRConnectivity) (cellIBType : List Int) :
    ∀ (faces : List Nat) (arr : List Nat) (k : Nat),
      (∀ f ∈ faces, (faceTypes faceCells cellIBType f).isSome = true) →
      k + (faces.filter (fun f =>
          match faceTypes faceCells cellIBType f with
          | some t => isIBFace T t
          | none => false)).length ≤ arr.length →
      ∃ arr', faces.foldlM (fillIBFace T faceCells cellIBType) (arr, k) =
          some (arr', k + (faces.filter (fun f =>
            match faceTypes faceCells cellIBType f with
            | some t => isIBFace T t
            | none => false)).length) ∧
        arr'.length = arr.length ∧
        (∀ j, j < k → arr'[j]? = arr[j]?) ∧
        ∀ j, (faces.filter (fun f =>
            match faceTypes faceCells cellIBType f with
            | some t => isIBFace T t
            | none => false))[j]? = none ∨
          arr'[k + j]? = (faces.filter (fun f =>
            match faceTypes faceCells cellIBType f with
            | some t => isIBFace T t
            | none => false))[j]? := by
  intro faces
  induction faces with
  | nil =>
    intro arr k _ _
    exact ⟨arr, rfl, rfl, fun _ _ => rfl, fun j => Or.inl rfl⟩
  | cons g faces ih =>
    intro arr k hwf hle
    have hg := hwf g (List.mem_cons_self g faces)
    obtain ⟨t, ht⟩ := Option.isSome_iff_exists.mp hg
    have hwf' : ∀ f ∈ faces, (faceTypes faceCells cellIBType f).isSome = true :=
      fun f hf => hwf f (List.mem_cons_of_mem g hf)
    simp only [List.filter_cons, ht] at hle ⊢
    by_cases hib : isIBFace T t = true
    · simp only [hib, if_true, List.length_cons] at hle ⊢
      have hk : k < arr.length := by omega
      have hle' : (k + 1) + (faces.filter (fun f =>
          match faceTypes faceCells cellIBType f with
          | some t => isIBFace T t
          | none => false)).length ≤ (arr.set k g).length := by
        rw [List.length_set]; omega
      obtain ⟨arr', hrun, hlen, hpre, hpost⟩ := ih (arr.set k g) (k + 1) hwf' hle'
      refine ⟨arr', ?_, ?_, ?_, ?_⟩
      · rw [List.foldlM_cons]
        simp only [fillIBFace, ht, hib, hk, if_true, Option.pure_def, Option.bind_eq_bind,
          Option.some_bind]
        rw [hrun]
        congr 2
        omega
      · rw [hlen, List.length_set]
      · intro j hj
        rw [hpre j (by omega), List.getElem?_set_ne (by omega)]
      · intro j
        cases j with
        | zero =>
          right
          rw [Nat.add_zero, hpre k (by omega), List.getElem?_set_self hk,
            List.getElem?_cons_zero]
        | succ j =>
          rcases hpost j with h | h
          · left
            simpa using h
          · right
            rw [List.getElem?_cons_succ, ← h]
            congr 1
            omega
    · simp only [hib, Bool.false_eq_true, if_false] at hle ⊢
      obtain ⟨arr', hrun, hlen, hpre, hpost⟩ := ih arr k hwf' hle
      refine ⟨arr', ?_, hlen, hpre, hpost⟩
      rw [List.foldlM_cons]
      simp only [fillIBFace, ht, hib, Bool.false_eq_true, if_false, Option.pure_def,
        Option.bind_eq_bind, Option.some_bind]
      exact hrun

end IBFaces
section IBFacesClaim

theorem isFluidSolidFace_iff (T : IBTypes) (t : Int × Int) :
    isFluidSolidFace T t = true ↔
      ((t.1 = T.fluid ∧ t.2 = T.solid) ∨ (t.2 = T.fluid ∧ t.1 = T.solid)) := by
  simp [isFluidSolidFace]

theorem isIBFace_iff (T : IBTypes) (t : Int × Int) :
    isIBFace T t = true ↔
      ((t.1 = T.fluid ∧ t.2 = T.boundary) ∨ (t.2 = T.fluid ∧ t.1 = T.boundary)) := by
  simp [isIBFace]

theorem createIBFaces_throws (T : IBTypes) (faceCells : CRConnectivity) (nFaces : Nat)
    (cellIBType : List Int)
    (hwf : ∀ f, f < nFaces → (faceTypes faceCells cellIBType f).isSome = true)
    (h : ∃ f t, f < nFaces ∧ faceTypes faceCells cellIBType f = some t ∧
      ((t.1 = T.fluid ∧ t.2 = T.solid) ∨ (t.2 = T.fluid ∧ t.1 = T.solid))) :
    createIBFaces T faceCells nFaces cellIBType =
      some (Except.error "found face between solid and fluid cells") := by
  obtain ⟨f, t, hf, ht, hs⟩ := h
  have hc := countIBFaces_throws T faceCells cellIBType (List.range nFaces) 0
    (fun g hg => hwf g (List.mem_range.mp hg))
    ⟨f, List.mem_range.mpr hf, t, ht, (isFluidSolidFace_iff T t).mpr hs⟩
  simp only [createIBFaces, hc]

theorem createIBFaces_installs (T : IBTypes) (faceCells : CRConnectivity) (nFaces : Nat)
    (cellIBType : List Int)
    (hwf : ∀ f, f < nFaces → (faceTypes faceCells cellIBType f).isSome = true)
    (h : ¬ ∃ f t, f < nFaces ∧ faceTypes faceCells cellIBType f = some t ∧
      ((t.1 = T.fluid ∧ t.2 = T.solid) ∨ (t.2 = T.fluid ∧ t.1 = T.solid))) :
    createIBFaces T faceCells nFaces cellIBType =
      some (Except.ok
        (((List.range nFaces).filter (fun f =>
            match faceTypes faceCells cellIBType f with
            | some t => isIBFace T t
            | none => false)).length,
          (List.range nFaces).filter (fun f =>
            match faceTypes faceCells cellIBType f with
            | some t => isIBFace T t
            | none => false))) := by
  have hwf' : ∀ g ∈ List.range nFaces, (faceTypes faceCells cellIBType g).isSome = true :=
    fun g hg => hwf g (List.mem_range.mp hg)
  have hc := countIBFaces_counts T faceCells cellIBType (List.range nFaces) 0 hwf'
    (fun ⟨f, hf, t, ht, hs⟩ =>
      h ⟨f, t, List.mem_range.mp hf, ht, (isFluidSolidFace_iff T t).mp hs⟩)
  rw [Nat.zero_add] at hc
  obtain ⟨arr, hrun, hlen, _, hpost⟩ := fillIBFaces_result T faceCells cellIBType
    (List.range nFaces) (List.replicate ((List.range nFaces).filter (fun f =>
            match faceTypes faceCells cellIBType f with
            | some t => isIBFace T t
            | none => false)).length 0) 0 hwf'
    (by rw [List.length_replicate, Nat.zero_add])
  rw [List.length_replicate] at hlen
  have harr : arr = (List.range nFaces).filter (fun f =>
            match faceTypes faceCells cellIBType f with
            | some t => isIBFace T t
            | none => false) := by
    apply List.ext_getElem?
    intro j
    rcases hpost j with hj | hj
    · rw [hj]
      rw [List.getElem?_eq_none_iff] at hj ⊢
      omega
    · rw [Nat.zero_add] at hj
      exact hj
  simp only [createIBFaces, hc, hrun, harr]

/-- C30: on a mesh whose faces all have two cells with a type, `createIBFaces` throws
exactly when some face joins a `FLUID` and a `SOLID` cell; otherwise the installed list
holds, in increasing order, exactly the faces joining a `FLUID` and a `BOUNDARY` cell,
and the count of the site is the length of that list. -/
theorem createIBFaces_throws_iff_fluid_solid (T : IBTypes) (faceCells : CRConnectivity)
    (nFaces : Nat) (cellIBType : List Int)
    (hwf : ∀ f, f < nFaces → (faceTypes faceCells cellIBType f).isSome = true) :
    ((∃ e, createIBFaces T faceCells nFaces cellIBType = some (Except.error e)) ↔
      ∃ f t, f < nFaces ∧ faceTypes faceCells cellIBType f = some t ∧
        ((t.1 = T.fluid ∧ t.2 = T.solid) ∨ (t.2 = T.fluid ∧ t.1 = T.solid))) ∧
    ((¬ ∃ f t, f < nFaces ∧ faceTypes faceCells cellIBType f = some t ∧
        ((t.1 = T.fluid ∧ t.2 = T.solid) ∨ (t.2 = T.fluid ∧ t.1 = T.solid))) →
      ∃ ibFaceList : List Nat,
        createIBFaces T faceCells nFaces cellIBType =
          some (Except.ok (ibFaceList.length, ibFaceList)) ∧
        ibFaceList.Sorted (fun a b => a < b) ∧
        ∀ f, f ∈ ibFaceList ↔
          (f < nFaces ∧ ∃ t, faceTypes faceCells cellIBType f = some t ∧
            ((t.1 = T.fluid ∧ t.2 = T.boundary) ∨ (t.2 = T.fluid ∧ t.1 = T.boundary)))) := by
  refine ⟨⟨?_, ?_⟩, ?_⟩
  · intro ⟨e, he⟩
    by_contra hno
    rw [createIBFaces_installs T faceCells nFaces cellIBType hwf hno] at he
    cases he
  · intro h
    exact ⟨_, createIBFaces_throws T faceCells nFaces cellIBType hwf h⟩
  · intro hno
    refine ⟨_, createIBFaces_installs T faceCells nFaces cellIBType hwf hno, ?_, ?_⟩
    · exact (List.sorted_lt_range nFaces).filter _
    · intro f
      rw [List.mem_filter, List.mem_range]
      constructor
      · intro ⟨hf, hib⟩
        refine ⟨hf, ?_⟩
        cases ht : faceTypes faceCells cellIBType f with
        | none => rw [ht] at hib; cases hib
        | some t =>
          rw [ht] at hib
          exact ⟨t, rfl, (isIBFace_iff T t).mp hib⟩
      · intro ⟨hf, t, ht, hib⟩
        refine ⟨hf, ?_⟩
        rw [ht]
        exact (isIBFace_iff T t).mpr hib

/-- On the chain of four cells typed fluid, fluid, boundary, solid, no face joins a fluid
and a solid cell and the list installed is the face `1` alone; typed fluid, fluid, solid,
solid, the face `1` joins a fluid and a solid cell and the exception is thrown. -/
theorem createIBFaces_throws_iff_fluid_solid_witness :
    (∀ f, f < 3 → (faceTypes chainFaces [1, 1, 2, 3] f).isSome = true) ∧
    createIBFaces exampleTypes chainFaces 3 [1, 1, 2, 3] = some (Except.ok (1, [1])) ∧
    createIBFaces exampleTypes chainFaces 3 [1, 1, 3, 3] =
      some (Except.error "found face between solid and fluid cells") ∧
    ((∃ e, createIBFaces exampleTypes chainFaces 3 [1, 1, 2, 3] = some (Except.error e)) ↔
      ∃ f t, f < 3 ∧ faceTypes chainFaces [1, 1, 2, 3] f = some t ∧
        ((t.1 = exampleTypes.fluid ∧ t.2 = exampleTypes.solid) ∨
          (t.2 = exampleTypes.fluid ∧ t.1 = exampleTypes.solid))) :=
  ⟨by decide, rfl, rfl,
    (createIBFaces_throws_iff_fluid_solid exampleTypes chainFaces 3 [1, 1, 2, 3]
      (by decide)).1⟩

end IBFacesClaim

/-! ## Marking the fluid cells -/

section MarkFluid

theorem foldlM_fixed {σ β : Type} (f : σ → β → Option σ) (s : σ) :
    ∀ (l : List β), (∀ a ∈ l, f s a = some s) → l.foldlM f s = some s := by
  intro l
  induction l with
  | nil => intro _; rfl
  | cons a l ih =>
    intro h
    rw [List.foldlM_cons, h a (List.mem_cons_self a l)]
    exact ih (fun b hb => h b (List.mem_cons_of_mem a hb))

theorem marked_refl (T : IBTypes) : ∀ (types : List Int), Marked T types types := by
  intro types
  induction types with
  | nil => exact List.Forall₂.nil
  | cons a l ih => exact List.Forall₂.cons (Or.inl rfl) ih

theorem marked_length (T : IBTypes) (types types1 : List Int) (h : Marked T types types1) :
    types1.length = types.length :=
  (List.Forall₂.length_eq h).symm

theorem marked_get (T : IBTypes) (types types1 : List Int) (h : Marked T types types1) :
    ∀ (c : Nat) (a b : Int), types[c]? = some a → types1[c]? = some b → MarkStep T a b := by
  induction h with
  | nil =>
    intro c a b ha _
    simp at ha
  | cons hab _ ih =>
    intro c a b ha hb
    cases c with
    | zero =>
      simp only [List.getElem?_cons_zero, Option.some.injEq] at ha hb
      rw [← ha, ← hb]
      exact hab
    | succ c =>
      simp only [List.getElem?_cons_succ] at ha hb
      exact ih c a b ha hb

theorem marked_set (T : IBTypes) (types types1 : List Int) (h : Marked T types types1) :
    ∀ (c : Nat), types1[c]? = some T.unknown → Marked T types (types1.set c T.fluid) := by
  induction h with
  | nil =>
    intro c hc
    simp at hc
  | cons hab hrest ih =>
    intro c hc
    cases c with
    | zero =>
      simp only [List.getElem?_cons_zero, Option.some.injEq] at hc
      refine List.Forall₂.cons ?_ hrest
      rcases hab with e | ⟨e, _⟩
      · exact Or.inr ⟨by rw [← e, hc], rfl⟩
      · exact Or.inr ⟨e, rfl⟩
    | succ c =>
      simp only [List.getElem?_cons_succ] at hc
      exact List.Forall₂.cons hab (ih c hc)

theorem unknownCount_set (T : IBTypes) (hne : T.fluid ≠ T.unknown) :
    ∀ (types : List Int) (c : Nat), types[c]? = some T.unknown →
      unknownCount T (types.set c T.fluid) + 1 = unknownCount T types := by
  intro types
  induction types with
  | nil =>
    intro c hc
    simp at hc
  | cons a l ih =>
    intro c hc
    cases c with
    | zero =>
      simp only [List.getElem?_cons_zero, Option.some.injEq] at hc
      subst hc
      simp [unknownCount, List.countP_cons, hne]
    | succ c =>
      simp only [List.getElem?_cons_succ] at hc
      have h := ih c hc
      simp only [unknownCount, List.set_cons_succ, List.countP_cons] at h ⊢
      omega

theorem unknownCount_marked (T : IBTypes) (hne : T.fluid ≠ T.unknown)
    (types types1 : List Int) (h : Marked T types types1) :
    unknownCount T types = unknownCount T types1 + changedCount types types1 := by
  induction h with
  | nil => rfl
  | cons hab _ ih =>
    simp only [unknownCount, changedCount, List.zip_cons_cons, List.countP_cons, ne_eq]
      at ih ⊢
    rcases hab with e | ⟨ea, eb⟩
    · subst e
      simp only [not_true_eq_false, decide_False, Bool.false_eq_true, if_false]
      omega
    · subst ea eb
      have h1 : ¬ T.unknown = T.fluid := fun e => hne e.symm
      simp only [hne, h1, not_false_eq_true, decide_True, decide_False, if_true,
        Bool.false_eq_true, if_false]
      omega

theorem unknownCount_le (T : IBTypes) (types : List Int) :
    unknownCount T types ≤ types.length :=
  List.countP_le_length _

end MarkFluid
section MarkFluidLoops

theorem set_fluid_not_unknown (T : IBTypes) (hne : T.fluid ≠ T.unknown) (types : List Int)
    (c v : Nat) (h : types[v]? ≠ some T.unknown) :
    (types.set c T.fluid)[v]? ≠ some T.unknown := by
  by_cases e : c = v
  · subst e
    by_cases hc : c < types.length
    · rw [List.getElem?_set_self hc]
      exact fun e => hne (Option.some.inj e)
    · rw [List.getElem?_eq_none (by rw [List.length_set]; omega)]
      exact fun e => Option.noConfusion e
  · rw [List.getElem?_set_ne e]
    exact h

theorem markNeighbour_inv (T : IBTypes) (cellCells : CRConnectivity) (n : Nat)
    (types0 : List Int) (cells current visited : List Nat) (hne : T.fluid ≠ T.unknown)
    (hlen : types0.length = n) (st : FloodState) (nb : Nat) (hnb : nb < n)
    (hinv : FloodInv T cellCells n types0 cells current st)
    (hvis : ∀ v ∈ visited, st.cellIBType[v]? ≠ some T.unknown) :
    ∃ st', markNeighbour T st nb = some st' ∧
      FloodInv T cellCells n types0 cells current st' ∧
      (∀ v ∈ visited ++ [nb], st'.cellIBType[v]? ≠ some T.unknown) ∧
      st'.cellsToCheck.length + unknownCount T st'.cellIBType =
        st.cellsToCheck.length + unknownCount T st.cellIBType := by
  have hl : nb < st.cellIBType.length := by
    rw [marked_length T _ _ hinv.marked, hlen]
    exact hnb
  have ht : st.cellIBType[nb]? = some st.cellIBType[nb] := List.getElem?_eq_getElem hl
  by_cases hu : st.cellIBType[nb] = T.unknown
  · rw [hu] at ht
    refine ⟨⟨st.cellIBType.set nb T.fluid, st.nFound + 1, nb :: st.cellsToCheck⟩, ?_,
      ⟨?_, ?_, ?_, ?_⟩, ?_, ?_⟩
    · simp only [markNeighbour, ht, Option.bind_eq_bind, Option.some_bind, if_true,
        Option.pure_def]
    · exact marked_set T _ _ hinv.marked nb ht
    · have h1 := unknownCount_set T hne _ nb ht
      have h2 := hinv.found
      show st.nFound + 1 + unknownCount T (st.cellIBType.set nb T.fluid) = _
      omega
    · intro x hx
      rcases List.mem_cons.mp hx with e | hx'
      · rw [e]; exact hnb
      · exact hinv.inMesh x hx'
    · intro x hx hnot hfl v hv
      have hxnb : nb ≠ x := by
        intro e
        apply hnot
        rw [e]
        exact List.mem_append_right _ (List.mem_cons_self _ _)
      have hnot' : x ∉ current ++ st.cellsToCheck := by
        intro hmem
        apply hnot
        rcases List.mem_append.mp hmem with h | h
        · exact List.mem_append_left _ h
        · exact List.mem_append_right _ (List.mem_cons_of_mem _ h)
      have hfl' : st.cellIBType[x]? = some T.fluid := by
        rw [← List.getElem?_set_ne hxnb]
        exact hfl
      exact set_fluid_not_unknown T hne _ nb v (hinv.closed x hx hnot' hfl' v hv)
    · intro v hv
      rcases List.mem_append.mp hv with h | h
      · exact set_fluid_not_unknown T hne _ nb v (hvis v h)
      · rw [List.mem_singleton.mp h]
        show (st.cellIBType.set nb T.fluid)[nb]? ≠ some T.unknown
        rw [List.getElem?_set_self hl]
        exact fun e => hne (Option.some.inj e)
    · have h1 := unknownCount_set T hne _ nb ht
      show (nb :: st.cellsToCheck).length + unknownCount T (st.cellIBType.set nb T.fluid) = _
      rw [List.length_cons]
      omega
  · refine ⟨st, ?_, hinv, ?_, rfl⟩
    · simp only [markNeighbour, ht, Option.bind_eq_bind, Option.some_bind, hu, if_false,
        Option.pure_def]
    · intro v hv
      rcases List.mem_append.mp hv with h | h
      · exact hvis v h
      · rw [List.mem_singleton.mp h, ht]
        exact fun e => hu (Option.some.inj e)

theorem markNeighbours_inv (T : IBTypes) (cellCells : CRConnectivity) (n : Nat)
    (types0 : List Int) (cells : List Nat) (hne : T.fluid ≠ T.unknown)
    (hlen : types0.length = n)
    (hadj : ∀ c, c < n → ∀ nb ∈ cellCells.getRow c, nb < n)
    (c_nb : Nat) (hc : c_nb < n) (st : FloodState)
    (hinv : FloodInv T cellCells n types0 cells [c_nb] st) :
    ∃ r, (cellCells.getRow c_nb).foldlM (markNeighbour T) st = some r ∧
      FloodInv T cellCells n types0 cells [] r ∧
      r.cellsToCheck.length + unknownCount T r.cellIBType =
        st.cellsToCheck.length + unknownCount T st.cellIBType := by
  obtain ⟨r, hr, hP, hvis, hm⟩ := foldlM_prefix_invariant (markNeighbour T)
    (fun q t => FloodInv T cellCells n types0 cells [c_nb] t ∧
      (∀ v ∈ q, t.cellIBType[v]? ≠ some T.unknown) ∧
      t.cellsToCheck.length + unknownCount T t.cellIBType =
        st.cellsToCheck.length + unknownCount T st.cellIBType)
    (cellCells.getRow c_nb) st ⟨hinv, fun v hv => absurd hv (List.not_mem_nil v), rfl⟩
    (by
      intro q a rest t hl ⟨ht, hv, hm⟩
      have ha : a < n := hadj c_nb hc a (by rw [hl]; simp)
      obtain ⟨t', h1, h2, h3, h4⟩ :=
        markNeighbour_inv T cellCells n types0 cells [c_nb] q hne hlen t a ha ht hv
      exact ⟨t', h1, h2, h3, h4.trans hm⟩)
  refine ⟨r, hr, ⟨hP.marked, hP.found, hP.inMesh, ?_⟩, hm⟩
  intro x hx hnot hfl v hv
  by_cases e : x = c_nb
  · subst e
    exact hvis v hv
  · refine hP.closed x hx ?_ hfl v hv
    intro hmem
    rcases List.mem_cons.mp hmem with h | h
    · exact e h
    · exact hnot h

theorem floodLoop_inv (T : IBTypes) (cellCells : CRConnectivity) (n : Nat)
    (types0 : List Int) (cells : List Nat) (hne : T.fluid ≠ T.unknown)
    (hlen : types0.length = n)
    (hadj : ∀ c, c < n → ∀ nb ∈ cellCells.getRow c, nb < n) :
    ∀ (fuel : Nat) (st : FloodState), FloodInv T cellCells n types0 cells [] st →
      st.cellsToCheck.length + unknownCount T st.cellIBType ≤ fuel →
      ∃ r, floodLoop T cellCells fuel st = some r ∧ r.cellsToCheck = [] ∧
        FloodInv T cellCells n types0 cells [] r := by
  intro fuel
  induction fuel with
  | zero =>
    intro st hinv hle
    obtain ⟨types, nf, stack⟩ := st
    cases stack with
    | nil => exact ⟨_, by simp only [floodLoop], rfl, hinv⟩
    | cons c rest =>
      simp only [List.length_cons] at hle
      omega
  | succ fuel ih =>
    intro st hinv hle
    obtain ⟨types, nf, stack⟩ := st
    cases stack with
    | nil => exact ⟨_, by simp only [floodLoop], rfl, hinv⟩
    | cons c rest =>
      have hc : c < n := hinv.inMesh c (List.mem_cons_self c rest)
      have hinv1 : FloodInv T cellCells n types0 cells [c] ⟨types, nf, rest⟩ :=
        ⟨hinv.marked, hinv.found, fun x hx => hinv.inMesh x (List.mem_cons_of_mem c hx),
          hinv.closed⟩
      obtain ⟨r1, hr1, hinv2, hm⟩ :=
        markNeighbours_inv T cellCells n types0 cells hne hlen hadj c hc _ hinv1
      simp only [List.length_cons] at hle hm
      obtain ⟨r, hr, hempty, hinv3⟩ := ih r1 hinv2 (by omega)
      refine ⟨r, ?_, hempty, hinv3⟩
      simp only [floodLoop, hr1, Option.some_bind, hr]

end MarkFluidLoops
section MarkFluidClaim

theorem foldlM_some_mono {σ β : Type} (f g : σ → β → Option σ)
    (h : ∀ s a r, f s a = some r → g s a = some r) :
    ∀ (l : List β) (s r : σ), l.foldlM f s = some r → l.foldlM g s = some r := by
  intro l
  induction l with
  | nil => intro s r hr; exact hr
  | cons a l ih =>
    intro s r hr
    rw [List.foldlM_cons] at hr ⊢
    cases hf : f s a with
    | none => rw [hf] at hr; cases hr
    | some t =>
      rw [hf] at hr
      rw [h s a t hf]
      exact ih t r hr

theorem floodLoop_fuel_succ (T : IBTypes) (cellCells : CRConnectivity) :
    ∀ (fuel : Nat) (st r : FloodState), floodLoop T cellCells fuel st = some r →
      floodLoop T cellCells (fuel + 1) st = some r := by
  intro fuel
  induction fuel with
  | zero =>
    intro st r h
    obtain ⟨types, nf, stack⟩ := st
    cases stack with
    | nil =>
      simp only [floodLoop] at h ⊢
      exact h
    | cons c rest =>
      rw [floodLoop] at h
      cases h
  | succ fuel ih =>
    intro st r h
    obtain ⟨types, nf, stack⟩ := st
    cases stack with
    | nil =>
      simp only [floodLoop] at h ⊢
      exact h
    | cons c rest =>
      rw [floodLoop] at h ⊢
      cases h1 : (cellCells.getRow c).foldlM (markNeighbour T) ⟨types, nf, rest⟩ with
      | none => rw [h1] at h; cases h
      | some r1 =>
        rw [h1] at h
        rw [Option.some_bind] at h ⊢
        exact ih r1 r h

theorem floodLoop_fuel_mono (T : IBTypes) (cellCells : CRConnectivity) (fuel fuel1 : Nat)
    (hle : fuel ≤ fuel1) (st r : FloodState) (h : floodLoop T cellCells fuel st = some r) :
    floodLoop T cellCells fuel1 st = some r := by
  induction fuel1, hle using Nat.le_induction with
  | base => exact h
  | succ m _ ih => exact floodLoop_fuel_succ T cellCells m st r ih

theorem markFluid_fuel_mono (T : IBTypes) (cellCells : CRConnectivity) (n fuel fuel1 : Nat)
    (hle : fuel ≤ fuel1) (types : List Int) (r : List Int × Nat)
    (h : markFluid T cellCells n fuel types = some r) :
    markFluid T cellCells n fuel1 types = some r := by
  refine foldlM_some_mono (markFluidCell T cellCells fuel) (markFluidCell T cellCells fuel1)
    ?_ _ _ _ h
  intro s a t hs
  simp only [markFluidCell, Option.bind_eq_bind] at hs ⊢
  cases hv : s.1[a]? with
  | none => rw [hv] at hs; cases hs
  | some v =>
    rw [hv] at hs
    rw [Option.some_bind] at hs ⊢
    by_cases hf : v = T.fluid
    · simp only [hf, if_true] at hs ⊢
      cases hr : floodLoop T cellCells fuel ⟨s.1, s.2, [a]⟩ with
      | none => rw [hr] at hs; cases hs
      | some u =>
        rw [hr] at hs
        rw [floodLoop_fuel_mono T cellCells fuel fuel1 hle _ u hr]
        exact hs
    · simp only [hf, if_false] at hs ⊢
      exact hs

theorem markFluid_inv (T : IBTypes) (cellCells : CRConnectivity) (n : Nat)
    (types0 : List Int) (hne : T.fluid ≠ T.unknown) (hlen : types0.length = n)
    (hadj : ∀ c, c < n → ∀ nb ∈ cellCells.getRow c, nb < n)
    (fuel : Nat) (hfuel : n + 1 ≤ fuel) :
    ∃ r, markFluid T cellCells n fuel types0 = some r ∧ Marked T types0 r.1 ∧
      r.2 + unknownCount T r.1 = unknownCount T types0 ∧
      ClosedOn T cellCells r.1 (List.range n) [] := by
  obtain ⟨r, hr, hP⟩ := foldlM_prefix_invariant (markFluidCell T cellCells fuel)
    (fun q t => FloodInv T cellCells n types0 q [] ⟨t.1, t.2, []⟩)
    (List.range n) (types0, 0)
    ⟨marked_refl T types0, Nat.zero_add _, fun x hx => absurd hx (List.not_mem_nil x),
      fun x hx => absurd hx (List.not_mem_nil x)⟩
    (by
      intro q a rest t hl hinv
      have ha : a < n := List.mem_range.mp (by rw [hl]; simp)
      have hla : a < t.1.length := by
        rw [marked_length T _ _ hinv.marked, hlen]
        exact ha
      have hv : t.1[a]? = some t.1[a] := List.getElem?_eq_getElem hla
      by_cases hf : t.1[a] = T.fluid
      · have hinv1 : FloodInv T cellCells n types0 (q ++ [a]) [] ⟨t.1, t.2, [a]⟩ := by
          refine ⟨hinv.marked, hinv.found, ?_, ?_⟩
          · intro x hx
            rw [List.mem_singleton.mp hx]
            exact ha
          · intro x hx hnot hfl
            rcases List.mem_append.mp hx with h | h
            · exact hinv.closed x h (fun hm => absurd hm (List.not_mem_nil x)) hfl
            · exact absurd h hnot
        have hU := unknownCount_le T t.1
        rw [marked_length T _ _ hinv.marked, hlen] at hU
        obtain ⟨u, hu, hempty, hinv2⟩ := floodLoop_inv T cellCells n types0 (q ++ [a]) hne hlen
          hadj fuel ⟨t.1, t.2, [a]⟩ hinv1 (by
            show [a].length + unknownCount T t.1 ≤ fuel
            rw [List.length_singleton]
            omega)
        refine ⟨(u.cellIBType, u.nFound), ?_, ?_⟩
        · simp only [markFluidCell, hv, Option.bind_eq_bind, Option.some_bind, hf, if_true, hu,
            Option.pure_def]
        · obtain ⟨ut, un, us⟩ := u
          cases hempty
          exact hinv2
      · refine ⟨t, ?_, hinv.marked, hinv.found, hinv.inMesh, ?_⟩
        · simp only [markFluidCell, hv, Option.bind_eq_bind, Option.some_bind, hf, if_false,
            Option.pure_def]
        · intro x hx hnot hfl
          rcases List.mem_append.mp hx with h | h
          · exact hinv.closed x h hnot hfl
          · rw [List.mem_singleton.mp h, hv] at hfl
            exact absurd (Option.some.inj hfl) hf)
  exact ⟨r, hr, hP.marked, hP.found, hP.closed⟩

theorem markFluid_of_closed (T : IBTypes) (cellCells : CRConnectivity) (n : Nat)
    (types : List Int) (hlen : types.length = n)
    (hadj : ∀ c, c < n → ∀ nb ∈ cellCells.getRow c, nb < n)
    (hcl : ClosedOn T cellCells types (List.range n) [])
    (fuel : Nat) (hfuel : 1 ≤ fuel) :
    markFluid T cellCells n fuel types = some (types, 0) := by
  apply foldlM_fixed
  intro a ha
  have han : a < n := List.mem_range.mp ha
  have hv : types[a]? = some types[a] := List.getElem?_eq_getElem (by omega)
  by_cases hf : types[a] = T.fluid
  · obtain ⟨m, hm⟩ : ∃ m, fuel = m + 1 := ⟨fuel - 1, by omega⟩
    have hrow : (cellCells.getRow a).foldlM (markNeighbour T) ⟨types, 0, []⟩ =
        some ⟨types, 0, []⟩ := by
      apply foldlM_fixed
      intro nb hnb
      have hl : nb < types.length := by
        rw [hlen]
        exact hadj a han nb hnb
      have hw : types[nb]? = some types[nb] := List.getElem?_eq_getElem hl
      have hu : ¬ types[nb] = T.unknown := by
        intro e
        rw [e] at hw
        exact hcl a ha (List.not_mem_nil a) (by rw [hv, hf]) nb hnb hw
      simp only [markNeighbour, hw, Option.bind_eq_bind, Option.some_bind, hu, if_false,
        Option.pure_def]
    have hflood : floodLoop T cellCells fuel ⟨types, 0, [a]⟩ = some ⟨types, 0, []⟩ := by
      rw [hm, floodLoop, hrow, Option.some_bind]
      cases m <;> simp only [floodLoop]
    simp only [markFluidCell, hv, Option.bind_eq_bind, Option.some_bind, hf, if_true, hflood,
      Option.pure_def]
  · simp only [markFluidCell, hv, Option.bind_eq_bind, Option.some_bind, hf, if_false,
      Option.pure_def]

/-- C29: on a mesh of `nCellsTotal` cells whose adjacency `cellCells` lists cells of the
mesh, with a type for every cell and distinct codes for `FLUID` and `UNKNOWN`,
`markFluid` returns (with every bound on the iterations from `nCellsTotal + 1` on, the
same result): it changes only `UNKNOWN` cells and only to `FLUID`, the returned count is
the number of cells changed, afterwards no `FLUID` cell has an `UNKNOWN` neighbour, and a
second call changes nothing and returns 0. -/
theorem markFluid_marks_reachable (T : IBTypes) (cellCells : CRConnectivity)
    (nCellsTotal : Nat) (cellIBType : List Int) (hne : T.fluid ≠ T.unknown)
    (hlen : cellIBType.length = nCellsTotal)
    (hadj : ∀ c, c < nCellsTotal → ∀ nb ∈ cellCells.getRow c, nb < nCellsTotal) :
    ∃ (types1 : List Int) (nFound : Nat),
      (∀ fuel, nCellsTotal + 1 ≤ fuel →
        markFluid T cellCells nCellsTotal fuel cellIBType = some (types1, nFound)) ∧
      types1.length = cellIBType.length ∧
      (∀ (c : Nat) (a b : Int), cellIBType[c]? = some a → types1[c]? = some b → b ≠ a →
        a = T.unknown ∧ b = T.fluid) ∧
      nFound = changedCount cellIBType types1 ∧
      (∀ c, c < nCellsTotal → types1[c]? = some T.fluid →
        ∀ nb ∈ cellCells.getRow c, types1[nb]? ≠ some T.unknown) ∧
      (∀ fuel, nCellsTotal + 1 ≤ fuel →
        markFluid T cellCells nCellsTotal fuel types1 = some (types1, 0)) := by
  obtain ⟨r, hr, hmarked, hfound, hclosed⟩ := markFluid_inv T cellCells nCellsTotal cellIBType
    hne hlen hadj (nCellsTotal + 1) (Nat.le_refl _)
  obtain ⟨types1, nFound⟩ := r
  have hlen1 : types1.length = cellIBType.length := marked_length T _ _ hmarked
  refine ⟨types1, nFound, ?_, hlen1, ?_, ?_, ?_, ?_⟩
  · intro fuel hfuel
    exact markFluid_fuel_mono T cellCells nCellsTotal _ fuel hfuel _ _ hr
  · intro c a b ha hb hab
    rcases marked_get T _ _ hmarked c a b ha hb with e | e
    · exact absurd e hab
    · exact e
  · have h := unknownCount_marked T hne cellIBType types1 hmarked
    have h1 : nFound + unknownCount T types1 = unknownCount T cellIBType := hfound
    omega
  · intro c hc hfl nb hnb
    exact hclosed c (List.mem_range.mpr hc) (List.not_mem_nil c) hfl nb hnb
  · intro fuel hfuel
    exact markFluid_of_closed T cellCells nCellsTotal types1 (hlen1.trans hlen) hadj hclosed
      fuel (by omega)

/-- On the chain of four cells typed unknown, unknown, fluid, unknown, the call turns the
three unknown cells fluid and returns 3. -/
theorem markFluid_marks_reachable_witness :
    exampleTypes.fluid ≠ exampleTypes.unknown ∧
    [(0 : Int), 0, 1, 0].length = 4 ∧
    (∀ c, c < 4 → ∀ nb ∈ chainCells.getRow c, nb < 4) ∧
    markFluid exampleTypes chainCells 4 5 [0, 0, 1, 0] = some ([1, 1, 1, 1], 3) ∧
    ∃ (types1 : List Int) (nFound : Nat),
      (∀ fuel, 4 + 1 ≤ fuel →
        markFluid exampleTypes chainCells 4 fuel [0, 0, 1, 0] = some (types1, nFound)) ∧
      types1.length = [(0 : Int), 0, 1, 0].length ∧
      (∀ (c : Nat) (a b : Int), [(0 : Int), 0, 1, 0][c]? = some a → types1[c]? = some b →
        b ≠ a → a = exampleTypes.unknown ∧ b = exampleTypes.fluid) ∧
      nFound = changedCount [0, 0, 1, 0] types1 ∧
      (∀ c, c < 4 → types1[c]? = some exampleTypes.fluid →
        ∀ nb ∈ chainCells.getRow c, types1[nb]? ≠ some exampleTypes.unknown) ∧
      (∀ fuel, 4 + 1 ≤ fuel →
        markFluid exampleTypes chainCells 4 fuel types1 = some (types1, 0)) :=
  ⟨by decide, rfl, by decide, by decide,
    markFluid_marks_reachable exampleTypes chainCells 4 [0, 0, 1, 0] (by decide) rfl
      (by decide)⟩

end MarkFluidClaim

/-! ## Ghost rows listed by two neighbours, and ghost rows with different negative ids -/

section GhostCounterexamples

/-- C14 as stated fails: each neighbour of partition `0` of `overlapSites` lists each of
its ghost fine rows once; the rows `2` and `3` of the second neighbour carried the same
id `5` before the call and hold the different ids `2` and `3` after it, the row `2`
having been renumbered for the first neighbour before. -/
theorem overlap_same_id_rows_split :
    (∀ p ∈ (overlapSites row0.2).mappers, p.2.Nodup) ∧
    ∃ res, syncGhostCoarsening overlapMatrix overlapSites overlapCoarseIndex = some res ∧
      overlapCoarseIndex.get row0 = some [0, 0, 5, 5] ∧
      res.2.get row0 = some [0, 0, 2, 3] ∧
      ¬ (∀ r ∈ overlapCoarseIndex.indices, ∃ ci0 cif, overlapCoarseIndex.get r = some ci0 ∧
        res.2.get r = some cif ∧
        ∀ p ∈ (overlapSites r.2).mappers, ∀ f1 ∈ p.2, ∀ f2 ∈ p.2,
          ∃ a1 a2 b1 b2, ci0[f1]? = some a1 ∧ ci0[f2]? = some a2 ∧
            cif[f1]? = some b1 ∧ cif[f2]? = some b2 ∧ (b1 = b2 ↔ a1 = a2)) := by
  refine ⟨by decide,
    (syncGhostCoarsening overlapMatrix overlapSites overlapCoarseIndex).getD
      (overlapMatrix, overlapCoarseIndex), rfl, rfl, rfl, ?_⟩
  intro h
  obtain ⟨ci0, cif, h0, h1, hp⟩ := h row0 (by decide)
  have e0 : some ci0 = some [0, 0, 5, 5] := h0.symm.trans rfl
  have e1 : some cif = some [0, 0, 2, 3] := h1.symm.trans rfl
  cases e0
  cases e1
  obtain ⟨a1, a2, b1, b2, ha1, ha2, hb1, hb2, hiff⟩ :=
    hp (2, [2, 3]) (by decide) 2 (by decide) 3 (by decide)
  have ea1 : some (5 : Int) = some a1 := ha1
  have ea2 : some (5 : Int) = some a2 := ha2
  have eb1 : some (2 : Int) = some b1 := hb1
  have eb2 : some (3 : Int) = some b2 := hb2
  cases ea1
  cases ea2
  cases eb1
  cases eb2
  exact absurd (hiff.mpr rfl) (by decide)

/-- C15 as stated fails: on `overlapSites`, where the ghost row `2` of partition `0` is
listed by both neighbours, `coarseSizes` is `1` and `coarseGhostSizes` becomes `3`, so the
range is `1, 2, 3`; the ghost rows hold the ids `2` and `3`, and no ghost row holds the
id `1`. -/
theorem overlap_ghost_ids_leave_gap :
    ∃ res, syncGhostCoarsening overlapMatrix overlapSites overlapCoarseIndex = some res ∧
      res.2.get row0 = some [0, 0, 2, 3] ∧
      Map.find res.1.coarseSizes row0 = some 1 ∧
      Map.find res.1.coarseGhostSizes row0 = some 3 ∧
      ghostRows (overlapSites row0.2).mappers = [2, 2, 3] ∧
      ¬ (∀ r ∈ overlapCoarseIndex.indices, ∃ cif cs gs, res.2.get r = some cif ∧
        Map.find res.1.coarseSizes r = some cs ∧
        Map.find res.1.coarseGhostSizes r = some gs ∧ 0 ≤ gs ∧
        ∀ v, (∃ f ∈ ghostRows (overlapSites r.2).mappers, cif[f]? = some v) ↔
          (cs ≤ v ∧ v ≤ cs + gs - 1)) := by
  refine ⟨(syncGhostCoarsening overlapMatrix overlapSites overlapCoarseIndex).getD
      (overlapMatrix, overlapCoarseIndex), rfl, rfl, rfl, rfl, rfl, ?_⟩
  intro h
  obtain ⟨cif, cs, gs, h1, h2, h3, _, hv⟩ := h row0 (by decide)
  have e1 : some cif = some [0, 0, 2, 3] := h1.symm.trans rfl
  have e2 : some cs = some 1 := h2.symm.trans rfl
  have e3 : some gs = some 3 := h3.symm.trans rfl
  cases e1
  cases e2
  cases e3
  obtain ⟨f, hf, hfv⟩ := (hv 1).mpr (by decide)
  have hf2 : f ∈ [2, 2, 3] := hf
  simp only [List.mem_cons, List.mem_singleton, List.not_mem_nil, or_false] at hf2
  rcases hf2 with e | e | e <;> subst e <;> exact absurd hfv (by decide)

/-- C16 as stated fails: on `overlapSites` the ghost rows `2` and `3` of the second
neighbour of partition `0` carried only the id `5` before the call, and the from-array
stored for that neighbour is `[1, 5]`: it holds the id `1`, which the first neighbour
gave to the row `2` during the call. -/
theorem overlap_mapper_holds_new_id :
    ∃ res, syncGhostCoarsening overlapMatrix overlapSites overlapCoarseIndex = some res ∧
      overlapCoarseIndex.get row0 = some [0, 0, 5, 5] ∧
      Map.find res.1.coarseMappers (row0, (0, 2)) = some ([1, 5], [2, 3]) ∧
      ¬ (∀ r ∈ overlapCoarseIndex.indices, ∃ ci0 cif gs, overlapCoarseIndex.get r = some ci0 ∧
        res.2.get r = some cif ∧ Map.find res.1.coarseGhostSizes r = some gs ∧
        (∀ p ∈ (overlapSites r.2).mappers, ∃ fr tos,
          Map.find res.1.coarseMappers (r, (r.1, p.1)) = some (fr, tos) ∧
          fr.length = tos.length ∧ fr.Nodup ∧ tos.Nodup ∧
          (∀ k, k ∈ fr ↔ ∃ f ∈ p.2, ci0[f]? = some k) ∧
          (∀ kv ∈ fr.zip tos, ∀ f ∈ p.2, ci0[f]? = some kv.1 → cif[f]? = some kv.2)) ∧
        gs = (((overlapSites r.2).mappers.map (fun p =>
          ((Map.find res.1.coarseMappers (r, (r.1, p.1))).map
            (fun m => m.1.length)).getD 0)).sum : Nat)) := by
  refine ⟨(syncGhostCoarsening overlapMatrix overlapSites overlapCoarseIndex).getD
      (overlapMatrix, overlapCoarseIndex), rfl, rfl, rfl, ?_⟩
  intro h
  obtain ⟨ci0, cif, gs, h0, _, _, hp, _⟩ := h row0 (by decide)
  have e0 : some ci0 = some [0, 0, 5, 5] := h0.symm.trans rfl
  cases e0
  obtain ⟨fr, tos, hfind, _, _, _, hkeys, _⟩ := hp (2, [2, 3]) (by decide)
  have e1 : some (fr, tos) = some (([1, 5] : List Int), ([2, 3] : List Int)) :=
    hfind.symm.trans rfl
  cases e1
  obtain ⟨f, hf, hfv⟩ := (hkeys 1).mp (by decide)
  have hf2 : f ∈ [2, 3] := hf
  simp only [List.mem_cons, List.mem_singleton, List.not_mem_nil, or_false] at hf2
  rcases hf2 with e | e <;> subst e <;> exact absurd hfv (by decide)

/-- C27 as stated fails: the ghost rows `6` and `7` of the one neighbour of partition `0`
of `ghostSites` carried the negative ids `-1` and `-2`; they are not merged, but end with
the two ids `3` and `4`, and `coarseGhostSizes` is `2`.  And on `overlapSites`, where the
ghost row `2` is listed by both neighbours, the rows `2` and `3` of the second neighbour,
which both carried `-1`, end with the ids `2` and `3`. -/
theorem negative_ghost_rows_not_merged :
    (∃ res, syncGhostCoarsening aggregatedMatrix ghostSites mixedNegativeIndex = some res ∧
      mixedNegativeIndex.get row0 = some [0, 0, 1, 1, 2, 2, -1, -2] ∧
      res.2.get row0 = some [0, 0, 1, 1, 2, 2, 3, 4] ∧
      Map.find res.1.coarseGhostSizes row0 = some 2 ∧
      ¬ (∀ p ∈ (ghostSites row0.2).mappers, ∀ f1 ∈ p.2, ∀ f2 ∈ p.2, ∀ a1 a2 : Int,
        ([0, 0, 1, 1, 2, 2, -1, -2] : List Int)[f1]? = some a1 →
        ([0, 0, 1, 1, 2, 2, -1, -2] : List Int)[f2]? = some a2 → a1 < 0 → a2 < 0 →
        ([0, 0, 1, 1, 2, 2, 3, 4] : List Int)[f1]? =
          ([0, 0, 1, 1, 2, 2, 3, 4] : List Int)[f2]?)) ∧
    (∃ res, syncGhostCoarsening overlapMatrix overlapSites overlapNegativeIndex = some res ∧
      overlapNegativeIndex.get row0 = some [0, 0, -1, -1] ∧
      res.2.get row0 = some [0, 0, 2, 3] ∧
      (2, [2, 3]) ∈ (overlapSites row0.2).mappers) := by
  refine ⟨⟨(syncGhostCoarsening aggregatedMatrix ghostSites mixedNegativeIndex).getD
      (aggregatedMatrix, mixedNegativeIndex), rfl, rfl, rfl, rfl, ?_⟩,
    ⟨(syncGhostCoarsening overlapMatrix overlapSites overlapNegativeIndex).getD
      (overlapMatrix, overlapNegativeIndex), rfl, rfl, rfl, by decide⟩⟩
  intro h
  have h2 := h (1, [6, 7]) (by decide) 6 (by decide) 7 (by decide) (-1) (-2) (by decide)
    (by decide) (by decide) (by decide)
  exact absurd h2 (by decide)

end GhostCounterexamples

end FVM
